import Mathlib

/-!
# CGAL kinetic data structures: `Two_list_pointer_event_queue`

A shallow embedding of
`Kinetic_data_structures/include/CGAL/KDS/Two_list_pointer_event_queue.h`.

* `Priority` and `NT` are both the rationals (exact arithmetic) and
  `to_interval t = (t, t)`; the floating constants `.001`, `.6`, `.4` of the
  source are read as the rationals `1/1000`, `3/5`, `2/5`.
* A record is identified by its address `ptr`; a `Key` is such an address.
* Every function takes the flag `NDEBUG`.  With `NDEBUG = false` the checks
  `CGAL_precondition`, `CGAL_assertion`, `CGAL_postcondition` and `assert` are
  executed and a failed check ends the run with a `Failure` naming the source
  line; with `NDEBUG = true` they are compiled out.  The `CGAL_expensive_*`
  checks are off in both configurations (they need `CGAL_CHECK_EXPENSIVE`).
* The `unsigned int` sizes are natural numbers (no list here comes near `2^32`).
* `CGAL/KDS/Ref_counted.h` is not among the sources and reference counts are
  not modelled: a record that the queue releases with `unmake_event` stays
  reachable through the keys that refer to it (`detached_`).

Embedded after the queue: `copy_n_unique` and `duplicate_points` of
`Generator/include/CGAL/random_polygon_2.h`, the distances of
`Spatial_searching/include/CGAL/Manhattan_distance_iso_box_point.h`, and
`sorted_matrix_search` of `Matrix_search/include/CGAL/sorted_matrix_search.h`.
-/

namespace CGAL.KDS

/-- The membership tag `enum List {FRONT, BACK, INF}` of a queue item. -/
inductive In_list
  | FRONT
  | BACK
  | INF
deriving DecidableEq, Repr

/-- How a run ends when it does not return normally. -/
inductive Failure
  | precondition (line : Nat)
  | assertion (line : Nat)
  | postcondition (line : Nat)
  | undefined_behaviour
  | out_of_fuel
deriving DecidableEq, Repr

deriving instance DecidableEq for Except

/-- The class `Two_list_event_queue_item<Priority>` together with its two
subclasses: `event_ = some e` is a `Two_list_event_queue_item_rep` holding the
event `e`, `event_ = none` is a `Two_list_event_queue_dummy_item`.  The
constructors leave `front_list_` uninitialised, which is `none` here. -/
structure Two_list_event_queue_item (E : Type) where
  ptr : Nat
  time_ : ℚ
  front_list_ : Option In_list
  event_ : Option E
deriving DecidableEq, Repr

/-- The `typedef ... Item` of the queue class. -/
abbrev Item (E : Type) := Two_list_event_queue_item E

/-- A `Two_list_pointer_event_queue_key` is a (reference counted) pointer to an item. -/
abbrev Key := Nat

variable {E : Type}

/-- The accessor `Item::time()`. -/
def Two_list_event_queue_item.time (i : Item E) : ℚ := i.time_

/-- The accessor `Item::in_list()`. -/
def Two_list_event_queue_item.in_list (i : Item E) : Option In_list := i.front_list_

/-- The mutator `Item::set_in_list(lt)`. -/
def Two_list_event_queue_item.set_in_list (i : Item E) (lt : In_list) : Item E :=
  { i with front_list_ := some lt }

/-- The data members of `Two_list_pointer_event_queue`.  `inf_` is declared
under `#ifndef NDEBUG` in the source; with `NDEBUG` it is kept here as the
record of the retired events.  `detached_` and `next_ptr_` are bookkeeping of
the embedding: the records that were unlinked from the queue (they stay alive
while a `Key` refers to them) and the next address handed out by `new`. -/
structure Two_list_pointer_event_queue (E : Type) where
  front_ : List (Item E)
  back_ : List (Item E)
  inf_ : List (Item E)
  null_event_ : Item E
  ub_ : ℚ
  step_ : ℚ
  end_time_ : ℚ
  end_split_ : ℚ
  detached_ : List (Item E)
  next_ptr_ : Nat
deriving DecidableEq, Repr

/-- Short name for the queue type. -/
abbrev Queue (E : Type) := Two_list_pointer_event_queue E

/-- Modelled from the spec: `to_interval` is not part of the sources; in exact
arithmetic the enclosing interval of `t` is `(t, t)`. -/
def to_interval (t : ℚ) : ℚ × ℚ := (t, t)

/-- Integer square root by downward search from `k`. -/
def isqrt_from (n : Nat) : Nat → Nat
  | 0 => 0
  | k + 1 => if (k + 1) * (k + 1) ≤ n then k + 1 else isqrt_from n k

/-- The value of `static_cast<unsigned int>(std::sqrt(static_cast<double>(n)))`:
the integer square root (`isqrt_eq_sqrt`). -/
def isqrt (n : Nat) : Nat := isqrt_from n n

/-- A check that is compiled out under `NDEBUG`. -/
def check (NDEBUG : Bool) (f : Failure) (c : Bool) : Except Failure Unit :=
  if NDEBUG || c then .ok () else .error f

/-- The macro `CGAL_precondition`. -/
def CGAL_precondition (NDEBUG : Bool) (line : Nat) (c : Bool) : Except Failure Unit :=
  check NDEBUG (.precondition line) c

/-- The macros `CGAL_assertion` and `assert`. -/
def CGAL_assertion (NDEBUG : Bool) (line : Nat) (c : Bool) : Except Failure Unit :=
  check NDEBUG (.assertion line) c

/-- The macro `CGAL_postcondition`. -/
def CGAL_postcondition (NDEBUG : Bool) (line : Nat) (c : Bool) : Except Failure Unit :=
  check NDEBUG (.postcondition line) c

/-- A check whose condition is itself a call that may fail: the call is made
only when checks are compiled in. -/
def check_call (NDEBUG : Bool) (f : Failure) (c : Except Failure Bool) :
    Except Failure Unit :=
  if NDEBUG then .ok () else
    match c with
    | .ok b => if b then .ok () else .error f
    | .error e => .error e

namespace Two_list_pointer_event_queue

/-- The accessor `end_split()`. -/
def end_split (q : Queue E) : ℚ := q.end_split_

/-- The accessor `end_time()`. -/
def end_time (q : Queue E) : ℚ := q.end_time_

/-- A `const Priority&` handed out by an accessor: `member` refers to a field
of the queue object, `temporary` to a temporary of the accessor, which is
destroyed when the accessor returns. -/
inductive Priority_ref where
  | member (value : ℚ)
  | temporary (value : ℚ)
  deriving DecidableEq, Repr

/-- Reading the `Priority` a reference refers to. A reference to a destroyed
temporary dangles and the read is undefined. -/
def Priority_ref.read : Priority_ref → Except Failure ℚ
  | .member value => .ok value
  | .temporary _ => .error .undefined_behaviour

/-- The accessor `end_priority()` (lines 527-530): it returns `const Priority&`
and its body is `return end_time();`, where `end_time()` (lines 816-819)
returns a `Priority` by value, so the reference is bound to that temporary. -/
def end_priority (q : Queue E) : Priority_ref := .temporary (end_time q)

/-- The accessor `end_key()`. -/
def end_key (q : Queue E) : Key := q.null_event_.ptr

/-- The mutator `set_end_priority(o)`. -/
def set_end_priority (q : Queue E) (o : ℚ) : Queue E :=
  { q with end_time_ := o, end_split_ := (to_interval o).2 }

/-- The constructor `Two_list_pointer_event_queue(start_time, end_time)`.
`infinity_or_max` is the value of `infinity_or_max<Priority>()`, the time of
every dummy item; the dummy `null_event_` gets address `0`. -/
def construct (infinity_or_max start_time end_time : ℚ) : Queue E :=
  set_end_priority
    { front_ := [], back_ := [], inf_ := [],
      null_event_ := { ptr := 0, time_ := infinity_or_max, front_list_ := none, event_ := none },
      ub_ := (to_interval start_time).1, step_ := 1,
      end_time_ := 0, end_split_ := 0,
      detached_ := [], next_ptr_ := 1 }
    end_time

/-- The function `max_front_size()`. -/
def max_front_size (q : Queue E) : Nat :=
  max 10 (isqrt (q.front_.length + q.back_.length))

/-- The record built by `make_event(t, e)`: a fresh `Item_rep` at the next address. -/
def make_event (q : Queue E) (t : ℚ) (e : E) : Item E :=
  { ptr := q.next_ptr_, time_ := t, front_list_ := none, event_ := some e }

/-- The function `unmake_event(i)`: the queue drops its reference; the record
stays reachable through the keys that still refer to it. -/
def unmake_event (q : Queue E) (i : Item E) : Queue E :=
  { q with detached_ := i :: q.detached_ }

/-- Dereferencing a key: the record at that address, if there is one. -/
def deref (q : Queue E) (k : Key) : Option (Item E) :=
  (q.front_ ++ q.back_ ++ q.inf_ ++ q.detached_ ++ [q.null_event_]).find?
    (fun x => x.ptr == k)

/-- Whether the record at address `k` is linked into the list `l`. -/
def linked (l : List (Item E)) (k : Key) : Bool := l.any (fun x => x.ptr == k)

/-- The call `l.erase(i)` of `In_place_list`: unlink the node at address `k`. -/
def unlink (l : List (Item E)) (k : Key) : List (Item E) :=
  l.eraseP (fun x => x.ptr == k)

/-- The calls `l.insert(oi, *ni); l.erase(oi)`: `ni` takes the place of the
node at address `k`. -/
def replace_node : List (Item E) → Key → Item E → List (Item E)
  | [], _, _ => []
  | x :: xs, k, ni => if x.ptr == k then ni :: xs else x :: replace_node xs k ni

/-- The position `std::upper_bound(l.begin(), l.end(), ni)`: the first
position whose record is later than `ni` (the contract of `std::upper_bound`
on a sorted range). -/
def upper_bound (l : List (Item E)) (ni : Item E) : Nat :=
  (l.takeWhile (fun x => !decide (ni.time < x.time))).length

/-- The call `l.insert(it, x)` with `it` at position `n`. -/
def insert_at (l : List (Item E)) (n : Nat) (x : Item E) : List (Item E) :=
  l.take n ++ x :: l.drop n

/-- The time read through the iterator at position `n` of `l`; the position
`l.length` is `end()`, the dummy node of the list. -/
def time_at (q : Queue E) (l : List (Item E)) (n : Nat) : ℚ :=
  match l.get? n with
  | some x => x.time
  | none => q.null_event_.time

/-- The loop `while (it->time() < split && it != front_.end()) ++it`. -/
def advance (l : List (Item E)) (split : ℚ) (n : Nat) : Nat :=
  n + ((l.drop n).takeWhile (fun x => decide (x.time < split))).length

/-- The function `set_front(b, e, val)` on a whole range. -/
def set_front (l : List (Item E)) (val : In_list) : List (Item E) :=
  l.map (fun x => x.set_in_list val)

/-- The function `select(source, target, b)`: the records of `source` with
`time() <= b` are moved, in order, to the end of `target`.  The result is the
new `source`, the new `target` and the returned count.  The `assert` of line
627 compares the sizes before and after; it holds by `select_size`. -/
def select (source target : List (Item E)) (b : ℚ) :
    List (Item E) × List (Item E) × Nat :=
  (source.filter (fun x => !decide (x.time ≤ b)),
   target ++ source.filter (fun x => decide (x.time ≤ b)),
   (source.filter (fun x => decide (x.time ≤ b))).length)

/-- The function `make_inf(c, c.begin(), c.end())`: every record of `c` is
tagged `INF`, recorded in `inf_` and unlinked; `c` is left empty. -/
def make_inf (q : Queue E) (c : List (Item E)) : Queue E × List (Item E) :=
  ({ q with inf_ := q.inf_ ++ set_front c .INF }, [])

/-- A loop `for (it = l.begin(); it != l.end(); ++it)` whose body may fail a check. -/
def for_each (l : List (Item E)) (body : Item E → Except Failure Unit) : Except Failure Unit :=
  match l with
  | [] => pure ()
  | it :: rest => body it >>= fun _ => for_each rest body

/-- The function `audit()`: the loops over `front_`, `back_` and `inf_` with
their assertions; the last loop of the source only prints. -/
def audit (NDEBUG : Bool) (q : Queue E) : Except Failure Bool := do
  for_each q.front_ (fun it => do
    CGAL_assertion NDEBUG 555 (decide (it.time ≤ q.ub_))
    CGAL_assertion NDEBUG 556 (it.in_list == some .FRONT))
  for_each q.back_ (fun it => do
    CGAL_assertion NDEBUG 561 (decide (it.time > q.ub_))
    CGAL_assertion NDEBUG 562 (it.in_list == some .BACK))
  for_each q.inf_ (fun it => do
    CGAL_assertion NDEBUG 567 (decide (it.time ≥ end_time q))
    CGAL_assertion NDEBUG 568 (it.in_list == some .INF))
  pure true

/-- The minimum computed by the loop at lines 684-689. -/
def min_time (cand : List (Item E)) (mp : ℚ) : ℚ :=
  cand.foldl (fun mp it => if it.time < mp then it.time else mp) mp

/-- Lines 670-677 of `grow_front(cand, recursive_count)`: `ub_ += step_`, the
clamp to `end_split()` and the call `select(cand, front_, ub_)`.  The result is
the queue, the list `cand` and the count `num`. -/
def grow_select (q : Queue E) (cand : List (Item E)) : Queue E × List (Item E) × Nat :=
  let ub := q.ub_ + q.step_
  let ub := if ub > end_split q then end_split q else ub
  let sel := select cand q.front_ ub
  ({ q with ub_ := ub, front_ := sel.2.1 }, sel.1, sel.2.2)

/-- Lines 691-692: `ub_ = to_interval(mp).second; step_ = .001`. -/
def jump_to (q : Queue E) (mp : ℚ) : Queue E :=
  { q with ub_ := (to_interval mp).2, step_ := 1 / 1000 }

/-- Line 703: `step_ = nstep`. -/
def set_step (q : Queue E) (nstep : ℚ) : Queue E :=
  { q with step_ := nstep }

/-- Line 710: `back_.splice(back_.begin(), cand)`. -/
def splice_back (q : Queue E) (cand : List (Item E)) : Queue E :=
  { q with back_ := cand ++ q.back_ }

/-- Line 717: the reduced step `step_*NT(.6+.4*max_front_size()/static_cast<double>(num))`. -/
def reduced_step (q : Queue E) (num : Nat) : ℚ :=
  q.step_ * (3 / 5 + 2 / 5 * (max_front_size q : ℚ) / (num : ℚ))

/-- Lines 720-722: `cand.swap(front_)` with `cand` empty, then `ub_ -= step_`.
The records of `front_` become the new `cand`. -/
def roll_back (q : Queue E) : Queue E :=
  { q with front_ := [], ub_ := q.ub_ - q.step_ }

/-- The function `grow_front(Queue &cand, int recursive_count)`.  The first
argument bounds the depth of the recursion; the result is the queue and the
list `cand` as the call leaves them. -/
def grow_front_cand (NDEBUG : Bool) :
    Nat → Queue E → List (Item E) → Nat → Except Failure (Queue E × List (Item E))
  | 0, _, _, _ => .error .out_of_fuel
  | fuel + 1, q, cand, recursive_count => do
    CGAL_assertion NDEBUG 664 q.front_.isEmpty
    CGAL_assertion NDEBUG 665 (!cand.isEmpty)
    CGAL_assertion NDEBUG 666 (decide (q.step_ ≠ 0))
    let s := grow_select q cand
    if s.1.ub_ = end_split s.1 then
      let r := make_inf s.1 s.2.1
      CGAL_postcondition NDEBUG 734 r.2.isEmpty
      pure r
    else if s.1.front_.isEmpty then
      if recursive_count > 10 then
        let mp := min_time s.2.1 (end_split s.1)
        if mp < end_split s.1 then
          let r ← grow_front_cand NDEBUG fuel (jump_to s.1 mp) s.2.1 (recursive_count + 1)
          CGAL_postcondition NDEBUG 734 r.2.isEmpty
          pure r
        else
          let r := make_inf s.1 s.2.1
          CGAL_postcondition NDEBUG 734 r.2.isEmpty
          pure r
      else
        let nstep := s.1.step_ * 2
        CGAL_assertion NDEBUG 702 (decide (nstep > s.1.step_))
        CGAL_assertion NDEBUG 704 (decide ((set_step s.1 nstep).step_ ≠ 0))
        let r ← grow_front_cand NDEBUG fuel (set_step s.1 nstep) s.2.1 (recursive_count + 1)
        CGAL_postcondition NDEBUG 734 r.2.isEmpty
        pure r
    else
      let q := splice_back s.1 s.2.1
      if s.2.2 > max_front_size q then
        if recursive_count > 10 then
          pure (q, [])
        else
          let nstep := reduced_step q s.2.2
          CGAL_assertion NDEBUG 719 (decide (nstep > 0))
          CGAL_assertion NDEBUG 724 (decide (nstep < (roll_back q).step_))
          CGAL_assertion NDEBUG 726 (decide ((set_step (roll_back q) nstep).step_ ≠ 0))
          let r ← grow_front_cand NDEBUG fuel (set_step (roll_back q) nstep) q.front_
            (recursive_count + 1)
          CGAL_postcondition NDEBUG 734 r.2.isEmpty
          pure r
      else
        CGAL_postcondition NDEBUG 734 ([] : List (Item E)).isEmpty
        pure (q, [])

/-- The sort `front_.sort()` of `In_place_list`: a stable sort by time. -/
def sort (l : List (Item E)) : List (Item E) :=
  l.insertionSort (fun a b => a.time ≤ b.time)

/-- Lines 746-747 of `grow_front()`: `set_front(front_.begin(), front_.end(),
Item::FRONT); front_.sort()`. -/
def tag_and_sort (q : Queue E) : Queue E :=
  { q with front_ := sort (set_front q.front_ .FRONT) }

/-- The function `grow_front()`.  The recursion of `grow_front_cand` is given
depth 16; it never needs more than 13. -/
def grow_front (NDEBUG : Bool) (q : Queue E) : Except Failure (Queue E) := do
  CGAL_precondition NDEBUG 740 (!q.back_.isEmpty)
  CGAL_precondition NDEBUG 741 q.front_.isEmpty
  let sz := q.front_.length + q.back_.length + q.inf_.length
  let r ← grow_front_cand NDEBUG 16 { q with back_ := [] } q.back_ 0
  let q := tag_and_sort r.1
  CGAL_assertion NDEBUG 749 (sz == q.front_.length + q.back_.length + q.inf_.length)
  check_call NDEBUG (.assertion 750) (audit NDEBUG q)
  pure q

/-- Lines 771-784 of `shrink_front()`: the records from position `it` on are
tagged `INF`, recorded in `inf_` and erased from `front_`. -/
def retire_from (q : Queue E) (it : Nat) : Queue E :=
  { q with inf_ := q.inf_ ++ set_front (q.front_.drop it) .INF, front_ := q.front_.take it }

/-- Lines 794-801 of `shrink_front()`: the records from position `it` on are
tagged `BACK` and spliced to the head of `back_`; `ub_ = split` and
`step_ = oub - ub_`. -/
def give_back (q : Queue E) (it : Nat) (split : ℚ) : Queue E :=
  { q with front_ := q.front_.take it,
           back_ := set_front (q.front_.drop it) .BACK ++ q.back_,
           ub_ := split,
           step_ := q.ub_ - split }

/-- Lines 790-808 of `shrink_front()`, entered with the iterator at position `it`. -/
def shrink_tail (NDEBUG : Bool) (q : Queue E) (it : Nat) (split : ℚ) :
    Except Failure (Queue E) :=
  let it := advance q.front_ split it
  if it ≠ q.front_.length then do
    let q := give_back q it split
    CGAL_postcondition NDEBUG 807 (decide (q.step_ ≥ 0))
    pure q
  else
    pure q

/-- The function `shrink_front()`.  In the branch `split > end_split()` the
iterator is reset to `front_.begin()`, position `0`: the loop of lines 766-770
tests `it->time() >= end_time()` but never advances `it`.  After the erase,
`it = front_.end(); --it` is the last record, or the dummy node when `front_`
is empty. -/
def shrink_front (NDEBUG : Bool) (q : Queue E) : Except Failure (Queue E) := do
  let mf := max_front_size q
  let it := mf
  let split := (to_interval (time_at q q.front_ it)).2
  if split > end_split q then
    CGAL_assertion NDEBUG 764 q.back_.isEmpty
    let it := 0
    let q := retire_from q it
    let it := q.front_.length - 1
    let split := (to_interval (time_at q q.front_ it)).2
    shrink_tail NDEBUG q it split
  else
    shrink_tail NDEBUG q it split

/-- The allocation `new Item_rep(t, e)` inside `make_event`: the next address is used up. -/
def alloc (q : Queue E) : Queue E :=
  { q with next_ptr_ := q.next_ptr_ + 1 }

/-- Lines 324-328 of `insert`: `front_.insert(std::upper_bound(...), *ni)`. -/
def link_front (q : Queue E) (ni : Item E) : Queue E :=
  { q with front_ := insert_at q.front_ (upper_bound q.front_ ni) ni }

/-- Lines 338-339 of `insert`: `front_.push_back(*ni); ub_ = to_interval(t).second`. -/
def seed_front (q : Queue E) (ni : Item E) (t : ℚ) : Queue E :=
  { q with front_ := q.front_ ++ [ni], ub_ := (to_interval t).2 }

/-- Line 352 of `insert`: `inf_.push_back(Key(ni))`. -/
def record_inf (q : Queue E) (ni : Item E) : Queue E :=
  { q with inf_ := q.inf_ ++ [ni] }

/-- Line 361 of `insert`: `back_.push_back(*ni)`. -/
def link_back (q : Queue E) (ni : Item E) : Queue E :=
  { q with back_ := q.back_ ++ [ni] }

/-- The function `insert(t, e)`; the result is the new queue and the returned key. -/
def insert (NDEBUG : Bool) (q : Queue E) (t : ℚ) (e : E) :
    Except Failure (Queue E × Key) :=
  let ni := make_event q t e
  let q := alloc q
  if t ≤ q.ub_ then
    let q := link_front q (ni.set_in_list .FRONT)
    if q.front_.length > 2 * max_front_size q then do
      let q ← shrink_front NDEBUG q
      pure (q, ni.ptr)
    else
      pure (q, ni.ptr)
  else if q.front_.isEmpty then do
    CGAL_assertion NDEBUG 336 q.back_.isEmpty
    if t < end_time q then
      pure (seed_front q (ni.set_in_list .FRONT) t, ni.ptr)
    else
      pure (record_inf q (ni.set_in_list .INF), ni.ptr)
  else
    pure (link_back q (ni.set_in_list .BACK), ni.ptr)

/-- Line 380 or 384 of `erase`: `front_.erase(i)`. -/
def unlink_front (q : Queue E) (item : Key) : Queue E :=
  { q with front_ := unlink q.front_ item }

/-- Line 384 of `erase`: `back_.erase(i)`. -/
def unlink_back (q : Queue E) (item : Key) : Queue E :=
  { q with back_ := unlink q.back_ item }

/-- Lines 381 and 478: `if (front_.empty() && !back_.empty()) grow_front();`. -/
def grow_if_drained (NDEBUG : Bool) (q : Queue E) : Except Failure (Queue E) :=
  if q.front_.isEmpty && !q.back_.isEmpty then grow_front NDEBUG q else pure q

/-- The function `erase(item)`.  A key that refers to no record, to a record
whose tag was never set, or to a record that is not linked into the list its
tag names, is undefined behaviour in the source. -/
def erase (NDEBUG : Bool) (q : Queue E) (item : Key) : Except Failure (Queue E) :=
  if item = end_key q then pure q
  else
    match deref q item with
    | none => .error .undefined_behaviour
    | some i =>
      match i.in_list with
      | none => .error .undefined_behaviour
      | some .FRONT =>
        if linked q.front_ item then do
          let q ← grow_if_drained NDEBUG (unlink_front q item)
          pure (unmake_event q i)
        else .error .undefined_behaviour
      | some .BACK =>
        if linked q.back_ item then
          pure (unmake_event (unlink_back q item) i)
        else .error .undefined_behaviour
      | some .INF => pure q

/-- Lines 413-414 of `set`: `front_.insert(oi, *ni); front_.erase(oi)`. -/
def replace_front (q : Queue E) (item : Key) (ni : Item E) : Queue E :=
  { q with front_ := replace_node q.front_ item ni }

/-- Lines 417-418 of `set`: `back_.insert(oi, *ni); back_.erase(oi)`. -/
def replace_back (q : Queue E) (item : Key) (ni : Item E) : Queue E :=
  { q with back_ := replace_node q.back_ item ni }

/-- Lines 426-432 of `set`: the entry of `inf_` that refers to `oi` is replaced by `ni`. -/
def replace_inf (q : Queue E) (item : Key) (ni : Item E) : Queue E :=
  { q with inf_ := replace_node q.inf_ item ni }

/-- The function `set(item, ne)`; the result is the new queue and the returned key. -/
def set (NDEBUG : Bool) (q : Queue E) (item : Key) (ne : E) :
    Except Failure (Queue E × Key) := do
  CGAL_precondition NDEBUG 406 (decide (item ≠ end_key q))
  match deref q item with
  | none => .error .undefined_behaviour
  | some oi =>
    match oi.in_list with
    | none => .error .undefined_behaviour
    | some front =>
      let ni := (make_event q oi.time ne).set_in_list front
      let q := alloc q
      if front ≠ .INF then
        if front = .FRONT then
          if linked q.front_ item then
            pure (unmake_event (replace_front q item ni) oi, ni.ptr)
          else .error .undefined_behaviour
        else
          if linked q.back_ item then
            pure (unmake_event (replace_back q item ni) oi, ni.ptr)
          else .error .undefined_behaviour
      else do
        CGAL_postcondition NDEBUG 433 (linked q.inf_ item)
        pure (unmake_event (replace_inf q item ni) oi, ni.ptr)

/-- The function `front_priority()`. -/
def front_priority (NDEBUG : Bool) (q : Queue E) : Except Failure ℚ := do
  CGAL_precondition NDEBUG 449 (!q.front_.isEmpty)
  pure (time_at q q.front_ 0)

/-- The function `priority(item)`. -/
def priority (q : Queue E) (item : Key) : Except Failure ℚ :=
  match deref q item with
  | none => .error .undefined_behaviour
  | some i => pure i.time

/-- The function `empty()`. -/
def empty (NDEBUG : Bool) (q : Queue E) : Except Failure Bool := do
  CGAL_precondition NDEBUG 462 (!q.front_.isEmpty || q.back_.isEmpty)
  pure q.front_.isEmpty

/-- Line 476 of `process_front`: `front_.pop_front()`. -/
def pop_front (q : Queue E) : Queue E :=
  { q with front_ := q.front_.tail }

/-- The function `process_front()`.  The result is the queue as the callback
`i->process(i->time())` of line 479 finds it (followed only by
`unmake_event(i)`), and the record `i` whose callback is run, if any. -/
def process_front (NDEBUG : Bool) (q : Queue E) :
    Except Failure (Queue E × Option (Item E)) := do
  check_call NDEBUG (.precondition 471) ((empty NDEBUG q).map (fun b => !b))
  match q.front_ with
  | i :: _ =>
    let q ← grow_if_drained NDEBUG (pop_front q)
    pure (unmake_event q i, some i)
  | [] =>
    CGAL_assertion NDEBUG 490 q.back_.isEmpty
    pure (q, none)

/-- The function `clear()`: both lists are emptied, the records are not released. -/
def clear (q : Queue E) : Queue E :=
  { q with front_ := [], back_ := [], detached_ := q.front_ ++ q.back_ ++ q.detached_ }

/-- The ways a call `grow_front(cand, recursive_count)` can return, in terms
of the result `s` of `grow_select`. -/
inductive Grow_case (NDEBUG : Bool) (fuel : Nat) (s : Queue E × List (Item E) × Nat)
    (rc : Nat) (r : Queue E × List (Item E)) : Prop
  | horizon (hub : s.1.ub_ = end_split s.1) (hr : r = make_inf s.1 s.2.1)
  | jump (hub : s.1.ub_ ≠ end_split s.1) (hf : s.1.front_ = []) (hrc : 10 < rc)
      (hmp : min_time s.2.1 (end_split s.1) < end_split s.1)
      (hrec : grow_front_cand NDEBUG fuel (jump_to s.1 (min_time s.2.1 (end_split s.1))) s.2.1
        (rc + 1) = .ok r)
      (hpost : NDEBUG = true ∨ r.2 = [])
  | drop_all (hub : s.1.ub_ ≠ end_split s.1) (hf : s.1.front_ = []) (hrc : 10 < rc)
      (hmp : ¬ min_time s.2.1 (end_split s.1) < end_split s.1)
      (hr : r = make_inf s.1 s.2.1)
  | undershoot (hub : s.1.ub_ ≠ end_split s.1) (hf : s.1.front_ = []) (hrc : ¬ 10 < rc)
      (h702 : NDEBUG = true ∨ s.1.step_ * 2 > s.1.step_)
      (h704 : NDEBUG = true ∨ s.1.step_ * 2 ≠ 0)
      (hrec : grow_front_cand NDEBUG fuel (set_step s.1 (s.1.step_ * 2)) s.2.1 (rc + 1) = .ok r)
      (hpost : NDEBUG = true ∨ r.2 = [])
  | give_up (hub : s.1.ub_ ≠ end_split s.1) (hf : s.1.front_ ≠ [])
      (hnum : s.2.2 > max_front_size (splice_back s.1 s.2.1)) (hrc : 10 < rc)
      (hr : r = (splice_back s.1 s.2.1, []))
  | overshoot (hub : s.1.ub_ ≠ end_split s.1) (hf : s.1.front_ ≠ [])
      (hnum : s.2.2 > max_front_size (splice_back s.1 s.2.1)) (hrc : ¬ 10 < rc)
      (h719 : NDEBUG = true ∨ reduced_step (splice_back s.1 s.2.1) s.2.2 > 0)
      (h724 : NDEBUG = true ∨ reduced_step (splice_back s.1 s.2.1) s.2.2 < s.1.step_)
      (h726 : NDEBUG = true ∨ reduced_step (splice_back s.1 s.2.1) s.2.2 ≠ 0)
      (hrec : grow_front_cand NDEBUG fuel
        (set_step (roll_back (splice_back s.1 s.2.1)) (reduced_step (splice_back s.1 s.2.1) s.2.2))
        s.1.front_ (rc + 1) = .ok r)
      (hpost : NDEBUG = true ∨ r.2 = [])
  | settled (hub : s.1.ub_ ≠ end_split s.1) (hf : s.1.front_ ≠ [])
      (hnum : ¬ s.2.2 > max_front_size (splice_back s.1 s.2.1))
      (hr : r = (splice_back s.1 s.2.1, []))

/-- What a successful call `grow_front(cand, recursive_count)` entered with the
queue `q` achieves: `cand` is left empty, the records of `cand` are split into
the new `front_`, a list `m` put in front of `back_` and a list `ret` retired
to `inf_`; every record kept in `front_` is at most `ub_` and earlier than
every record of `m` and `ret`; the retired records are at or after `end_split_`. -/
structure Grown (q : Queue E) (cand : List (Item E)) (r : Queue E × List (Item E)) : Prop where
  cand_nil : r.2 = []
  end_time_eq : r.1.end_time_ = q.end_time_
  end_split_eq : r.1.end_split_ = q.end_split_
  null_event_eq : r.1.null_event_ = q.null_event_
  detached_eq : r.1.detached_ = q.detached_
  next_ptr_eq : r.1.next_ptr_ = q.next_ptr_
  ub_le : r.1.ub_ ≤ q.end_split_
  front_le : ∀ x ∈ r.1.front_, x.time ≤ r.1.ub_
  parts : ∃ m ret, r.1.back_ = m ++ q.back_ ∧ r.1.inf_ = q.inf_ ++ set_front ret .INF ∧
    (r.1.front_ ++ (m ++ ret)).Perm cand ∧ (∀ x ∈ ret, q.end_split_ ≤ x.time) ∧
    (∀ f ∈ r.1.front_, ∀ x ∈ m ++ ret, f.time < x.time)

/-- A call of one of the public operations `insert`, `erase`, `set`,
`process_front`, `clear`. -/
inductive Op (E : Type)
  | insert (t : ℚ) (e : E)
  | erase (item : Key)
  | set (item : Key) (ne : E)
  | process_front
  | clear

/-- The queue after one public operation. -/
def Op.apply (NDEBUG : Bool) (q : Queue E) : Op E → Except Failure (Queue E)
  | .insert t e => (Two_list_pointer_event_queue.insert NDEBUG q t e).map (fun r => r.1)
  | .erase item => Two_list_pointer_event_queue.erase NDEBUG q item
  | .set item ne => (Two_list_pointer_event_queue.set NDEBUG q item ne).map (fun r => r.1)
  | .process_front => (Two_list_pointer_event_queue.process_front NDEBUG q).map (fun r => r.1)
  | .clear => pure (Two_list_pointer_event_queue.clear q)

/-- The queue after a sequence of public operations; the run ends at the first
operation that fails. -/
def run (NDEBUG : Bool) : Queue E → List (Op E) → Except Failure (Queue E)
  | q, [] => pure q
  | q, op :: ops => op.apply NDEBUG q >>= fun q' => run NDEBUG q' ops

/-- The driver loop `while (!q.empty()) q.process_front();`, cut off after `n`
rounds: the times passed to the callbacks `i->process(i->time())`, in the order
of the calls.  A failed check ends the loop. -/
def callback_times (NDEBUG : Bool) : Nat → Queue E → List ℚ
  | 0, _ => []
  | n + 1, q =>
    match empty NDEBUG q with
    | .ok false =>
      match process_front NDEBUG q with
      | .ok (q', some i) => i.time :: callback_times NDEBUG n q'
      | _ => []
    | _ => []

/-- The times passed to the callbacks when the events `ins` are inserted into
a fresh queue and the driver loop is then run for at most `n` rounds. -/
def insert_then_process (NDEBUG : Bool) (infinity_or_max start_time end_time : ℚ)
    (ins : List (ℚ × E)) (n : Nat) : List ℚ :=
  match run NDEBUG (construct infinity_or_max start_time end_time)
      (ins.map (fun p => Op.insert p.1 p.2)) with
  | .ok q => callback_times NDEBUG n q
  | .error _ => []

/-- The number `count(front_) + count(back_) + count(INF)` of records the queue holds. -/
def held (q : Queue E) : Nat :=
  q.front_.length + q.back_.length + q.inf_.length

/-- A run of `insert`, `erase` and `process_front` calls that keeps count: the
result is the final queue, the number of inserts and the number of erased or
processed events (a `process_front` that runs no callback processes no event).
The run is `none` when a call fails, when `erase` is given a key whose record
is not in `front_` or `back_`, or when another operation is called. -/
def tally (NDEBUG : Bool) : Queue E → List (Op E) → Option (Queue E × Nat × Nat)
  | q, [] => some (q, 0, 0)
  | q, .insert t e :: ops =>
    match insert NDEBUG q t e with
    | .ok r => (tally NDEBUG r.1 ops).map (fun s => (s.1, s.2.1 + 1, s.2.2))
    | .error _ => none
  | q, .erase item :: ops =>
    if linked (q.front_ ++ q.back_) item then
      match erase NDEBUG q item with
      | .ok q' => (tally NDEBUG q' ops).map (fun s => (s.1, s.2.1, s.2.2 + 1))
      | .error _ => none
    else none
  | q, .process_front :: ops =>
    match process_front NDEBUG q with
    | .ok (q', some _) => (tally NDEBUG q' ops).map (fun s => (s.1, s.2.1, s.2.2 + 1))
    | .ok (q', none) => tally NDEBUG q' ops
    | .error _ => none
  | _, _ => none

/-- The inserts `insert(50), insert(1), ..., insert(20)`: the 21st makes
`front_` larger than `2 * max_front_size()` and triggers `shrink_front()`. -/
def shrink_ops : List (Op Unit) :=
  .insert 50 () :: (List.range 20).map (fun n => Op.insert ((n : ℚ) + 1) ())

/-- A run that goes through `shrink_front()`, `erase`, `set`, and a
`process_front()` that calls `grow_front()`. -/
def sample_ops : List (Op Unit) :=
  shrink_ops ++ [.insert 60 (), .erase 3, .set 5 (), .erase 15] ++
    List.replicate 9 .process_front

/-- A run of `insert`, `erase` and `process_front` calls only. -/
def sample_tally_ops : List (Op Unit) :=
  shrink_ops ++ [.insert 60 (), .insert 200 (), .erase 3, .erase 15] ++
    List.replicate 10 .process_front

/-- The queue after `sample_ops` on a queue constructed with `start_time = 0`
and `end_time = 100`, with the checks compiled in. -/
def sample_queue : Queue Unit :=
  match run false (construct 0 0 100) sample_ops with
  | .ok q => q
  | .error _ => construct 0 0 100

/-- The inserts of a run that leaves `front_` empty and `back_` non-empty when
`start_time = 100 > end_time = 0` and the checks are compiled out. -/
def reversed_ops : List (Op Unit) :=
  .insert 50 () :: .insert 200 () :: (List.range 20).map (fun n => Op.insert ((n : ℚ) + 1) ())

/-- The queue after `reversed_ops` on a queue constructed with
`start_time = 100` and `end_time = 0`, under `NDEBUG`. -/
def reversed_queue : Queue Unit :=
  match run true (construct 0 100 0) reversed_ops with
  | .ok q => q
  | .error _ => construct 0 100 0

/-- The queue after the counted run `sample_tally_ops` on a queue constructed
with `start_time = 0` and `end_time = 100`, with the checks compiled in. -/
def sample_tally_queue : Queue Unit :=
  match tally false (construct 0 0 100) sample_tally_ops with
  | some s => s.1
  | none => construct 0 0 100

/-- The order by time is total. -/
instance time_le_total : IsTotal (Item E) (fun a b => a.time ≤ b.time) :=
  ⟨fun a b => le_total a.time b.time⟩

/-- The order by time is transitive. -/
instance time_le_trans : IsTrans (Item E) (fun a b => a.time ≤ b.time) :=
  ⟨fun _ _ _ h1 h2 => le_trans h1 h2⟩

/-- `front_` is sorted by time, in non-decreasing order. -/
def front_sorted (q : Queue E) : Prop :=
  q.front_.Sorted (fun a b => a.time ≤ b.time)

/-- Every record of `l` carries the tag `t`. -/
def tagged (l : List (Item E)) (t : In_list) : Prop :=
  ∀ x ∈ l, x.in_list = some t

/-- What a successful call `grow_front()` entered with the queue `q` (whose
`front_` is empty) achieves: the records of `back_` are split into the records
`f` of the new `front_` (retagged `FRONT` and sorted), the new `back_` and the
records `ret` retired to `inf_`. -/
structure Grew (q q' : Queue E) : Prop where
  end_time_eq : q'.end_time_ = q.end_time_
  end_split_eq : q'.end_split_ = q.end_split_
  null_event_eq : q'.null_event_ = q.null_event_
  detached_eq : q'.detached_ = q.detached_
  next_ptr_eq : q'.next_ptr_ = q.next_ptr_
  ub_le : q'.ub_ ≤ q.end_split_
  sorted : front_sorted q'
  front_le : ∀ x ∈ q'.front_, x.time ≤ q'.ub_
  parts : ∃ f ret, q'.front_.Perm (set_front f .FRONT) ∧
    q'.inf_ = q.inf_ ++ set_front ret .INF ∧
    (f ++ (q'.back_ ++ ret)).Perm q.back_ ∧ (∀ x ∈ ret, q.end_split_ ≤ x.time) ∧
    (∀ a ∈ f, ∀ x ∈ q'.back_ ++ ret, a.time < x.time)

/-- The record that `insert(t, e)` creates, tagged `lt`. -/
def new_item (q : Queue E) (t : ℚ) (e : E) (lt : In_list) : Item E :=
  (make_event q t e).set_in_list lt

/-- The ways a call `insert(t, e)` on the queue `q` can return `r`. -/
inductive Insert_case (NDEBUG : Bool) (q : Queue E) (t : ℚ) (e : E) (r : Queue E × Key) : Prop
  | front (ht : t ≤ q.ub_)
      (hsize : ¬ (link_front (alloc q) (new_item q t e .FRONT)).front_.length >
        2 * max_front_size (link_front (alloc q) (new_item q t e .FRONT)))
      (hr : r = (link_front (alloc q) (new_item q t e .FRONT), q.next_ptr_))
  | front_shrink (ht : t ≤ q.ub_)
      (hsize : (link_front (alloc q) (new_item q t e .FRONT)).front_.length >
        2 * max_front_size (link_front (alloc q) (new_item q t e .FRONT)))
      (q' : Queue E)
      (hshrink : shrink_front NDEBUG (link_front (alloc q) (new_item q t e .FRONT)) = .ok q')
      (hr : r = (q', q.next_ptr_))
  | seed (ht : ¬ t ≤ q.ub_) (hf : q.front_ = []) (h336 : NDEBUG = true ∨ q.back_ = [])
      (hend : t < q.end_time_)
      (hr : r = (seed_front (alloc q) (new_item q t e .FRONT) t, q.next_ptr_))
  | retire (ht : ¬ t ≤ q.ub_) (hf : q.front_ = []) (h336 : NDEBUG = true ∨ q.back_ = [])
      (hend : ¬ t < q.end_time_)
      (hr : r = (record_inf (alloc q) (new_item q t e .INF), q.next_ptr_))
  | back (ht : ¬ t ≤ q.ub_) (hf : q.front_ ≠ [])
      (hr : r = (link_back (alloc q) (new_item q t e .BACK), q.next_ptr_))

/-- The ways a call `shrink_front()` on a queue `q` with more than
`max_front_size()` front records can return `q'`; `x` is the record at
position `max_front_size()`. -/
inductive Shrink_case (NDEBUG : Bool) (q : Queue E) (x : Item E) (q' : Queue E) : Prop
  | horizon (hsplit : x.time > q.end_split_) (h764 : NDEBUG = true ∨ q.back_ = [])
      (hr : q' = retire_from q 0)
  | give_back (hsplit : ¬ x.time > q.end_split_)
      (h807 : NDEBUG = true ∨ 0 ≤ q.ub_ - x.time)
      (hr : q' = give_back q (max_front_size q) x.time)

/-- The ways the step `if (front_.empty() && !back_.empty()) grow_front();` can
take the queue `q` to `q'`. -/
inductive Drained_case (NDEBUG : Bool) (q q' : Queue E) : Prop
  | grow (hf : q.front_ = []) (hb : q.back_ ≠ []) (hg : grow_front NDEBUG q = .ok q')
  | keep (h : q.front_ ≠ [] ∨ q.back_ = []) (hr : q' = q)

/-- The ways a call `erase(item)` on the queue `q` can return `q'`. -/
inductive Erase_case (NDEBUG : Bool) (q : Queue E) (item : Key) (q' : Queue E) : Prop
  | null (hk : item = end_key q) (hr : q' = q)
  | front (hk : item ≠ end_key q) (i : Item E) (hi : deref q item = some i)
      (htag : i.in_list = some .FRONT) (hl : linked q.front_ item = true) (q1 : Queue E)
      (hg : Drained_case NDEBUG (unlink_front q item) q1) (hr : q' = unmake_event q1 i)
  | back (hk : item ≠ end_key q) (i : Item E) (hi : deref q item = some i)
      (htag : i.in_list = some .BACK) (hl : linked q.back_ item = true)
      (hr : q' = unmake_event (unlink_back q item) i)
  | inf (hk : item ≠ end_key q) (i : Item E) (hi : deref q item = some i)
      (htag : i.in_list = some .INF) (hr : q' = q)

/-- The ways a call `set(item, ne)` on the queue `q` can return `r`. -/
inductive Set_case (NDEBUG : Bool) (q : Queue E) (item : Key) (ne : E) (r : Queue E × Key) : Prop
  | front (oi : Item E) (hi : deref q item = some oi) (htag : oi.in_list = some .FRONT)
      (hl : linked q.front_ item = true)
      (hr : r = (unmake_event (replace_front (alloc q) item (new_item q oi.time ne .FRONT)) oi,
        q.next_ptr_))
  | back (oi : Item E) (hi : deref q item = some oi) (htag : oi.in_list = some .BACK)
      (hl : linked q.back_ item = true)
      (hr : r = (unmake_event (replace_back (alloc q) item (new_item q oi.time ne .BACK)) oi,
        q.next_ptr_))
  | inf (oi : Item E) (hi : deref q item = some oi) (htag : oi.in_list = some .INF)
      (h433 : NDEBUG = true ∨ linked q.inf_ item = true)
      (hr : r = (unmake_event (replace_inf (alloc q) item (new_item q oi.time ne .INF)) oi,
        q.next_ptr_))

/-- The ways a call `process_front()` on the queue `q` can return `r`. -/
inductive Process_case (NDEBUG : Bool) (q : Queue E) (r : Queue E × Option (Item E)) : Prop
  | run (i : Item E) (rest : List (Item E)) (hf : q.front_ = i :: rest) (q1 : Queue E)
      (hg : Drained_case NDEBUG (pop_front q) q1) (hr : r = (unmake_event q1 i, some i))
  | idle (hn : NDEBUG = true) (hf : q.front_ = []) (hr : r = (q, none))

/-- The invariant behind I1, I3 and the tag discipline: `front_` is sorted,
every front record is at most `ub_`, and every record carries the tag of the
list that stores it. -/
structure Inv (q : Queue E) : Prop where
  sorted : front_sorted q
  front_le : ∀ x ∈ q.front_, x.time ≤ q.ub_
  front_tag : tagged q.front_ .FRONT
  back_tag : tagged q.back_ .BACK
  inf_tag : tagged q.inf_ .INF

/-- The invariant of a queue constructed with `start_time <= end_time`:
`end_split_` is `end_time_`, the window bound `ub_` does not pass it, and
`back_` is non-empty only if `front_` is (I4). -/
structure Horizon_inv (q : Queue E) : Prop where
  end_eq : q.end_time_ = q.end_split_
  ub_le : q.ub_ ≤ q.end_split_
  i4 : q.back_ ≠ [] → q.front_ ≠ []

/-- What holds while only `insert` has been called: every back record is at or
after `ub_`, `end_split_` is `end_time_`, and if `front_` is empty then `back_`
is empty too or the window bound has reached `end_split_`. -/
structure Ins_inv (q : Queue E) : Prop where
  back_ge : ∀ b ∈ q.back_, q.ub_ ≤ b.time
  end_eq : q.end_time_ = q.end_split_
  drained : q.front_ = [] → q.back_ = [] ∨ q.end_split_ ≤ q.ub_

/-- What holds while the driver loop runs: `front_` is sorted and no front
record is later than a back record. -/
structure Proc_inv (q : Queue E) : Prop where
  sorted : front_sorted q
  front_le_back : ∀ f ∈ q.front_, ∀ b ∈ q.back_, f.time ≤ b.time

/-- The address of the dummy `null_event_` is below every address handed out:
no queued record is the null event. -/
structure Ptr_inv (q : Queue E) : Prop where
  null_lt : q.null_event_.ptr < q.next_ptr_
  live_gt : ∀ x ∈ q.front_ ++ q.back_, q.null_event_.ptr < x.ptr

/-- The function `is_in_queue(k)`: the loops over `front_` and `back_`, then
the loop over `inf_` when the checks are compiled in, or the test
`k.pointer()->in_list() == Item::INF` under `NDEBUG`. -/
def is_in_queue (NDEBUG : Bool) (q : Queue E) (k : Key) : Except Failure Bool :=
  if linked q.front_ k then pure true
  else if linked q.back_ k then pure true
  else if NDEBUG then
    match deref q k with
    | none => .error .undefined_behaviour
    | some i =>
      match i.in_list with
      | none => .error .undefined_behaviour
      | some lt => pure (lt == .INF)
  else pure (linked q.inf_ k)

/-- The record `x` without its membership tag: its address, time and event. -/
def untagged (x : Item E) : Item E := { x with front_list_ := none }

/-- The records of a list without their membership tags. -/
def contents (l : List (Item E)) : List (Item E) := l.map untagged

/-- The records that are linked into `front_` or `back_` or recorded in `inf_`. -/
def live (q : Queue E) : List (Item E) := q.front_ ++ q.back_ ++ q.inf_

/-- Every record a key can refer to, `null_event_` apart, in the order in
which `deref` looks for it. -/
def records (q : Queue E) : List (Item E) := live q ++ q.detached_

/-- The addresses are handed out in increasing order and no two records of
`front_`, `back_` and `inf_` share one: every record lies above the address of
`null_event_` and below the next address, and `null_event_` carries no tag. -/
structure Key_inv (q : Queue E) : Prop where
  nodup : ((live q).map (fun x => x.ptr)).Nodup
  null_lt : q.null_event_.ptr < q.next_ptr_
  bounds : ∀ x ∈ records q, q.null_event_.ptr < x.ptr ∧ x.ptr < q.next_ptr_
  null_tag : q.null_event_.in_list = none

/-- What every public operation does to the records from `q` to `q'`: no
record is lost, and a record that is new has a new address. -/
structure Carried (q q' : Queue E) : Prop where
  null_event_eq : q'.null_event_ = q.null_event_
  next_le : q.next_ptr_ ≤ q'.next_ptr_
  kept : ∀ x ∈ records q, ∃ y ∈ records q', untagged y = untagged x
  fresh : ∀ y ∈ records q', (∃ x ∈ records q, untagged x = untagged y) ∨
    (q.next_ptr_ ≤ y.ptr ∧ y.ptr < q'.next_ptr_)

/-- The key `k` refers to a record of time `t`: some record has the address
`k`, and every record with that address has the time `t`. -/
structure Stored (q : Queue E) (k : Key) (t : ℚ) : Prop where
  lt : k < q.next_ptr_
  mem : ∃ x ∈ records q, x.ptr = k
  time_eq : ∀ x ∈ records q, x.ptr = k → x.time = t

/-- The shape of every public operation: it takes the records `out` from
`front_`, `back_` and `inf_` and leaves the records `rest` there, puts the
newly made records `inn` there, and releases the records `dets`. -/
structure Exchange (q q' : Queue E) (out inn dets rest : List (Item E)) : Prop where
  null_event_eq : q'.null_event_ = q.null_event_
  next_le : q.next_ptr_ ≤ q'.next_ptr_
  taken : (contents (live q)).Perm (contents out ++ rest)
  put : (contents (live q')).Perm (contents inn ++ rest)
  released : q'.detached_ = dets ++ q.detached_
  dets_mem : ∀ d ∈ dets, d ∈ records q
  out_sub : ∀ x ∈ out, x ∈ dets
  inn_new : ∀ y ∈ inn, q.next_ptr_ ≤ y.ptr ∧ y.ptr < q'.next_ptr_
  inn_nodup : (inn.map (fun x => x.ptr)).Nodup

/-- The queue that a run returns; a fresh queue stands in for a run that fails. -/
def queue_of (r : Except Failure (Queue Unit)) : Queue Unit :=
  match r with
  | .ok q => q
  | .error _ => construct 0 0 0

/-- The queue after `shrink_ops` on a queue constructed with `start_time = 0`
and `end_time = 100`, with the checks compiled in: ten records in `front_`
(addresses 2 to 11), eleven in `back_`. -/
def shrunk_queue : Queue Unit :=
  queue_of (run false (construct 0 0 100) shrink_ops)

/-- The queue `shrunk_queue` after `insert(60, e)`, which returns the key `22`. -/
def inserted_queue : Queue Unit :=
  queue_of ((insert false shrunk_queue 60 ()).map (fun r => r.1))

/-- The queue `inserted_queue` after `erase` of the key `22`. -/
def erased_queue : Queue Unit :=
  queue_of (erase false inserted_queue 22)

/-- A queue constructed with `start_time = 0` and `end_time = 100` after
`insert(500, e)`: the record, of address `1`, is retired to `inf_`. -/
def retired_queue : Queue Unit :=
  queue_of (run false (construct 0 0 100) [.insert 500 ()])


/-- The queue after the first twenty inserts of `shrink_ops` (`insert(50)`,
`insert(1)`, ..., `insert(19)`), with the checks compiled in: twenty records
in `front_`, none in `back_`. -/
def filled_queue : Queue Unit :=
  queue_of (run false (construct 0 0 100) (shrink_ops.take 20))

/-- The queue `filled_queue` inside `insert(20, e)`, after line 328 has linked
the new record into `front_` and before `shrink_front()` is called. -/
def unshrunk_queue : Queue Unit :=
  link_front (alloc filled_queue) (new_item filled_queue 20 () .FRONT)


/-- A run that reaches the horizon: `insert(1)`, `insert(200)`, `insert(500)`,
`process_front()`, whose `grow_front()` retires the records at 200 and 500,
and `insert(300)`, which retires its record at once. -/
def horizon_ops : List (Op Unit) :=
  [.insert 1 (), .insert 200 (), .insert 500 (), .process_front, .insert 300 ()]

/-- The queue after `horizon_ops`, with the checks compiled in: three records
in `inf_`. -/
def horizon_queue : Queue Unit :=
  queue_of (run false (construct 0 0 100) horizon_ops)

/-- Twenty-one inserts at time `5`: the last one calls `shrink_front()`, which
leaves `step_ = 0`. -/
def level_ops : List (Op Unit) := List.replicate 21 (.insert 5 ())

/-- The calls `erase` of the keys `1, ..., n`. -/
def erase_ops (n : Nat) : List (Op Unit) := (List.range n).map (fun k => Op.erase (k + 1))

/-- The inserts `insert(0)`, eleven times `insert(1)` and `insert(t)`: in a
queue constructed with `start_time = 0` the first record is in `front_` and
the others are in `back_`. -/
def overshoot_ops (t : ℚ) : List (Op Unit) :=
  .insert 0 () :: List.replicate 11 (.insert 1 ()) ++ [.insert t ()]

/-- The queue after `overshoot_ops t`, constructed with `start_time = 0` and
`end_time = 2`, inside `process_front()` after line 476 has removed the
record of time `0`: `front_` is empty and `back_` holds twelve records. -/
def overshoot_queue (t : ℚ) : Queue Unit :=
  pop_front (queue_of (run false (construct 0 0 2) (overshoot_ops t)))

/-- The inserts `insert(1), ..., insert(10)` and eleven times `insert(150)`. -/
def past_horizon_ops : List (Op Unit) :=
  (List.range 10).map (fun n => Op.insert ((n : ℚ) + 1) ()) ++ List.replicate 11 (.insert 150 ())

/-- A queue constructed with `start_time = 200` and `end_time = 100` after the
first twenty inserts of `past_horizon_ops`. -/
def past_horizon_queue : Queue Unit :=
  queue_of (run false (construct 0 200 100) (past_horizon_ops.take 20))

/-- The queue `past_horizon_queue` inside `insert(150, e)`, after line 328 has
linked the new record into `front_` and before `shrink_front()` is called. -/
def unretired_queue : Queue Unit :=
  link_front (alloc past_horizon_queue) (new_item past_horizon_queue 150 () .FRONT)

/-- A queue constructed with `start_time = 0` and `end_time = 10000` after
`insert(0)` and `insert(5000)`, inside `process_front()` after line 476 has
removed the record of time `0`: `front_` is empty and `back_` holds the record
of time `5000`. -/
def far_queue : Queue Unit :=
  pop_front (queue_of (run false (construct 0 0 10000) [.insert 0 (), .insert 5000 ()]))
end Two_list_pointer_event_queue

end CGAL.KDS

/-!
# `copy_n_unique` and `duplicate_points` of `Generator/include/CGAL/random_polygon_2.h`

* The point type `Traits::Point_2` is a type `P`, and the ordering
  `Traits::Less_xy_2` is a parameter `less : P → P → Bool`.
* A `std::set<Point_2, Less_xy_2>` is the list of its elements in the order of
  their insertion; `insert` is modelled by its contract for a comparison that
  is a strict weak ordering.
* The input iterator `first` is the sequence of the points it yields:
  `first i` is `*first` after `i` increments.
* The counters `int i` are 32-bit: incrementing `INT_MAX` is undefined, which
  is the result `none`.
-/

namespace CGAL

variable {P : Type}

/-- The largest value of an `int`. -/
def INT_MAX : Nat := 2147483647

/-- Two points are equivalent for the ordering `less` when neither is less
than the other: the equivalence that `std::set` uses for its keys. -/
def equivalent (less : P → P → Bool) (a b : P) : Bool :=
  !less a b && !less b a

/-- The requirement of `std::set` on its comparison: a strict weak ordering. -/
structure Strict_weak_ordering (less : P → P → Bool) : Prop where
  irrefl : ∀ a, less a a = false
  trans : ∀ a b c, less a b = true → less b c = true → less a c = true
  equivalent_trans : ∀ a b c, equivalent less a b = true → equivalent less b c = true →
    equivalent less a c = true

/-- The call `s.insert(x)` of `std::set<Point_2, Less_xy_2>`: `x` is added
unless the set holds an element equivalent to `x`; the result is the set and
the member `.second` of the returned pair, which tells whether `x` was added. -/
def set_insert (less : P → P → Bool) (s : List P) (x : P) : List P × Bool :=
  if s.any (fun y => equivalent less y x) then (s, false) else (s ++ [x], true)

/-- The loop `for (; first != beyond; first++, i++)` of `duplicate_points`,
over the range `l` that is left, with the set `point_set` and the counter `i`. -/
def duplicate_points_from (less : P → P → Bool) : List P → List P → Nat → Option Bool
  | [], _, _ => some false
  | x :: rest, point_set, i =>
    let r := set_insert less point_set x
    if !r.2 then some true
    else if i + 1 > INT_MAX then none
    else duplicate_points_from less rest r.1 (i + 1)

/-- The function `duplicate_points(first, beyond, traits)` on the range `l`. -/
def duplicate_points (less : P → P → Bool) (l : List P) : Option Bool :=
  duplicate_points_from less l [] 0

/-- The loop `for (i = 0; i < n; i++)` of `copy_n_unique` with `k = n - i`
rounds to go (the test `i < n` is `k ≠ 0`): the set `sorted_point_set`, the
points written to `result` so far, and the counter `i`, which is also the
number of increments of `first`.  The result is the output and the final
position of `first`. -/
def copy_n_unique_from (less : P → P → Bool) (first : Nat → P) :
    Nat → Nat → List P → List P → Option (List P × Nat)
  | 0, i, _, result => some (result, i)
  | k + 1, i, sorted_point_set, result =>
    let r := set_insert less sorted_point_set (first i)
    let result := if r.2 then result ++ [first i] else result
    if i + 1 > INT_MAX then none
    else copy_n_unique_from less first k (i + 1) r.1 result

/-- The function `copy_n_unique(first, n, result, traits)` for `n >= 0`: the
points written to `result`, in the order of writing, and the number of points
taken from `first`. -/
def copy_n_unique (less : P → P → Bool) (first : Nat → P) (n : Nat) : Option (List P × Nat) :=
  copy_n_unique_from less first n 0 [] []

/-- The points among the first `n` of `first` that are equivalent to no
earlier point, in the order of the input: what the comment of `copy_n_unique`
("copies the first n points ..., removing any duplicates") asks for. -/
def first_occurrences (less : P → P → Bool) (first : Nat → P) (n : Nat) : List P :=
  ((List.range n).filter
    (fun i => (List.range i).all (fun j => !equivalent less (first j) (first i)))).map first

/-- An ordering for the examples: points with rational coordinates compared
by `x` and then by `y`. -/
def less_xy (p q : ℚ × ℚ) : Bool :=
  decide (p.1 < q.1) || (decide (p.1 = q.1) && decide (p.2 < q.2))

/-- An input sequence for the examples: the points `(0,0), (1,2), (0,0),
(3,1), (1,2), (2,2)`, followed by `(0,0)` for ever. -/
def sample_points (i : Nat) : ℚ × ℚ :=
  ([(0, 0), (1, 2), (0, 0), (3, 1), (1, 2), (2, 2)] : List (ℚ × ℚ)).getD i (0, 0)

/-!
# `Manhattan_distance_iso_box_point` of `Spatial_searching/include/CGAL/Manhattan_distance_iso_box_point.h`

* The number type `SearchTraits::FT` is the rationals (exact arithmetic).
* A point `Point_d` is the sequence of its Cartesian coordinates, as the
  iterator made by `Construct_cartesian_const_iterator_d` yields them.
* An iso-box `Iso_box_d` is its dimension with the coordinates of its minimal
  and maximal vertex; the loops run over the coordinates of the maximal vertex.
* `CGAL/Kd_tree_rectangle.h` is not among the sources: a rectangle is the pair
  of its functions `min_coord` and `max_coord`.
-/

/-- The query item `Iso_box_d`: `dimension` is the number of coordinates of
its vertices, `min_vertex` and `max_vertex` are the coordinates of the points
made by `Construct_min_vertex_d` and `Construct_max_vertex_d`. -/
structure Iso_box_d where
  dimension : Nat
  min_vertex : Nat → ℚ
  max_vertex : Nat → ℚ

/-- The members `min_coord(i)` and `max_coord(i)` of a `Kd_tree_rectangle`. -/
structure Kd_tree_rectangle where
  min_coord : Nat → ℚ
  max_coord : Nat → ℚ

namespace Manhattan_distance_iso_box_point

/-- The function `transformed_distance(q, p)`: the loop over the coordinates
with the variable `distance`. -/
def transformed_distance (q : Iso_box_d) (p : Nat → ℚ) : ℚ :=
  (List.range q.dimension).foldl (fun distance i =>
    if p i > q.max_vertex i then distance + (p i - q.max_vertex i)
    else if p i < q.min_vertex i then distance + (q.min_vertex i - p i)
    else distance) 0

/-- The function `min_distance_to_rectangle(q, r)`. -/
def min_distance_to_rectangle (q : Iso_box_d) (r : Kd_tree_rectangle) : ℚ :=
  (List.range q.dimension).foldl (fun distance i =>
    let distance :=
      if r.min_coord i > q.max_vertex i then distance + (r.min_coord i - q.max_vertex i)
      else distance
    if r.max_coord i < q.min_vertex i then distance + (q.min_vertex i - r.max_coord i)
    else distance) 0

/-- The function `max_distance_to_rectangle(q, r)`. -/
def max_distance_to_rectangle (q : Iso_box_d) (r : Kd_tree_rectangle) : ℚ :=
  (List.range q.dimension).foldl (fun distance i =>
    if r.max_coord i - q.min_vertex i > q.max_vertex i - r.min_coord i then
      distance + (r.max_coord i - q.min_vertex i)
    else distance + (q.max_vertex i - r.min_coord i)) 0

/-- The coordinates of a point, from the list of them. -/
def point (l : List ℚ) (i : Nat) : ℚ := l.getD i 0

/-- An iso-box for the examples: `[0, 2] x [1, 3]`. -/
def sample_box : Iso_box_d :=
  { dimension := 2, min_vertex := point [0, 1], max_vertex := point [2, 3] }

/-- A rectangle for the examples: `[1, 5] x [-2, 0]`. -/
def sample_rectangle : Kd_tree_rectangle :=
  { min_coord := point [1, -2], max_coord := point [5, 0] }

end Manhattan_distance_iso_box_point

/-!
# `sorted_matrix_search` of `Matrix_search/include/CGAL/sorted_matrix_search.h`

* `Value` is a linearly ordered type `V`; the operators `<`, `!=`, `==` and
  `max` that the source applies to values are those of the order.
* The `int` variables are integers.  `ccd <<= 1` beyond `INT_MAX` is undefined
  behaviour; the positions of the cells stay below twice the largest dimension.
* A `Matrix` is given by `number_of_columns()`, `number_of_rows()` and its
  access operator, which is defined for `0 <= x < number_of_columns()` and
  `0 <= y < number_of_rows()`; what `entry` is outside is never looked at when
  the dimensions are positive (`access_eq_entry`).
* `CGAL/Sorted_matrix_search_traits_adaptor.h` is not among the sources: the
  traits object is the triple of its members.
* `std::nth_element` is a parameter `nth_element` with the contract
  `Nth_element`; `find_if`, `remove_if` and `iter_swap` are modelled on lists.
* The checks `CGAL_optimisation_precondition` and `CGAL_optimisation_assertion`
  are executed when `NDEBUG` is `false`; the `expensive` ones never are.
* The loop `for (;;)` is given a bound on the number of its rounds.
-/

/-- The concept `Matrix`: `number_of_columns()`, `number_of_rows()` and
`operator()(x, y)`. -/
structure Matrix (V : Type) where
  number_of_columns : Int
  number_of_rows : Int
  entry : Int → Int → V

/-- The members of the traits class used by `sorted_matrix_search`:
`compare_strictly()`, `compare_non_strictly()` and `is_feasible`. -/
structure Sorted_matrix_search_traits (V : Type) where
  compare_strictly : V → V → Bool
  compare_non_strictly : V → V → Bool
  is_feasible : V → Bool

/-- The class `Matrix_cell`: the matrix and the position of the upper left
corner of the cell. -/
structure Matrix_cell (V : Type) where
  base_matrix : Matrix V
  x : Int
  y : Int

variable {V : Type}

/-- The padded access operator `Padded_matrix::operator()(x, y)`. -/
def Padded_matrix.access (m : Matrix V) (x y : Int) : V :=
  m.entry (if x < m.number_of_columns then x else m.number_of_columns - 1)
    (if y < m.number_of_rows then y else m.number_of_rows - 1)

/-- The function `Padded_matrix::is_sorted()`: no entry is smaller than its
left or upper neighbour. -/
def Padded_matrix.is_sorted [LinearOrder V] (m : Matrix V) : Bool :=
  (List.range m.number_of_columns.toNat).all (fun i =>
    (List.range m.number_of_rows.toNat).all (fun j =>
      !(decide (i > 0) && decide (m.entry ((i : Int) - 1) j > m.entry i j)) &&
      !(decide (j > 0) && decide (m.entry i ((j : Int) - 1) > m.entry i j))))

/-- The function `Matrix_cell::min()`. -/
def Matrix_cell.min (c : Matrix_cell V) : V :=
  Padded_matrix.access c.base_matrix c.x c.y

/-- The function `Matrix_cell::max(offset)`; `offset` is the dimension of the cell. -/
def Matrix_cell.max (c : Matrix_cell V) (offset : Int) : V :=
  Padded_matrix.access c.base_matrix (c.x + offset - 1) (c.y + offset - 1)

/-- The macro `CGAL_optimisation_precondition`. -/
def CGAL_optimisation_precondition (NDEBUG : Bool) (line : Nat) (c : Bool) :
    Except KDS.Failure Unit :=
  KDS.check NDEBUG (.precondition line) c

/-- The macro `CGAL_optimisation_assertion`. -/
def CGAL_optimisation_assertion (NDEBUG : Bool) (line : Nat) (c : Bool) :
    Except KDS.Failure Unit :=
  KDS.check NDEBUG (.assertion line) c

/-- The contract of `std::nth_element(first, first + nth, last, comp)` for a
comparison that is a strict weak ordering: the range is permuted, and no
element from position `nth` on is less than an element up to position `nth`.
(The standard asks that the element at `nth` be the one a full sort would put
there and that no element after `nth` be less than one before it; this
implies the form used here.) -/
structure Nth_element {C : Type} (nth_element : (C → C → Bool) → Nat → List C → List C) :
    Prop where
  perm : ∀ comp nth l, (nth_element comp nth l).Perm l
  ordered : ∀ comp, Strict_weak_ordering comp → ∀ nth l i j a b, i ≤ nth → nth ≤ j →
    (nth_element comp nth l).get? i = some a → (nth_element comp nth l).get? j = some b →
    comp b a = false

/-- Reading `*(begin() + i)`; a position outside the vector is undefined behaviour. -/
def cell_at {C : Type} (l : List C) (i : Nat) : Except KDS.Failure C :=
  match l.get? i with
  | some c => pure c
  | none => .error .undefined_behaviour

/-- The call `iter_swap(begin() + i, begin())`. -/
def iter_swap_begin {C : Type} (l : List C) (i : Nat) : List C :=
  match l, l.get? i with
  | a :: _, some c => (l.set i a).set 0 c
  | _, _ => l

/-- The calls `new_end = remove_if(begin() + 1, end(), pred)` and
`erase(new_end, end())`: the first cell stays, the other cells for which `pred`
holds are removed. -/
def remove_if_after_first {C : Type} (l : List C) (pred : C → Bool) : List C :=
  match l with
  | [] => []
  | c :: rest => c :: rest.filter (fun x => !pred x)

/-- The calls `new_end = remove_if(begin(), end(), pred)` and
`erase(new_end, end())`. -/
def remove_if {C : Type} (l : List C) (pred : C → Bool) : List C :=
  l.filter (fun x => !pred x)

/-- Lines 205-235, "divide cells": for every active
cell, from the last to the first, the lower left, upper right and lower right
quarter are appended; the cell itself becomes the upper left quarter. -/
def divide_cells (active_cells : List (Matrix_cell V)) (ccd : Int) : List (Matrix_cell V) :=
  active_cells ++ active_cells.reverse.flatMap (fun j =>
    [{ base_matrix := j.base_matrix, x := j.x, y := j.y + ccd },
     { base_matrix := j.base_matrix, x := j.x + ccd, y := j.y },
     { base_matrix := j.base_matrix, x := j.x + ccd, y := j.y + ccd }])

/-- Lines 286-395 of `sorted_matrix_search`, "test feasibility of medians and
remove cells accordingly", with the iterators `lower_median_cell` and
`upper_median_cell` as positions.  The result is the new vector `active_cells`. -/
def remove_by_medians [LinearOrder V] (t : Sorted_matrix_search_traits V)
    (active_cells : List (Matrix_cell V)) (ccd : Int) (lower_median upper_median : V)
    (lower_median_cell upper_median_cell : Nat) : List (Matrix_cell V) :=
  if t.is_feasible lower_median then
    if t.is_feasible upper_median then
      let min_median_cell := if lower_median < upper_median then lower_median_cell
        else upper_median_cell
      let min_median := if lower_median < upper_median then lower_median else upper_median
      remove_if_after_first (iter_swap_begin active_cells min_median_cell)
        (fun c => t.compare_non_strictly min_median c.min)
    else
      remove_if_after_first (iter_swap_begin active_cells lower_median_cell)
        (fun c => t.compare_non_strictly lower_median c.min ||
          t.compare_non_strictly (c.max ccd) upper_median)
  else
    if t.is_feasible upper_median then
      remove_if_after_first (iter_swap_begin active_cells upper_median_cell)
        (fun c => t.compare_non_strictly upper_median c.min ||
          t.compare_non_strictly (c.max ccd) lower_median)
    else
      remove_if active_cells
        (fun c => t.compare_non_strictly (c.max ccd) (max lower_median upper_median))

/-- Lines 240-395 of `sorted_matrix_search`: the medians of the minima and of
the maxima of the active cells are computed, tested for feasibility, and the
cells are removed accordingly.  The result is the new vector `active_cells`. -/
def remove_cells [LinearOrder V] (NDEBUG : Bool)
    (nth_element : (Matrix_cell V → Matrix_cell V → Bool) → Nat → List (Matrix_cell V) →
      List (Matrix_cell V))
    (t : Sorted_matrix_search_traits V) (active_cells : List (Matrix_cell V)) (ccd : Int) :
    Except KDS.Failure (List (Matrix_cell V)) := do
  CGAL_optimisation_assertion NDEBUG 241 (decide (active_cells.length > 0))
  if active_cells.isEmpty then .error .undefined_behaviour else
  let lower_median_rank := (active_cells.length - 1) >>> 1
  let upper_median_rank := active_cells.length >>> 1
  let active_cells := nth_element (fun a b => t.compare_strictly a.min b.min)
    upper_median_rank active_cells
  let lower_median_cell := upper_median_rank
  let lower_median := (← cell_at active_cells lower_median_cell).min
  let active_cells := nth_element (fun a b => t.compare_strictly (a.max ccd) (b.max ccd))
    lower_median_rank active_cells
  let upper_median_cell := lower_median_rank
  let upper_median := (← cell_at active_cells upper_median_cell).max ccd
  let lower_median_cell :=
    if (← cell_at active_cells lower_median_cell).min ≠ lower_median then
      active_cells.findIdx (fun c => decide (lower_median = c.min))
    else lower_median_cell
  CGAL_optimisation_assertion NDEBUG 285 (decide (lower_median_cell ≠ active_cells.length))
  if lower_median_cell = active_cells.length then .error .undefined_behaviour else
  pure (remove_by_medians t active_cells ccd lower_median upper_median lower_median_cell
    upper_median_cell)

/-- The loop `for (;;)` of lines 194-396, for at most the given number of
rounds.  The result is `active_cells` and `ccd` at the `break`. -/
def search_loop [LinearOrder V] (NDEBUG : Bool)
    (nth_element : (Matrix_cell V → Matrix_cell V → Bool) → Nat → List (Matrix_cell V) →
      List (Matrix_cell V))
    (t : Sorted_matrix_search_traits V) :
    Nat → List (Matrix_cell V) → Int → Except KDS.Failure (List (Matrix_cell V) × Int)
  | 0, _, _ => .error .out_of_fuel
  | rounds + 1, active_cells, ccd =>
    if ccd > 1 then do
      let ccd := ccd / 2
      let active_cells := divide_cells active_cells ccd
      let active_cells ← remove_cells NDEBUG nth_element t active_cells ccd
      search_loop NDEBUG nth_element t rounds active_cells ccd
    else if active_cells.length ≤ 1 then
      pure (active_cells, ccd)
    else do
      let active_cells ← remove_cells NDEBUG nth_element t active_cells ccd
      search_loop NDEBUG nth_element t rounds active_cells ccd

/-- The value of `maxdim` after the loop of lines 171-179. -/
def maxdim (ms : List (Matrix V)) : Int :=
  ms.foldl (fun maxdim m => max (max m.number_of_columns m.number_of_rows) maxdim) (-1)

/-- The loop `while (ccd < maxdim) ccd <<= 1`; it doubles `ccd` at most 31
times before the shift overflows. -/
def initial_ccd : Nat → Int → Int → Except KDS.Failure Int
  | 0, _, _ => .error .out_of_fuel
  | k + 1, ccd, maxdim =>
    if ccd < maxdim then
      if ccd * 2 > INT_MAX then .error .undefined_behaviour
      else initial_ccd k (ccd * 2) maxdim
    else pure ccd

/-- The function `sorted_matrix_search(f, l, t)` on the range `ms` of
matrices, with `rounds` bounding the rounds of the main loop. -/
def sorted_matrix_search [LinearOrder V] (NDEBUG : Bool)
    (nth_element : (Matrix_cell V → Matrix_cell V → Bool) → Nat → List (Matrix_cell V) →
      List (Matrix_cell V))
    (rounds : Nat) (ms : List (Matrix V)) (t : Sorted_matrix_search_traits V) :
    Except KDS.Failure V := do
  CGAL_optimisation_precondition NDEBUG 166 (!ms.isEmpty)
  let active_cells := ms.map (fun m => ({ base_matrix := m, x := 0, y := 0 } : Matrix_cell V))
  CGAL_optimisation_precondition NDEBUG 180 (decide (maxdim ms > 0))
  let ccd ← initial_ccd 32 1 (maxdim ms)
  let r ← search_loop NDEBUG nth_element t rounds active_cells ccd
  CGAL_optimisation_assertion NDEBUG 399 (decide (r.1.length = 1))
  CGAL_optimisation_assertion NDEBUG 400 (decide (r.2 = 1))
  match r.1 with
  | c :: _ => pure c.min
  | [] => .error .undefined_behaviour

/-- The matrices the search is meant for: positive dimensions, within the
range in which `ccd` does not overflow, and sorted rows and columns. -/
structure Sorted_matrix [LinearOrder V] (m : Matrix V) : Prop where
  columns_pos : 0 < m.number_of_columns
  rows_pos : 0 < m.number_of_rows
  columns_le : m.number_of_columns ≤ 2 ^ 30
  rows_le : m.number_of_rows ≤ 2 ^ 30
  sorted : Padded_matrix.is_sorted m = true

/-- The value `v` is an entry of one of the matrices `ms`. -/
def Is_entry (ms : List (Matrix V)) (v : V) : Prop :=
  ∃ m ∈ ms, ∃ x y : Int, 0 ≤ x ∧ x < m.number_of_columns ∧ 0 ≤ y ∧ y < m.number_of_rows ∧
    m.entry x y = v

/-- The cell `c` of dimension `d` contains the value `u`. -/
def Covers (c : Matrix_cell V) (d : Int) (u : V) : Prop :=
  ∃ i j : Int, 0 ≤ i ∧ i < d ∧ 0 ≤ j ∧ j < d ∧
    Padded_matrix.access c.base_matrix (c.x + i) (c.y + j) = u

/-- The cell `c` belongs to one of the matrices `ms`, at a position that is
not negative. -/
def Cell_of (ms : List (Matrix V)) (c : Matrix_cell V) : Prop :=
  c.base_matrix ∈ ms ∧ 0 ≤ c.x ∧ 0 ≤ c.y

/-- The invariant of the main loop: every active cell belongs to one of the
matrices, and below every feasible entry of the matrices there is a feasible
value in an active cell of dimension `d`. -/
structure Active [LinearOrder V] (ms : List (Matrix V)) (t : Sorted_matrix_search_traits V)
    (cells : List (Matrix_cell V)) (d : Int) : Prop where
  cell_of : ∀ c ∈ cells, Cell_of ms c
  below : ∀ w, Is_entry ms w → t.is_feasible w = true →
    ∃ c ∈ cells, ∃ u, Covers c d u ∧ t.is_feasible u = true ∧ u ≤ w

/-- The traits the search is meant for: the comparisons are those of the
order and feasibility is monotone. -/
structure Monotone_traits [LinearOrder V] (t : Sorted_matrix_search_traits V) : Prop where
  strictly : ∀ a b, t.compare_strictly a b = decide (a < b)
  non_strictly : ∀ a b, t.compare_non_strictly a b = decide (a ≤ b)
  monotone : ∀ a b, a ≤ b → t.is_feasible a = true → t.is_feasible b = true

/-- An implementation of `std::nth_element` for the examples: the range is sorted. -/
def sorting_nth_element {C : Type} (comp : C → C → Bool) (_ : Nat) (l : List C) : List C :=
  l.insertionSort (fun a b => comp b a = false)

/-- The matrix of the sums `a_x + b_y` of two sequences of numbers, as in the
examples of the function: a sorted matrix when the sequences are. -/
def sum_matrix (a b : List ℚ) : Matrix ℚ :=
  { number_of_columns := a.length, number_of_rows := b.length,
    entry := fun x y => a.getD x.toNat 0 + b.getD y.toNat 0 }

/-- Two matrices for the examples. -/
def sample_matrices : List (Matrix ℚ) :=
  [sum_matrix [0, 2, 5, 9, 10] [1, 3, 4], sum_matrix [1, 1, 6] [0, 7, 8, 20]]

/-- The traits of the examples: the order of the rationals, and a value is
feasible when it is at least `bound`. -/
def sample_traits (bound : ℚ) : Sorted_matrix_search_traits ℚ :=
  { compare_strictly := fun a b => decide (a < b),
    compare_non_strictly := fun a b => decide (a ≤ b),
    is_feasible := fun v => decide (bound ≤ v) }

end CGAL

namespace CGAL.KDS

variable {E : Type}

namespace Two_list_pointer_event_queue

/-! ## Basic facts about checks -/

theorem bind_ok_iff {ε α β : Type} (x : Except ε α) (f : α → Except ε β) (b : β) :
    (x >>= f) = .ok b ↔ ∃ a, x = .ok a ∧ f a = .ok b := by
  cases x <;> simp [bind, Except.bind]

theorem check_ok_iff (n : Bool) (f : Failure) (c : Bool) (u : Unit) :
    check n f c = .ok u ↔ (n = true ∨ c = true) := by
  unfold check
  cases n <;> cases c <;> simp

theorem pure_ok_iff {ε α : Type} (a b : α) : (pure a : Except ε α) = .ok b ↔ a = b := by
  simp [pure, Except.pure]

theorem check_call_ok_iff (n : Bool) (f : Failure) (c : Except Failure Bool) (u : Unit) :
    check_call n f c = .ok u ↔ (n = true ∨ c = .ok true) := by
  unfold check_call
  cases n <;> rcases c with e | b
  · simp
  · cases b <;> simp
  · simp
  · simp

theorem map_ok_iff {ε α β : Type} (f : α → β) (x : Except ε α) (b : β) :
    x.map f = .ok b ↔ ∃ a, x = .ok a ∧ f a = b := by
  cases x <;> simp [Except.map]


theorem bind_error_iff {ε α β : Type} (x : Except ε α) (f : α → Except ε β) (e : ε) :
    (x >>= f) = .error e ↔ x = .error e ∨ ∃ a, x = .ok a ∧ f a = .error e := by
  cases x <;> simp [bind, Except.bind]

theorem check_ne_out_of_fuel (n : Bool) (f : Failure) (c : Bool) (hf : f ≠ .out_of_fuel) :
    check n f c ≠ .error .out_of_fuel := by
  unfold check
  split_ifs
  · simp
  · intro h
    injection h with h
    exact hf h

theorem pure_ne_error {ε α : Type} (a : α) (e : ε) : (pure a : Except ε α) ≠ .error e := by
  simp [pure, Except.pure]

/-! ## The library functions of the embedding -/

theorem isqrt_from_spec (n k : Nat) :
    isqrt_from n k * isqrt_from n k ≤ n ∧
      ∀ m, m ≤ k → m * m ≤ n → m ≤ isqrt_from n k := by
  induction k with
  | zero =>
    refine ⟨by simp [isqrt_from], ?_⟩
    intro m hm _
    simpa [isqrt_from] using hm
  | succ k ih =>
    simp only [isqrt_from]
    split_ifs with c
    · exact ⟨c, fun m hm _ => hm⟩
    · refine ⟨ih.1, ?_⟩
      intro m hm hmm
      rcases Nat.lt_or_ge m (k + 1) with h | h
      · exact ih.2 m (Nat.lt_succ_iff.1 h) hmm
      · have : m = k + 1 := le_antisymm hm h
        subst this
        exact absurd hmm c

theorem isqrt_eq_sqrt (n : Nat) : isqrt n = Nat.sqrt n := by
  obtain ⟨h1, h2⟩ := isqrt_from_spec n n
  apply le_antisymm
  · exact Nat.le_sqrt.2 h1
  · exact h2 _ (Nat.sqrt_le_self n) (Nat.sqrt_le n)

theorem select_size (source target : List (Item E)) (b : ℚ) :
    source.length + target.length =
      (select source target b).1.length + (select source target b).2.1.length := by
  have h := (List.filter_append_perm (fun x : Item E => decide (x.time ≤ b)) source).length_eq
  simp only [List.length_append] at h
  simp only [select, List.length_append]
  omega

/-! ## The recursion of `grow_front(cand, recursive_count)` -/

theorem grow_front_cand_cases {NDEBUG : Bool} {fuel : Nat} {q : Queue E}
    {cand : List (Item E)} {rc : Nat} {r : Queue E × List (Item E)} :
    grow_front_cand NDEBUG (fuel + 1) q cand rc = .ok r ↔
      ((NDEBUG = true ∨ q.front_ = []) ∧ (NDEBUG = true ∨ cand ≠ []) ∧
        (NDEBUG = true ∨ q.step_ ≠ 0)) ∧
      Grow_case NDEBUG fuel (grow_select q cand) rc r := by
  constructor
  · intro h
    simp only [grow_front_cand, bind_ok_iff, CGAL_assertion, CGAL_postcondition, check_ok_iff,
      pure_ok_iff] at h
    obtain ⟨_, h1, _, h2, _, h3, h⟩ := h
    refine ⟨⟨by simpa using h1, by simpa using h2, by simpa using h3⟩, ?_⟩
    split_ifs at h with c1 c2 c3 c4 c5 c6
    · simp only [bind_ok_iff, check_ok_iff, pure_ok_iff] at h
      obtain ⟨_, _, h⟩ := h
      exact .horizon c1 h.symm
    · simp only [bind_ok_iff, check_ok_iff, pure_ok_iff] at h
      obtain ⟨r', hrec, _, hp, rfl⟩ := h
      exact .jump c1 (by simpa using c2) c3 c4 hrec (by simpa using hp)
    · simp only [bind_ok_iff, check_ok_iff, pure_ok_iff] at h
      obtain ⟨_, _, h⟩ := h
      exact .drop_all c1 (by simpa using c2) c3 c4 h.symm
    · simp only [bind_ok_iff, check_ok_iff, pure_ok_iff] at h
      obtain ⟨_, h702, _, h704, r', hrec, _, hp, rfl⟩ := h
      exact .undershoot c1 (by simpa using c2) c3 (by simpa using h702)
        (by simpa [set_step] using h704) hrec (by simpa using hp)
    · simp only [bind_ok_iff, check_ok_iff, pure_ok_iff] at h
      exact .give_up c1 (by simpa using c2) c5 c6 h.symm
    · simp only [bind_ok_iff, check_ok_iff, pure_ok_iff] at h
      obtain ⟨_, h719, _, h724, _, h726, r', hrec, _, hp, rfl⟩ := h
      exact .overshoot c1 (by simpa using c2) c5 c6 (by simpa using h719)
        (by simpa [roll_back, splice_back] using h724)
        (by simpa [set_step] using h726) hrec (by simpa using hp)
    · simp only [bind_ok_iff, check_ok_iff, pure_ok_iff] at h
      obtain ⟨_, _, h⟩ := h
      exact .settled c1 (by simpa using c2) c5 h.symm
  · rintro ⟨⟨h1, h2, h3⟩, hc⟩
    simp only [grow_front_cand, bind_ok_iff, CGAL_assertion, CGAL_postcondition, check_ok_iff,
      pure_ok_iff]
    refine ⟨(), by simpa using h1, (), by simpa using h2, (), by simpa using h3, ?_⟩
    cases hc with
    | horizon hub hr =>
      rw [if_pos hub]
      simp only [bind_ok_iff, check_ok_iff, pure_ok_iff]
      exact ⟨(), by simp [make_inf], hr.symm⟩
    | jump hub hf hrc hmp hrec hpost =>
      rw [if_neg hub, if_pos (by simp [hf]), if_pos hrc, if_pos hmp]
      simp only [bind_ok_iff, check_ok_iff, pure_ok_iff]
      exact ⟨r, hrec, (), by simpa using hpost, rfl⟩
    | drop_all hub hf hrc hmp hr =>
      rw [if_neg hub, if_pos (by simp [hf]), if_pos hrc, if_neg hmp]
      simp only [bind_ok_iff, check_ok_iff, pure_ok_iff]
      exact ⟨(), by simp [make_inf], hr.symm⟩
    | undershoot hub hf hrc h702 h704 hrec hpost =>
      rw [if_neg hub, if_pos (by simp [hf]), if_neg hrc]
      simp only [bind_ok_iff, check_ok_iff, pure_ok_iff]
      exact ⟨(), by simpa using h702, (), by simpa [set_step] using h704, r, hrec, (),
        by simpa using hpost, rfl⟩
    | give_up hub hf hnum hrc hr =>
      rw [if_neg hub, if_neg (by simpa using hf), if_pos hnum, if_pos hrc]
      simp only [pure_ok_iff]
      exact hr.symm
    | overshoot hub hf hnum hrc h719 h724 h726 hrec hpost =>
      rw [if_neg hub, if_neg (by simpa using hf), if_pos hnum, if_neg hrc]
      simp only [bind_ok_iff, check_ok_iff, pure_ok_iff]
      exact ⟨(), by simpa using h719, (), by simpa [roll_back, splice_back] using h724, (),
        by simpa [set_step] using h726, r, hrec, (), by simpa using hpost, rfl⟩
    | settled hub hf hnum hr =>
      rw [if_neg hub, if_neg (by simpa using hf), if_neg hnum]
      simp only [bind_ok_iff, check_ok_iff, pure_ok_iff]
      exact ⟨(), by simp, hr.symm⟩


theorem min_time_le (l : List (Item E)) (e : ℚ) :
    min_time l e ≤ e ∧ ∀ x ∈ l, min_time l e ≤ x.time := by
  induction l generalizing e with
  | nil => simp [min_time]
  | cons a l ih =>
    have h := ih (if a.time < e then a.time else e)
    simp only [min_time, List.foldl_cons] at h ⊢
    refine ⟨?_, ?_⟩
    · refine le_trans h.1 ?_
      split_ifs with c
      · exact le_of_lt c
      · exact le_refl _
    · intro x hx
      rcases List.mem_cons.1 hx with rfl | hx
      · refine le_trans h.1 ?_
        split_ifs with c
        · exact le_refl _
        · exact not_lt.1 c
      · exact h.2 x hx

theorem min_time_lt_of_mem (l : List (Item E)) (e : ℚ) (x : Item E) (hx : x ∈ l)
    (hlt : x.time < e) : min_time l e < e :=
  lt_of_le_of_lt ((min_time_le l e).2 x hx) hlt

theorem grow_select_ub_le (q : Queue E) (cand : List (Item E)) :
    (grow_select q cand).1.ub_ ≤ q.end_split_ := by
  simp only [grow_select, end_split]
  split_ifs with c
  · exact le_refl _
  · exact not_lt.1 c

theorem grow_select_front (q : Queue E) (cand : List (Item E)) (hq : q.front_ = []) :
    (grow_select q cand).1.front_ =
      cand.filter (fun x => decide (x.time ≤ (grow_select q cand).1.ub_)) := by
  simp [grow_select, select, hq]

theorem grow_select_cand (q : Queue E) (cand : List (Item E)) :
    (grow_select q cand).2.1 =
      cand.filter (fun x => !decide (x.time ≤ (grow_select q cand).1.ub_)) := by
  simp [grow_select, select]

theorem grow_select_num (q : Queue E) (cand : List (Item E)) (hq : q.front_ = []) :
    (grow_select q cand).2.2 = (grow_select q cand).1.front_.length := by
  simp [grow_select, select, hq]

theorem grow_select_perm (q : Queue E) (cand : List (Item E)) (hq : q.front_ = []) :
    ((grow_select q cand).1.front_ ++ (grow_select q cand).2.1).Perm cand := by
  rw [grow_select_front q cand hq, grow_select_cand]
  exact List.filter_append_perm _ _

theorem grow_select_front_le (q : Queue E) (cand : List (Item E)) (hq : q.front_ = []) :
    ∀ x ∈ (grow_select q cand).1.front_, x.time ≤ (grow_select q cand).1.ub_ := by
  intro x hx
  rw [grow_select_front q cand hq] at hx
  simpa using (List.mem_filter.1 hx).2

theorem grow_select_cand_gt (q : Queue E) (cand : List (Item E)) :
    ∀ x ∈ (grow_select q cand).2.1, (grow_select q cand).1.ub_ < x.time := by
  intro x hx
  rw [grow_select_cand] at hx
  simpa using (List.mem_filter.1 hx).2

theorem grow_select_cand_eq (q : Queue E) (cand : List (Item E)) (hq : q.front_ = [])
    (hf : (grow_select q cand).1.front_ = []) : (grow_select q cand).2.1 = cand := by
  rw [grow_select_front q cand hq] at hf
  rw [grow_select_cand]
  rw [List.filter_eq_self]
  intro x hx
  have := List.filter_eq_nil_iff.1 hf x hx
  simpa using this

@[simp] theorem grow_select_back (q : Queue E) (cand : List (Item E)) :
    (grow_select q cand).1.back_ = q.back_ := rfl
@[simp] theorem grow_select_inf (q : Queue E) (cand : List (Item E)) :
    (grow_select q cand).1.inf_ = q.inf_ := rfl
@[simp] theorem grow_select_step (q : Queue E) (cand : List (Item E)) :
    (grow_select q cand).1.step_ = q.step_ := rfl
@[simp] theorem grow_select_end_time (q : Queue E) (cand : List (Item E)) :
    (grow_select q cand).1.end_time_ = q.end_time_ := rfl
@[simp] theorem grow_select_end_split (q : Queue E) (cand : List (Item E)) :
    (grow_select q cand).1.end_split_ = q.end_split_ := rfl
@[simp] theorem grow_select_null_event (q : Queue E) (cand : List (Item E)) :
    (grow_select q cand).1.null_event_ = q.null_event_ := rfl
@[simp] theorem grow_select_detached (q : Queue E) (cand : List (Item E)) :
    (grow_select q cand).1.detached_ = q.detached_ := rfl
@[simp] theorem grow_select_next_ptr (q : Queue E) (cand : List (Item E)) :
    (grow_select q cand).1.next_ptr_ = q.next_ptr_ := rfl

theorem grown_make_inf (q : Queue E) (cand : List (Item E)) (hq : q.front_ = [])
    (hret : ∀ x ∈ (grow_select q cand).2.1, q.end_split_ ≤ x.time) :
    Grown q cand (make_inf (grow_select q cand).1 (grow_select q cand).2.1) where
  cand_nil := rfl
  end_time_eq := rfl
  end_split_eq := rfl
  null_event_eq := rfl
  detached_eq := rfl
  next_ptr_eq := rfl
  ub_le := grow_select_ub_le q cand
  front_le := grow_select_front_le q cand hq
  parts := by
    refine ⟨[], (grow_select q cand).2.1, rfl, rfl, ?_, hret, ?_⟩
    · simpa [make_inf] using grow_select_perm q cand hq
    · intro f hf x hx
      simp only [List.nil_append] at hx
      exact lt_of_le_of_lt (grow_select_front_le q cand hq f hf) (grow_select_cand_gt q cand x hx)

theorem grown_splice (q : Queue E) (cand : List (Item E)) (hq : q.front_ = []) :
    Grown q cand (splice_back (grow_select q cand).1 (grow_select q cand).2.1, []) where
  cand_nil := rfl
  end_time_eq := rfl
  end_split_eq := rfl
  null_event_eq := rfl
  detached_eq := rfl
  next_ptr_eq := rfl
  ub_le := grow_select_ub_le q cand
  front_le := grow_select_front_le q cand hq
  parts := by
    refine ⟨(grow_select q cand).2.1, [], rfl, by simp [splice_back, set_front], ?_, by simp, ?_⟩
    · simpa [splice_back] using grow_select_perm q cand hq
    · intro f hf x hx
      simp only [List.append_nil] at hx
      exact lt_of_le_of_lt (grow_select_front_le q cand hq f hf) (grow_select_cand_gt q cand x hx)

theorem grow_front_cand_grown {NDEBUG : Bool} (fuel : Nat) :
    ∀ {q : Queue E} {cand : List (Item E)} {rc : Nat} {r : Queue E × List (Item E)},
      q.front_ = [] → grow_front_cand NDEBUG fuel q cand rc = .ok r → Grown q cand r := by
  induction fuel with
  | zero => intro q cand rc r _ h; simp [grow_front_cand] at h
  | succ n ih =>
    intro q cand rc r hq h
    obtain ⟨-, hc⟩ := grow_front_cand_cases.1 h
    cases hc with
    | horizon hub hr =>
      subst hr
      refine grown_make_inf q cand hq ?_
      intro x hx
      have := grow_select_cand_gt q cand x hx
      rw [hub] at this
      exact le_of_lt this
    | jump hub hf hrc hmp hrec hpost =>
      have g := ih (show (jump_to (grow_select q cand).1
        (min_time (grow_select q cand).2.1 (end_split (grow_select q cand).1))).front_ = [] from hf) hrec
      rw [grow_select_cand_eq q cand hq hf] at g
      exact { g with ub_le := g.ub_le }
    | drop_all hub hf hrc hmp hr =>
      subst hr
      refine grown_make_inf q cand hq ?_
      intro x hx
      have h1 := (min_time_le (grow_select q cand).2.1 (end_split (grow_select q cand).1)).2 x hx
      exact le_trans (not_lt.1 hmp) h1
    | undershoot hub hf hrc h702 h704 hrec hpost =>
      have g := ih (show (set_step (grow_select q cand).1
        ((grow_select q cand).1.step_ * 2)).front_ = [] from hf) hrec
      rw [grow_select_cand_eq q cand hq hf] at g
      exact { g with ub_le := g.ub_le }
    | give_up hub hf hnum hrc hr =>
      subst hr
      exact grown_splice q cand hq
    | overshoot hub hf hnum hrc h719 h724 h726 hrec hpost =>
      have g := ih (show (set_step (roll_back (splice_back (grow_select q cand).1
        (grow_select q cand).2.1)) (reduced_step (splice_back (grow_select q cand).1
        (grow_select q cand).2.1) (grow_select q cand).2.2)).front_ = [] from rfl) hrec
      obtain ⟨m, ret, hb, hi, hp, hret, hlt⟩ := g.parts
      refine { cand_nil := g.cand_nil, end_time_eq := g.end_time_eq,
               end_split_eq := g.end_split_eq, null_event_eq := g.null_event_eq,
               detached_eq := g.detached_eq, next_ptr_eq := g.next_ptr_eq,
               ub_le := g.ub_le, front_le := g.front_le, parts := ?_ }
      refine ⟨m ++ (grow_select q cand).2.1, ret, ?_, hi, ?_, hret, ?_⟩
      · simpa [set_step, roll_back, splice_back] using hb
      · have h1 : (r.1.front_ ++ (m ++ ret) ++ (grow_select q cand).2.1).Perm
            ((grow_select q cand).1.front_ ++ (grow_select q cand).2.1) :=
          List.Perm.append_right _ hp
        refine List.Perm.trans ?_ (h1.trans (grow_select_perm q cand hq))
        simp only [List.append_assoc]
        refine List.Perm.append_left _ (List.Perm.append_left _ ?_)
        exact List.perm_append_comm
      · intro f hf' x hx
        rcases List.mem_append.1 hx with hx | hx
        · rcases List.mem_append.1 hx with hx | hx
          · exact hlt f hf' x (List.mem_append_left _ hx)
          · have hfs : f ∈ (grow_select q cand).1.front_ :=
              (hp.subset (List.mem_append_left _ hf'))
            exact lt_of_le_of_lt (grow_select_front_le q cand hq f hfs)
              (grow_select_cand_gt q cand x hx)
        · exact hlt f hf' x (List.mem_append_right _ hx)
    | settled hub hf hnum hr =>
      subst hr
      exact grown_splice q cand hq


/-! ## `grow_front()` -/

theorem mem_set_front {l : List (Item E)} {v : In_list} {x : Item E} :
    x ∈ set_front l v ↔ ∃ y ∈ l, y.set_in_list v = x := by
  simp [set_front]

@[simp] theorem length_set_front (l : List (Item E)) (v : In_list) :
    (set_front l v).length = l.length := by
  simp [set_front]

@[simp] theorem set_in_list_time (x : Item E) (v : In_list) : (x.set_in_list v).time = x.time :=
  rfl

@[simp] theorem set_in_list_ptr (x : Item E) (v : In_list) : (x.set_in_list v).ptr = x.ptr :=
  rfl

@[simp] theorem set_in_list_in_list (x : Item E) (v : In_list) :
    (x.set_in_list v).in_list = some v := rfl

theorem tagged_set_front (l : List (Item E)) (v : In_list) : tagged (set_front l v) v := by
  intro x hx
  obtain ⟨y, -, rfl⟩ := mem_set_front.1 hx
  rfl

theorem sort_perm (l : List (Item E)) : (sort l).Perm l :=
  List.perm_insertionSort _ l

theorem sort_sorted (l : List (Item E)) : (sort l).Sorted (fun a b => a.time ≤ b.time) :=
  List.sorted_insertionSort _ l

theorem grow_front_ok_iff {NDEBUG : Bool} {q q' : Queue E} :
    grow_front NDEBUG q = .ok q' ↔
      (NDEBUG = true ∨ q.back_ ≠ []) ∧ (NDEBUG = true ∨ q.front_ = []) ∧
      ∃ r, grow_front_cand NDEBUG 16 { q with back_ := [] } q.back_ 0 = .ok r ∧
        (NDEBUG = true ∨ q.front_.length + q.back_.length + q.inf_.length =
          (tag_and_sort r.1).front_.length + (tag_and_sort r.1).back_.length +
            (tag_and_sort r.1).inf_.length) ∧
        (NDEBUG = true ∨ audit NDEBUG (tag_and_sort r.1) = .ok true) ∧
        q' = tag_and_sort r.1 := by
  simp only [grow_front, bind_ok_iff, CGAL_precondition, CGAL_assertion, check_ok_iff,
    check_call_ok_iff, pure_ok_iff]
  constructor
  · rintro ⟨_, h1, _, h2, r, hr, _, h3, _, h4, h5⟩
    exact ⟨by simpa using h1, by simpa using h2, r, hr, by simpa using h3, h4, h5.symm⟩
  · rintro ⟨h1, h2, r, hr, h3, h4, h5⟩
    exact ⟨(), by simpa using h1, (), by simpa using h2, r, hr, (), by simpa using h3, (), h4,
      h5.symm⟩

theorem grow_front_grew {NDEBUG : Bool} {q q' : Queue E} (hq : q.front_ = [])
    (h : grow_front NDEBUG q = .ok q') : Grew q q' := by
  obtain ⟨-, -, r, hr, -, -, rfl⟩ := grow_front_ok_iff.1 h
  have g := grow_front_cand_grown 16 (q := { q with back_ := [] }) hq hr
  obtain ⟨m, ret, hb, hi, hp, hret, hlt⟩ := g.parts
  simp only [List.append_nil] at hb
  refine { end_time_eq := g.end_time_eq, end_split_eq := g.end_split_eq,
           null_event_eq := g.null_event_eq, detached_eq := g.detached_eq,
           next_ptr_eq := g.next_ptr_eq, ub_le := g.ub_le, sorted := sort_sorted _,
           front_le := ?_, parts := ?_ }
  · intro x hx
    have hx' : x ∈ set_front r.1.front_ .FRONT := (sort_perm _).subset hx
    obtain ⟨y, hy, rfl⟩ := mem_set_front.1 hx'
    exact g.front_le y hy
  · refine ⟨r.1.front_, ret, sort_perm _, hi, ?_, hret, ?_⟩
    · simpa [tag_and_sort, hb] using hp
    · simpa [tag_and_sort, hb] using hlt

theorem grow_front_cand_keeps_front {NDEBUG : Bool} (fuel : Nat) :
    ∀ {q : Queue E} {cand : List (Item E)} {rc : Nat} {r : Queue E × List (Item E)},
      q.front_ = [] → cand ≠ [] → (q.back_ = [] ∨ ∀ c ∈ cand, c.time < q.end_split_) →
      grow_front_cand NDEBUG fuel q cand rc = .ok r → r.1.front_ ≠ [] ∨ r.1.back_ = [] := by
  induction fuel with
  | zero => intro q cand rc r _ _ _ h; simp [grow_front_cand] at h
  | succ n ih =>
    intro q cand rc r hq hc hb h
    obtain ⟨-, hcase⟩ := grow_front_cand_cases.1 h
    have hall : (∀ c ∈ cand, c.time < q.end_split_) →
        (grow_select q cand).1.ub_ = q.end_split_ → (grow_select q cand).1.front_ ≠ [] := by
      intro hlt hub
      obtain ⟨c, hcm⟩ := List.exists_mem_of_ne_nil _ hc
      rw [grow_select_front q cand hq]
      intro hnil
      have := List.filter_eq_nil_iff.1 hnil c hcm
      rw [hub] at this
      simp at this
      exact absurd (hlt c hcm) (not_lt.2 (le_of_lt this))
    cases hcase with
    | horizon hub hr =>
      subst hr
      rcases hb with hb | hb
      · exact Or.inr hb
      · exact Or.inl (hall hb hub)
    | jump hub hf hrc hmp hrec hpost =>
      refine ih (show (jump_to (grow_select q cand).1
        (min_time (grow_select q cand).2.1 (end_split (grow_select q cand).1))).front_ = [] from hf)
        ?_ ?_ hrec
      · rw [grow_select_cand_eq q cand hq hf]; exact hc
      · rw [grow_select_cand_eq q cand hq hf]; exact hb
    | drop_all hub hf hrc hmp hr =>
      subst hr
      rcases hb with hb | hb
      · exact Or.inr hb
      · exfalso
        obtain ⟨c, hcm⟩ := List.exists_mem_of_ne_nil _ hc
        rw [grow_select_cand_eq q cand hq hf] at hmp
        exact hmp (min_time_lt_of_mem cand _ c hcm (hb c hcm))
    | undershoot hub hf hrc h702 h704 hrec hpost =>
      refine ih (show (set_step (grow_select q cand).1
        ((grow_select q cand).1.step_ * 2)).front_ = [] from hf) ?_ ?_ hrec
      · rw [grow_select_cand_eq q cand hq hf]; exact hc
      · rw [grow_select_cand_eq q cand hq hf]; exact hb
    | give_up hub hf hnum hrc hr =>
      subst hr
      exact Or.inl hf
    | overshoot hub hf hnum hrc h719 h724 h726 hrec hpost =>
      refine ih (show (set_step (roll_back (splice_back (grow_select q cand).1
        (grow_select q cand).2.1)) (reduced_step (splice_back (grow_select q cand).1
        (grow_select q cand).2.1) (grow_select q cand).2.2)).front_ = [] from rfl) hf ?_ hrec
      right
      intro c hcm
      have h1 := grow_select_front_le q cand hq c hcm
      have h2 := grow_select_ub_le q cand
      exact lt_of_le_of_lt h1 (lt_of_le_of_ne h2 hub)
    | settled hub hf hnum hr =>
      subst hr
      exact Or.inl hf

theorem grow_front_keeps_front {NDEBUG : Bool} {q q' : Queue E} (hq : q.front_ = [])
    (hb : q.back_ ≠ []) (h : grow_front NDEBUG q = .ok q') :
    q'.front_ ≠ [] ∨ q'.back_ = [] := by
  obtain ⟨-, -, r, hr, -, -, rfl⟩ := grow_front_ok_iff.1 h
  have := grow_front_cand_keeps_front 16 (q := { q with back_ := [] }) hq hb (Or.inl rfl) hr
  rcases this with h1 | h1
  · left
    intro hnil
    apply h1
    have hl : (tag_and_sort r.1).front_.length = r.1.front_.length := by
      simp [tag_and_sort, (sort_perm _).length_eq]
    rw [hnil] at hl
    exact List.length_eq_zero.1 hl.symm
  · exact Or.inr h1

/-! ## How the operations return -/

@[simp] theorem alloc_front (q : Queue E) : (alloc q).front_ = q.front_ := rfl
@[simp] theorem alloc_back (q : Queue E) : (alloc q).back_ = q.back_ := rfl
@[simp] theorem alloc_inf (q : Queue E) : (alloc q).inf_ = q.inf_ := rfl
@[simp] theorem alloc_ub (q : Queue E) : (alloc q).ub_ = q.ub_ := rfl
@[simp] theorem alloc_step (q : Queue E) : (alloc q).step_ = q.step_ := rfl
@[simp] theorem alloc_end_time (q : Queue E) : (alloc q).end_time_ = q.end_time_ := rfl
@[simp] theorem alloc_end_split (q : Queue E) : (alloc q).end_split_ = q.end_split_ := rfl
@[simp] theorem alloc_null_event (q : Queue E) : (alloc q).null_event_ = q.null_event_ := rfl
@[simp] theorem alloc_detached (q : Queue E) : (alloc q).detached_ = q.detached_ := rfl
@[simp] theorem alloc_next_ptr (q : Queue E) : (alloc q).next_ptr_ = q.next_ptr_ + 1 := rfl

theorem insert_cases {NDEBUG : Bool} {q : Queue E} {t : ℚ} {e : E} {r : Queue E × Key} :
    insert NDEBUG q t e = .ok r ↔ Insert_case NDEBUG q t e r := by
  constructor
  · intro h
    simp only [insert, alloc_ub, alloc_front, alloc_back, end_time, alloc_end_time] at h
    split_ifs at h with c1 c2 c3 c4
    · simp only [bind_ok_iff, pure_ok_iff] at h
      obtain ⟨q', hs, rfl⟩ := h
      exact .front_shrink c1 c2 q' hs rfl
    · simp only [pure_ok_iff] at h
      exact .front c1 c2 h.symm
    · simp only [bind_ok_iff, CGAL_assertion, check_ok_iff, pure_ok_iff] at h
      obtain ⟨_, h336, h⟩ := h
      exact .seed c1 (by simpa using c3) (by simpa using h336) c4 h.symm
    · simp only [bind_ok_iff, CGAL_assertion, check_ok_iff, pure_ok_iff] at h
      obtain ⟨_, h336, h⟩ := h
      exact .retire c1 (by simpa using c3) (by simpa using h336) c4 h.symm
    · simp only [pure_ok_iff] at h
      exact .back c1 (by simpa using c3) h.symm
  · intro hc
    simp only [insert, alloc_ub, alloc_front, alloc_back, end_time, alloc_end_time]
    cases hc with
    | front ht hsize hr =>
      simp only [new_item] at hsize
      rw [if_pos ht, if_neg hsize]
      simp only [pure_ok_iff]
      exact hr.symm
    | front_shrink ht hsize q' hshrink hr =>
      simp only [new_item] at hsize
      rw [if_pos ht, if_pos hsize]
      simp only [bind_ok_iff, pure_ok_iff]
      exact ⟨q', hshrink, hr.symm⟩
    | seed ht hf h336 hend hr =>
      rw [if_neg ht, if_pos (by simp [hf]), if_pos hend]
      simp only [bind_ok_iff, CGAL_assertion, check_ok_iff, pure_ok_iff]
      exact ⟨(), by simpa using h336, hr.symm⟩
    | retire ht hf h336 hend hr =>
      rw [if_neg ht, if_pos (by simp [hf]), if_neg hend]
      simp only [bind_ok_iff, CGAL_assertion, check_ok_iff, pure_ok_iff]
      exact ⟨(), by simpa using h336, hr.symm⟩
    | back ht hf hr =>
      rw [if_neg ht, if_neg (by simpa using hf)]
      simp only [pure_ok_iff]
      exact hr.symm

theorem time_at_of_drop (q : Queue E) {l : List (Item E)} {n : Nat} {x : Item E}
    {rest : List (Item E)} (hx : l.drop n = x :: rest) : time_at q l n = x.time := by
  have h : l.get? n = some x := by
    rw [List.get?_eq_getElem?, ← List.head?_drop, hx]
    rfl
  unfold time_at
  rw [h]

theorem lt_length_of_drop {l : List (Item E)} {n : Nat} {x : Item E}
    {rest : List (Item E)} (hx : l.drop n = x :: rest) : n < l.length := by
  by_contra hn
  rw [List.drop_of_length_le (not_lt.1 hn)] at hx
  cases hx

theorem advance_of_drop {l : List (Item E)} {n : Nat} {x : Item E}
    {rest : List (Item E)} (hx : l.drop n = x :: rest) : advance l x.time n = n := by
  simp [advance, hx]

theorem shrink_front_cases {NDEBUG : Bool} {q q' : Queue E} {x : Item E}
    {rest : List (Item E)} (hx : q.front_.drop (max_front_size q) = x :: rest) :
    shrink_front NDEBUG q = .ok q' ↔ Shrink_case NDEBUG q x q' := by
  have ht := time_at_of_drop q hx
  have hn := lt_length_of_drop hx
  have hadv := advance_of_drop hx
  have htail : shrink_tail NDEBUG (retire_from q 0)
      ((retire_from q 0).front_.length - 1)
      (to_interval (time_at (retire_from q 0) (retire_from q 0).front_
        ((retire_from q 0).front_.length - 1))).2 = .ok (retire_from q 0) := by
    simp [shrink_tail, retire_from, advance, pure, Except.pure]
  have hgive : shrink_tail NDEBUG q (max_front_size q) x.time = .ok q' ↔
      (NDEBUG = true ∨ 0 ≤ q.ub_ - x.time) ∧ q' = give_back q (max_front_size q) x.time := by
    simp only [shrink_tail, hadv]
    rw [if_pos (Nat.ne_of_lt hn)]
    simp only [bind_ok_iff, CGAL_postcondition, check_ok_iff, pure_ok_iff]
    constructor
    · rintro ⟨_, h1, h2⟩
      exact ⟨by simpa [give_back] using h1, h2.symm⟩
    · rintro ⟨h1, h2⟩
      exact ⟨(), by simpa [give_back] using h1, h2.symm⟩
  simp only [shrink_front, ht, to_interval, end_split]
  constructor
  · intro h
    split_ifs at h with c
    · simp only [bind_ok_iff, CGAL_assertion, check_ok_iff] at h
      obtain ⟨_, h764, h⟩ := h
      simp only [to_interval] at htail
      rw [htail] at h
      exact .horizon c (by simpa using h764) (by injection h with h; exact h.symm)
    · obtain ⟨h1, h2⟩ := hgive.1 h
      exact .give_back c h1 h2
  · intro hc
    cases hc with
    | horizon hsplit h764 hr =>
      rw [if_pos hsplit]
      simp only [bind_ok_iff, CGAL_assertion, check_ok_iff]
      refine ⟨(), by simpa using h764, ?_⟩
      simp only [to_interval] at htail
      rw [htail, hr]
    | give_back hsplit h807 hr =>
      rw [if_neg hsplit]
      exact hgive.2 ⟨h807, hr⟩

theorem grow_if_drained_cases {NDEBUG : Bool} {q q' : Queue E}
    (h : grow_if_drained NDEBUG q = .ok q') : Drained_case NDEBUG q q' := by
  simp only [grow_if_drained] at h
  split_ifs at h with c
  · simp only [Bool.and_eq_true, List.isEmpty_iff, Bool.not_eq_true', List.isEmpty_eq_false] at c
    exact .grow c.1 c.2 h
  · simp only [pure_ok_iff] at h
    refine .keep ?_ h.symm
    simp only [Bool.and_eq_true, List.isEmpty_iff, Bool.not_eq_true', List.isEmpty_eq_false,
      not_and, not_not] at c
    by_cases hf : q.front_ = []
    · exact Or.inr (c hf)
    · exact Or.inl hf

theorem erase_cases {NDEBUG : Bool} {q q' : Queue E} {item : Key}
    (h : erase NDEBUG q item = .ok q') : Erase_case NDEBUG q item q' := by
  simp only [erase] at h
  by_cases c : item = end_key q
  · rw [if_pos c] at h
    simp only [pure_ok_iff] at h
    exact .null c h.symm
  · rw [if_neg c] at h
    cases hi : deref q item with
    | none => rw [hi] at h; cases h
    | some i =>
      rw [hi] at h
      simp only at h
      cases htag : i.in_list with
      | none => rw [htag] at h; cases h
      | some tg =>
        rw [htag] at h
        cases tg with
        | FRONT =>
          simp only at h
          by_cases hl : linked q.front_ item = true
          · rw [if_pos hl] at h
            simp only [bind_ok_iff, pure_ok_iff] at h
            obtain ⟨q1, hg, hr⟩ := h
            exact .front c i hi htag hl q1 (grow_if_drained_cases hg) hr.symm
          · rw [if_neg hl] at h
            cases h
        | BACK =>
          simp only at h
          by_cases hl : linked q.back_ item = true
          · rw [if_pos hl] at h
            simp only [pure_ok_iff] at h
            exact .back c i hi htag hl h.symm
          · rw [if_neg hl] at h
            cases h
        | INF =>
          simp only [pure_ok_iff] at h
          exact .inf c i hi htag h.symm

theorem set_cases {NDEBUG : Bool} {q : Queue E} {item : Key} {ne : E} {r : Queue E × Key}
    (h : set NDEBUG q item ne = .ok r) : Set_case NDEBUG q item ne r := by
  simp only [set, bind_ok_iff, CGAL_precondition, check_ok_iff] at h
  obtain ⟨_, -, h⟩ := h
  cases hi : deref q item with
  | none => rw [hi] at h; cases h
  | some oi =>
    rw [hi] at h
    simp only at h
    cases htag : oi.in_list with
    | none => rw [htag] at h; cases h
    | some front =>
      rw [htag] at h
      simp only [alloc_front, alloc_back, alloc_inf] at h
      cases front with
      | FRONT =>
        simp only [ne_eq, reduceCtorEq, not_false_eq_true, if_true] at h
        by_cases hl : linked q.front_ item = true
        · rw [if_pos hl] at h
          simp only [pure_ok_iff] at h
          exact .front oi hi htag hl h.symm
        · rw [if_neg hl] at h
          cases h
      | BACK =>
        simp only [ne_eq, reduceCtorEq, not_false_eq_true, if_true, if_false] at h
        by_cases hl : linked q.back_ item = true
        · rw [if_pos hl] at h
          simp only [pure_ok_iff] at h
          exact .back oi hi htag hl h.symm
        · rw [if_neg hl] at h
          cases h
      | INF =>
        simp only [ne_eq, not_true_eq_false, if_false, bind_ok_iff, CGAL_postcondition,
          check_ok_iff, pure_ok_iff] at h
        obtain ⟨_, h433, h⟩ := h
        exact .inf oi hi htag h433 h.symm

theorem process_front_cases {NDEBUG : Bool} {q : Queue E} {r : Queue E × Option (Item E)}
    (h : process_front NDEBUG q = .ok r) : Process_case NDEBUG q r := by
  simp only [process_front, bind_ok_iff, check_call_ok_iff] at h
  obtain ⟨_, hpre, h⟩ := h
  split at h
  · rename_i i rest hf
    simp only [bind_ok_iff, pure_ok_iff] at h
    obtain ⟨q1, hg, hr⟩ := h
    exact .run i rest hf q1 (grow_if_drained_cases hg) hr.symm
  · rename_i hf
    simp only [bind_ok_iff, CGAL_assertion, check_ok_iff, pure_ok_iff] at h
    obtain ⟨_, -, hr⟩ := h
    rcases hpre with hn | hpre
    · exact .idle hn hf hr.symm
    · exfalso
      simp only [empty, hf, map_ok_iff, bind_ok_iff, CGAL_precondition, check_ok_iff,
        pure_ok_iff] at hpre
      obtain ⟨b, ⟨_, -, hb⟩, hnb⟩ := hpre
      subst hb
      simp at hnb

/-! ## The invariant `Inv` -/

theorem insert_at_perm (l : List (Item E)) (n : Nat) (x : Item E) :
    (insert_at l n x).Perm (x :: l) := by
  unfold insert_at
  have h : (x :: l).Perm (x :: (l.take n ++ l.drop n)) := by rw [List.take_append_drop]
  exact List.perm_middle.trans h.symm

theorem mem_insert_at {l : List (Item E)} {n : Nat} {x y : Item E} :
    y ∈ insert_at l n x ↔ y = x ∨ y ∈ l := by
  rw [(insert_at_perm l n x).mem_iff, List.mem_cons]

@[simp] theorem length_insert_at (l : List (Item E)) (n : Nat) (x : Item E) :
    (insert_at l n x).length = l.length + 1 := by
  rw [(insert_at_perm l n x).length_eq, List.length_cons]

theorem upper_bound_cons (a : Item E) (l : List (Item E)) (ni : Item E) :
    upper_bound (a :: l) ni = if ni.time < a.time then 0 else upper_bound l ni + 1 := by
  unfold upper_bound
  rw [List.takeWhile_cons]
  by_cases h : ni.time < a.time <;> simp [h]

theorem sorted_insert_at_upper_bound (l : List (Item E)) (ni : Item E)
    (hl : l.Sorted (fun a b => a.time ≤ b.time)) :
    (insert_at l (upper_bound l ni) ni).Sorted (fun a b => a.time ≤ b.time) := by
  induction l with
  | nil => simp [insert_at, upper_bound]
  | cons a l ih =>
    rw [upper_bound_cons]
    have hl' := List.sorted_cons.1 hl
    by_cases h : ni.time < a.time
    · rw [if_pos h]
      simp only [insert_at, List.take_zero, List.drop_zero, List.nil_append]
      refine List.sorted_cons.2 ⟨?_, hl⟩
      intro b hb
      rcases List.mem_cons.1 hb with rfl | hb
      · exact le_of_lt h
      · exact le_trans (le_of_lt h) (hl'.1 b hb)
    · rw [if_neg h]
      have : insert_at (a :: l) (upper_bound l ni + 1) ni =
          a :: insert_at l (upper_bound l ni) ni := by
        simp [insert_at]
      rw [this]
      refine List.sorted_cons.2 ⟨?_, ih hl'.2⟩
      intro b hb
      rcases mem_insert_at.1 hb with rfl | hb
      · exact not_lt.1 h
      · exact hl'.1 b hb

@[simp] theorem new_item_time (q : Queue E) (t : ℚ) (e : E) (v : In_list) :
    (new_item q t e v).time = t := rfl

@[simp] theorem new_item_ptr (q : Queue E) (t : ℚ) (e : E) (v : In_list) :
    (new_item q t e v).ptr = q.next_ptr_ := rfl

@[simp] theorem new_item_in_list (q : Queue E) (t : ℚ) (e : E) (v : In_list) :
    (new_item q t e v).in_list = some v := rfl

theorem inv_construct (i s e : ℚ) : Inv (construct (E := E) i s e) where
  sorted := by simp [front_sorted, construct, set_end_priority]
  front_le := by simp [construct, set_end_priority]
  front_tag := by simp [tagged, construct, set_end_priority]
  back_tag := by simp [tagged, construct, set_end_priority]
  inf_tag := by simp [tagged, construct, set_end_priority]

theorem inv_link_front {q : Queue E} (hq : Inv q) (t : ℚ) (e : E) (ht : t ≤ q.ub_) :
    Inv (link_front (alloc q) (new_item q t e .FRONT)) where
  sorted := sorted_insert_at_upper_bound _ _ hq.sorted
  front_le := by
    intro x hx
    rcases mem_insert_at.1 hx with rfl | hx
    · exact ht
    · exact hq.front_le x hx
  front_tag := by
    intro x hx
    rcases mem_insert_at.1 hx with rfl | hx
    · rfl
    · exact hq.front_tag x hx
  back_tag := hq.back_tag
  inf_tag := hq.inf_tag

theorem tagged_append {l₁ l₂ : List (Item E)} {v : In_list} (h₁ : tagged l₁ v)
    (h₂ : tagged l₂ v) : tagged (l₁ ++ l₂) v := by
  intro x hx
  rcases List.mem_append.1 hx with hx | hx
  · exact h₁ x hx
  · exact h₂ x hx

theorem take_le_of_sorted {l : List (Item E)} {n : Nat} {x : Item E} {rest : List (Item E)}
    (hl : l.Sorted (fun a b => a.time ≤ b.time)) (hx : l.drop n = x :: rest) :
    ∀ y ∈ l.take n, y.time ≤ x.time := by
  intro y hy
  have h : l = l.take n ++ x :: rest := by rw [← hx, List.take_append_drop]
  rw [h] at hl
  exact (List.pairwise_append.1 hl).2.2 y hy x (List.mem_cons_self _ _)

theorem inv_shrink {NDEBUG : Bool} {q q' : Queue E} {x : Item E} {rest : List (Item E)}
    (hq : Inv q) (hx : q.front_.drop (max_front_size q) = x :: rest)
    (h : Shrink_case NDEBUG q x q') : Inv q' := by
  cases h with
  | horizon hsplit h764 hr =>
    subst hr
    exact { sorted := by simp [front_sorted, retire_from]
            front_le := by simp [retire_from]
            front_tag := by simp [tagged, retire_from]
            back_tag := hq.back_tag
            inf_tag := tagged_append hq.inf_tag (tagged_set_front _ _) }
  | give_back hsplit h807 hr =>
    subst hr
    exact { sorted := hq.sorted.sublist (List.take_sublist _ _)
            front_le := take_le_of_sorted hq.sorted hx
            front_tag := fun y hy => hq.front_tag y (List.mem_of_mem_take hy)
            back_tag := tagged_append (tagged_set_front _ _) hq.back_tag
            inf_tag := hq.inf_tag }

theorem drop_max_front_size {q : Queue E}
    (h : q.front_.length > 2 * max_front_size q) :
    ∃ x rest, q.front_.drop (max_front_size q) = x :: rest := by
  have hlt : max_front_size q < q.front_.length := by omega
  cases hd : q.front_.drop (max_front_size q) with
  | nil =>
    have := List.drop_eq_nil_iff.1 hd
    omega
  | cons x rest => exact ⟨x, rest, rfl⟩

theorem inv_insert {NDEBUG : Bool} {q : Queue E} {t : ℚ} {e : E} {r : Queue E × Key}
    (hq : Inv q) (h : insert NDEBUG q t e = .ok r) : Inv r.1 := by
  cases insert_cases.1 h with
  | front ht hsize hr =>
    subst hr
    exact inv_link_front hq t e ht
  | front_shrink ht hsize q' hshrink hr =>
    subst hr
    obtain ⟨x, rest, hx⟩ := drop_max_front_size hsize
    exact inv_shrink (inv_link_front hq t e ht) hx ((shrink_front_cases hx).1 hshrink)
  | seed ht hf h336 hend hr =>
    subst hr
    exact { sorted := by simp [front_sorted, seed_front, hf]
            front_le := by
              intro x hx
              simp only [seed_front, alloc_front, hf, List.nil_append, List.mem_singleton] at hx
              subst hx
              exact le_refl t
            front_tag := by simp [tagged, seed_front, hf, new_item]
            back_tag := hq.back_tag
            inf_tag := hq.inf_tag }
  | retire ht hf h336 hend hr =>
    subst hr
    exact { sorted := hq.sorted
            front_le := hq.front_le
            front_tag := hq.front_tag
            back_tag := hq.back_tag
            inf_tag := tagged_append hq.inf_tag (by simp [tagged, new_item]) }
  | back ht hf hr =>
    subst hr
    exact { sorted := hq.sorted
            front_le := hq.front_le
            front_tag := hq.front_tag
            back_tag := tagged_append hq.back_tag (by simp [tagged, new_item])
            inf_tag := hq.inf_tag }

theorem mem_replace_node {l : List (Item E)} {k : Key} {ni x : Item E}
    (h : x ∈ replace_node l k ni) : x = ni ∨ x ∈ l := by
  induction l with
  | nil => simp [replace_node] at h
  | cons a l ih =>
    simp only [replace_node] at h
    split_ifs at h with c
    · rcases List.mem_cons.1 h with h | h
      · exact Or.inl h
      · exact Or.inr (List.mem_cons_of_mem _ h)
    · rcases List.mem_cons.1 h with h | h
      · exact Or.inr (h ▸ List.mem_cons_self _ _)
      · rcases ih h with h | h
        · exact Or.inl h
        · exact Or.inr (List.mem_cons_of_mem _ h)

@[simp] theorem length_replace_node (l : List (Item E)) (k : Key) (ni : Item E) :
    (replace_node l k ni).length = l.length := by
  induction l with
  | nil => rfl
  | cons a l ih =>
    simp only [replace_node]
    split_ifs <;> simp [ih]

theorem replace_node_map_time {l : List (Item E)} {k : Key} {ni oi : Item E}
    (hfind : l.find? (fun x => x.ptr == k) = some oi) (ht : ni.time = oi.time) :
    (replace_node l k ni).map (fun x => x.time) = l.map (fun x => x.time) := by
  induction l with
  | nil => rfl
  | cons a l ih =>
    simp only [replace_node]
    rw [List.find?_cons] at hfind
    by_cases c : (a.ptr == k) = true
    · rw [if_pos c]
      rw [c] at hfind
      simp only [Option.some.injEq] at hfind
      subst hfind
      simp [ht]
    · rw [if_neg c]
      have c' : (a.ptr == k) = false := by simpa using c
      rw [c'] at hfind
      simp [ih hfind]

theorem find_of_linked {l rest : List (Item E)} {k : Key} (hl : linked l k = true) :
    (l ++ rest).find? (fun x => x.ptr == k) = l.find? (fun x => x.ptr == k) := by
  induction l with
  | nil => simp [linked] at hl
  | cons a l ih =>
    rw [List.cons_append, List.find?_cons, List.find?_cons]
    by_cases c : (a.ptr == k) = true
    · rw [c]
    · have c' : (a.ptr == k) = false := by simpa using c
      rw [c']
      apply ih
      simpa [linked, c'] using hl

theorem deref_front {q : Queue E} {k : Key} (hl : linked q.front_ k = true) :
    deref q k = q.front_.find? (fun x => x.ptr == k) := by
  unfold deref
  rw [List.append_assoc, List.append_assoc, List.append_assoc]
  exact find_of_linked hl

theorem sorted_of_map_time_eq {l₁ l₂ : List (Item E)}
    (h : l₁.map (fun x => x.time) = l₂.map (fun x => x.time))
    (hs : l₂.Sorted (fun a b => a.time ≤ b.time)) : l₁.Sorted (fun a b => a.time ≤ b.time) := by
  have h2 : (l₂.map (fun x => x.time)).Sorted (· ≤ ·) := List.pairwise_map.2 hs
  rw [← h] at h2
  exact List.pairwise_map.1 h2

theorem mem_time_of_map_time_eq {l₁ l₂ : List (Item E)}
    (h : l₁.map (fun x => x.time) = l₂.map (fun x => x.time)) {x : Item E} (hx : x ∈ l₁) :
    ∃ y ∈ l₂, y.time = x.time := by
  have : x.time ∈ l₁.map (fun x => x.time) := List.mem_map_of_mem _ hx
  rw [h] at this
  simpa using this

theorem inv_unmake_event {q : Queue E} (hq : Inv q) (i : Item E) : Inv (unmake_event q i) :=
  { sorted := hq.sorted, front_le := hq.front_le, front_tag := hq.front_tag,
    back_tag := hq.back_tag, inf_tag := hq.inf_tag }

theorem inv_set {NDEBUG : Bool} {q : Queue E} {item : Key} {ne : E} {r : Queue E × Key}
    (hq : Inv q) (h : set NDEBUG q item ne = .ok r) : Inv r.1 := by
  cases set_cases h with
  | front oi hi htag hl hr =>
    subst hr
    have hfind : q.front_.find? (fun x => x.ptr == item) = some oi := by
      rw [← deref_front hl]; exact hi
    have hmap : (replace_node q.front_ item (new_item q oi.time ne .FRONT)).map (fun x => x.time)
        = q.front_.map (fun x => x.time) := replace_node_map_time hfind rfl
    refine inv_unmake_event ?_ oi
    exact { sorted := sorted_of_map_time_eq hmap hq.sorted
            front_le := by
              intro x hx
              obtain ⟨y, hy, hyx⟩ := mem_time_of_map_time_eq hmap hx
              rw [← hyx]
              exact hq.front_le y hy
            front_tag := by
              intro x hx
              rcases mem_replace_node hx with rfl | hx
              · rfl
              · exact hq.front_tag x hx
            back_tag := hq.back_tag
            inf_tag := hq.inf_tag }
  | back oi hi htag hl hr =>
    subst hr
    refine inv_unmake_event ?_ oi
    exact { sorted := hq.sorted
            front_le := hq.front_le
            front_tag := hq.front_tag
            back_tag := by
              intro x hx
              rcases mem_replace_node hx with rfl | hx
              · rfl
              · exact hq.back_tag x hx
            inf_tag := hq.inf_tag }
  | inf oi hi htag h433 hr =>
    subst hr
    refine inv_unmake_event ?_ oi
    exact { sorted := hq.sorted
            front_le := hq.front_le
            front_tag := hq.front_tag
            back_tag := hq.back_tag
            inf_tag := by
              intro x hx
              rcases mem_replace_node hx with rfl | hx
              · rfl
              · exact hq.inf_tag x hx }

theorem grew_back_subset {q q' : Queue E} (g : Grew q q') : ∀ x ∈ q'.back_, x ∈ q.back_ := by
  obtain ⟨f, ret, -, -, hp, -, -⟩ := g.parts
  intro x hx
  exact hp.subset (List.mem_append_right _ (List.mem_append_left _ hx))

theorem grew_front_from {q q' : Queue E} (g : Grew q q') :
    ∀ x ∈ q'.front_, ∃ y ∈ q.back_, y.set_in_list .FRONT = x := by
  obtain ⟨f, ret, hf, -, hp, -, -⟩ := g.parts
  intro x hx
  obtain ⟨y, hy, rfl⟩ := mem_set_front.1 (hf.subset hx)
  exact ⟨y, hp.subset (List.mem_append_left _ hy), rfl⟩

theorem grew_front_lt_back {q q' : Queue E} (g : Grew q q') :
    ∀ a ∈ q'.front_, ∀ b ∈ q'.back_, a.time < b.time := by
  obtain ⟨f, ret, hf, -, -, -, hlt⟩ := g.parts
  intro a ha b hb
  obtain ⟨y, hy, rfl⟩ := mem_set_front.1 (hf.subset ha)
  exact hlt y hy b (List.mem_append_left _ hb)

theorem grew_length {q q' : Queue E} (g : Grew q q') :
    q'.front_.length + q'.back_.length + q'.inf_.length = q.back_.length + q.inf_.length := by
  obtain ⟨f, ret, hf, hi, hp, -, -⟩ := g.parts
  have h1 := hf.length_eq
  have h2 := hp.length_eq
  simp only [length_set_front, List.length_append] at h1 h2
  rw [hi, List.length_append, length_set_front]
  omega

theorem inv_grew {q q' : Queue E} (hq : Inv q) (g : Grew q q') : Inv q' where
  sorted := g.sorted
  front_le := g.front_le
  front_tag := by
    intro x hx
    obtain ⟨y, -, rfl⟩ := grew_front_from g x hx
    rfl
  back_tag := fun x hx => hq.back_tag x (grew_back_subset g x hx)
  inf_tag := by
    obtain ⟨f, ret, -, hi, -, -, -⟩ := g.parts
    rw [hi]
    exact tagged_append hq.inf_tag (tagged_set_front _ _)

theorem inv_drained {NDEBUG : Bool} {q q' : Queue E} (hq : Inv q)
    (h : Drained_case NDEBUG q q') : Inv q' := by
  cases h with
  | grow hf hb hg => exact inv_grew hq (grow_front_grew hf hg)
  | keep h hr => subst hr; exact hq

theorem unlink_sublist (l : List (Item E)) (k : Key) : (unlink l k).Sublist l :=
  List.eraseP_sublist l

theorem inv_unlink_front {q : Queue E} (hq : Inv q) (k : Key) : Inv (unlink_front q k) where
  sorted := hq.sorted.sublist (unlink_sublist _ _)
  front_le := fun x hx => hq.front_le x ((unlink_sublist _ _).subset hx)
  front_tag := fun x hx => hq.front_tag x ((unlink_sublist _ _).subset hx)
  back_tag := hq.back_tag
  inf_tag := hq.inf_tag

theorem inv_unlink_back {q : Queue E} (hq : Inv q) (k : Key) : Inv (unlink_back q k) where
  sorted := hq.sorted
  front_le := hq.front_le
  front_tag := hq.front_tag
  back_tag := fun x hx => hq.back_tag x ((unlink_sublist _ _).subset hx)
  inf_tag := hq.inf_tag

theorem inv_pop_front {q : Queue E} (hq : Inv q) : Inv (pop_front q) where
  sorted := hq.sorted.sublist (List.tail_sublist _)
  front_le := fun x hx => hq.front_le x (List.mem_of_mem_tail hx)
  front_tag := fun x hx => hq.front_tag x (List.mem_of_mem_tail hx)
  back_tag := hq.back_tag
  inf_tag := hq.inf_tag

theorem inv_erase {NDEBUG : Bool} {q q' : Queue E} {item : Key} (hq : Inv q)
    (h : erase NDEBUG q item = .ok q') : Inv q' := by
  cases erase_cases h with
  | null hk hr => subst hr; exact hq
  | front hk i hi htag hl q1 hg hr =>
    subst hr
    exact inv_unmake_event (inv_drained (inv_unlink_front hq item) hg) i
  | back hk i hi htag hl hr =>
    subst hr
    exact inv_unmake_event (inv_unlink_back hq item) i
  | inf hk i hi htag hr => subst hr; exact hq

theorem inv_process_front {NDEBUG : Bool} {q : Queue E} {r : Queue E × Option (Item E)}
    (hq : Inv q) (h : process_front NDEBUG q = .ok r) : Inv r.1 := by
  cases process_front_cases h with
  | run i rest hf q1 hg hr =>
    subst hr
    exact inv_unmake_event (inv_drained (inv_pop_front hq) hg) i
  | idle hn hf hr => subst hr; exact hq

theorem inv_clear {q : Queue E} (hq : Inv q) : Inv (clear q) where
  sorted := by simp [front_sorted, clear]
  front_le := by simp [clear]
  front_tag := by simp [tagged, clear]
  back_tag := by simp [tagged, clear]
  inf_tag := hq.inf_tag

theorem inv_apply {NDEBUG : Bool} {q q' : Queue E} {op : Op E} (hq : Inv q)
    (h : op.apply NDEBUG q = .ok q') : Inv q' := by
  cases op with
  | insert t e =>
    obtain ⟨r, hr, rfl⟩ := (map_ok_iff _ _ _).1 h
    exact inv_insert hq hr
  | erase item => exact inv_erase hq h
  | set item ne =>
    obtain ⟨r, hr, rfl⟩ := (map_ok_iff _ _ _).1 h
    exact inv_set hq hr
  | process_front =>
    obtain ⟨r, hr, rfl⟩ := (map_ok_iff _ _ _).1 h
    exact inv_process_front hq hr
  | clear =>
    simp only [Op.apply, pure_ok_iff] at h
    subst h
    exact inv_clear hq

theorem inv_run {NDEBUG : Bool} (ops : List (Op E)) :
    ∀ {q q' : Queue E}, Inv q → run NDEBUG q ops = .ok q' → Inv q' := by
  induction ops with
  | nil =>
    intro q q' hq h
    simp only [run, pure_ok_iff] at h
    subst h
    exact hq
  | cons op ops ih =>
    intro q q' hq h
    simp only [run, bind_ok_iff] at h
    obtain ⟨q1, h1, h2⟩ := h
    exact ih (inv_apply hq h1) h2

/-! ## The invariant `Horizon_inv` -/

theorem horizon_construct (i s e : ℚ) (hse : s ≤ e) : Horizon_inv (construct (E := E) i s e) where
  end_eq := rfl
  ub_le := hse
  i4 := by simp [construct, set_end_priority]

theorem max_front_size_pos (q : Queue E) : 0 < max_front_size q := by
  unfold max_front_size
  exact lt_of_lt_of_le (by decide) (le_max_left 10 _)

theorem horizon_shrink {NDEBUG : Bool} {q q' : Queue E} {x : Item E} {rest : List (Item E)}
    (hq : Inv q) (hh : Horizon_inv q) (hx : q.front_.drop (max_front_size q) = x :: rest)
    (h : Shrink_case NDEBUG q x q') : Horizon_inv q' := by
  have hxm : x ∈ q.front_ := List.mem_of_mem_drop (hx ▸ List.mem_cons_self _ _)
  have hxle : x.time ≤ q.ub_ := hq.front_le x hxm
  cases h with
  | horizon hsplit h764 hr =>
    exact absurd (lt_of_le_of_lt (le_trans hxle hh.ub_le) hsplit) (lt_irrefl _)
  | give_back hsplit h807 hr =>
    subst hr
    refine { end_eq := hh.end_eq, ub_le := le_trans hxle hh.ub_le, i4 := ?_ }
    intro _ hnil
    have hlen : (q.front_.take (max_front_size q)).length = max_front_size q :=
      List.length_take_of_le (le_of_lt (lt_length_of_drop hx))
    have h0 : (give_back q (max_front_size q) x.time).front_.length = 0 := by
      rw [hnil]; rfl
    have hpos := max_front_size_pos q
    simp only [give_back] at h0
    omega

theorem horizon_insert {NDEBUG : Bool} {q : Queue E} {t : ℚ} {e : E} {r : Queue E × Key}
    (hq : Inv q) (hh : Horizon_inv q) (h : insert NDEBUG q t e = .ok r) : Horizon_inv r.1 := by
  have hlink : Horizon_inv (link_front (alloc q) (new_item q t e .FRONT)) :=
    { end_eq := hh.end_eq, ub_le := hh.ub_le
      i4 := by
        intro _ hnil
        have : (link_front (alloc q) (new_item q t e .FRONT)).front_.length = 0 := by
          rw [hnil]; rfl
        simp [link_front] at this }
  cases insert_cases.1 h with
  | front ht hsize hr => subst hr; exact hlink
  | front_shrink ht hsize q' hshrink hr =>
    subst hr
    obtain ⟨x, rest, hx⟩ := drop_max_front_size hsize
    exact horizon_shrink (inv_link_front hq t e ht) hlink hx ((shrink_front_cases hx).1 hshrink)
  | seed ht hf h336 hend hr =>
    subst hr
    exact { end_eq := hh.end_eq
            ub_le := by
              show t ≤ q.end_split_
              rw [← hh.end_eq]
              exact le_of_lt hend
            i4 := by simp [seed_front] }
  | retire ht hf h336 hend hr =>
    subst hr
    exact { end_eq := hh.end_eq, ub_le := hh.ub_le, i4 := hh.i4 }
  | back ht hf hr =>
    subst hr
    exact { end_eq := hh.end_eq, ub_le := hh.ub_le, i4 := fun _ => hf }

theorem horizon_drained {NDEBUG : Bool} {q q' : Queue E}
    (hend : q.end_time_ = q.end_split_) (hub : q.ub_ ≤ q.end_split_)
    (h : Drained_case NDEBUG q q') : Horizon_inv q' := by
  cases h with
  | grow hf hb hg =>
    have g := grow_front_grew hf hg
    refine { end_eq := by rw [g.end_time_eq, g.end_split_eq]; exact hend
             ub_le := by rw [g.end_split_eq]; exact g.ub_le
             i4 := ?_ }
    intro hb'
    rcases grow_front_keeps_front hf hb hg with h1 | h1
    · exact h1
    · exact absurd h1 hb'
  | keep h hr =>
    subst hr
    refine { end_eq := hend, ub_le := hub, i4 := ?_ }
    intro hb
    rcases h with h | h
    · exact h
    · exact absurd h hb

theorem unlink_ne_nil {l : List (Item E)} {k : Key} (h : unlink l k ≠ []) : l ≠ [] := by
  intro hl
  apply h
  rw [hl]
  rfl

theorem horizon_unmake_event {q : Queue E} (hh : Horizon_inv q) (i : Item E) :
    Horizon_inv (unmake_event q i) :=
  { end_eq := hh.end_eq, ub_le := hh.ub_le, i4 := hh.i4 }

theorem horizon_erase {NDEBUG : Bool} {q q' : Queue E} {item : Key} (hh : Horizon_inv q)
    (h : erase NDEBUG q item = .ok q') : Horizon_inv q' := by
  cases erase_cases h with
  | null hk hr => subst hr; exact hh
  | front hk i hi htag hl q1 hg hr =>
    subst hr
    exact horizon_unmake_event
      (horizon_drained (q := unlink_front q item) hh.end_eq hh.ub_le hg) i
  | back hk i hi htag hl hr =>
    subst hr
    exact { end_eq := hh.end_eq, ub_le := hh.ub_le
            i4 := fun hb => hh.i4 (unlink_ne_nil hb) }
  | inf hk i hi htag hr => subst hr; exact hh

theorem replace_node_ne_nil {l : List (Item E)} {k : Key} {ni : Item E} :
    replace_node l k ni ≠ [] ↔ l ≠ [] := by
  rw [← List.length_pos, ← List.length_pos, length_replace_node]

theorem horizon_set {NDEBUG : Bool} {q : Queue E} {item : Key} {ne : E} {r : Queue E × Key}
    (hh : Horizon_inv q) (h : set NDEBUG q item ne = .ok r) : Horizon_inv r.1 := by
  cases set_cases h with
  | front oi hi htag hl hr =>
    subst hr
    exact { end_eq := hh.end_eq, ub_le := hh.ub_le
            i4 := fun hb => replace_node_ne_nil.2 (hh.i4 hb) }
  | back oi hi htag hl hr =>
    subst hr
    exact { end_eq := hh.end_eq, ub_le := hh.ub_le
            i4 := fun hb => hh.i4 (replace_node_ne_nil.1 hb) }
  | inf oi hi htag h433 hr =>
    subst hr
    exact { end_eq := hh.end_eq, ub_le := hh.ub_le, i4 := hh.i4 }

theorem horizon_process_front {NDEBUG : Bool} {q : Queue E} {r : Queue E × Option (Item E)}
    (hh : Horizon_inv q) (h : process_front NDEBUG q = .ok r) : Horizon_inv r.1 := by
  cases process_front_cases h with
  | run i rest hf q1 hg hr =>
    subst hr
    exact horizon_unmake_event (horizon_drained (q := pop_front q) hh.end_eq hh.ub_le hg) i
  | idle hn hf hr => subst hr; exact hh

theorem horizon_clear {q : Queue E} (hh : Horizon_inv q) : Horizon_inv (clear q) :=
  { end_eq := hh.end_eq, ub_le := hh.ub_le, i4 := by simp [clear] }

theorem horizon_apply {NDEBUG : Bool} {q q' : Queue E} {op : Op E} (hq : Inv q)
    (hh : Horizon_inv q) (h : op.apply NDEBUG q = .ok q') : Horizon_inv q' := by
  cases op with
  | insert t e =>
    obtain ⟨r, hr, rfl⟩ := (map_ok_iff _ _ _).1 h
    exact horizon_insert hq hh hr
  | erase item => exact horizon_erase hh h
  | set item ne =>
    obtain ⟨r, hr, rfl⟩ := (map_ok_iff _ _ _).1 h
    exact horizon_set hh hr
  | process_front =>
    obtain ⟨r, hr, rfl⟩ := (map_ok_iff _ _ _).1 h
    exact horizon_process_front hh hr
  | clear =>
    simp only [Op.apply, pure_ok_iff] at h
    subst h
    exact horizon_clear hh

theorem horizon_run {NDEBUG : Bool} (ops : List (Op E)) :
    ∀ {q q' : Queue E}, Inv q → Horizon_inv q → run NDEBUG q ops = .ok q' → Horizon_inv q' := by
  induction ops with
  | nil =>
    intro q q' _ hh h
    simp only [run, pure_ok_iff] at h
    subst h
    exact hh
  | cons op ops ih =>
    intro q q' hq hh h
    simp only [run, bind_ok_iff] at h
    obtain ⟨q1, h1, h2⟩ := h
    exact ih (inv_apply hq h1) (horizon_apply hq hh h1) h2

/-! ## Processing order -/

theorem ins_construct (i s e : ℚ) : Ins_inv (construct (E := E) i s e) where
  back_ge := by simp [construct, set_end_priority]
  end_eq := rfl
  drained := by simp [construct, set_end_priority]

theorem ins_shrink {NDEBUG : Bool} {q q' : Queue E} {x : Item E} {rest : List (Item E)}
    (hq : Inv q) (hi : Ins_inv q) (hx : q.front_.drop (max_front_size q) = x :: rest)
    (h : Shrink_case NDEBUG q x q') : Ins_inv q' := by
  have hxm : x ∈ q.front_ := List.mem_of_mem_drop (hx ▸ List.mem_cons_self _ _)
  have hxle : x.time ≤ q.ub_ := hq.front_le x hxm
  cases h with
  | horizon hsplit h764 hr =>
    subst hr
    exact { back_ge := hi.back_ge, end_eq := hi.end_eq
            drained := fun _ => Or.inr (le_of_lt (lt_of_lt_of_le hsplit hxle)) }
  | give_back hsplit h807 hr =>
    subst hr
    refine { back_ge := ?_, end_eq := hi.end_eq, drained := ?_ }
    · intro b hb
      show x.time ≤ b.time
      rcases List.mem_append.1 hb with hb | hb
      · obtain ⟨y, hy, rfl⟩ := mem_set_front.1 hb
        rw [hx] at hy
        rcases List.mem_cons.1 hy with rfl | hy
        · exact le_refl _
        · have hs : (x :: rest).Sorted (fun a b => a.time ≤ b.time) := by
            rw [← hx]
            exact hq.sorted.sublist (List.drop_sublist _ _)
          exact (List.sorted_cons.1 hs).1 y hy
      · exact le_trans hxle (hi.back_ge b hb)
    · intro hnil
      exfalso
      have hlen : (q.front_.take (max_front_size q)).length = max_front_size q :=
        List.length_take_of_le (le_of_lt (lt_length_of_drop hx))
      have h0 : (give_back q (max_front_size q) x.time).front_.length = 0 := by
        rw [hnil]; rfl
      have hpos := max_front_size_pos q
      simp only [give_back] at h0
      omega

theorem ins_insert {NDEBUG : Bool} {q : Queue E} {t : ℚ} {e : E} {r : Queue E × Key}
    (hq : Inv q) (hi : Ins_inv q) (h : insert NDEBUG q t e = .ok r) : Ins_inv r.1 := by
  have hlink : Ins_inv (link_front (alloc q) (new_item q t e .FRONT)) :=
    { back_ge := hi.back_ge, end_eq := hi.end_eq
      drained := by
        intro hnil
        have : (link_front (alloc q) (new_item q t e .FRONT)).front_.length = 0 := by
          rw [hnil]; rfl
        simp [link_front] at this }
  cases insert_cases.1 h with
  | front ht hsize hr => subst hr; exact hlink
  | front_shrink ht hsize q' hshrink hr =>
    subst hr
    obtain ⟨x, rest, hx⟩ := drop_max_front_size hsize
    exact ins_shrink (inv_link_front hq t e ht) hlink hx ((shrink_front_cases hx).1 hshrink)
  | seed ht hf h336 hend hr =>
    subst hr
    have hb : q.back_ = [] := by
      rcases hi.drained hf with hb | hb
      · exact hb
      · exfalso
        rw [hi.end_eq] at hend
        exact ht (le_of_lt (lt_of_lt_of_le hend hb))
    exact { back_ge := by simp [seed_front, hb]
            end_eq := hi.end_eq
            drained := by simp [seed_front] }
  | retire ht hf h336 hend hr =>
    subst hr
    exact { back_ge := hi.back_ge, end_eq := hi.end_eq, drained := hi.drained }
  | back ht hf hr =>
    subst hr
    refine { back_ge := ?_, end_eq := hi.end_eq, drained := fun h => absurd h hf }
    intro b hb
    rcases List.mem_append.1 hb with hb | hb
    · exact hi.back_ge b hb
    · simp only [List.mem_singleton] at hb
      subst hb
      exact le_of_lt (not_le.1 ht)

theorem ins_run {NDEBUG : Bool} (ins : List (ℚ × E)) :
    ∀ {q q' : Queue E}, Inv q → Ins_inv q →
      run NDEBUG q (ins.map (fun p => Op.insert p.1 p.2)) = .ok q' → Inv q' ∧ Ins_inv q' := by
  induction ins with
  | nil =>
    intro q q' hq hi h
    simp only [List.map_nil, run, pure_ok_iff] at h
    subst h
    exact ⟨hq, hi⟩
  | cons p ins ih =>
    intro q q' hq hi h
    simp only [List.map_cons, run, bind_ok_iff] at h
    obtain ⟨q1, h1, h2⟩ := h
    obtain ⟨r, hr, rfl⟩ := (map_ok_iff _ _ _).1 h1
    exact ih (inv_insert hq hr) (ins_insert hq hi hr) h2

theorem proc_of_ins {q : Queue E} (hq : Inv q) (hi : Ins_inv q) : Proc_inv q where
  sorted := hq.sorted
  front_le_back := fun f hf b hb => le_trans (hq.front_le f hf) (hi.back_ge b hb)

theorem proc_drained {NDEBUG : Bool} {q q' : Queue E} (hp : Proc_inv q)
    (h : Drained_case NDEBUG q q') :
    Proc_inv q' ∧ ∀ x ∈ q'.front_ ++ q'.back_, ∃ y ∈ q.front_ ++ q.back_, y.time = x.time := by
  cases h with
  | grow hf hb hg =>
    have g := grow_front_grew hf hg
    refine ⟨⟨g.sorted, fun a ha b hb => le_of_lt (grew_front_lt_back g a ha b hb)⟩, ?_⟩
    intro x hx
    rcases List.mem_append.1 hx with hx | hx
    · obtain ⟨y, hy, rfl⟩ := grew_front_from g x hx
      exact ⟨y, List.mem_append_right _ hy, rfl⟩
    · exact ⟨x, List.mem_append_right _ (grew_back_subset g x hx), rfl⟩
  | keep h hr =>
    subst hr
    exact ⟨hp, fun x hx => ⟨x, hx, rfl⟩⟩

theorem proc_process_front {NDEBUG : Bool} {q q' : Queue E} {i : Item E} (hp : Proc_inv q)
    (h : process_front NDEBUG q = .ok (q', some i)) :
    Proc_inv q' ∧ i ∈ q.front_ ∧ ∀ x ∈ q'.front_ ++ q'.back_, i.time ≤ x.time := by
  cases process_front_cases h with
  | run j rest hf q1 hg hr =>
    simp only [Prod.mk.injEq, Option.some.injEq] at hr
    obtain ⟨rfl, rfl⟩ := hr
    have hs : (i :: rest).Sorted (fun a b => a.time ≤ b.time) := by
      rw [← hf]; exact hp.sorted
    have hpop : Proc_inv (pop_front q) :=
      { sorted := hp.sorted.sublist (List.tail_sublist _)
        front_le_back := fun f hf' b hb => hp.front_le_back f (List.mem_of_mem_tail hf') b hb }
    obtain ⟨h1, h2⟩ := proc_drained hpop hg
    refine ⟨⟨h1.sorted, h1.front_le_back⟩, by rw [hf]; exact List.mem_cons_self _ _, ?_⟩
    intro x hx
    obtain ⟨y, hy, hyx⟩ := h2 x hx
    rw [← hyx]
    rcases List.mem_append.1 hy with hy | hy
    · have : y ∈ rest := by simpa [pop_front, hf] using hy
      exact (List.sorted_cons.1 hs).1 y this
    · exact hp.front_le_back i (by rw [hf]; exact List.mem_cons_self _ _) y hy
  | idle hn hf hr => cases hr

theorem callback_times_sorted {NDEBUG : Bool} (n : Nat) :
    ∀ {q : Queue E}, Proc_inv q →
      (callback_times NDEBUG n q).Sorted (· ≤ ·) ∧
      ∀ m : ℚ, (∀ x ∈ q.front_ ++ q.back_, m ≤ x.time) →
        ∀ t ∈ callback_times NDEBUG n q, m ≤ t := by
  induction n with
  | zero =>
    intro q _
    simp [callback_times]
  | succ n ih =>
    intro q hp
    unfold callback_times
    cases he : empty NDEBUG q with
    | error e => simp
    | ok b =>
      cases b with
      | true => simp
      | false =>
        simp only
        cases hpf : process_front NDEBUG q with
        | error e => simp
        | ok r =>
          obtain ⟨q', o⟩ := r
          cases o with
          | none => simp
          | some i =>
            simp only
            obtain ⟨hp', hi, hbound⟩ := proc_process_front hp hpf
            obtain ⟨hs, hb⟩ := ih hp'
            refine ⟨List.sorted_cons.2 ⟨hb i.time hbound, hs⟩, ?_⟩
            intro m hm t ht
            rcases List.mem_cons.1 ht with rfl | ht
            · exact hm i (List.mem_append_left _ hi)
            · exact hb m (fun x hx => le_trans (hm i (List.mem_append_left _ hi)) (hbound x hx))
                t ht

theorem insert_then_process_sorted (NDEBUG : Bool) (i s e : ℚ) (ins : List (ℚ × E)) (n : Nat) :
    (insert_then_process NDEBUG i s e ins n).Sorted (· ≤ ·) := by
  unfold insert_then_process
  cases h : run NDEBUG (construct i s e) (ins.map (fun p => Op.insert p.1 p.2)) with
  | error err => simp
  | ok q =>
    obtain ⟨hq, hi⟩ := ins_run ins (inv_construct i s e) (ins_construct i s e) h
    exact (callback_times_sorted n (proc_of_ins hq hi)).1

/-! ## Conservation of records -/

theorem ptr_construct (i s e : ℚ) : Ptr_inv (construct (E := E) i s e) where
  null_lt := by simp [construct, set_end_priority]
  live_gt := by simp [construct, set_end_priority]

theorem ptr_shrink {NDEBUG : Bool} {q q' : Queue E} {x : Item E}
    (hp : Ptr_inv q) (h : Shrink_case NDEBUG q x q') : Ptr_inv q' := by
  cases h with
  | horizon hsplit h764 hr =>
    subst hr
    refine { null_lt := hp.null_lt, live_gt := ?_ }
    intro y hy
    simp only [retire_from, List.take_zero, List.nil_append] at hy
    exact hp.live_gt y (List.mem_append_right _ hy)
  | give_back hsplit h807 hr =>
    subst hr
    refine { null_lt := hp.null_lt, live_gt := ?_ }
    intro y hy
    simp only [give_back, List.mem_append] at hy
    rcases hy with hy | hy | hy
    · exact hp.live_gt y (List.mem_append_left _ (List.mem_of_mem_take hy))
    · obtain ⟨z, hz, rfl⟩ := mem_set_front.1 hy
      exact hp.live_gt z (List.mem_append_left _ (List.mem_of_mem_drop hz))
    · exact hp.live_gt y (List.mem_append_right _ hy)

theorem ptr_link_front {q : Queue E} (hp : Ptr_inv q) (t : ℚ) (e : E) :
    Ptr_inv (link_front (alloc q) (new_item q t e .FRONT)) where
  null_lt := Nat.lt_succ_of_lt hp.null_lt
  live_gt := by
    intro y hy
    simp only [link_front, alloc_front, alloc_back, List.mem_append] at hy
    rcases hy with hy | hy
    · rcases mem_insert_at.1 hy with rfl | hy
      · exact hp.null_lt
      · exact hp.live_gt y (List.mem_append_left _ hy)
    · exact hp.live_gt y (List.mem_append_right _ hy)

theorem ptr_insert {NDEBUG : Bool} {q : Queue E} {t : ℚ} {e : E} {r : Queue E × Key}
    (hp : Ptr_inv q) (h : insert NDEBUG q t e = .ok r) : Ptr_inv r.1 := by
  cases insert_cases.1 h with
  | front ht hsize hr => subst hr; exact ptr_link_front hp t e
  | front_shrink ht hsize q' hshrink hr =>
    subst hr
    obtain ⟨x, rest, hx⟩ := drop_max_front_size hsize
    exact ptr_shrink (ptr_link_front hp t e) ((shrink_front_cases hx).1 hshrink)
  | seed ht hf h336 hend hr =>
    subst hr
    refine { null_lt := Nat.lt_succ_of_lt hp.null_lt, live_gt := ?_ }
    intro y hy
    simp only [seed_front, alloc_front, alloc_back, hf, List.nil_append, List.mem_append,
      List.mem_singleton] at hy
    rcases hy with rfl | hy
    · exact hp.null_lt
    · exact hp.live_gt y (List.mem_append_right _ hy)
  | retire ht hf h336 hend hr =>
    subst hr
    exact { null_lt := Nat.lt_succ_of_lt hp.null_lt, live_gt := hp.live_gt }
  | back ht hf hr =>
    subst hr
    refine { null_lt := Nat.lt_succ_of_lt hp.null_lt, live_gt := ?_ }
    intro y hy
    simp only [link_back, alloc_front, alloc_back, List.mem_append, List.mem_singleton] at hy
    rcases hy with hy | hy | rfl
    · exact hp.live_gt y (List.mem_append_left _ hy)
    · exact hp.live_gt y (List.mem_append_right _ hy)
    · exact hp.null_lt

theorem ptr_drained {NDEBUG : Bool} {q q' : Queue E} (hp : Ptr_inv q)
    (h : Drained_case NDEBUG q q') : Ptr_inv q' := by
  cases h with
  | grow hf hb hg =>
    have g := grow_front_grew hf hg
    refine { null_lt := by rw [g.null_event_eq, g.next_ptr_eq]; exact hp.null_lt
             live_gt := ?_ }
    intro y hy
    rw [g.null_event_eq]
    rcases List.mem_append.1 hy with hy | hy
    · obtain ⟨z, hz, rfl⟩ := grew_front_from g y hy
      exact hp.live_gt z (List.mem_append_right _ hz)
    · exact hp.live_gt y (List.mem_append_right _ (grew_back_subset g y hy))
  | keep h hr => subst hr; exact hp

theorem ptr_sub {q q' : Queue E} (hp : Ptr_inv q) (hn : q'.null_event_ = q.null_event_)
    (hnp : q'.next_ptr_ = q.next_ptr_)
    (hsub : ∀ x ∈ q'.front_ ++ q'.back_, x ∈ q.front_ ++ q.back_) : Ptr_inv q' where
  null_lt := by rw [hn, hnp]; exact hp.null_lt
  live_gt := by
    intro y hy
    rw [hn]
    exact hp.live_gt y (hsub y hy)

theorem ptr_erase {NDEBUG : Bool} {q q' : Queue E} {item : Key} (hp : Ptr_inv q)
    (h : erase NDEBUG q item = .ok q') : Ptr_inv q' := by
  cases erase_cases h with
  | null hk hr => subst hr; exact hp
  | front hk i hi htag hl q1 hg hr =>
    subst hr
    have h1 : Ptr_inv (unlink_front q item) := by
      refine ptr_sub hp rfl rfl ?_
      intro x hx
      rcases List.mem_append.1 hx with hx | hx
      · exact List.mem_append_left _ ((unlink_sublist _ _).subset hx)
      · exact List.mem_append_right _ hx
    exact ptr_sub (ptr_drained h1 hg) rfl rfl (fun x hx => hx)
  | back hk i hi htag hl hr =>
    subst hr
    refine ptr_sub hp rfl rfl ?_
    intro x hx
    rcases List.mem_append.1 hx with hx | hx
    · exact List.mem_append_left _ hx
    · exact List.mem_append_right _ ((unlink_sublist _ _).subset hx)
  | inf hk i hi htag hr => subst hr; exact hp

theorem ptr_process_front {NDEBUG : Bool} {q : Queue E} {r : Queue E × Option (Item E)}
    (hp : Ptr_inv q) (h : process_front NDEBUG q = .ok r) : Ptr_inv r.1 := by
  cases process_front_cases h with
  | run i rest hf q1 hg hr =>
    subst hr
    have h1 : Ptr_inv (pop_front q) := by
      refine ptr_sub hp rfl rfl ?_
      intro x hx
      rcases List.mem_append.1 hx with hx | hx
      · exact List.mem_append_left _ (List.mem_of_mem_tail hx)
      · exact List.mem_append_right _ hx
    exact ptr_sub (ptr_drained h1 hg) rfl rfl (fun x hx => hx)
  | idle hn hf hr => subst hr; exact hp

theorem held_shrink {NDEBUG : Bool} {q q' : Queue E} {x : Item E}
    (h : Shrink_case NDEBUG q x q') : held q' = held q := by
  cases h with
  | horizon hsplit h764 hr =>
    subst hr
    simp only [held, retire_from, List.take_zero, List.drop_zero, List.length_nil,
      List.length_append, length_set_front]
    omega
  | give_back hsplit h807 hr =>
    subst hr
    have := congrArg List.length (List.take_append_drop (max_front_size q) q.front_)
    simp only [List.length_append] at this
    simp only [held, give_back, List.length_append, length_set_front]
    omega

theorem held_insert {NDEBUG : Bool} {q : Queue E} {t : ℚ} {e : E} {r : Queue E × Key}
    (h : insert NDEBUG q t e = .ok r) : held r.1 = held q + 1 := by
  have hlink : held (link_front (alloc q) (new_item q t e .FRONT)) = held q + 1 := by
    simp only [held, link_front, alloc_front, alloc_back, alloc_inf, length_insert_at]
    omega
  cases insert_cases.1 h with
  | front ht hsize hr => subst hr; exact hlink
  | front_shrink ht hsize q' hshrink hr =>
    subst hr
    obtain ⟨x, rest, hx⟩ := drop_max_front_size hsize
    rw [held_shrink ((shrink_front_cases hx).1 hshrink), hlink]
  | seed ht hf h336 hend hr =>
    subst hr
    simp only [held, seed_front, alloc_front, alloc_back, alloc_inf, List.length_append,
      List.length_singleton]
    omega
  | retire ht hf h336 hend hr =>
    subst hr
    simp only [held, record_inf, alloc_front, alloc_back, alloc_inf, List.length_append,
      List.length_singleton]
    omega
  | back ht hf hr =>
    subst hr
    simp only [held, link_back, alloc_front, alloc_back, alloc_inf, List.length_append,
      List.length_singleton]
    omega

theorem held_drained {NDEBUG : Bool} {q q' : Queue E} (h : Drained_case NDEBUG q q') :
    held q' = held q := by
  cases h with
  | grow hf hb hg =>
    have := grew_length (grow_front_grew hf hg)
    simp only [held, hf, List.length_nil]
    omega
  | keep h hr => subst hr; rfl

theorem length_unlink {l : List (Item E)} {k : Key} (h : linked l k = true) :
    (unlink l k).length + 1 = l.length := by
  unfold unlink
  rw [List.length_eraseP]
  unfold linked at h
  rw [if_pos h]
  have : 0 < l.length := by
    cases l with
    | nil => simp at h
    | cons a l => simp
  omega

theorem mem_of_find {l : List (Item E)} {k : Key} {i : Item E}
    (h : l.find? (fun x => x.ptr == k) = some i) : i ∈ l ∧ i.ptr = k := by
  have h1 := List.find?_some h
  exact ⟨List.mem_of_find?_eq_some h, by simpa using h1⟩

theorem deref_of_linked {q : Queue E} {k : Key} {i : Item E}
    (hl : linked (q.front_ ++ q.back_) k = true) (hi : deref q k = some i) :
    i ∈ q.front_ ++ q.back_ ∧ i.ptr = k := by
  unfold deref at hi
  rw [List.append_assoc (q.front_ ++ q.back_), List.append_assoc (q.front_ ++ q.back_),
    find_of_linked hl] at hi
  exact mem_of_find hi

theorem held_erase {NDEBUG : Bool} {q q' : Queue E} {item : Key} (hq : Inv q)
    (hp : Ptr_inv q) (hl : linked (q.front_ ++ q.back_) item = true)
    (h : erase NDEBUG q item = .ok q') : held q' + 1 = held q := by
  cases erase_cases h with
  | null hk hr =>
    exfalso
    obtain ⟨x, hx, hxk⟩ : ∃ x ∈ q.front_ ++ q.back_, x.ptr = item := by
      unfold linked at hl
      obtain ⟨x, hx, hxk⟩ := List.any_eq_true.1 hl
      exact ⟨x, hx, by simpa using hxk⟩
    have := hp.live_gt x hx
    rw [hxk, hk] at this
    exact lt_irrefl _ this
  | front hk i hi htag hlf q1 hg hr =>
    subst hr
    have h1 := held_drained hg
    have h2 := length_unlink hlf
    simp only [held, unmake_event, unlink_front] at h1 ⊢
    omega
  | back hk i hi htag hlb hr =>
    subst hr
    have h2 := length_unlink hlb
    simp only [held, unmake_event, unlink_back]
    omega
  | inf hk i hi htag hr =>
    exfalso
    obtain ⟨him, -⟩ := deref_of_linked hl hi
    rcases List.mem_append.1 him with him | him
    · have := hq.front_tag i him
      rw [htag] at this
      cases this
    · have := hq.back_tag i him
      rw [htag] at this
      cases this

theorem held_process_front {NDEBUG : Bool} {q q' : Queue E} {i : Item E}
    (h : process_front NDEBUG q = .ok (q', some i)) : held q' + 1 = held q := by
  cases process_front_cases h with
  | run j rest hf q1 hg hr =>
    simp only [Prod.mk.injEq, Option.some.injEq] at hr
    obtain ⟨rfl, rfl⟩ := hr
    have h1 := held_drained hg
    simp only [held, unmake_event, pop_front, hf, List.tail_cons, List.length_cons] at h1 ⊢
    omega
  | idle hn hf hr => cases hr

theorem tally_held {NDEBUG : Bool} (ops : List (Op E)) :
    ∀ {q q' : Queue E} {i d : Nat}, Inv q → Ptr_inv q →
      tally NDEBUG q ops = some (q', i, d) → held q' + d = held q + i := by
  induction ops with
  | nil =>
    intro q q' i d _ _ h
    simp only [tally, Option.some.injEq, Prod.mk.injEq] at h
    obtain ⟨rfl, rfl, rfl⟩ := h
    rfl
  | cons op ops ih =>
    intro q q' i d hq hp h
    cases op with
    | insert t e =>
      simp only [tally] at h
      cases hins : insert NDEBUG q t e with
      | error err => rw [hins] at h; cases h
      | ok r =>
        rw [hins] at h
        simp only [Option.map_eq_some', Prod.mk.injEq] at h
        obtain ⟨⟨q2, i2, d2⟩, hs, rfl, rfl, rfl⟩ := h
        have := ih (inv_insert hq hins) (ptr_insert hp hins) hs
        have h2 := held_insert hins
        dsimp only at this h2 ⊢
        omega
    | erase item =>
      simp only [tally] at h
      by_cases hl : linked (q.front_ ++ q.back_) item = true
      · rw [if_pos hl] at h
        cases her : erase NDEBUG q item with
        | error err => rw [her] at h; cases h
        | ok q1 =>
          rw [her] at h
          simp only [Option.map_eq_some', Prod.mk.injEq] at h
          obtain ⟨⟨q2, i2, d2⟩, hs, rfl, rfl, rfl⟩ := h
          have := ih (inv_erase hq her) (ptr_erase hp her) hs
          have h2 := held_erase hq hp hl her
          dsimp only at this h2 ⊢
          omega
      · rw [if_neg hl] at h
        cases h
    | set item ne => simp [tally] at h
    | process_front =>
      simp only [tally] at h
      cases hpf : process_front NDEBUG q with
      | error err => rw [hpf] at h; cases h
      | ok r =>
        obtain ⟨q1, o⟩ := r
        rw [hpf] at h
        cases o with
        | none =>
          simp only at h
          have hq1 : q1 = q := by
            cases process_front_cases hpf with
            | run j rest hf q2 hg hr => cases hr
            | idle hn hf hr =>
              simp only [Prod.mk.injEq, and_true] at hr
              exact hr
          subst hq1
          exact ih hq hp h
        | some x =>
          simp only [Option.map_eq_some', Prod.mk.injEq] at h
          obtain ⟨⟨q2, i2, d2⟩, hs, rfl, rfl, rfl⟩ := h
          have := ih (inv_process_front hq hpf) (ptr_process_front hp hpf) hs
          have h2 := held_process_front hpf
          dsimp only at this h2 ⊢
          omega
    | clear => simp [tally] at h

/-! ## Checks that cannot fail when `start_time <= end_time` -/

theorem insert_ok {NDEBUG : Bool} {q : Queue E} (hq : Inv q) (hh : Horizon_inv q)
    (t : ℚ) (e : E) : ∃ r, insert NDEBUG q t e = .ok r := by
  by_cases ht : t ≤ q.ub_
  · by_cases hsize : (link_front (alloc q) (new_item q t e .FRONT)).front_.length >
        2 * max_front_size (link_front (alloc q) (new_item q t e .FRONT))
    · obtain ⟨x, rest, hx⟩ := drop_max_front_size hsize
      have hq1 := inv_link_front hq t e ht
      have hxm : x ∈ (link_front (alloc q) (new_item q t e .FRONT)).front_ :=
        List.mem_of_mem_drop (hx ▸ List.mem_cons_self _ _)
      have hxle := hq1.front_le x hxm
      have hsplit : ¬ x.time > (link_front (alloc q) (new_item q t e .FRONT)).end_split_ :=
        not_lt.2 (le_trans hxle hh.ub_le)
      have hcase : Shrink_case NDEBUG (link_front (alloc q) (new_item q t e .FRONT)) x
          (give_back (link_front (alloc q) (new_item q t e .FRONT))
            (max_front_size (link_front (alloc q) (new_item q t e .FRONT))) x.time) :=
        .give_back hsplit (Or.inr (sub_nonneg.2 hxle)) rfl
      have hs := (shrink_front_cases hx).2 hcase
      exact ⟨_, insert_cases.2 (.front_shrink ht hsize _ hs rfl)⟩
    · exact ⟨_, insert_cases.2 (.front ht hsize rfl)⟩
  · by_cases hf : q.front_ = []
    · have hb : q.back_ = [] := by
        by_contra hb
        exact hh.i4 hb hf
      by_cases hend : t < q.end_time_
      · exact ⟨_, insert_cases.2 (.seed ht hf (Or.inr hb) hend rfl)⟩
      · exact ⟨_, insert_cases.2 (.retire ht hf (Or.inr hb) hend rfl)⟩
    · exact ⟨_, insert_cases.2 (.back ht hf rfl)⟩

/-! ## I4 with the checks compiled in -/

theorem i4_drained {NDEBUG : Bool} {q q' : Queue E} (h : Drained_case NDEBUG q q') :
    q'.back_ ≠ [] → q'.front_ ≠ [] := by
  cases h with
  | grow hf hb hg =>
    intro hb'
    rcases grow_front_keeps_front hf hb hg with h1 | h1
    · exact h1
    · exact absurd h1 hb'
  | keep h hr =>
    subst hr
    intro hb
    rcases h with h | h
    · exact h
    · exact absurd h hb

theorem i4_insert_checked {q : Queue E} {t : ℚ} {e : E} {r : Queue E × Key}
    (h : insert false q t e = .ok r) : r.1.back_ ≠ [] → r.1.front_ ≠ [] := by
  have hlink : (link_front (alloc q) (new_item q t e .FRONT)).front_ ≠ [] := by
    intro hnil
    have : (link_front (alloc q) (new_item q t e .FRONT)).front_.length = 0 := by
      rw [hnil]; rfl
    simp [link_front] at this
  cases insert_cases.1 h with
  | front ht hsize hr => subst hr; exact fun _ => hlink
  | front_shrink ht hsize q' hshrink hr =>
    subst hr
    obtain ⟨x, rest, hx⟩ := drop_max_front_size hsize
    cases (shrink_front_cases hx).1 hshrink with
    | horizon hsplit h764 hr =>
      subst hr
      intro hb
      rcases h764 with h764 | h764
      · cases h764
      · exact absurd h764 hb
    | give_back hsplit h807 hr =>
      subst hr
      intro _ hnil
      have hlen : ((link_front (alloc q) (new_item q t e .FRONT)).front_.take
          (max_front_size (link_front (alloc q) (new_item q t e .FRONT)))).length =
          max_front_size (link_front (alloc q) (new_item q t e .FRONT)) :=
        List.length_take_of_le (le_of_lt (lt_length_of_drop hx))
      have hpos := max_front_size_pos (link_front (alloc q) (new_item q t e .FRONT))
      simp only [give_back] at hnil
      rw [hnil] at hlen
      simp only [List.length_nil] at hlen
      omega
  | seed ht hf h336 hend hr =>
    subst hr
    intro _
    simp [seed_front]
  | retire ht hf h336 hend hr =>
    subst hr
    intro hb
    rcases h336 with h336 | h336
    · cases h336
    · exact absurd h336 hb
  | back ht hf hr =>
    subst hr
    exact fun _ => hf

theorem i4_apply_checked {q q' : Queue E} {op : Op E}
    (hi : q.back_ ≠ [] → q.front_ ≠ []) (h : op.apply false q = .ok q') :
    q'.back_ ≠ [] → q'.front_ ≠ [] := by
  cases op with
  | insert t e =>
    obtain ⟨r, hr, rfl⟩ := (map_ok_iff _ _ _).1 h
    exact i4_insert_checked hr
  | erase item =>
    cases erase_cases h with
    | null hk hr => subst hr; exact hi
    | front hk i hi' htag hl q1 hg hr =>
      subst hr
      exact fun hb => (i4_drained hg : q1.back_ ≠ [] → q1.front_ ≠ []) hb
    | back hk i hi' htag hl hr =>
      subst hr
      exact fun hb => hi (unlink_ne_nil hb)
    | inf hk i hi' htag hr => subst hr; exact hi
  | set item ne =>
    obtain ⟨r, hr, rfl⟩ := (map_ok_iff _ _ _).1 h
    cases set_cases hr with
    | front oi hi' htag hl hr => subst hr; exact fun hb => replace_node_ne_nil.2 (hi hb)
    | back oi hi' htag hl hr => subst hr; exact fun hb => hi (replace_node_ne_nil.1 hb)
    | inf oi hi' htag h433 hr => subst hr; exact hi
  | process_front =>
    obtain ⟨r, hr, rfl⟩ := (map_ok_iff _ _ _).1 h
    cases process_front_cases hr with
    | run i rest hf q1 hg hr =>
      subst hr
      exact fun hb => (i4_drained hg : q1.back_ ≠ [] → q1.front_ ≠ []) hb
    | idle hn hf hr => subst hr; exact hi
  | clear =>
    simp only [Op.apply, pure_ok_iff] at h
    subst h
    simp [clear]

theorem i4_run_checked (ops : List (Op E)) :
    ∀ {q q' : Queue E}, (q.back_ ≠ [] → q.front_ ≠ []) → run false q ops = .ok q' →
      q'.back_ ≠ [] → q'.front_ ≠ [] := by
  induction ops with
  | nil =>
    intro q q' hi h
    simp only [run, pure_ok_iff] at h
    subst h
    exact hi
  | cons op ops ih =>
    intro q q' hi h
    simp only [run, bind_ok_iff] at h
    obtain ⟨q1, h1, h2⟩ := h
    exact ih (i4_apply_checked hi h1) h2

theorem check_error {n : Bool} {f e : Failure} {c : Bool} (h : check n f c = .error e) :
    e = f ∧ c = false := by
  unfold check at h
  split_ifs at h with hc
  injection h with h
  refine ⟨h.symm, ?_⟩
  cases c
  · rfl
  · simp at hc

theorem shrink_tail_error {NDEBUG : Bool} {q : Queue E} {n : Nat} {s : ℚ} {e : Failure}
    (h : shrink_tail NDEBUG q n s = .error e) : e = .postcondition 807 := by
  unfold shrink_tail at h
  simp only [CGAL_postcondition] at h
  split_ifs at h
  · rcases (bind_error_iff _ _ _).1 h with h | ⟨_, -, h⟩
    · exact (check_error h).1
    · exact absurd h (pure_ne_error _ _)
  · exact absurd h (pure_ne_error _ _)

theorem shrink_front_error {NDEBUG : Bool} {q : Queue E} {e : Failure}
    (h : shrink_front NDEBUG q = .error e) : e = .assertion 764 ∨ e = .postcondition 807 := by
  unfold shrink_front at h
  simp only [CGAL_assertion] at h
  split_ifs at h
  · rcases (bind_error_iff _ _ _).1 h with h | ⟨_, -, h⟩
    · exact Or.inl (check_error h).1
    · exact Or.inr (shrink_tail_error h)
  · exact Or.inr (shrink_tail_error h)

/-- The assertion `back_.empty()` of line 336 does not fail in a state where
`back_` is non-empty only if `front_` is. -/
theorem insert_assertion_holds {NDEBUG : Bool} {q : Queue E}
    (hi : q.back_ ≠ [] → q.front_ ≠ []) (t : ℚ) (e : E) :
    insert NDEBUG q t e ≠ .error (.assertion 336) := by
  intro h
  unfold insert at h
  simp only [CGAL_assertion, alloc_front, alloc_back] at h
  have key : ∀ (k : Unit → Except Failure (Queue E × Key)), q.front_.isEmpty = true →
      (∀ u, k u ≠ .error (.assertion 336)) →
      (check NDEBUG (.assertion 336) q.back_.isEmpty >>= k) ≠ .error (.assertion 336) := by
    intro k c3 hk h
    rcases (bind_error_iff _ _ _).1 h with h | ⟨u, -, h⟩
    · have hb := (check_error h).2
      have hf : q.front_ = [] := by simpa using c3
      have hbn : q.back_ ≠ [] := by
        intro hnil
        rw [hnil] at hb
        simp at hb
      exact hi hbn hf
    · exact hk u h
  split_ifs at h with c1 c2 c3 c4
  · rcases (bind_error_iff _ _ _).1 h with h | ⟨_, -, h⟩
    · rcases shrink_front_error h with h | h <;> cases h
    · exact absurd h (pure_ne_error _ _)
  · exact absurd h (pure_ne_error _ _)
  · exact key _ c3 (fun _ => pure_ne_error _ _) h
  · exact key _ c3 (fun _ => pure_ne_error _ _) h
  · exact absurd h (pure_ne_error _ _)

theorem empty_ok_of_i4 {NDEBUG : Bool} {q : Queue E} (hi : q.back_ ≠ [] → q.front_ ≠ []) :
    empty NDEBUG q = .ok q.front_.isEmpty := by
  have hc : (!q.front_.isEmpty || q.back_.isEmpty) = true := by
    by_cases hb : q.back_ = []
    · simp [hb]
    · have := hi hb
      simp [this]
  simp [empty, CGAL_precondition, check, hc, bind, Except.bind, pure, Except.pure]

/-! ## The depth of the recursion of `grow_front` -/

/-- The only way a call of `grow_front_cand` runs out of depth is through one
of its three recursive calls. -/
theorem out_of_fuel_step {NDEBUG : Bool} {fuel : Nat} {q : Queue E} {cand : List (Item E)}
    {rc : Nat} (h : grow_front_cand NDEBUG (fuel + 1) q cand rc = .error .out_of_fuel) :
    ((grow_select q cand).1.front_ = [] ∧ 10 < rc ∧
      min_time (grow_select q cand).2.1 (end_split (grow_select q cand).1)
        < end_split (grow_select q cand).1 ∧
      grow_front_cand NDEBUG fuel (jump_to (grow_select q cand).1
        (min_time (grow_select q cand).2.1 (end_split (grow_select q cand).1)))
        (grow_select q cand).2.1 (rc + 1) = .error .out_of_fuel) ∨
    (¬ 10 < rc ∧ ∃ (q' : Queue E) (cand' : List (Item E)), q'.front_ = [] ∧
      grow_front_cand NDEBUG fuel q' cand' (rc + 1) = .error .out_of_fuel) := by
  simp only [grow_front_cand, CGAL_assertion, CGAL_postcondition] at h
  have hc : ∀ (l : Nat) (c : Bool), check NDEBUG (.assertion l) c ≠ .error .out_of_fuel :=
    fun l c => check_ne_out_of_fuel _ _ _ (by simp)
  have hp : ∀ (l : Nat) (c : Bool), check NDEBUG (.postcondition l) c ≠ .error .out_of_fuel :=
    fun l c => check_ne_out_of_fuel _ _ _ (by simp)
  rcases (bind_error_iff _ _ _).1 h with h | ⟨_, -, h⟩
  · exact absurd h (hc _ _)
  rcases (bind_error_iff _ _ _).1 h with h | ⟨_, -, h⟩
  · exact absurd h (hc _ _)
  rcases (bind_error_iff _ _ _).1 h with h | ⟨_, -, h⟩
  · exact absurd h (hc _ _)
  split_ifs at h with c1 c2 c3 c4 c5 c6
  · rcases (bind_error_iff _ _ _).1 h with h | ⟨_, -, h⟩
    · exact absurd h (hp _ _)
    · exact absurd h (pure_ne_error _ _)
  · rcases (bind_error_iff _ _ _).1 h with h | ⟨r, -, h⟩
    · exact Or.inl ⟨by simpa using c2, c3, c4, h⟩
    · rcases (bind_error_iff _ _ _).1 h with h | ⟨_, -, h⟩
      · exact absurd h (hp _ _)
      · exact absurd h (pure_ne_error _ _)
  · rcases (bind_error_iff _ _ _).1 h with h | ⟨_, -, h⟩
    · exact absurd h (hp _ _)
    · exact absurd h (pure_ne_error _ _)
  · rcases (bind_error_iff _ _ _).1 h with h | ⟨_, -, h⟩
    · exact absurd h (hc _ _)
    rcases (bind_error_iff _ _ _).1 h with h | ⟨_, -, h⟩
    · exact absurd h (hc _ _)
    rcases (bind_error_iff _ _ _).1 h with h | ⟨r, -, h⟩
    · exact Or.inr ⟨c3, _, _, by simpa [set_step] using c2, h⟩
    · rcases (bind_error_iff _ _ _).1 h with h | ⟨_, -, h⟩
      · exact absurd h (hp _ _)
      · exact absurd h (pure_ne_error _ _)
  · exact absurd h (pure_ne_error _ _)
  · rcases (bind_error_iff _ _ _).1 h with h | ⟨_, -, h⟩
    · exact absurd h (hc _ _)
    rcases (bind_error_iff _ _ _).1 h with h | ⟨_, -, h⟩
    · exact absurd h (hc _ _)
    rcases (bind_error_iff _ _ _).1 h with h | ⟨_, -, h⟩
    · exact absurd h (hc _ _)
    rcases (bind_error_iff _ _ _).1 h with h | ⟨r, -, h⟩
    · exact Or.inr ⟨c6, _, _, rfl, h⟩
    · rcases (bind_error_iff _ _ _).1 h with h | ⟨_, -, h⟩
      · exact absurd h (hp _ _)
      · exact absurd h (pure_ne_error _ _)
  · rcases (bind_error_iff _ _ _).1 h with h | ⟨_, -, h⟩
    · exact absurd h (hp _ _)
    · exact absurd h (pure_ne_error _ _)

theorem min_time_attained (l : List (Item E)) (e : ℚ) (h : min_time l e < e) :
    ∃ x ∈ l, x.time = min_time l e := by
  induction l generalizing e with
  | nil => simp [min_time] at h
  | cons a l ih =>
    simp only [min_time, List.foldl_cons] at h ⊢
    by_cases c : a.time < e
    · rw [if_pos c] at h ⊢
      by_cases c2 : min_time l a.time < a.time
      · obtain ⟨x, hx, hxt⟩ := ih a.time c2
        exact ⟨x, List.mem_cons_of_mem _ hx, hxt⟩
      · refine ⟨a, List.mem_cons_self _ _, ?_⟩
        show a.time = min_time l a.time
        exact le_antisymm (not_lt.1 c2) (min_time_le l a.time).1
    · rw [if_neg c] at h ⊢
      obtain ⟨x, hx, hxt⟩ := ih e h
      exact ⟨x, List.mem_cons_of_mem _ hx, hxt⟩

/-- After the jump of lines 691-693 the recursive call selects at least the
earliest record, so it does not recurse again. -/
theorem jump_selects {q : Queue E} {cand : List (Item E)} (hq : q.front_ = [])
    (hmp : min_time cand (end_split q) < end_split q) :
    (grow_select (jump_to q (min_time cand (end_split q))) cand).1.front_ ≠ [] := by
  obtain ⟨x, hx, hxt⟩ := min_time_attained cand _ hmp
  rw [grow_select_front _ _ (show (jump_to q _).front_ = [] from hq)]
  intro hnil
  have h1 := List.filter_eq_nil_iff.1 hnil x hx
  simp only [decide_eq_true_eq, not_le] at h1
  have h2 : min_time cand (end_split q) ≤
      (grow_select (jump_to q (min_time cand (end_split q))) cand).1.ub_ := by
    simp only [grow_select, jump_to, to_interval, end_split]
    split_ifs with c
    · exact le_of_lt hmp
    · linarith
  rw [hxt] at h1
  exact absurd h1 (not_lt.2 h2)

theorem grow_front_cand_fuel {NDEBUG : Bool} (fuel : Nat) :
    ∀ {q : Queue E} {cand : List (Item E)} {rc : Nat}, q.front_ = [] →
      2 ≤ fuel → 13 ≤ fuel + rc →
      grow_front_cand NDEBUG fuel q cand rc ≠ .error .out_of_fuel := by
  induction fuel with
  | zero => intro q cand rc _ h2 _; omega
  | succ n ih =>
    intro q cand rc hq h2 h13 h
    rcases out_of_fuel_step h with ⟨hf, hrc, hmp, hrec⟩ | ⟨hrc, q', cand', hq', hrec⟩
    · -- the jump: the callee selects a record and returns
      obtain ⟨m, rfl⟩ : ∃ m, n = m + 1 := ⟨n - 1, by omega⟩
      have hsel : (grow_select (jump_to (grow_select q cand).1
          (min_time (grow_select q cand).2.1 (end_split (grow_select q cand).1)))
          (grow_select q cand).2.1).1.front_ ≠ [] := jump_selects hf hmp
      rcases out_of_fuel_step hrec with ⟨hf', -, -, -⟩ | ⟨hrc', -⟩
      · exact hsel hf'
      · omega
    · exact ih hq' (by omega) (by omega) hrec

theorem for_each_ne_out_of_fuel (l : List (Item E)) (f : Item E → Except Failure Unit)
    (hf : ∀ x, f x ≠ .error .out_of_fuel) : for_each l f ≠ .error .out_of_fuel := by
  induction l with
  | nil => exact pure_ne_error _ _
  | cons a l ih =>
    unfold for_each
    intro h
    rcases (bind_error_iff _ _ _).1 h with h | ⟨_, -, h⟩
    · exact hf a h
    · exact ih h

theorem two_checks_ne_out_of_fuel (NDEBUG : Bool) (l₁ l₂ : Nat) (c₁ c₂ : Bool) :
    (do CGAL_assertion NDEBUG l₁ c₁; CGAL_assertion NDEBUG l₂ c₂ : Except Failure Unit)
      ≠ .error .out_of_fuel := by
  intro h
  rcases (bind_error_iff _ _ _).1 h with h | ⟨_, -, h⟩
  · exact check_ne_out_of_fuel _ _ _ (by simp) h
  · exact check_ne_out_of_fuel _ _ _ (by simp) h

theorem audit_ne_out_of_fuel (NDEBUG : Bool) (q : Queue E) :
    audit NDEBUG q ≠ .error .out_of_fuel := by
  intro h
  unfold audit at h
  rcases (bind_error_iff _ _ _).1 h with h | ⟨_, -, h⟩
  · exact for_each_ne_out_of_fuel _ _ (fun _ => two_checks_ne_out_of_fuel _ _ _ _ _) h
  rcases (bind_error_iff _ _ _).1 h with h | ⟨_, -, h⟩
  · exact for_each_ne_out_of_fuel _ _ (fun _ => two_checks_ne_out_of_fuel _ _ _ _ _) h
  rcases (bind_error_iff _ _ _).1 h with h | ⟨_, -, h⟩
  · exact for_each_ne_out_of_fuel _ _ (fun _ => two_checks_ne_out_of_fuel _ _ _ _ _) h
  exact absurd h (pure_ne_error _ _)

/-- The depth 16 given to the recursion by `grow_front()` is never used up. -/
theorem grow_front_has_fuel {NDEBUG : Bool} {q : Queue E} (hq : q.front_ = []) :
    grow_front NDEBUG q ≠ .error .out_of_fuel := by
  intro h
  simp only [grow_front, CGAL_precondition, CGAL_assertion] at h
  have hc : ∀ (f : Failure) (c : Bool), f ≠ .out_of_fuel →
      check NDEBUG f c ≠ .error .out_of_fuel := fun f c hf => check_ne_out_of_fuel _ _ _ hf
  rcases (bind_error_iff _ _ _).1 h with h | ⟨_, -, h⟩
  · exact absurd h (hc _ _ (by simp))
  rcases (bind_error_iff _ _ _).1 h with h | ⟨_, -, h⟩
  · exact absurd h (hc _ _ (by simp))
  rcases (bind_error_iff _ _ _).1 h with h | ⟨r, -, h⟩
  · exact grow_front_cand_fuel 16 (q := { q with back_ := [] }) hq (by decide) (by decide) h
  rcases (bind_error_iff _ _ _).1 h with h | ⟨_, -, h⟩
  · exact absurd h (hc _ _ (by simp))
  rcases (bind_error_iff _ _ _).1 h with h | ⟨_, -, h⟩
  · unfold check_call at h
    split_ifs at h
    split at h
    · split_ifs at h
      cases h
    · rename_i e he
      injection h with h
      subst h
      exact audit_ne_out_of_fuel _ _ he
  · exact absurd h (pure_ne_error _ _)

/-! ## With `NDEBUG` the operations return -/

theorem check_ndebug (f : Failure) (c : Bool) : check true f c = .ok () := rfl

theorem ok_bind {ε α β : Type} (a : α) (f : α → Except ε β) :
    ((Except.ok a : Except ε α) >>= f) = f a := rfl

theorem grow_front_cand_ndebug_error (fuel : Nat) :
    ∀ {q : Queue E} {cand : List (Item E)} {rc : Nat} {e : Failure},
      grow_front_cand true fuel q cand rc = .error e → e = .out_of_fuel := by
  induction fuel with
  | zero =>
    intro q cand rc e h
    simp only [grow_front_cand] at h
    injection h with h
    exact h.symm
  | succ n ih =>
    intro q cand rc e h
    simp only [grow_front_cand, CGAL_assertion, CGAL_postcondition, check_ndebug, ok_bind] at h
    split_ifs at h with c1 c2 c3 c4 c5 c6
    · exact absurd h (pure_ne_error _ _)
    · rcases (bind_error_iff _ _ _).1 h with h | ⟨_, -, h⟩
      · exact ih h
      · exact absurd h (pure_ne_error _ _)
    · exact absurd h (pure_ne_error _ _)
    · rcases (bind_error_iff _ _ _).1 h with h | ⟨_, -, h⟩
      · exact ih h
      · exact absurd h (pure_ne_error _ _)
    · exact absurd h (pure_ne_error _ _)
    · rcases (bind_error_iff _ _ _).1 h with h | ⟨_, -, h⟩
      · exact ih h
      · exact absurd h (pure_ne_error _ _)
    · exact absurd h (pure_ne_error _ _)

theorem grow_front_ndebug_ok {q : Queue E} (hq : q.front_ = []) :
    ∃ q', grow_front true q = .ok q' := by
  cases hr : grow_front_cand true 16 { q with back_ := [] } q.back_ 0 with
  | error e =>
    have := grow_front_cand_ndebug_error 16 hr
    subst this
    exact absurd hr (grow_front_cand_fuel 16 (q := { q with back_ := [] }) hq (by decide)
      (by decide))
  | ok r =>
    refine ⟨tag_and_sort r.1, ?_⟩
    simp [grow_front, CGAL_precondition, CGAL_assertion, check_ndebug, ok_bind, hr, check_call,
      pure, Except.pure]

theorem grow_if_drained_ndebug_ok (q : Queue E) : ∃ q', grow_if_drained true q = .ok q' := by
  unfold grow_if_drained
  split_ifs with c
  · simp only [Bool.and_eq_true, List.isEmpty_iff] at c
    exact grow_front_ndebug_ok c.1
  · exact ⟨q, rfl⟩

/-- With `NDEBUG`, `process_front()` returns in every state. -/
theorem process_front_ndebug_ok (q : Queue E) : ∃ r, process_front true q = .ok r := by
  cases hf : q.front_ with
  | nil =>
    refine ⟨(q, none), ?_⟩
    simp [process_front, check_call, hf, CGAL_assertion, check_ndebug, ok_bind, pure,
      Except.pure]
  | cons i rest =>
    obtain ⟨q1, h1⟩ := grow_if_drained_ndebug_ok (pop_front q)
    refine ⟨(unmake_event q1 i, some i), ?_⟩
    simp [process_front, check_call, hf, ok_bind, h1, pure, Except.pure]

/-- With `NDEBUG`, `insert(t, e)` returns in every state. -/
theorem insert_ndebug_ok (q : Queue E) (t : ℚ) (e : E) : ∃ r, insert true q t e = .ok r := by
  have hs : ∀ q : Queue E, ∃ q', shrink_front true q = .ok q' := by
    intro q
    have ht : ∀ (q : Queue E) (n : Nat) (s : ℚ), ∃ q', shrink_tail true q n s = .ok q' := by
      intro q n s
      unfold shrink_tail
      simp only [CGAL_postcondition, check_ndebug, ok_bind]
      split_ifs
      · exact ⟨_, rfl⟩
      · exact ⟨_, rfl⟩
    unfold shrink_front
    simp only [CGAL_assertion, check_ndebug, ok_bind]
    split_ifs
    · exact ht _ _ _
    · exact ht _ _ _
  unfold insert
  simp only [CGAL_assertion, check_ndebug, ok_bind]
  split_ifs
  · obtain ⟨q', hq'⟩ := hs (link_front (alloc q) ((make_event q t e).set_in_list .FRONT))
    exact ⟨(q', (make_event q t e).ptr), by rw [hq']; rfl⟩
  · exact ⟨_, rfl⟩
  · exact ⟨_, rfl⟩
  · exact ⟨_, rfl⟩
  · exact ⟨_, rfl⟩

/-! ## Records and their addresses -/

theorem untagged_set_in_list (x : Item E) (v : In_list) :
    untagged (x.set_in_list v) = untagged x := rfl

theorem contents_set_front (l : List (Item E)) (v : In_list) :
    contents (set_front l v) = contents l := by
  simp [contents, set_front, List.map_map, Function.comp_def, untagged_set_in_list]

theorem contents_append (l₁ l₂ : List (Item E)) :
    contents (l₁ ++ l₂) = contents l₁ ++ contents l₂ := List.map_append _ _ _

theorem map_ptr_contents (l : List (Item E)) :
    (contents l).map (fun x => x.ptr) = l.map (fun x => x.ptr) := by
  simp [contents, List.map_map, Function.comp_def, untagged]

theorem ptr_perm_of_contents {l₁ l₂ : List (Item E)} (h : (contents l₁).Perm (contents l₂)) :
    (l₁.map (fun x => x.ptr)).Perm (l₂.map (fun x => x.ptr)) := by
  rw [← map_ptr_contents l₁, ← map_ptr_contents l₂]
  exact h.map _

theorem mem_of_contents_perm {l₁ l₂ : List (Item E)} (h : (contents l₁).Perm (contents l₂))
    {x : Item E} (hx : x ∈ l₁) : ∃ y ∈ l₂, untagged y = untagged x := by
  have : untagged x ∈ contents l₂ := h.subset (List.mem_map_of_mem _ hx)
  rcases List.mem_map.1 this with ⟨y, hy, hyx⟩
  exact ⟨y, hy, hyx⟩

theorem live_contents (q : Queue E) :
    contents (live q) = contents q.front_ ++ contents q.back_ ++ contents q.inf_ := by
  simp [live, contents]

/-- Where the record of address `k` sits in a list that links it: the first
record with that address is the one `find?` returns, `unlink` removes and
`replace_node` replaces. -/
theorem split_at_key {l : List (Item E)} {k : Key} (h : linked l k = true) :
    ∃ l₁ x l₂, l = l₁ ++ x :: l₂ ∧ x.ptr = k ∧ (∀ y ∈ l₁, y.ptr ≠ k) ∧
      l.find? (fun x => x.ptr == k) = some x ∧ unlink l k = l₁ ++ l₂ ∧
      ∀ ni, replace_node l k ni = l₁ ++ ni :: l₂ := by
  induction l with
  | nil => simp [linked] at h
  | cons a l ih =>
    by_cases ha : a.ptr = k
    · refine ⟨[], a, l, rfl, ha, by simp, ?_, ?_, ?_⟩
      · simp [ha]
      · simp [unlink, ha]
      · intro ni
        simp [replace_node, ha]
    · have hl : linked l k = true := by
        simpa [linked, ha] using h
      rcases ih hl with ⟨l₁, x, l₂, hl', hx, hl₁, hfind, hun, hrep⟩
      refine ⟨a :: l₁, x, l₂, by simp [hl'], hx, ?_, ?_, ?_, ?_⟩
      · intro y hy
        rcases List.mem_cons.1 hy with rfl | hy
        · exact ha
        · exact hl₁ y hy
      · have hb : (a.ptr == k) = false := by simpa using ha
        simp [List.find?, hb, hfind]
      · have : unlink (a :: l) k = a :: unlink l k := by
          simp [unlink, List.eraseP_cons, ha]
        rw [this, hun]
        rfl
      · intro ni
        simp [replace_node, ha, hrep ni]

theorem not_linked_iff {l : List (Item E)} {k : Key} :
    linked l k = false ↔ k ∉ l.map (fun x => x.ptr) := by
  simp only [linked, List.any_eq_false, List.mem_map, not_exists, not_and, beq_iff_eq]

theorem linked_iff {l : List (Item E)} {k : Key} :
    linked l k = true ↔ k ∈ l.map (fun x => x.ptr) := by
  simp only [linked, List.any_eq_true, List.mem_map, beq_iff_eq]

/-- A successful `grow_front()` keeps the records of `front_`, `back_` and `inf_`. -/
theorem grew_live {q q' : Queue E} (hq : q.front_ = []) (g : Grew q q') :
    (contents (live q')).Perm (contents (live q)) := by
  rcases g.parts with ⟨f, ret, hf, hinf, hperm, -, -⟩
  have h1 : (contents q'.front_).Perm (contents f) := by
    have := hf.map untagged
    rwa [show (set_front f .FRONT).map untagged = contents f from contents_set_front f .FRONT]
      at this
  have h2 : (contents f ++ (contents q'.back_ ++ contents ret)).Perm (contents q.back_) := by
    have := hperm.map untagged
    simpa [contents] using this
  rw [live_contents, live_contents, hq, hinf, contents_append, contents_set_front]
  simp only [contents, List.map_nil, List.nil_append] at h1 h2 ⊢
  refine List.Perm.trans ?_ (h2.append_right _)
  refine List.Perm.trans ((h1.append_right _).append_right _) ?_
  simp only [List.append_assoc]
  refine List.Perm.append_left _ (List.Perm.append_left _ ?_)
  exact List.perm_append_comm

theorem drained_live {NDEBUG : Bool} {q q' : Queue E} (h : Drained_case NDEBUG q q') :
    (contents (live q')).Perm (contents (live q)) ∧ q'.detached_ = q.detached_ ∧
      q'.next_ptr_ = q.next_ptr_ ∧ q'.null_event_ = q.null_event_ := by
  cases h with
  | grow hf hb hg =>
    have g := grow_front_grew hf hg
    exact ⟨grew_live hf g, g.detached_eq, g.next_ptr_eq, g.null_event_eq⟩
  | keep h hr =>
    subst hr
    exact ⟨List.Perm.refl _, rfl, rfl, rfl⟩

theorem shrink_live {NDEBUG : Bool} {q q' : Queue E} {x : Item E}
    (h : Shrink_case NDEBUG q x q') :
    (contents (live q')).Perm (contents (live q)) ∧ q'.detached_ = q.detached_ ∧
      q'.next_ptr_ = q.next_ptr_ ∧ q'.null_event_ = q.null_event_ := by
  cases h with
  | horizon hsplit h764 hr =>
    subst hr
    refine ⟨?_, rfl, rfl, rfl⟩
    rw [live_contents, live_contents]
    simp only [retire_from, List.take_zero, List.drop_zero, contents_append, contents_set_front]
    simp only [contents, List.map_nil, List.nil_append]
    have := @List.perm_append_comm _ (List.map untagged q.back_ ++ List.map untagged q.inf_)
      (List.map untagged q.front_)
    simpa [List.append_assoc] using this
  | give_back hsplit h807 hr =>
    subst hr
    refine ⟨?_, rfl, rfl, rfl⟩
    rw [live_contents, live_contents]
    simp only [give_back, contents_append, contents_set_front]
    refine List.Perm.append_right _ ?_
    rw [← List.append_assoc]
    refine List.Perm.append_right _ ?_
    rw [← contents_append, List.take_append_drop]

theorem perm_snoc_middle (a b c : List (Item E)) (x : Item E) :
    (a ++ (b ++ [x]) ++ c).Perm (x :: (a ++ b ++ c)) := by
  have h : (a ++ (b ++ [x]) ++ c) = (a ++ b) ++ x :: c := by simp
  rw [h]
  exact List.perm_middle

theorem insert_live {NDEBUG : Bool} {q : Queue E} {t : ℚ} {e : E} {r : Queue E × Key}
    (h : insert NDEBUG q t e = .ok r) :
    (contents (live r.1)).Perm (untagged (make_event q t e) :: contents (live q)) ∧
      r.1.detached_ = q.detached_ ∧ r.1.next_ptr_ = q.next_ptr_ + 1 ∧
      r.1.null_event_ = q.null_event_ ∧ r.2 = q.next_ptr_ := by
  have hfront : (contents (live (link_front (alloc q) (new_item q t e .FRONT)))).Perm
      (untagged (make_event q t e) :: contents (live q)) := by
    rw [live_contents, live_contents]
    simp only [link_front, alloc_front, alloc_back, alloc_inf, List.append_assoc]
    have := (insert_at_perm q.front_ (upper_bound q.front_ (new_item q t e .FRONT))
      (new_item q t e .FRONT)).map untagged
    exact (this.append_right _)
  cases insert_cases.1 h with
  | front ht hsize hr =>
    subst hr
    exact ⟨hfront, rfl, rfl, rfl, rfl⟩
  | front_shrink ht hsize q' hshrink hr =>
    subst hr
    obtain ⟨x, rest, hx⟩ := drop_max_front_size hsize
    obtain ⟨h1, h2, h3, h4⟩ := shrink_live ((shrink_front_cases hx).1 hshrink)
    exact ⟨h1.trans hfront, h2, h3, h4, rfl⟩
  | seed ht hf h336 hend hr =>
    subst hr
    refine ⟨?_, rfl, rfl, rfl, rfl⟩
    rw [live_contents, live_contents]
    simp only [seed_front, alloc_front, alloc_back, alloc_inf, hf, contents, List.map_nil,
      List.nil_append, List.map_cons, List.cons_append]
    exact List.Perm.refl _
  | retire ht hf h336 hend hr =>
    subst hr
    refine ⟨?_, rfl, rfl, rfl, rfl⟩
    rw [live_contents, live_contents]
    simp only [record_inf, alloc_front, alloc_back, alloc_inf, contents, List.map_append,
      List.map_cons, List.map_nil]
    rw [← List.append_assoc]
    exact List.perm_append_singleton _ _
  | back ht hf hr =>
    subst hr
    refine ⟨?_, rfl, rfl, rfl, rfl⟩
    rw [live_contents, live_contents]
    simp only [link_back, alloc_front, alloc_back, alloc_inf, contents, List.map_append,
      List.map_cons, List.map_nil]
    exact perm_snoc_middle _ _ _ _

theorem find_of_not_linked {l rest : List (Item E)} {k : Key} (hl : linked l k = false) :
    (l ++ rest).find? (fun x => x.ptr == k) = rest.find? (fun x => x.ptr == k) := by
  induction l with
  | nil => rfl
  | cons a l ih =>
    simp only [linked, List.any_cons, Bool.or_eq_false_iff] at hl
    simp only [List.cons_append, List.find?, hl.1]
    exact ih hl.2

theorem key_inv_disjoint {q : Queue E} (hk : Key_inv q) :
    (q.front_.map (fun x => x.ptr)).Nodup ∧ (q.back_.map (fun x => x.ptr)).Nodup ∧
      (q.inf_.map (fun x => x.ptr)).Nodup ∧
      (∀ k, linked q.front_ k = true → linked q.back_ k = false ∧ linked q.inf_ k = false) ∧
      (∀ k, linked q.back_ k = true → linked q.front_ k = false ∧ linked q.inf_ k = false) ∧
      (∀ k, linked q.inf_ k = true → linked q.front_ k = false ∧ linked q.back_ k = false) := by
  have h := hk.nodup
  simp only [live, List.map_append, List.nodup_append, List.mem_append] at h
  obtain ⟨⟨hf, hb, hfb⟩, hi, hfbi⟩ := h
  have hfb' : ∀ k, k ∈ q.front_.map (fun x => x.ptr) → k ∈ q.back_.map (fun x => x.ptr) → False :=
    fun k h1 h2 => hfb h1 h2
  have hfi : ∀ k, k ∈ q.front_.map (fun x => x.ptr) → k ∈ q.inf_.map (fun x => x.ptr) → False :=
    fun k h1 h2 => hfbi (List.mem_append.2 (Or.inl h1)) h2
  have hbi : ∀ k, k ∈ q.back_.map (fun x => x.ptr) → k ∈ q.inf_.map (fun x => x.ptr) → False :=
    fun k h1 h2 => hfbi (List.mem_append.2 (Or.inr h1)) h2
  refine ⟨hf, hb, hi, ?_, ?_, ?_⟩
  · intro k h1
    rw [linked_iff] at h1
    exact ⟨not_linked_iff.2 (fun h2 => hfb' k h1 h2), not_linked_iff.2 (fun h2 => hfi k h1 h2)⟩
  · intro k h1
    rw [linked_iff] at h1
    exact ⟨not_linked_iff.2 (fun h2 => hfb' k h2 h1), not_linked_iff.2 (fun h2 => hbi k h1 h2)⟩
  · intro k h1
    rw [linked_iff] at h1
    exact ⟨not_linked_iff.2 (fun h2 => hfi k h2 h1), not_linked_iff.2 (fun h2 => hbi k h2 h1)⟩

theorem deref_back {q : Queue E} {k : Key} (hf : linked q.front_ k = false)
    (hb : linked q.back_ k = true) : deref q k = q.back_.find? (fun x => x.ptr == k) := by
  unfold deref
  simp only [List.append_assoc]
  rw [find_of_not_linked hf, find_of_linked hb]

theorem deref_inf {q : Queue E} {k : Key} (hf : linked q.front_ k = false)
    (hb : linked q.back_ k = false) (hi : linked q.inf_ k = true) :
    deref q k = q.inf_.find? (fun x => x.ptr == k) := by
  unfold deref
  simp only [List.append_assoc]
  rw [find_of_not_linked hf, find_of_not_linked hb, find_of_linked hi]

theorem deref_detached {q : Queue E} {k : Key} (hf : linked q.front_ k = false)
    (hb : linked q.back_ k = false) (hi : linked q.inf_ k = false) :
    deref q k = (q.detached_ ++ [q.null_event_]).find? (fun x => x.ptr == k) := by
  unfold deref
  simp only [List.append_assoc]
  rw [find_of_not_linked hf, find_of_not_linked hb, find_of_not_linked hi]

theorem perm_of_split (l₁ l₂ b c : List (Item E)) (x : Item E) :
    (contents (l₁ ++ x :: l₂) ++ contents b ++ contents c).Perm
      (untagged x :: (contents (l₁ ++ l₂) ++ contents b ++ contents c)) := by
  simp only [contents, List.map_append, List.map_cons, List.append_assoc]
  exact List.perm_middle

theorem perm_of_split_back (a l₁ l₂ c : List (Item E)) (x : Item E) :
    (contents a ++ contents (l₁ ++ x :: l₂) ++ contents c).Perm
      (untagged x :: (contents a ++ contents (l₁ ++ l₂) ++ contents c)) := by
  simp only [contents, List.map_append, List.map_cons, List.append_assoc]
  rw [← List.append_assoc, ← List.append_assoc (List.map untagged a)]
  exact List.perm_middle

theorem perm_of_split_inf (a b l₁ l₂ : List (Item E)) (x : Item E) :
    (contents a ++ contents b ++ contents (l₁ ++ x :: l₂)).Perm
      (untagged x :: (contents a ++ contents b ++ contents (l₁ ++ l₂))) := by
  simp only [contents, List.map_append, List.map_cons]
  rw [← List.append_assoc, ← List.append_assoc (List.map untagged a ++ List.map untagged b)]
  exact List.perm_middle

/-- What `erase(item)` does to the records: nothing, or the record `i` that
the key refers to leaves `front_` or `back_` and is released. -/
theorem erase_live {NDEBUG : Bool} {q q' : Queue E} {item : Key} (hk : Key_inv q)
    (h : erase NDEBUG q item = .ok q') :
    q' = q ∨ ∃ i, deref q item = some i ∧ i ∈ q.front_ ++ q.back_ ∧ i.ptr = item ∧
      (contents (live q)).Perm (untagged i :: contents (live q')) ∧
      q'.detached_ = i :: q.detached_ ∧ q'.next_ptr_ = q.next_ptr_ ∧
      q'.null_event_ = q.null_event_ := by
  cases erase_cases h with
  | null hk hr => exact Or.inl hr
  | inf hk i hi htag hr => exact Or.inl hr
  | front hne i hi htag hl q1 hg hr =>
    subst hr
    right
    obtain ⟨l₁, x, l₂, hsplit, hx, -, hfind, hun, -⟩ := split_at_key hl
    have hix : i = x := by
      rw [deref_front hl, hfind] at hi
      exact (Option.some.inj hi).symm
    subst hix
    obtain ⟨h1, h2, h3, h4⟩ := drained_live hg
    refine ⟨i, hi, ?_, hx, ?_, ?_, h3, h4⟩
    · rw [hsplit]
      simp
    · have h5 : (contents (live q)).Perm
          (untagged i :: contents (live (unlink_front q item))) := by
        rw [live_contents, live_contents]
        simp only [unlink_front, hun]
        rw [hsplit]
        exact perm_of_split _ _ _ _ _
      exact h5.trans (List.Perm.cons _ h1.symm)
    · simp only [unmake_event, h2]
      rfl
  | back hne i hi htag hl hr =>
    subst hr
    right
    obtain ⟨l₁, x, l₂, hsplit, hx, -, hfind, hun, -⟩ := split_at_key hl
    have hnf := ((key_inv_disjoint hk).2.2.2.2.1 item hl).1
    have hix : i = x := by
      rw [deref_back hnf hl, hfind] at hi
      exact (Option.some.inj hi).symm
    subst hix
    refine ⟨i, hi, ?_, hx, ?_, rfl, rfl, rfl⟩
    · rw [hsplit]
      simp
    · rw [live_contents, live_contents]
      simp only [unmake_event, unlink_back, hun]
      rw [hsplit]
      exact perm_of_split_back _ _ _ _ _

theorem replace_node_of_not_linked {l : List (Item E)} {k : Key} (ni : Item E)
    (h : linked l k = false) : replace_node l k ni = l := by
  induction l with
  | nil => rfl
  | cons a l ih =>
    simp only [linked, List.any_cons, Bool.or_eq_false_iff] at h
    simp only [replace_node, h.1, Bool.false_eq_true, if_false]
    rw [ih h.2]

theorem deref_mem {q : Queue E} {k : Key} {i : Item E} (h : deref q k = some i) :
    (i ∈ records q ∨ i = q.null_event_) ∧ i.ptr = k := by
  obtain ⟨hm, hp⟩ := mem_of_find h
  refine ⟨?_, hp⟩
  rcases List.mem_append.1 hm with hm | hm
  · exact Or.inl hm
  · exact Or.inr (List.mem_singleton.1 hm)

theorem deref_mem_of_tag {q : Queue E} {k : Key} {i : Item E} {v : In_list} (hk : Key_inv q)
    (h : deref q k = some i) (htag : i.in_list = some v) : i ∈ records q ∧ i.ptr = k := by
  obtain ⟨hm, hp⟩ := deref_mem h
  refine ⟨?_, hp⟩
  rcases hm with hm | hm
  · exact hm
  · rw [hm, hk.null_tag] at htag
    cases htag

/-- What `set(item, ne)` does to the records: the record `oi` that the key
refers to is released, and where it was linked a new record takes its place. -/
theorem set_live {NDEBUG : Bool} {q : Queue E} {item : Key} {ne : E} {r : Queue E × Key}
    (hk : Key_inv q) (h : set NDEBUG q item ne = .ok r) :
    ∃ oi, deref q item = some oi ∧ oi ∈ records q ∧ oi.ptr = item ∧ r.2 = q.next_ptr_ ∧
      r.1.next_ptr_ = q.next_ptr_ + 1 ∧ r.1.null_event_ = q.null_event_ ∧
      r.1.detached_ = oi :: q.detached_ ∧
      (live r.1 = live q ∨
        ∃ rest, (contents (live q)).Perm (untagged oi :: rest) ∧
          (contents (live r.1)).Perm (untagged (make_event q oi.time ne) :: rest)) := by
  cases set_cases h with
  | front oi hi htag hl hr =>
    subst hr
    obtain ⟨hm, hp⟩ := deref_mem_of_tag hk hi htag
    refine ⟨oi, hi, hm, hp, rfl, rfl, rfl, rfl, Or.inr ?_⟩
    obtain ⟨l₁, x, l₂, hsplit, hx, -, hfind, -, hrep⟩ := split_at_key hl
    have hix : oi = x := by
      rw [deref_front hl, hfind] at hi
      exact (Option.some.inj hi).symm
    subst hix
    refine ⟨contents (l₁ ++ l₂) ++ contents q.back_ ++ contents q.inf_, ?_, ?_⟩
    · rw [live_contents, hsplit]
      exact perm_of_split _ _ _ _ _
    · rw [live_contents]
      simp only [unmake_event, replace_front, alloc_front, alloc_back, alloc_inf, hrep]
      exact perm_of_split _ _ _ _ _
  | back oi hi htag hl hr =>
    subst hr
    obtain ⟨hm, hp⟩ := deref_mem_of_tag hk hi htag
    refine ⟨oi, hi, hm, hp, rfl, rfl, rfl, rfl, Or.inr ?_⟩
    obtain ⟨l₁, x, l₂, hsplit, hx, -, hfind, -, hrep⟩ := split_at_key hl
    have hnf := ((key_inv_disjoint hk).2.2.2.2.1 item hl).1
    have hix : oi = x := by
      rw [deref_back hnf hl, hfind] at hi
      exact (Option.some.inj hi).symm
    subst hix
    refine ⟨contents q.front_ ++ contents (l₁ ++ l₂) ++ contents q.inf_, ?_, ?_⟩
    · rw [live_contents, hsplit]
      exact perm_of_split_back _ _ _ _ _
    · rw [live_contents]
      simp only [unmake_event, replace_back, alloc_front, alloc_back, alloc_inf, hrep]
      exact perm_of_split_back _ _ _ _ _
  | inf oi hi htag h433 hr =>
    subst hr
    obtain ⟨hm, hp⟩ := deref_mem_of_tag hk hi htag
    refine ⟨oi, hi, hm, hp, rfl, rfl, rfl, rfl, ?_⟩
    cases hl : linked q.inf_ item with
    | false =>
      left
      simp only [live, unmake_event, replace_inf, alloc_front, alloc_back, alloc_inf,
        replace_node_of_not_linked _ hl]
    | true =>
      right
      obtain ⟨l₁, x, l₂, hsplit, hx, -, hfind, -, hrep⟩ := split_at_key hl
      obtain ⟨hnf, hnb⟩ := (key_inv_disjoint hk).2.2.2.2.2 item hl
      have hix : oi = x := by
        rw [deref_inf hnf hnb hl, hfind] at hi
        exact (Option.some.inj hi).symm
      subst hix
      refine ⟨contents q.front_ ++ contents q.back_ ++ contents (l₁ ++ l₂), ?_, ?_⟩
      · rw [live_contents, hsplit]
        exact perm_of_split_inf _ _ _ _ _
      · rw [live_contents]
        simp only [unmake_event, replace_inf, alloc_front, alloc_back, alloc_inf, hrep]
        exact perm_of_split_inf _ _ _ _ _

/-- What `process_front()` does to the records: nothing, or the first record
of `front_` leaves the list and is released. -/
theorem process_live {NDEBUG : Bool} {q : Queue E} {r : Queue E × Option (Item E)}
    (h : process_front NDEBUG q = .ok r) :
    r = (q, none) ∨ ∃ i rest, q.front_ = i :: rest ∧ r.2 = some i ∧
      (contents (live q)).Perm (untagged i :: contents (live r.1)) ∧
      r.1.detached_ = i :: q.detached_ ∧ r.1.next_ptr_ = q.next_ptr_ ∧
      r.1.null_event_ = q.null_event_ := by
  cases process_front_cases h with
  | idle hn hf hr => exact Or.inl hr
  | run i rest hf q1 hg hr =>
    subst hr
    right
    obtain ⟨h1, h2, h3, h4⟩ := drained_live hg
    refine ⟨i, rest, hf, rfl, ?_, ?_, h3, h4⟩
    · have h5 : (contents (live q)).Perm (untagged i :: contents (live (pop_front q))) := by
        rw [live_contents, live_contents]
        simp only [pop_front, hf, List.tail_cons, contents, List.map_cons, List.cons_append]
        exact List.Perm.refl _
      exact h5.trans (List.Perm.cons _ h1.symm)
    · simp only [unmake_event, h2]
      rfl

theorem mem_contents {l : List (Item E)} {u : Item E} :
    u ∈ contents l ↔ ∃ x ∈ l, untagged x = u := by
  simp [contents]

/-- An exchange of records loses no record. -/
theorem carried_of_exchange {q q' : Queue E} {out inn dets rest : List (Item E)}
    (ex : Exchange q q' out inn dets rest) : Carried q q' where
  null_event_eq := ex.null_event_eq
  next_le := ex.next_le
  kept := by
    intro x hx
    rcases List.mem_append.1 hx with hx | hx
    · have hu : untagged x ∈ contents out ++ rest :=
        ex.taken.subset (mem_contents.2 ⟨x, hx, rfl⟩)
      rcases List.mem_append.1 hu with hu | hu
      · obtain ⟨x', hx', hxx⟩ := mem_contents.1 hu
        refine ⟨x', ?_, hxx⟩
        unfold records
        rw [ex.released]
        exact List.mem_append.2 (Or.inr (List.mem_append.2 (Or.inl (ex.out_sub x' hx'))))
      · have hu' : untagged x ∈ contents (live q') :=
          ex.put.symm.subset (List.mem_append.2 (Or.inr hu))
        obtain ⟨y, hy, hyx⟩ := mem_contents.1 hu'
        exact ⟨y, List.mem_append.2 (Or.inl hy), hyx⟩
    · refine ⟨x, ?_, rfl⟩
      unfold records
      rw [ex.released]
      exact List.mem_append.2 (Or.inr (List.mem_append.2 (Or.inr hx)))
  fresh := by
    intro y hy
    rcases List.mem_append.1 hy with hy | hy
    · have hu : untagged y ∈ contents inn ++ rest :=
        ex.put.subset (mem_contents.2 ⟨y, hy, rfl⟩)
      rcases List.mem_append.1 hu with hu | hu
      · obtain ⟨y', hy', hyy⟩ := mem_contents.1 hu
        right
        have hp : y'.ptr = y.ptr := congrArg (fun z => z.ptr) hyy
        rw [← hp]
        exact ex.inn_new y' hy'
      · have hu' : untagged y ∈ contents (live q) :=
          ex.taken.symm.subset (List.mem_append.2 (Or.inr hu))
        obtain ⟨x, hx, hxy⟩ := mem_contents.1 hu'
        exact Or.inl ⟨x, List.mem_append.2 (Or.inl hx), hxy⟩
    · rw [ex.released] at hy
      rcases List.mem_append.1 hy with hy | hy
      · exact Or.inl ⟨y, ex.dets_mem y hy, rfl⟩
      · exact Or.inl ⟨y, List.mem_append.2 (Or.inr hy), rfl⟩

theorem key_inv_of_exchange {q q' : Queue E} {out inn dets rest : List (Item E)}
    (hk : Key_inv q) (ex : Exchange q q' out inn dets rest) : Key_inv q' where
  nodup := by
    have p1 : ((live q).map (fun x => x.ptr)).Perm
        (out.map (fun x => x.ptr) ++ rest.map (fun x => x.ptr)) := by
      have := ex.taken.map (fun x => x.ptr)
      rwa [map_ptr_contents, List.map_append, map_ptr_contents] at this
    have p2 : ((live q').map (fun x => x.ptr)).Perm
        (inn.map (fun x => x.ptr) ++ rest.map (fun x => x.ptr)) := by
      have := ex.put.map (fun x => x.ptr)
      rwa [map_ptr_contents, List.map_append, map_ptr_contents] at this
    have n1 := (p1.nodup_iff).1 hk.nodup
    rw [p2.nodup_iff]
    rw [List.nodup_append] at n1 ⊢
    refine ⟨ex.inn_nodup, n1.2.1, ?_⟩
    intro p hp1 hp2
    obtain ⟨y, hy, hyp⟩ := List.mem_map.1 hp1
    have hp3 : p ∈ (live q).map (fun x => x.ptr) :=
      p1.symm.subset (List.mem_append.2 (Or.inr hp2))
    obtain ⟨x, hx, hxp⟩ := List.mem_map.1 hp3
    have b1 := (hk.bounds x (List.mem_append.2 (Or.inl hx))).2
    have b2 := (ex.inn_new y hy).1
    have e1 : y.ptr = p := hyp
    have e2 : x.ptr = p := hxp
    omega
  null_lt := by
    rw [ex.null_event_eq]
    exact lt_of_lt_of_le hk.null_lt ex.next_le
  bounds := by
    intro y hy
    rw [ex.null_event_eq]
    rcases (carried_of_exchange ex).fresh y hy with
      ⟨x, hx, hxy⟩ | ⟨h3, h4⟩
    · have hp : x.ptr = y.ptr := congrArg (fun z => z.ptr) hxy
      rw [← hp]
      exact ⟨(hk.bounds x hx).1, lt_of_lt_of_le (hk.bounds x hx).2 ex.next_le⟩
    · exact ⟨lt_of_lt_of_le hk.null_lt h3, h4⟩
  null_tag := by
    rw [ex.null_event_eq]
    exact hk.null_tag

theorem exchange_refl (q : Queue E) : Exchange q q [] [] [] (contents (live q)) where
  null_event_eq := rfl
  next_le := le_refl _
  taken := List.Perm.refl _
  put := List.Perm.refl _
  released := rfl
  dets_mem := by simp
  out_sub := by simp
  inn_new := by simp
  inn_nodup := by simp

theorem exchange_insert {NDEBUG : Bool} {q : Queue E} {t : ℚ} {e : E} {r : Queue E × Key}
    (h : insert NDEBUG q t e = .ok r) :
    Exchange q r.1 [] [make_event q t e] [] (contents (live q)) := by
  obtain ⟨h1, h2, h3, h4, -⟩ := insert_live h
  exact
    { null_event_eq := h4
      next_le := by omega
      taken := List.Perm.refl _
      put := h1
      released := h2
      dets_mem := by simp
      out_sub := by simp
      inn_new := by
        intro y hy
        rw [List.mem_singleton.1 hy, h3]
        simp [make_event]
      inn_nodup := by simp }

theorem exchange_erase {NDEBUG : Bool} {q q' : Queue E} {item : Key} (hk : Key_inv q)
    (h : erase NDEBUG q item = .ok q') :
    ∃ out dets, Exchange q q' out [] dets (contents (live q')) := by
  rcases erase_live hk h with rfl | ⟨i, -, him, -, hp, hd, hn, hnull⟩
  · exact ⟨[], [], exchange_refl _⟩
  · refine ⟨[i], [i], ?_⟩
    exact
      { null_event_eq := hnull
        next_le := le_of_eq hn.symm
        taken := hp
        put := List.Perm.refl _
        released := hd
        dets_mem := by
          intro d hd'
          rw [List.mem_singleton.1 hd']
          unfold records live
          exact List.mem_append.2 (Or.inl (List.mem_append.2 (Or.inl him)))
        out_sub := by simp
        inn_new := by simp
        inn_nodup := by simp }

theorem exchange_set {NDEBUG : Bool} {q : Queue E} {item : Key} {ne : E} {r : Queue E × Key}
    (hk : Key_inv q) (h : set NDEBUG q item ne = .ok r) :
    ∃ out inn dets rest, Exchange q r.1 out inn dets rest := by
  obtain ⟨oi, -, hm, -, -, hn, hnull, hd, hl | ⟨rest, h1, h2⟩⟩ := set_live hk h
  · refine ⟨[], [], [oi], contents (live q), ?_⟩
    exact
      { null_event_eq := hnull
        next_le := by omega
        taken := List.Perm.refl _
        put := by rw [hl]; exact List.Perm.refl _
        released := hd
        dets_mem := by
          intro d hd'
          rw [List.mem_singleton.1 hd']
          exact hm
        out_sub := by simp
        inn_new := by simp
        inn_nodup := by simp }
  · refine ⟨[oi], [make_event q oi.time ne], [oi], rest, ?_⟩
    exact
      { null_event_eq := hnull
        next_le := by omega
        taken := h1
        put := h2
        released := hd
        dets_mem := by
          intro d hd'
          rw [List.mem_singleton.1 hd']
          exact hm
        out_sub := by simp
        inn_new := by
          intro y hy
          rw [List.mem_singleton.1 hy, hn]
          simp [make_event]
        inn_nodup := by simp }

theorem exchange_process_front {NDEBUG : Bool} {q : Queue E}
    {r : Queue E × Option (Item E)} (h : process_front NDEBUG q = .ok r) :
    ∃ out dets, Exchange q r.1 out [] dets (contents (live r.1)) := by
  rcases process_live h with rfl | ⟨i, rest, hf, -, hp, hd, hn, hnull⟩
  · exact ⟨[], [], exchange_refl _⟩
  · refine ⟨[i], [i], ?_⟩
    exact
      { null_event_eq := hnull
        next_le := le_of_eq hn.symm
        taken := hp
        put := List.Perm.refl _
        released := hd
        dets_mem := by
          intro d hd'
          rw [List.mem_singleton.1 hd']
          unfold records live
          rw [hf]
          simp
        out_sub := by simp
        inn_new := by simp
        inn_nodup := by simp }

theorem exchange_clear (q : Queue E) :
    Exchange q (clear q) (q.front_ ++ q.back_) [] (q.front_ ++ q.back_) (contents q.inf_) where
  null_event_eq := rfl
  next_le := le_refl _
  taken := by
    rw [live_contents, contents_append]
  put := by
    rw [live_contents]
    simp [clear, contents]
  released := by simp [clear]
  dets_mem := by
    intro d hd
    unfold records live
    exact List.mem_append.2 (Or.inl (List.mem_append.2 (Or.inl hd)))
  out_sub := fun _ hx => hx
  inn_new := by simp
  inn_nodup := by simp

theorem exchange_apply {NDEBUG : Bool} {q q' : Queue E} {op : Op E} (hk : Key_inv q)
    (h : op.apply NDEBUG q = .ok q') : ∃ out inn dets rest, Exchange q q' out inn dets rest := by
  cases op with
  | insert t e =>
    obtain ⟨r, hr, rfl⟩ := (map_ok_iff _ _ _).1 h
    exact ⟨_, _, _, _, exchange_insert hr⟩
  | erase item =>
    obtain ⟨out, dets, hx⟩ := exchange_erase hk h
    exact ⟨_, _, _, _, hx⟩
  | set item ne =>
    obtain ⟨r, hr, rfl⟩ := (map_ok_iff _ _ _).1 h
    exact exchange_set hk hr
  | process_front =>
    obtain ⟨r, hr, rfl⟩ := (map_ok_iff _ _ _).1 h
    obtain ⟨out, dets, hx⟩ := exchange_process_front hr
    exact ⟨_, _, _, _, hx⟩
  | clear =>
    have : clear q = q' := (pure_ok_iff _ _).1 h
    subst this
    exact ⟨_, _, _, _, exchange_clear q⟩

theorem key_inv_construct (i s e : ℚ) : Key_inv (construct (E := E) i s e) where
  nodup := by simp [live, construct, set_end_priority]
  null_lt := by simp [construct, set_end_priority]
  bounds := by simp [records, live, construct, set_end_priority]
  null_tag := rfl

theorem key_inv_apply {NDEBUG : Bool} {q q' : Queue E} {op : Op E} (hk : Key_inv q)
    (h : op.apply NDEBUG q = .ok q') : Key_inv q' := by
  obtain ⟨out, inn, dets, rest, hx⟩ := exchange_apply hk h
  exact key_inv_of_exchange hk hx

theorem key_inv_run {NDEBUG : Bool} (ops : List (Op E)) :
    ∀ {q q' : Queue E}, Key_inv q → run NDEBUG q ops = .ok q' → Key_inv q' := by
  induction ops with
  | nil =>
    intro q q' hk h
    have : q = q' := (pure_ok_iff _ _).1 h
    subst this
    exact hk
  | cons op ops ih =>
    intro q q' hk h
    obtain ⟨q1, h1, h2⟩ := (bind_ok_iff _ _ _).1 h
    exact ih (key_inv_apply hk h1) h2

theorem carried_refl (q : Queue E) : Carried q q :=
  carried_of_exchange (exchange_refl q)

theorem carried_trans {q₁ q₂ q₃ : Queue E} (h₁ : Carried q₁ q₂) (h₂ : Carried q₂ q₃) :
    Carried q₁ q₃ where
  null_event_eq := h₂.null_event_eq.trans h₁.null_event_eq
  next_le := le_trans h₁.next_le h₂.next_le
  kept := by
    intro x hx
    obtain ⟨y, hy, hyx⟩ := h₁.kept x hx
    obtain ⟨z, hz, hzy⟩ := h₂.kept y hy
    exact ⟨z, hz, hzy.trans hyx⟩
  fresh := by
    intro z hz
    rcases h₂.fresh z hz with ⟨y, hy, hyz⟩ | ⟨h3, h4⟩
    · rcases h₁.fresh y hy with ⟨x, hx, hxy⟩ | ⟨h5, h6⟩
      · exact Or.inl ⟨x, hx, hxy.trans hyz⟩
      · have hp : y.ptr = z.ptr := congrArg (fun u => u.ptr) hyz
        right
        rw [← hp]
        exact ⟨h5, lt_of_lt_of_le h6 h₂.next_le⟩
    · exact Or.inr ⟨le_trans h₁.next_le h3, h4⟩

theorem carried_run {NDEBUG : Bool} (ops : List (Op E)) :
    ∀ {q q' : Queue E}, Key_inv q → run NDEBUG q ops = .ok q' → Carried q q' := by
  induction ops with
  | nil =>
    intro q q' _ h
    have : q = q' := (pure_ok_iff _ _).1 h
    subst this
    exact carried_refl q
  | cons op ops ih =>
    intro q q' hk h
    obtain ⟨q1, h1, h2⟩ := (bind_ok_iff _ _ _).1 h
    obtain ⟨out, inn, dets, rest, hx⟩ := exchange_apply hk h1
    exact carried_trans (carried_of_exchange hx) (ih (key_inv_of_exchange hk hx) h2)

/-! ## What a key refers to -/

theorem deref_of_mem {q : Queue E} {k : Key} (h : ∃ x ∈ records q, x.ptr = k) :
    ∃ x ∈ records q, x.ptr = k ∧ deref q k = some x := by
  have hl : linked (records q) k = true := by
    obtain ⟨x, hx, hk⟩ := h
    exact linked_iff.2 (List.mem_map.2 ⟨x, hx, hk⟩)
  obtain ⟨l₁, x, l₂, hsplit, hx, -, hfind, -, -⟩ := split_at_key hl
  refine ⟨x, ?_, hx, ?_⟩
  · rw [hsplit]
    simp
  · have : deref q k = (records q ++ [q.null_event_]).find? (fun x => x.ptr == k) := rfl
    rw [this, find_of_linked hl, hfind]

theorem priority_of_stored {q : Queue E} {k : Key} {t : ℚ} (hs : Stored q k t) :
    priority q k = .ok t := by
  obtain ⟨x, hx, hk, hd⟩ := deref_of_mem hs.mem
  simp only [priority, hd]
  rw [hs.time_eq x hx hk]
  rfl

theorem stored_of_carried {q q' : Queue E} {k : Key} {t : ℚ} (hs : Stored q k t)
    (hc : Carried q q') : Stored q' k t where
  lt := lt_of_lt_of_le hs.lt hc.next_le
  mem := by
    obtain ⟨x, hx, hk⟩ := hs.mem
    obtain ⟨y, hy, hyx⟩ := hc.kept x hx
    refine ⟨y, hy, ?_⟩
    have hp : y.ptr = x.ptr := congrArg (fun u => u.ptr) hyx
    rw [hp, hk]
  time_eq := by
    intro y hy hk
    rcases hc.fresh y hy with ⟨x, hx, hxy⟩ | ⟨h1, -⟩
    · have hp : x.ptr = y.ptr := congrArg (fun u => u.ptr) hxy
      have ht : x.time = y.time := congrArg (fun u => u.time) hxy
      rw [← ht]
      exact hs.time_eq x hx (hp.trans hk)
    · exact absurd (lt_of_le_of_lt (hk ▸ h1) hs.lt) (lt_irrefl _)

/-- The key returned by `insert(t, e)` refers to a record of time `t`. -/
theorem stored_insert {NDEBUG : Bool} {q : Queue E} {t : ℚ} {e : E} {r : Queue E × Key}
    (hk : Key_inv q) (h : insert NDEBUG q t e = .ok r) : Stored r.1 r.2 t := by
  obtain ⟨h1, h2, h3, h4, h5⟩ := insert_live h
  have hnew : ∀ y ∈ records r.1, y.ptr = q.next_ptr_ →
      untagged y = untagged (make_event q t e) := by
    intro y hy hp
    rcases List.mem_append.1 hy with hy | hy
    · have hu : untagged y ∈ untagged (make_event q t e) :: contents (live q) :=
        h1.subset (mem_contents.2 ⟨y, hy, rfl⟩)
      rcases List.mem_cons.1 hu with hu | hu
      · exact hu
      · obtain ⟨x, hx, hxy⟩ := mem_contents.1 hu
        have hp' : x.ptr = y.ptr := congrArg (fun u => u.ptr) hxy
        have := (hk.bounds x (List.mem_append.2 (Or.inl hx))).2
        omega
    · rw [h2] at hy
      have := (hk.bounds y (List.mem_append.2 (Or.inr hy))).2
      omega
  refine ⟨by rw [h5, h3]; exact Nat.lt_succ_self _, ?_, ?_⟩
  · have hu : untagged (make_event q t e) ∈ contents (live r.1) :=
      h1.symm.subset (List.mem_cons_self _ _)
    obtain ⟨y, hy, hyx⟩ := mem_contents.1 hu
    refine ⟨y, List.mem_append.2 (Or.inl hy), ?_⟩
    have hp : y.ptr = (make_event q t e).ptr := congrArg (fun u => u.ptr) hyx
    rw [hp, h5]
    rfl
  · intro y hy hp
    rw [h5] at hp
    have ht : y.time = (make_event q t e).time := congrArg (fun u => u.time) (hnew y hy hp)
    rw [ht]
    rfl

theorem linked_append (l₁ l₂ : List (Item E)) (k : Key) :
    linked (l₁ ++ l₂) k = (linked l₁ k || linked l₂ k) := by
  simp [linked, List.any_append]

theorem ptr_of_key_inv {q : Queue E} (hk : Key_inv q) : Ptr_inv q where
  null_lt := hk.null_lt
  live_gt := by
    intro x hx
    refine (hk.bounds x ?_).1
    unfold records live
    exact List.mem_append.2 (Or.inl (List.mem_append.2 (Or.inl hx)))

theorem ne_end_key_of_linked {q : Queue E} {k : Key} (hk : Key_inv q)
    (hl : linked (records q) k = true) : k ≠ end_key q := by
  obtain ⟨x, hx, hxk⟩ := List.mem_map.1 (linked_iff.1 hl)
  have h1 := (hk.bounds x hx).1
  intro h
  have h2 : x.ptr = q.null_event_.ptr := hxk.trans h
  rw [h2] at h1
  exact lt_irrefl _ h1

/-- What `erase(k)` does when the record of `k` is in `front_` or `back_`: the
record `i` leaves its list and is released, and no record with the address `k`
is left in `front_`, `back_` or `inf_`. -/
theorem erase_of_linked {NDEBUG : Bool} {q q' : Queue E} {k : Key} (hq : Inv q)
    (hk : Key_inv q) (hl : linked (q.front_ ++ q.back_) k = true)
    (h : erase NDEBUG q k = .ok q') :
    ∃ i, deref q k = some i ∧ i ∈ q.front_ ++ q.back_ ∧ i.ptr = k ∧
      (i.in_list = some .FRONT ∨ i.in_list = some .BACK) ∧
      (contents (live q)).Perm (untagged i :: contents (live q')) ∧
      q'.detached_ = i :: q.detached_ ∧ q'.next_ptr_ = q.next_ptr_ ∧
      q'.null_event_ = q.null_event_ ∧ linked (live q') k = false := by
  have hheld := held_erase hq (ptr_of_key_inv hk) hl h
  rcases erase_live hk h with rfl | ⟨i, hi, him, hik, hp, hd, hn, hnull⟩
  · omega
  · refine ⟨i, hi, him, hik, ?_, hp, hd, hn, hnull, ?_⟩
    · rcases List.mem_append.1 him with hm | hm
      · exact Or.inl (hq.front_tag i hm)
      · exact Or.inr (hq.back_tag i hm)
    · have h1 := @ptr_perm_of_contents _ (live q) (untagged i :: live q') (by
        simpa [contents] using hp)
      have h2 := (h1.nodup_iff).1 hk.nodup
      simp only [List.map_cons, List.nodup_cons] at h2
      rw [not_linked_iff]
      have : (untagged i).ptr = k := hik
      rw [this] at h2
      exact h2.1

theorem not_linked_parts {q : Queue E} {k : Key} (h : linked (live q) k = false) :
    linked q.front_ k = false ∧ linked q.back_ k = false ∧ linked q.inf_ k = false := by
  simp only [live, linked_append, Bool.or_eq_false_iff] at h
  exact ⟨h.1.1, h.1.2, h.2⟩

/-- The key of a record that `erase` has just released still refers to it. -/
theorem deref_released {q : Queue E} {k : Key} {i : Item E} {rest : List (Item E)}
    (hl : linked (live q) k = false) (hd : q.detached_ = i :: rest) (hik : i.ptr = k) :
    deref q k = some i := by
  obtain ⟨h1, h2, h3⟩ := not_linked_parts hl
  rw [deref_detached h1 h2 h3, hd]
  simp [List.find?, hik]

/-- Applying `set` to a key whose record is no longer linked into the list
its tag names is outside the contract of the list operations. -/
theorem set_released {NDEBUG : Bool} {q : Queue E} {k : Key} {i : Item E} (ne : E)
    (hne : k ≠ end_key q) (hi : deref q k = some i)
    (htag : i.in_list = some .FRONT ∨ i.in_list = some .BACK)
    (hl : linked (live q) k = false) :
    set NDEBUG q k ne = .error .undefined_behaviour := by
  obtain ⟨h1, h2, -⟩ := not_linked_parts hl
  rcases htag with htag | htag
  · simp [set, CGAL_precondition, check, hne, hi, htag, h1, bind, Except.bind]
  · simp [set, CGAL_precondition, check, hne, hi, htag, h2, bind, Except.bind]

/-- The test `is_in_queue(k)` is false for a key whose record was released
from `front_` or `back_`. -/
theorem is_in_queue_released {NDEBUG : Bool} {q : Queue E} {k : Key} {i : Item E}
    (hi : deref q k = some i)
    (htag : i.in_list = some .FRONT ∨ i.in_list = some .BACK)
    (hl : linked (live q) k = false) :
    is_in_queue NDEBUG q k = .ok false := by
  obtain ⟨h1, h2, h3⟩ := not_linked_parts hl
  cases NDEBUG with
  | false => simp [is_in_queue, h1, h2, h3, pure, Except.pure]
  | true =>
    rcases htag with htag | htag
    · simp [is_in_queue, h1, h2, hi, htag, pure, Except.pure]
    · simp [is_in_queue, h1, h2, hi, htag, pure, Except.pure]

theorem find_linked {l : List (Item E)} {k : Key} (hl : linked l k = true) :
    ∃ i, l.find? (fun x => x.ptr == k) = some i ∧ i ∈ l ∧ i.ptr = k := by
  obtain ⟨l₁, x, l₂, hsplit, hx, -, hfind, -, -⟩ := split_at_key hl
  refine ⟨x, hfind, ?_, hx⟩
  rw [hsplit]
  simp

/-- The call `erase(k)` for a key whose record is in `front_`. -/
theorem erase_front_eq {NDEBUG : Bool} {q : Queue E} {k : Key} (hq : Inv q) (hk : Key_inv q)
    (hl : linked q.front_ k = true) :
    ∃ i, deref q k = some i ∧ i ∈ q.front_ ∧ i.ptr = k ∧
      erase NDEBUG q k =
        grow_if_drained NDEBUG (unlink_front q k) >>= fun q1 => pure (unmake_event q1 i) := by
  obtain ⟨i, hfind, hi, hik⟩ := find_linked hl
  have hd : deref q k = some i := by rw [deref_front hl, hfind]
  have hne : k ≠ end_key q := by
    apply ne_end_key_of_linked hk
    simp [records, live, linked_append, hl]
  refine ⟨i, hd, hi, hik, ?_⟩
  simp [erase, hne, hd, hq.front_tag i hi, hl]

/-- The call `erase(k)` for a key whose record is in `back_`. -/
theorem erase_back_eq {NDEBUG : Bool} {q : Queue E} {k : Key} (hq : Inv q) (hk : Key_inv q)
    (hl : linked q.back_ k = true) :
    ∃ i, deref q k = some i ∧ i ∈ q.back_ ∧ i.ptr = k ∧
      erase NDEBUG q k = .ok (unmake_event (unlink_back q k) i) := by
  obtain ⟨i, hfind, hi, hik⟩ := find_linked hl
  have hnf := ((key_inv_disjoint hk).2.2.2.2.1 k hl).1
  have hd : deref q k = some i := by rw [deref_back hnf hl, hfind]
  have hne : k ≠ end_key q := by
    apply ne_end_key_of_linked hk
    simp [records, live, linked_append, hl]
  refine ⟨i, hd, hi, hik, ?_⟩
  simp [erase, hne, hd, hq.back_tag i hi, hl, pure, Except.pure]

theorem grow_if_drained_keep {NDEBUG : Bool} {q : Queue E}
    (h : q.front_ ≠ [] ∨ q.back_ = []) : grow_if_drained NDEBUG q = .ok q := by
  rcases h with h | h
  · simp [grow_if_drained, h, pure, Except.pure]
  · simp [grow_if_drained, h, pure, Except.pure]

/-- When `erase(k)` returns for a key whose record is in `front_` or `back_`:
always under `NDEBUG`, and with the checks compiled in whenever the call does
not reach `grow_front()`. -/
theorem erase_returns {NDEBUG : Bool} {q : Queue E} {k : Key} (hq : Inv q) (hk : Key_inv q)
    (hl : linked (q.front_ ++ q.back_) k = true)
    (hc : NDEBUG = true ∨ linked q.back_ k = true ∨ unlink q.front_ k ≠ [] ∨ q.back_ = []) :
    ∃ q', erase NDEBUG q k = .ok q' := by
  rw [linked_append, Bool.or_eq_true] at hl
  by_cases hb : linked q.back_ k = true
  · obtain ⟨i, -, -, -, he⟩ := @erase_back_eq _ NDEBUG q k hq hk hb
    exact ⟨_, he⟩
  · have hf : linked q.front_ k = true := hl.resolve_right hb
    obtain ⟨i, -, -, -, he⟩ := @erase_front_eq _ NDEBUG q k hq hk hf
    rw [he]
    rcases hc with hn | hb' | hu | hbn
    · subst hn
      obtain ⟨q1, h1⟩ := grow_if_drained_ndebug_ok (unlink_front q k)
      exact ⟨unmake_event q1 i, by rw [h1]; rfl⟩
    · exact absurd hb' hb
    · have : grow_if_drained NDEBUG (unlink_front q k) = .ok (unlink_front q k) :=
        grow_if_drained_keep (Or.inl hu)
      exact ⟨_, by rw [this]; rfl⟩
    · have : grow_if_drained NDEBUG (unlink_front q k) = .ok (unlink_front q k) :=
        grow_if_drained_keep (Or.inr hbn)
      exact ⟨_, by rw [this]; rfl⟩

theorem map_replace_of_not_linked {l : List (Item E)} {k : Key} (ni : Item E)
    (h : linked l k = false) : l.map (fun x => if x.ptr = k then ni else x) = l := by
  induction l with
  | nil => rfl
  | cons a l ih =>
    simp only [linked, List.any_cons, Bool.or_eq_false_iff, beq_eq_false_iff_ne, ne_eq] at h
    simp only [List.map_cons, h.1, if_false]
    rw [ih h.2]

/-- In a list without repeated addresses `replace_node` changes the record of
address `k` and nothing else. -/
theorem replace_node_eq_map {l : List (Item E)} {k : Key} (ni : Item E)
    (hn : (l.map (fun x => x.ptr)).Nodup) :
    replace_node l k ni = l.map (fun x => if x.ptr = k then ni else x) := by
  induction l with
  | nil => rfl
  | cons a l ih =>
    simp only [List.map_cons, List.nodup_cons] at hn
    by_cases ha : a.ptr = k
    · have hl : linked l k = false := by
        rw [not_linked_iff, ← ha]
        exact hn.1
      simp only [replace_node, ha, beq_self_eq_true, if_true, List.map_cons,
        map_replace_of_not_linked ni hl]
    · have hb : (a.ptr == k) = false := by simpa using ha
      simp only [replace_node, hb, Bool.false_eq_true, if_false, List.map_cons, ha, ih hn.2]

/-- The record that `set(k, ne)` makes in the place of the record `oi`. -/
theorem new_item_eq (q : Queue E) (oi : Item E) (ne : E) (v : In_list)
    (htag : oi.in_list = some v) :
    new_item q oi.time ne v =
      { ptr := q.next_ptr_, time_ := oi.time_, front_list_ := oi.front_list_, event_ := some ne } := by
  have : oi.front_list_ = some v := htag
  simp [new_item, make_event, Two_list_event_queue_item.set_in_list,
    Two_list_event_queue_item.time, this]

/-- The call `set(k, ne)` for a key whose record `oi` is in `front_`, `back_`
or `inf_`: a new record with the time and the tag of `oi` takes the place of
`oi`, which is released; nothing else changes. -/
theorem set_eq {NDEBUG : Bool} {q : Queue E} {k : Key} (ne : E) (hq : Inv q) (hk : Key_inv q)
    (hl : linked (live q) k = true) :
    ∃ oi, deref q k = some oi ∧ oi ∈ live q ∧ oi.ptr = k ∧
      set NDEBUG q k ne = .ok
        ({ q with
            front_ := q.front_.map (fun x => if x.ptr = k then
              { ptr := q.next_ptr_, time_ := oi.time_, front_list_ := oi.front_list_,
                event_ := some ne } else x)
            back_ := q.back_.map (fun x => if x.ptr = k then
              { ptr := q.next_ptr_, time_ := oi.time_, front_list_ := oi.front_list_,
                event_ := some ne } else x)
            inf_ := q.inf_.map (fun x => if x.ptr = k then
              { ptr := q.next_ptr_, time_ := oi.time_, front_list_ := oi.front_list_,
                event_ := some ne } else x)
            detached_ := oi :: q.detached_
            next_ptr_ := q.next_ptr_ + 1 }, q.next_ptr_) := by
  have hne : k ≠ end_key q := by
    apply ne_end_key_of_linked hk
    simp only [records, linked_append, hl, Bool.true_or]
  obtain ⟨hnf, hnb, hni, hdf, hdb, hdi⟩ := key_inv_disjoint hk
  simp only [live, linked_append, Bool.or_eq_true] at hl
  rcases hl with (hl | hl) | hl
  · obtain ⟨oi, hfind, hi, hik⟩ := find_linked hl
    have hd : deref q k = some oi := by rw [deref_front hl, hfind]
    have htag := hq.front_tag oi hi
    refine ⟨oi, hd, by simp [live, hi], hik, ?_⟩
    obtain ⟨h2, h3⟩ := hdf k hl
    rw [map_replace_of_not_linked _ h2, map_replace_of_not_linked _ h3,
      ← replace_node_eq_map _ hnf, ← new_item_eq q oi ne .FRONT htag]
    simp [set, CGAL_precondition, check, hne, hd, htag, hl, bind, Except.bind, pure, Except.pure,
      unmake_event, replace_front, alloc, new_item, make_event]
  · obtain ⟨oi, hfind, hi, hik⟩ := find_linked hl
    obtain ⟨h2, h3⟩ := hdb k hl
    have hd : deref q k = some oi := by rw [deref_back h2 hl, hfind]
    have htag := hq.back_tag oi hi
    refine ⟨oi, hd, by simp [live, hi], hik, ?_⟩
    rw [map_replace_of_not_linked _ h2, map_replace_of_not_linked _ h3,
      ← replace_node_eq_map _ hnb, ← new_item_eq q oi ne .BACK htag]
    simp [set, CGAL_precondition, check, hne, hd, htag, hl, bind, Except.bind, pure, Except.pure,
      unmake_event, replace_back, alloc, new_item, make_event]
  · obtain ⟨oi, hfind, hi, hik⟩ := find_linked hl
    obtain ⟨h2, h3⟩ := hdi k hl
    have hd : deref q k = some oi := by rw [deref_inf h2 h3 hl, hfind]
    have htag := hq.inf_tag oi hi
    refine ⟨oi, hd, by simp [live, hi], hik, ?_⟩
    rw [map_replace_of_not_linked _ h2, map_replace_of_not_linked _ h3,
      ← replace_node_eq_map _ hni, ← new_item_eq q oi ne .INF htag]
    simp [set, CGAL_precondition, CGAL_postcondition, check, hne, hd, htag, hl, bind,
      Except.bind, pure, Except.pure, unmake_event, replace_inf, alloc, new_item, make_event]

theorem map_replace_time {l : List (Item E)} {k : Key} {ni : Item E}
    (h : ∀ x ∈ l, x.ptr = k → x.time = ni.time) :
    (l.map (fun x => if x.ptr = k then ni else x)).map (fun x => x.time)
      = l.map (fun x => x.time) := by
  rw [List.map_map]
  apply List.map_congr_left
  intro x hx
  by_cases hxk : x.ptr = k
  · simp [hxk, h x hx hxk]
  · simp [hxk]

theorem not_linked_map_replace {l : List (Item E)} {k : Key} {ni : Item E} (h : ni.ptr ≠ k) :
    linked (l.map (fun x => if x.ptr = k then ni else x)) k = false := by
  rw [not_linked_iff]
  intro hm
  obtain ⟨y, hy, hyk⟩ := List.mem_map.1 hm
  obtain ⟨x, -, hxy⟩ := List.mem_map.1 hy
  by_cases hxk : x.ptr = k
  · simp only [hxk, if_true] at hxy
    rw [← hxy] at hyk
    exact h hyk
  · simp only [hxk, if_false] at hxy
    rw [← hxy] at hyk
    exact hxk hyk

theorem eq_of_ptr_eq {l : List (Item E)} (hn : (l.map (fun x => x.ptr)).Nodup) {x y : Item E}
    (hx : x ∈ l) (hy : y ∈ l) (h : x.ptr = y.ptr) : x = y :=
  List.inj_on_of_nodup_map hn hx hy h

/-- What `set(k, ne)` returns for a key whose record `oi` is in `front_`,
`back_` or `inf_`, and what the new key then refers to. -/
theorem set_result {NDEBUG : Bool} {q : Queue E} {k : Key} (ne : E) (hq : Inv q)
    (hk : Key_inv q) (hl : linked (live q) k = true) :
    ∃ q' oi ni, deref q k = some oi ∧ oi ∈ live q ∧ oi.ptr = k ∧
      set NDEBUG q k ne = .ok (q', q.next_ptr_) ∧
      ni.ptr = q.next_ptr_ ∧ ni.time = oi.time ∧ ni.in_list = oi.in_list ∧
      ni.event_ = some ne ∧ deref q' q.next_ptr_ = some ni ∧
      q'.front_ = q.front_.map (fun x => if x.ptr = k then ni else x) ∧
      q'.back_ = q.back_.map (fun x => if x.ptr = k then ni else x) ∧
      q'.inf_ = q.inf_.map (fun x => if x.ptr = k then ni else x) ∧
      q'.detached_ = oi :: q.detached_ ∧
      q'.ub_ = q.ub_ ∧ q'.step_ = q.step_ ∧ q'.end_time_ = q.end_time_ ∧
      q'.end_split_ = q.end_split_ ∧ q'.null_event_ = q.null_event_ ∧
      (live q').map (fun x => x.time) = (live q).map (fun x => x.time) ∧
      linked (live q') k = false := by
  obtain ⟨oi, hd, hi, hik, hset⟩ := @set_eq _ NDEBUG q k ne hq hk hl
  refine ⟨_, oi,
    { ptr := q.next_ptr_, time_ := oi.time_, front_list_ := oi.front_list_, event_ := some ne },
    hd, hi, hik, hset, rfl, rfl, rfl, rfl, ?_, rfl, rfl, rfl, rfl, rfl, rfl, rfl, rfl, rfl, ?_, ?_⟩
  · have hlt : k < q.next_ptr_ := by
      rw [← hik]
      exact (hk.bounds oi (List.mem_append.2 (Or.inl hi))).2
    have hmem : ∃ x ∈ records
        { q with
            front_ := q.front_.map (fun x => if x.ptr = k then
              { ptr := q.next_ptr_, time_ := oi.time_, front_list_ := oi.front_list_,
                event_ := some ne } else x)
            back_ := q.back_.map (fun x => if x.ptr = k then
              { ptr := q.next_ptr_, time_ := oi.time_, front_list_ := oi.front_list_,
                event_ := some ne } else x)
            inf_ := q.inf_.map (fun x => if x.ptr = k then
              { ptr := q.next_ptr_, time_ := oi.time_, front_list_ := oi.front_list_,
                event_ := some ne } else x)
            detached_ := oi :: q.detached_
            next_ptr_ := q.next_ptr_ + 1 }, x.ptr = q.next_ptr_ := by
      refine ⟨
        { ptr := q.next_ptr_, time_ := oi.time_, front_list_ := oi.front_list_, event_ := some ne },
        ?_, rfl⟩
      simp only [records, live, ← List.map_append]
      refine List.mem_append.2 (Or.inl (List.mem_map.2 ⟨oi, hi, ?_⟩))
      simp [hik]
    obtain ⟨x, hx, hxk, hdx⟩ := deref_of_mem hmem
    rw [hdx]
    congr 1
    simp only [records, live, ← List.map_append] at hx
    rcases List.mem_append.1 hx with hx | hx
    · obtain ⟨y, hy, hyx⟩ := List.mem_map.1 hx
      by_cases hyk : y.ptr = k
      · simp only [hyk, if_true] at hyx
        exact hyx.symm
      · simp only [hyk, if_false] at hyx
        have := (hk.bounds y (List.mem_append.2 (Or.inl hy))).2
        rw [hyx, hxk] at this
        exact absurd this (lt_irrefl _)
    · rcases List.mem_cons.1 hx with hx | hx
      · rw [hx, hik] at hxk
        rw [hxk] at hlt
        exact absurd hlt (lt_irrefl _)
      · have := (hk.bounds x (List.mem_append.2 (Or.inr hx))).2
        rw [hxk] at this
        exact absurd this (lt_irrefl _)
  · simp only [live, ← List.map_append]
    apply map_replace_time
    intro x hx hxk
    have : x = oi := eq_of_ptr_eq hk.nodup hx hi (hxk.trans hik.symm)
    rw [this]
    rfl
  · simp only [live, ← List.map_append]
    apply not_linked_map_replace
    have hlt : k < q.next_ptr_ := by
      rw [← hik]
      exact (hk.bounds oi (List.mem_append.2 (Or.inl hi))).2
    exact fun h => absurd (h ▸ hlt) (lt_irrefl _)

/-! ## The front of the queue -/

theorem front_priority_cons {NDEBUG : Bool} {q : Queue E} {i : Item E} {rest : List (Item E)}
    (hf : q.front_ = i :: rest) : front_priority NDEBUG q = .ok i.time := by
  simp [front_priority, CGAL_precondition, check, hf, time_at, bind, Except.bind, pure,
    Except.pure]

/-- The call `process_front()` on a queue whose `front_` starts with `i`. -/
theorem process_front_cons {NDEBUG : Bool} {q : Queue E} {i : Item E} {rest : List (Item E)}
    (hf : q.front_ = i :: rest) :
    process_front NDEBUG q =
      grow_if_drained NDEBUG (pop_front q) >>= fun q1 => pure (unmake_event q1 i, some i) := by
  have hc : check_call NDEBUG (.precondition 471) ((empty NDEBUG q).map (fun b => !b))
      = .ok () := by
    cases NDEBUG with
    | true => rfl
    | false =>
      simp [check_call, empty, CGAL_precondition, check, hf, bind, Except.bind, pure,
        Except.pure, Except.map]
  simp only [process_front, hc, hf]
  rfl

theorem process_front_returns {NDEBUG : Bool} {q : Queue E} {i : Item E}
    {rest : List (Item E)} (hf : q.front_ = i :: rest)
    (hc : NDEBUG = true ∨ rest ≠ [] ∨ q.back_ = []) :
    ∃ q', process_front NDEBUG q = .ok (q', some i) := by
  rw [process_front_cons hf]
  rcases hc with hn | hr | hb
  · subst hn
    obtain ⟨q1, h1⟩ := grow_if_drained_ndebug_ok (pop_front q)
    exact ⟨unmake_event q1 i, by rw [h1]; rfl⟩
  · have : grow_if_drained NDEBUG (pop_front q) = .ok (pop_front q) :=
      grow_if_drained_keep (Or.inl (by simpa [pop_front, hf] using hr))
    exact ⟨_, by rw [this]; rfl⟩
  · have : grow_if_drained NDEBUG (pop_front q) = .ok (pop_front q) :=
      grow_if_drained_keep (Or.inr (by simpa [pop_front] using hb))
    exact ⟨_, by rw [this]; rfl⟩

theorem process_front_head {NDEBUG : Bool} {q : Queue E} {i : Item E} {rest : List (Item E)}
    {r : Queue E × Option (Item E)} (hf : q.front_ = i :: rest)
    (h : process_front NDEBUG q = .ok r) : r.2 = some i := by
  rw [process_front_cons hf] at h
  obtain ⟨q1, -, h2⟩ := (bind_ok_iff _ _ _).1 h
  have := (pure_ok_iff _ _).1 h2
  rw [← this]

theorem front_priority_nil (q : Queue E) (hf : q.front_ = []) :
    front_priority false q = .error (.precondition 449) := by
  simp [front_priority, CGAL_precondition, check, hf, bind, Except.bind]

theorem process_front_nil (q : Queue E) (hf : q.front_ = []) :
    (q.back_ = [] → process_front false q = .error (.precondition 471)) ∧
    (q.back_ ≠ [] → process_front false q = .error (.precondition 462)) := by
  constructor
  · intro hb
    simp [process_front, check_call, empty, CGAL_precondition, check, hf, hb, bind, Except.bind,
      pure, Except.pure, Except.map]
  · intro hb
    simp [process_front, check_call, empty, CGAL_precondition, check, hf, hb, bind, Except.bind,
      pure, Except.pure, Except.map]

/-! ## The retired records -/

theorem late_drained {NDEBUG : Bool} {q q' : Queue E} (hend : q.end_time_ = q.end_split_)
    (hl : ∀ x ∈ q.inf_, q.end_time_ ≤ x.time) (h : Drained_case NDEBUG q q') :
    ∀ x ∈ q'.inf_, q'.end_time_ ≤ x.time := by
  cases h with
  | grow hf hb hg =>
    have g := grow_front_grew hf hg
    obtain ⟨f, ret, -, hinf, -, hret, -⟩ := g.parts
    intro x hx
    rw [g.end_time_eq]
    rw [hinf] at hx
    rcases List.mem_append.1 hx with hx | hx
    · exact hl x hx
    · obtain ⟨y, hy, hyx⟩ := mem_set_front.1 hx
      rw [← hyx, set_in_list_time, hend]
      exact hret y hy
  | keep h hr =>
    subst hr
    exact hl

theorem late_insert {NDEBUG : Bool} {q : Queue E} {t : ℚ} {e : E} {r : Queue E × Key}
    (hq : Inv q) (hh : Horizon_inv q) (hl : ∀ x ∈ q.inf_, q.end_time_ ≤ x.time)
    (h : insert NDEBUG q t e = .ok r) : ∀ x ∈ r.1.inf_, r.1.end_time_ ≤ x.time := by
  cases insert_cases.1 h with
  | front ht hsize hr =>
    subst hr
    exact hl
  | front_shrink ht hsize q' hshrink hr =>
    subst hr
    obtain ⟨x, rest, hx⟩ := drop_max_front_size hsize
    have hq1 := inv_link_front hq t e ht
    have hxm : x ∈ (link_front (alloc q) (new_item q t e .FRONT)).front_ :=
      List.mem_of_mem_drop (hx ▸ List.mem_cons_self _ _)
    have hxle := hq1.front_le x hxm
    cases (shrink_front_cases hx).1 hshrink with
    | horizon hsplit h764 hr =>
      exact absurd (lt_of_le_of_lt (le_trans hxle hh.ub_le) hsplit) (lt_irrefl _)
    | give_back hsplit h807 hr =>
      subst hr
      exact hl
  | seed ht hf h336 hend hr =>
    subst hr
    exact hl
  | retire ht hf h336 hend hr =>
    subst hr
    intro x hx
    simp only [record_inf, alloc_inf, List.mem_append, List.mem_singleton] at hx
    rcases hx with hx | hx
    · exact hl x hx
    · rw [hx, new_item_time]
      exact not_lt.1 hend
  | back ht hf hr =>
    subst hr
    exact hl

theorem late_erase {NDEBUG : Bool} {q q' : Queue E} {item : Key} (hh : Horizon_inv q)
    (hl : ∀ x ∈ q.inf_, q.end_time_ ≤ x.time) (h : erase NDEBUG q item = .ok q') :
    ∀ x ∈ q'.inf_, q'.end_time_ ≤ x.time := by
  cases erase_cases h with
  | null hk hr => subst hr; exact hl
  | inf hk i hi htag hr => subst hr; exact hl
  | front hne i hi htag hlf q1 hg hr =>
    subst hr
    have := late_drained (q := unlink_front q item) hh.end_eq hl hg
    exact this
  | back hne i hi htag hlb hr =>
    subst hr
    exact hl

theorem late_set {NDEBUG : Bool} {q : Queue E} {item : Key} {ne : E} {r : Queue E × Key}
    (hk : Key_inv q) (hl : ∀ x ∈ q.inf_, q.end_time_ ≤ x.time)
    (h : set NDEBUG q item ne = .ok r) : ∀ x ∈ r.1.inf_, r.1.end_time_ ≤ x.time := by
  cases set_cases h with
  | front oi hi htag hlf hr => subst hr; exact hl
  | back oi hi htag hlb hr => subst hr; exact hl
  | inf oi hi htag h433 hr =>
    subst hr
    intro x hx
    simp only [unmake_event, replace_inf, alloc_inf] at hx
    show q.end_time_ ≤ x.time
    cases hli : linked q.inf_ item with
    | false =>
      rw [replace_node_of_not_linked _ hli] at hx
      exact hl x hx
    | true =>
      rcases mem_replace_node hx with hx | hx
      · obtain ⟨hnf, hnb⟩ := (key_inv_disjoint hk).2.2.2.2.2 item hli
        obtain ⟨oi', hfind, hoi', -⟩ := find_linked hli
        have hoi : oi = oi' := by
          rw [deref_inf hnf hnb hli, hfind] at hi
          exact (Option.some.inj hi).symm
        rw [hx, new_item_time, hoi]
        exact hl oi' hoi'
      · exact hl x hx

theorem late_process_front {NDEBUG : Bool} {q : Queue E} {r : Queue E × Option (Item E)}
    (hh : Horizon_inv q) (hl : ∀ x ∈ q.inf_, q.end_time_ ≤ x.time)
    (h : process_front NDEBUG q = .ok r) : ∀ x ∈ r.1.inf_, r.1.end_time_ ≤ x.time := by
  cases process_front_cases h with
  | run i rest hf q1 hg hr =>
    subst hr
    have := late_drained (q := pop_front q) hh.end_eq hl hg
    exact this
  | idle hn hf hr =>
    subst hr
    exact hl

theorem late_apply {NDEBUG : Bool} {q q' : Queue E} {op : Op E} (hq : Inv q)
    (hh : Horizon_inv q) (hk : Key_inv q) (hl : ∀ x ∈ q.inf_, q.end_time_ ≤ x.time)
    (h : op.apply NDEBUG q = .ok q') : ∀ x ∈ q'.inf_, q'.end_time_ ≤ x.time := by
  cases op with
  | insert t e =>
    obtain ⟨r, hr, rfl⟩ := (map_ok_iff _ _ _).1 h
    exact late_insert hq hh hl hr
  | erase item => exact late_erase hh hl h
  | set item ne =>
    obtain ⟨r, hr, rfl⟩ := (map_ok_iff _ _ _).1 h
    exact late_set hk hl hr
  | process_front =>
    obtain ⟨r, hr, rfl⟩ := (map_ok_iff _ _ _).1 h
    exact late_process_front hh hl hr
  | clear =>
    have : clear q = q' := (pure_ok_iff _ _).1 h
    subst this
    exact hl

theorem late_run {NDEBUG : Bool} (ops : List (Op E)) :
    ∀ {q q' : Queue E}, Inv q → Horizon_inv q → Key_inv q →
      (∀ x ∈ q.inf_, q.end_time_ ≤ x.time) → run NDEBUG q ops = .ok q' →
      ∀ x ∈ q'.inf_, q'.end_time_ ≤ x.time := by
  induction ops with
  | nil =>
    intro q q' _ _ _ hl h
    have : q = q' := (pure_ok_iff _ _).1 h
    subst this
    exact hl
  | cons op ops ih =>
    intro q q' hq hh hk hl h
    obtain ⟨q1, h1, h2⟩ := (bind_ok_iff _ _ _).1 h
    exact ih (inv_apply hq h1) (horizon_apply hq hh h1) (key_inv_apply hk h1)
      (late_apply hq hh hk hl h1) h2

/-! ## The horizon is not moved -/

theorem ends_drained {NDEBUG : Bool} {q q' : Queue E} (h : Drained_case NDEBUG q q') :
    q'.end_time_ = q.end_time_ ∧ q'.end_split_ = q.end_split_ := by
  cases h with
  | grow hf hb hg =>
    have g := grow_front_grew hf hg
    exact ⟨g.end_time_eq, g.end_split_eq⟩
  | keep h hr =>
    subst hr
    exact ⟨rfl, rfl⟩

theorem ends_apply {NDEBUG : Bool} {q q' : Queue E} {op : Op E}
    (h : op.apply NDEBUG q = .ok q') :
    q'.end_time_ = q.end_time_ ∧ q'.end_split_ = q.end_split_ := by
  cases op with
  | insert t e =>
    obtain ⟨r, hr, rfl⟩ := (map_ok_iff _ _ _).1 h
    cases insert_cases.1 hr with
    | front ht hsize hr => subst hr; exact ⟨rfl, rfl⟩
    | front_shrink ht hsize q' hshrink hr =>
      subst hr
      obtain ⟨x, rest, hx⟩ := drop_max_front_size hsize
      cases (shrink_front_cases hx).1 hshrink with
      | horizon hsplit h764 hr => subst hr; exact ⟨rfl, rfl⟩
      | give_back hsplit h807 hr => subst hr; exact ⟨rfl, rfl⟩
    | seed ht hf h336 hend hr => subst hr; exact ⟨rfl, rfl⟩
    | retire ht hf h336 hend hr => subst hr; exact ⟨rfl, rfl⟩
    | back ht hf hr => subst hr; exact ⟨rfl, rfl⟩
  | erase item =>
    cases erase_cases h with
    | null hk hr => subst hr; exact ⟨rfl, rfl⟩
    | inf hk i hi htag hr => subst hr; exact ⟨rfl, rfl⟩
    | front hne i hi htag hlf q1 hg hr =>
      subst hr
      have := ends_drained hg
      exact this
    | back hne i hi htag hlb hr => subst hr; exact ⟨rfl, rfl⟩
  | set item ne =>
    obtain ⟨r, hr, rfl⟩ := (map_ok_iff _ _ _).1 h
    cases set_cases hr with
    | front oi hi htag hlf hr => subst hr; exact ⟨rfl, rfl⟩
    | back oi hi htag hlb hr => subst hr; exact ⟨rfl, rfl⟩
    | inf oi hi htag h433 hr => subst hr; exact ⟨rfl, rfl⟩
  | process_front =>
    obtain ⟨r, hr, rfl⟩ := (map_ok_iff _ _ _).1 h
    cases process_front_cases hr with
    | run i rest hf q1 hg hr =>
      subst hr
      have := ends_drained hg
      exact this
    | idle hn hf hr => subst hr; exact ⟨rfl, rfl⟩
  | clear =>
    have : clear q = q' := (pure_ok_iff _ _).1 h
    subst this
    exact ⟨rfl, rfl⟩

theorem ends_run {NDEBUG : Bool} (ops : List (Op E)) :
    ∀ {q q' : Queue E}, run NDEBUG q ops = .ok q' →
      q'.end_time_ = q.end_time_ ∧ q'.end_split_ = q.end_split_ := by
  induction ops with
  | nil =>
    intro q q' h
    have : q = q' := (pure_ok_iff _ _).1 h
    subst this
    exact ⟨rfl, rfl⟩
  | cons op ops ih =>
    intro q q' h
    obtain ⟨q1, h1, h2⟩ := (bind_ok_iff _ _ _).1 h
    obtain ⟨a1, a2⟩ := ends_apply h1
    obtain ⟨b1, b2⟩ := ih h2
    exact ⟨b1.trans a1, b2.trans a2⟩

theorem for_each_ok {l : List (Item E)} {body : Item E → Except Failure Unit}
    (h : ∀ x ∈ l, body x = .ok ()) : for_each l body = .ok () := by
  induction l with
  | nil => rfl
  | cons a l ih =>
    simp only [for_each, h a (List.mem_cons_self _ _)]
    exact ih (fun x hx => h x (List.mem_cons_of_mem _ hx))

theorem not_linked_of_lt {l : List (Item E)} {k : Key} (h : ∀ x ∈ l, x.ptr < k) :
    linked l k = false := by
  rw [not_linked_iff]
  intro hm
  obtain ⟨x, hx, hxk⟩ := List.mem_map.1 hm
  have := h x hx
  rw [hxk] at this
  exact lt_irrefl _ this

/-! ## The result of `grow_front` does not depend on the depth given -/

theorem bind_fuel {α β : Type} {x x' : Except Failure α} {k k' : α → Except Failure β}
    (hx : x ≠ .error .out_of_fuel → x' = x)
    (hk : ∀ a, k a ≠ .error .out_of_fuel → k' a = k a)
    (h : (x >>= k) ≠ .error .out_of_fuel) : (x' >>= k') = (x >>= k) := by
  cases x with
  | error e =>
    have he : e ≠ .out_of_fuel := fun he => h (by rw [he]; rfl)
    rw [hx (fun hc => he (by injection hc))]
    rfl
  | ok a =>
    rw [hx (fun hc => by cases hc)]
    exact hk a h

/-- A call of `grow_front_cand` that does not run out of depth returns the
same result with any larger depth. -/
theorem grow_front_cand_fuel_succ {NDEBUG : Bool} (fuel : Nat) :
    ∀ {q : Queue E} {cand : List (Item E)} {rc : Nat},
      grow_front_cand NDEBUG fuel q cand rc ≠ .error .out_of_fuel →
      grow_front_cand NDEBUG (fuel + 1) q cand rc = grow_front_cand NDEBUG fuel q cand rc := by
  induction fuel with
  | zero => intro q cand rc h; exact absurd rfl h
  | succ n ih =>
    intro q cand rc
    rw [grow_front_cand.eq_2 NDEBUG q cand rc (n + 1), grow_front_cand.eq_2 NDEBUG q cand rc n]
    refine bind_fuel (fun _ => rfl) (fun _ => ?_)
    refine bind_fuel (fun _ => rfl) (fun _ => ?_)
    refine bind_fuel (fun _ => rfl) (fun _ => ?_)
    simp only []
    split_ifs
    · exact fun _ => rfl
    · exact bind_fuel ih (fun _ _ => rfl)
    · exact fun _ => rfl
    · refine bind_fuel (fun _ => rfl) (fun _ => ?_)
      refine bind_fuel (fun _ => rfl) (fun _ => ?_)
      exact bind_fuel ih (fun _ _ => rfl)
    · exact fun _ => rfl
    · refine bind_fuel (fun _ => rfl) (fun _ => ?_)
      refine bind_fuel (fun _ => rfl) (fun _ => ?_)
      refine bind_fuel (fun _ => rfl) (fun _ => ?_)
      exact bind_fuel ih (fun _ _ => rfl)
    · exact fun _ => rfl

theorem grow_front_cand_fuel_le {NDEBUG : Bool} {q : Queue E} {cand : List (Item E)} {rc : Nat}
    {fuel : Nat} (h : grow_front_cand NDEBUG fuel q cand rc ≠ .error .out_of_fuel) :
    ∀ more : Nat, grow_front_cand NDEBUG (fuel + more) q cand rc
      = grow_front_cand NDEBUG fuel q cand rc := by
  intro more
  induction more with
  | zero => rfl
  | succ m ih =>
    have h2 : grow_front_cand NDEBUG (fuel + m) q cand rc ≠ .error .out_of_fuel := by
      rw [ih]; exact h
    rw [← Nat.add_assoc, grow_front_cand_fuel_succ (fuel + m) h2, ih]

/-! ## What `insert` does inside the window -/

theorem take_upper_bound (l : List (Item E)) (ni : Item E) :
    l.take (upper_bound l ni) = l.takeWhile (fun x => !decide (ni.time < x.time)) ∧
      l.drop (upper_bound l ni) = l.dropWhile (fun x => !decide (ni.time < x.time)) := by
  have h := List.takeWhile_append_dropWhile (fun x => !decide (ni.time < x.time)) l
  unfold upper_bound
  constructor
  · have h1 := List.take_left (l.takeWhile (fun x => !decide (ni.time < x.time)))
      (l.dropWhile (fun x => !decide (ni.time < x.time)))
    rwa [h] at h1
  · have h2 := List.drop_left (l.takeWhile (fun x => !decide (ni.time < x.time)))
      (l.dropWhile (fun x => !decide (ni.time < x.time)))
    rwa [h] at h2

/-- Line 328 of `insert` puts the new record after every record that is not
later and before every record that is later. -/
theorem link_front_position {q : Queue E} (hs : front_sorted q) (ni : Item E) :
    ∃ l₁ l₂, q.front_ = l₁ ++ l₂ ∧ (link_front (alloc q) ni).front_ = l₁ ++ ni :: l₂ ∧
      (∀ x ∈ l₁, x.time ≤ ni.time) ∧ (∀ x ∈ l₂, ni.time < x.time) := by
  obtain ⟨h1, h2⟩ := take_upper_bound q.front_ ni
  refine ⟨q.front_.takeWhile (fun x => !decide (ni.time < x.time)),
    q.front_.dropWhile (fun x => !decide (ni.time < x.time)),
    (List.takeWhile_append_dropWhile _ _).symm, ?_, ?_, ?_⟩
  · show insert_at q.front_ (upper_bound q.front_ ni) ni = _
    unfold insert_at
    rw [h1, h2]
  · intro x hx
    have := List.mem_takeWhile_imp hx
    simpa using this
  · intro x hx
    cases hd : q.front_.dropWhile (fun x => !decide (ni.time < x.time)) with
    | nil => rw [hd] at hx; cases hx
    | cons a rest =>
      have ha : ni.time < a.time := by
        have := List.head_dropWhile_not (fun x => !decide (ni.time < x.time)) q.front_
          (by rw [hd]; exact List.cons_ne_nil _ _)
        simp only [hd, List.head_cons] at this
        simpa using this
      have hsub : (a :: rest).Sublist q.front_ := hd ▸ List.dropWhile_sublist _
      have hsa := List.sorted_cons.1 (hs.sublist hsub)
      rw [hd] at hx
      rcases List.mem_cons.1 hx with rfl | hx
      · exact ha
      · exact lt_of_lt_of_le ha (hsa.1 x hx)

/-- After `shrink_front()` has given records back, `max_front_size()` has the
value it had before. -/
theorem max_front_size_give_back (q : Queue E) (n : Nat) (split : ℚ) :
    max_front_size (give_back q n split) = max_front_size q := by
  unfold max_front_size give_back
  simp only [List.length_append, length_set_front, List.length_take, List.length_drop]
  congr 2
  omega

/-- In a state with `ub_ <= end_split_`, an `insert(t, e)` with `t <= ub_`
that calls `shrink_front()` returns the queue in which the records from
position `max_front_size()` on are given back. -/
theorem insert_shrinks {NDEBUG : Bool} {q : Queue E} (hq : Inv q) (hh : Horizon_inv q)
    (t : ℚ) (e : E) (ht : t ≤ q.ub_)
    (hsize : (link_front (alloc q) (new_item q t e .FRONT)).front_.length >
      2 * max_front_size (link_front (alloc q) (new_item q t e .FRONT))) :
    ∃ x rest, (link_front (alloc q) (new_item q t e .FRONT)).front_.drop
        (max_front_size (link_front (alloc q) (new_item q t e .FRONT))) = x :: rest ∧
      insert NDEBUG q t e = .ok (give_back (link_front (alloc q) (new_item q t e .FRONT))
        (max_front_size (link_front (alloc q) (new_item q t e .FRONT))) x.time, q.next_ptr_) := by
  obtain ⟨x, rest, hx⟩ := drop_max_front_size hsize
  have hq1 := inv_link_front hq t e ht
  have hxm : x ∈ (link_front (alloc q) (new_item q t e .FRONT)).front_ :=
    List.mem_of_mem_drop (hx ▸ List.mem_cons_self _ _)
  have hxle : x.time ≤ q.ub_ := hq1.front_le x hxm
  have hsplit : ¬ x.time > (link_front (alloc q) (new_item q t e .FRONT)).end_split_ :=
    not_lt.2 (le_trans hxle hh.ub_le)
  have hcase : Shrink_case NDEBUG (link_front (alloc q) (new_item q t e .FRONT)) x
      (give_back (link_front (alloc q) (new_item q t e .FRONT))
        (max_front_size (link_front (alloc q) (new_item q t e .FRONT))) x.time) :=
    .give_back hsplit (Or.inr (sub_nonneg.2 hxle)) rfl
  have hs := (shrink_front_cases hx).2 hcase
  exact ⟨x, rest, hx, insert_cases.2 (.front_shrink ht hsize _ hs rfl)⟩

/-! ## The claims -/

/-- C1: for every list of `insert(t_i, e_i)` calls on a freshly constructed
queue, followed only by `process_front` calls made while `empty()` is false,
the times passed to the callbacks are in non-decreasing order; this holds with
and without `NDEBUG` (a failed check ends the run, the callbacks made until
then are in order).  With `start_time = 0` and `end_time = 100` the inserts at
times 5, 1, 3 are processed in the order 1, 3, 5. -/
theorem callbacks_in_time_order :
    (∀ (P : Type) (NDEBUG : Bool) (infinity_or_max start_time end_time : ℚ)
        (ins : List (ℚ × P)) (n : Nat),
      (insert_then_process NDEBUG infinity_or_max start_time end_time ins n).Sorted (· ≤ ·)) ∧
    (∀ NDEBUG : Bool,
      insert_then_process NDEBUG 0 0 100 [((5 : ℚ), ()), (1, ()), (3, ())] 3 = [1, 3, 5]) :=
  ⟨fun _ NDEBUG i s e ins n => insert_then_process_sorted NDEBUG i s e ins n, by decide!⟩

/-- C2 (evaluated on the code): 21 events at time `0` are inserted into a
queue constructed with `start_time = 0` and `end_time = 100`.  With the checks
compiled in, the driver loop runs 9 callbacks and the tenth `process_front()`
fails `CGAL_assertion(step_ != 0)` (line 666); with `NDEBUG` all 21 callbacks
run.  With `end_time = 2` and the events `0`, eleven times `1`, and `3/2`, the
first `process_front()` fails the assertion `t > ub_` of `audit()` (line 561)
when the checks are compiled in. -/
theorem driver_stops_on_failed_check :
    insert_then_process false 0 0 100 (List.replicate 21 ((0 : ℚ), ())) 21
      = List.replicate 9 0 ∧
    run false (construct (E := Unit) 0 0 100)
      (List.replicate 21 (.insert 0 ()) ++ List.replicate 10 .process_front)
      = .error (.assertion 666) ∧
    insert_then_process true 0 0 100 (List.replicate 21 ((0 : ℚ), ())) 21
      = List.replicate 21 0 ∧
    run false (construct (E := Unit) 0 0 2)
      (.insert 0 () :: List.replicate 11 (.insert 1 ()) ++ [.insert (3 / 2) (), .process_front])
      = .error (.assertion 561) := by
  decide!

/-- C3 (evaluated on the code): queue constructed with `start_time = 0` and
`end_time = 2`, under `NDEBUG`.  After `insert(0)`, eleven `insert(1)`,
`insert(3/2)`, `process_front()`, `insert(7/4)` and eleven more
`process_front()`, the next `process_front()` processes the record of time
`7/4` while `back_` holds the record of time `3/2`.  With the checks compiled
in, the first `process_front()` of this run fails the assertion `t > ub_` of
`audit()` (line 561), called from `grow_front()`. -/
theorem later_event_processed_first :
    (run true (construct (E := Unit) 0 0 2)
        (.insert 0 () :: List.replicate 11 (.insert 1 ()) ++
          [.insert (3 / 2) (), .process_front, .insert (7 / 4) ()] ++
          List.replicate 11 .process_front) >>= fun q =>
      (process_front true q).map
        (fun r => (r.2.map (fun i => i.time), q.back_.map (fun b => b.time))))
      = .ok (some (7 / 4), [3 / 2]) ∧
    run false (construct (E := Unit) 0 0 2)
      (.insert 0 () :: List.replicate 11 (.insert 1 ()) ++ [.insert (3 / 2) (), .process_front])
      = .error (.assertion 561) := by
  decide!

/-- C4 (evaluated on the code): in a queue constructed with `start_time = 0`
and `end_time = 100`, after `insert(1, e)`, `insert(100, e)` and one
`process_front()`, the record inserted with time `100 = end_time` is the
front record: `front_priority()` returns `100`, and the driver loop runs the
callbacks at times `1` and `100`.  The same `insert(100, e)` on the fresh
queue retires the record to `inf_`.  This holds with and without `NDEBUG`. -/
theorem horizon_event_is_processed :
    ∀ NDEBUG : Bool,
      (run NDEBUG (construct (E := Unit) 0 0 100)
          [.insert 1 (), .insert 100 (), .process_front] >>= front_priority NDEBUG) = .ok 100 ∧
      insert_then_process NDEBUG 0 0 100 [((1 : ℚ), ()), (100, ())] 5 = [1, 100] ∧
      (run NDEBUG (construct (E := Unit) 0 0 100) [.insert 100 ()]).map
          (fun q => (q.front_.length, q.inf_.map (fun x => x.time))) = .ok (0, [100]) := by
  decide!

/-- C5 (evaluated on the code): in a queue constructed with `start_time = 0`
and `end_time = 100`, after `insert(50)`, `insert(1)`, ..., `insert(20)` the
call of `shrink_front()` leaves `ub_ = 11` and the record of time `11` in
`back_`: a back record whose time is not greater than `ub_`.  This holds with
and without `NDEBUG`. -/
theorem back_record_at_ub :
    ∀ NDEBUG : Bool,
      (run NDEBUG (construct 0 0 100) shrink_ops).map
          (fun q => (q.ub_, q.back_.map (fun x => x.time)))
        = .ok (11, [11, 12, 13, 14, 15, 16, 17, 18, 19, 20, 50]) := by
  decide!

/-- C6: after every sequence of public operations (`insert`, `erase`, `set`,
`process_front`, `clear`) on a fresh queue, every record stored in `front_`
has time less than or equal to `ub_` (I1). -/
theorem front_records_le_ub (NDEBUG : Bool) (infinity_or_max start_time end_time : ℚ)
    (ops : List (Op E)) (q : Queue E)
    (h : run NDEBUG (construct infinity_or_max start_time end_time) ops = .ok q) :
    ∀ x ∈ q.front_, x.time ≤ q.ub_ :=
  (inv_run ops (inv_construct _ _ _) h).front_le

/-- C6 at the run `sample_ops`. -/
theorem front_records_le_ub_witness :
    run false (construct 0 0 100) sample_ops = .ok sample_queue ∧
      ∀ x ∈ sample_queue.front_, x.time ≤ sample_queue.ub_ :=
  ⟨by decide!, front_records_le_ub false 0 0 100 sample_ops sample_queue (by decide!)⟩

/-- C7: after every sequence of public operations on a fresh queue, the
membership tag of each record matches the list that stores it: every record
in `front_` has `in_list() == FRONT`, every record in `back_` has
`in_list() == BACK`, and no record tagged `INF` is stored in `front_` or
`back_`. -/
theorem tags_match_lists (NDEBUG : Bool) (infinity_or_max start_time end_time : ℚ)
    (ops : List (Op E)) (q : Queue E)
    (h : run NDEBUG (construct infinity_or_max start_time end_time) ops = .ok q) :
    (∀ x ∈ q.front_, x.in_list = some .FRONT) ∧ (∀ x ∈ q.back_, x.in_list = some .BACK) ∧
      ∀ x ∈ q.front_ ++ q.back_, x.in_list ≠ some .INF := by
  have hq := inv_run ops (inv_construct _ _ _) h
  refine ⟨hq.front_tag, hq.back_tag, ?_⟩
  intro x hx hinf
  rcases List.mem_append.1 hx with hx | hx
  · have := hq.front_tag x hx
    rw [hinf] at this
    cases this
  · have := hq.back_tag x hx
    rw [hinf] at this
    cases this

/-- C7 at the run `sample_ops`. -/
theorem tags_match_lists_witness :
    run false (construct 0 0 100) sample_ops = .ok sample_queue ∧
      (∀ x ∈ sample_queue.front_, x.in_list = some .FRONT) ∧
      (∀ x ∈ sample_queue.back_, x.in_list = some .BACK) ∧
      ∀ x ∈ sample_queue.front_ ++ sample_queue.back_, x.in_list ≠ some .INF :=
  ⟨by decide!, tags_match_lists false 0 0 100 sample_ops sample_queue (by decide!)⟩

/-- C8: after every sequence of public operations on a fresh queue, `front_`
is sorted in non-decreasing order of time (I3). -/
theorem front_is_sorted (NDEBUG : Bool) (infinity_or_max start_time end_time : ℚ)
    (ops : List (Op E)) (q : Queue E)
    (h : run NDEBUG (construct infinity_or_max start_time end_time) ops = .ok q) :
    q.front_.Sorted (fun a b => a.time ≤ b.time) :=
  (inv_run ops (inv_construct _ _ _) h).sorted

/-- C8 at the run `sample_ops`. -/
theorem front_is_sorted_witness :
    run false (construct 0 0 100) sample_ops = .ok sample_queue ∧
      sample_queue.front_.Sorted (fun a b => a.time ≤ b.time) :=
  ⟨by decide!, front_is_sorted false 0 0 100 sample_ops sample_queue (by decide!)⟩

/-- C9 (evaluated on the code): in a queue constructed with `start_time = 100`
and `end_time = 0`, the run `reversed_ops` stops in the checked build at
`CGAL_assertion(back_.empty())` of `shrink_front()` (line 764); under `NDEBUG`
it runs past that assertion and ends with `front_` empty and `back_` holding
the record of time 200, a state in which the precondition of `empty()`
(line 462) is false and the assertion `back_.empty()` of the empty-front
branch of `insert` (line 336) is false. -/
theorem back_without_front :
    run false (construct 0 100 0) reversed_ops = .error (.assertion 764) ∧
      run true (construct 0 100 0) reversed_ops = .ok reversed_queue ∧
      reversed_queue.front_ = [] ∧
      reversed_queue.back_.map (fun x => x.time) = [200] ∧
      empty false reversed_queue = .error (.precondition 462) ∧
      (insert false reversed_queue 300 ()).map (fun r => r.2)
        = .error (.assertion 336) := by
  decide!

/-- Invariant I4 where `shrink_front()` keeps its own assertion: with the
checks compiled in, or for a queue constructed with `start_time <= end_time`,
after every sequence of public operations (hence also on entry to every
callback run by `process_front`), `back_` is non-empty only if `front_` is
non-empty; the precondition of `empty()` holds and the assertion
`back_.empty()` of the empty-front branch of `insert` (line 336) does not
fail. -/
theorem back_only_with_front (NDEBUG : Bool) (infinity_or_max start_time end_time : ℚ)
    (hmode : NDEBUG = false ∨ start_time ≤ end_time) (ops : List (Op E)) (q : Queue E)
    (h : run NDEBUG (construct infinity_or_max start_time end_time) ops = .ok q) :
    (q.back_ ≠ [] → q.front_ ≠ []) ∧ empty NDEBUG q = .ok q.front_.isEmpty ∧
      ∀ (t : ℚ) (e : E), insert NDEBUG q t e ≠ .error (.assertion 336) := by
  have hi : q.back_ ≠ [] → q.front_ ≠ [] := by
    rcases hmode with hn | hse
    · subst hn
      exact i4_run_checked ops (by simp [construct, set_end_priority]) h
    · exact (horizon_run ops (inv_construct _ _ _) (horizon_construct _ _ _ hse) h).i4
  exact ⟨hi, empty_ok_of_i4 hi, insert_assertion_holds hi⟩

/-- Invariant I4 at the run `sample_ops`. -/
theorem back_only_with_front_witness :
    run false (construct 0 0 100) sample_ops = .ok sample_queue ∧
      (sample_queue.back_ ≠ [] → sample_queue.front_ ≠ []) ∧
      empty false sample_queue = .ok sample_queue.front_.isEmpty ∧
      ∀ (t : ℚ) (e : Unit), insert false sample_queue t e ≠ .error (.assertion 336) :=
  ⟨by decide!,
    back_only_with_front false 0 0 100 (Or.inl rfl) sample_ops sample_queue (by decide!)⟩

/-- C10: for every sequence of `insert`, `erase` (of keys whose record is in
`front_` or `back_`) and `process_front` calls on a fresh queue, the number of
records in `front_`, `back_` and `inf_` together equals the number of inserts
minus the number of erased and processed events. -/
theorem records_are_conserved (NDEBUG : Bool) (infinity_or_max start_time end_time : ℚ)
    (ops : List (Op E)) (q : Queue E) (inserted removed : Nat)
    (h : tally NDEBUG (construct infinity_or_max start_time end_time) ops
      = some (q, inserted, removed)) :
    q.front_.length + q.back_.length + q.inf_.length + removed = inserted := by
  have := tally_held ops (inv_construct _ _ _) (ptr_construct _ _ _) h
  simpa [held, construct, set_end_priority] using this

/-- C10 at the run `sample_tally_ops`: 23 inserts, 12 removals, 11 records held. -/
theorem records_are_conserved_witness :
    tally false (construct 0 0 100) sample_tally_ops = some (sample_tally_queue, 23, 12) ∧
      sample_tally_queue.front_.length + sample_tally_queue.back_.length +
        sample_tally_queue.inf_.length + 12 = 23 :=
  ⟨by decide!,
    records_are_conserved false 0 0 100 sample_tally_ops sample_tally_queue 23 12 (by decide!)⟩

/-- C11 (evaluated on the code): in a queue constructed with `start_time = 100`
and `end_time = 0`, the run `reversed_ops` stops in the checked build at
`CGAL_assertion(back_.empty())` of `shrink_front()` (line 764); under `NDEBUG`
it runs past that assertion and ends in a state where `empty()` returns
`true` while `back_` holds the record of time 200. -/
theorem empty_with_record_in_back :
    run false (construct 0 100 0) reversed_ops = .error (.assertion 764) ∧
      run true (construct 0 100 0) reversed_ops = .ok reversed_queue ∧
      empty true reversed_queue = .ok true ∧
      reversed_queue.back_.map (fun x => x.time) = [200] := by
  decide!

/-- The result of `empty()` where `shrink_front()` keeps its own assertion:
with the checks compiled in, or for a queue constructed with
`start_time <= end_time`, in every state reached from a fresh queue by public
operations `empty()` returns, and it returns `true` if and only if `front_`
and `back_` are both empty. -/
theorem empty_iff_nothing_queued (NDEBUG : Bool) (infinity_or_max start_time end_time : ℚ)
    (hmode : NDEBUG = false ∨ start_time ≤ end_time) (ops : List (Op E)) (q : Queue E)
    (h : run NDEBUG (construct infinity_or_max start_time end_time) ops = .ok q) :
    ∃ b, empty NDEBUG q = .ok b ∧ (b = true ↔ q.front_ = [] ∧ q.back_ = []) := by
  have hi : q.back_ ≠ [] → q.front_ ≠ [] := by
    rcases hmode with hn | hse
    · subst hn
      exact i4_run_checked ops (by simp [construct, set_end_priority]) h
    · exact (horizon_run ops (inv_construct _ _ _) (horizon_construct _ _ _ hse) h).i4
  refine ⟨q.front_.isEmpty, empty_ok_of_i4 hi, ?_⟩
  rw [List.isEmpty_iff]
  constructor
  · intro hf
    refine ⟨hf, ?_⟩
    by_contra hb
    exact hi hb hf
  · exact fun hfb => hfb.1

/-- The result of `empty()` at the run `sample_ops`. -/
theorem empty_iff_nothing_queued_witness :
    run false (construct 0 0 100) sample_ops = .ok sample_queue ∧
      ∃ b, empty false sample_queue = .ok b ∧
        (b = true ↔ sample_queue.front_ = [] ∧ sample_queue.back_ = []) :=
  ⟨by decide!,
    empty_iff_nothing_queued false 0 0 100 (Or.inl rfl) sample_ops sample_queue (by decide!)⟩

/-- C12: the key `k` returned by `insert(t, e)` in a state reached from a fresh
queue satisfies `priority(k) == t`, and after every further sequence of public
operations (with the window growth and shrink they trigger) at whose end the
record of `k` is still held by the queue, in `front_`, `back_` or `inf_` (it
was not erased, replaced by `set` or processed), `priority(k)` returns `t`:
the key refers to a record of time `t` in one of the three lists. -/
theorem priority_of_inserted_key (NDEBUG : Bool) (infinity_or_max start_time end_time : ℚ)
    (ops₁ ops₂ : List (Op E)) (q₁ q₂ q₃ : Queue E) (t : ℚ) (e : E) (k : Key)
    (h₁ : run NDEBUG (construct infinity_or_max start_time end_time) ops₁ = .ok q₁)
    (h₂ : insert NDEBUG q₁ t e = .ok (q₂, k))
    (h₃ : run NDEBUG q₂ ops₂ = .ok q₃)
    (hl : linked (q₃.front_ ++ q₃.back_ ++ q₃.inf_) k = true) :
    priority q₂ k = .ok t ∧ priority q₃ k = .ok t ∧
      ∃ x ∈ q₃.front_ ++ q₃.back_ ++ q₃.inf_, deref q₃ k = some x ∧ x.time = t := by
  have hk₁ := key_inv_run ops₁ (key_inv_construct _ _ _) h₁
  have hs : Stored q₂ k t := stored_insert hk₁ h₂
  have hk₂ : Key_inv q₂ := key_inv_of_exchange hk₁ (exchange_insert h₂)
  have hs₃ := stored_of_carried hs (carried_run ops₂ hk₂ h₃)
  refine ⟨priority_of_stored hs, priority_of_stored hs₃, ?_⟩
  obtain ⟨x, hfind, hx, -⟩ := find_linked hl
  have hd : deref q₃ k = some x := by
    unfold deref
    rw [List.append_assoc (q₃.front_ ++ q₃.back_ ++ q₃.inf_), find_of_linked hl, hfind]
  obtain ⟨hm, hp⟩ := deref_mem hd
  refine ⟨x, hx, hd, hs₃.time_eq x ?_ hp⟩
  exact List.mem_append.2 (Or.inl hx)

/-- C12 at the run `sample_ops`: the key `22` of the record inserted with time
`60` after `shrink_ops`. -/
theorem priority_of_inserted_key_witness :
    run false (construct 0 0 100) shrink_ops = .ok shrunk_queue ∧
      insert false shrunk_queue 60 () = .ok (inserted_queue, 22) ∧
      run false inserted_queue
        ([.erase 3, .set 5 (), .erase 15] ++ List.replicate 9 .process_front) = .ok sample_queue ∧
      linked (sample_queue.front_ ++ sample_queue.back_ ++ sample_queue.inf_) 22 = true ∧
      priority inserted_queue 22 = .ok 60 ∧ priority sample_queue 22 = .ok 60 ∧
      ∃ x ∈ sample_queue.front_ ++ sample_queue.back_ ++ sample_queue.inf_,
        deref sample_queue 22 = some x ∧ x.time = 60 :=
  ⟨by decide!, by decide!, by decide!, by decide!,
    priority_of_inserted_key false 0 0 100 shrink_ops
      ([.erase 3, .set 5 (), .erase 15] ++ List.replicate 9 .process_front)
      shrunk_queue inserted_queue sample_queue 60 () 22 (by decide!) (by decide!) (by decide!)
      (by decide!)⟩

/-- C13 as stated fails: in a queue constructed with `start_time = 0` and
`end_time = 100`, after `insert(1, e)`, which returns the key `1`, and
`erase(1)`, the call `priority(1)` returns the time `1`, with and without
`NDEBUG`. -/
theorem priority_after_erase :
    (run false (construct 0 0 100) [.insert 1 (), .erase 1] >>= fun q => priority q 1)
        = .ok 1 ∧
      (run true (construct 0 0 100) [.insert 1 (), .erase 1] >>= fun q => priority q 1)
        = .ok 1 ∧
      (run false (construct 0 0 100) [.insert 1 ()]).map
        (fun q => q.front_.map (fun x => (x.ptr, x.time))) = .ok [(1, 1)] := by
  decide!

/-- C13, amended: for a key `k` obtained from `insert(t, e)` whose record is
still held by the queue (in `front_`, `back_` or `inf_`) when `erase(k)` is
called, `priority(k)` still returns `t` after the call: the key keeps the
record alive and `priority` makes no check.  When the record was in `front_`
or `back_`, the test `is_in_queue(k)` of the expensive precondition of `set`
is then false, and without that precondition `set(k, e')` returns no key: the
check `item != end_key()` passes and the list operations are applied to a
record that is not in the list.  When the record was retired to `inf_`,
`erase(k)` has left the queue as it was. -/
theorem erased_key_keeps_priority (NDEBUG : Bool) (infinity_or_max start_time end_time : ℚ)
    (ops₁ ops₂ : List (Op E)) (q₁ q₂ q₃ q₄ : Queue E) (t : ℚ) (e : E) (k : Key)
    (h₁ : run NDEBUG (construct infinity_or_max start_time end_time) ops₁ = .ok q₁)
    (h₂ : insert NDEBUG q₁ t e = .ok (q₂, k))
    (h₃ : run NDEBUG q₂ ops₂ = .ok q₃)
    (hl : linked (q₃.front_ ++ q₃.back_ ++ q₃.inf_) k = true)
    (h₄ : erase NDEBUG q₃ k = .ok q₄) :
    priority q₄ k = .ok t ∧
      (linked q₃.inf_ k = false →
        is_in_queue NDEBUG q₄ k = .ok false ∧
        ∀ ne : E, set NDEBUG q₄ k ne = .error .undefined_behaviour) ∧
      (linked q₃.inf_ k = true → q₄ = q₃) := by
  have hk₁ := key_inv_run ops₁ (key_inv_construct _ _ _) h₁
  have hq₁ := inv_run ops₁ (inv_construct _ _ _) h₁
  have hs : Stored q₂ k t := stored_insert hk₁ h₂
  have hk₂ : Key_inv q₂ := key_inv_of_exchange hk₁ (exchange_insert h₂)
  have hq₂ : Inv q₂ := inv_insert hq₁ h₂
  have hk₃ := key_inv_run ops₂ hk₂ h₃
  have hq₃ := inv_run ops₂ hq₂ h₃
  have hs₃ := stored_of_carried hs (carried_run ops₂ hk₂ h₃)
  obtain ⟨out, dets, hx⟩ := exchange_erase hk₃ h₄
  refine ⟨priority_of_stored (stored_of_carried hs₃ (carried_of_exchange hx)), ?_, ?_⟩
  · intro hni
    have hfb : linked (q₃.front_ ++ q₃.back_) k = true := by
      rw [linked_append, hni, Bool.or_false] at hl
      exact hl
    obtain ⟨i, -, him, hik, htag, -, hd, -, hnull, hnl⟩ := erase_of_linked hq₃ hk₃ hfb h₄
    have hk₄ := key_inv_of_exchange hk₃ hx
    have hi : deref q₄ k = some i := deref_released hnl hd hik
    refine ⟨is_in_queue_released hi htag hnl, ?_⟩
    intro ne
    refine set_released ne ?_ hi htag hnl
    apply ne_end_key_of_linked hk₄
    rw [linked_iff]
    refine List.mem_map.2 ⟨i, ?_, hik⟩
    unfold records
    rw [hd]
    simp
  · intro hi
    obtain ⟨hnf, hnb⟩ := (key_inv_disjoint hk₃).2.2.2.2.2 k hi
    obtain ⟨oi, hfind, hoi, -⟩ := find_linked hi
    have hd : deref q₃ k = some oi := by rw [deref_inf hnf hnb hi, hfind]
    have hne : k ≠ end_key q₃ := by
      apply ne_end_key_of_linked hk₃
      simp only [records, live, linked_append, hi, Bool.or_true, Bool.true_or]
    have : erase NDEBUG q₃ k = .ok q₃ := by
      simp [erase, hne, hd, hq₃.inf_tag oi hoi, pure, Except.pure]
    rw [this] at h₄
    exact (Except.ok.inj h₄).symm

/-- C13, amended, at the key `22` of the record inserted with time `60` into
`shrunk_queue` and erased at once. -/
theorem erased_key_keeps_priority_witness :
    run false (construct 0 0 100) shrink_ops = .ok shrunk_queue ∧
      insert false shrunk_queue 60 () = .ok (inserted_queue, 22) ∧
      run false inserted_queue [] = .ok inserted_queue ∧
      linked (inserted_queue.front_ ++ inserted_queue.back_ ++ inserted_queue.inf_) 22 = true ∧
      erase false inserted_queue 22 = .ok erased_queue ∧
      priority erased_queue 22 = .ok 60 ∧
      (linked inserted_queue.inf_ 22 = false →
        is_in_queue false erased_queue 22 = .ok false ∧
        ∀ ne : Unit, set false erased_queue 22 ne = .error .undefined_behaviour) ∧
      (linked inserted_queue.inf_ 22 = true → erased_queue = inserted_queue) :=
  ⟨by decide!, by decide!, by decide!, by decide!, by decide!,
    erased_key_keeps_priority false 0 0 100 shrink_ops [] shrunk_queue inserted_queue
      inserted_queue erased_queue 60 () 22 (by decide!) (by decide!) (by decide!) (by decide!)
      (by decide!)⟩

/-- C14: in every state reached from a fresh queue by public operations and
for every key `k` whose record is in `front_` or `back_`, a call `erase(k)`
that returns has removed exactly that record: no record of address `k` is left
in `front_` or `back_`, every other record that was in `front_` or `back_` is
in `front_`, `back_` or `inf_` (with the same address, time and event), the
three lists hold one record less, and if the removal emptied `front_` while
`back_` was non-empty then `grow_front()` has run and `front_` is non-empty or
`back_` is empty.  The call returns under `NDEBUG`, and with the checks
compiled in whenever it does not reach `grow_front()`. -/
theorem erase_removes_the_record (NDEBUG : Bool) (infinity_or_max start_time end_time : ℚ)
    (ops : List (Op E)) (q : Queue E) (k : Key)
    (h : run NDEBUG (construct infinity_or_max start_time end_time) ops = .ok q)
    (hl : linked (q.front_ ++ q.back_) k = true) :
    ((NDEBUG = true ∨ linked q.back_ k = true ∨ unlink q.front_ k ≠ [] ∨ q.back_ = []) →
      ∃ q', erase NDEBUG q k = .ok q') ∧
    ∀ q', erase NDEBUG q k = .ok q' →
      linked (q'.front_ ++ q'.back_) k = false ∧
      (∀ x ∈ q.front_ ++ q.back_, x.ptr ≠ k →
        ∃ y ∈ q'.front_ ++ q'.back_ ++ q'.inf_, untagged y = untagged x) ∧
      q'.front_.length + q'.back_.length + q'.inf_.length + 1 =
        q.front_.length + q.back_.length + q.inf_.length ∧
      (linked q.front_ k = true → unlink q.front_ k = [] → q.back_ ≠ [] →
        (∃ q1 i, grow_front NDEBUG (unlink_front q k) = .ok q1 ∧ q' = unmake_event q1 i) ∧
        (q'.front_ ≠ [] ∨ q'.back_ = [])) := by
  have hk := key_inv_run ops (key_inv_construct _ _ _) h
  have hq := inv_run ops (inv_construct _ _ _) h
  refine ⟨erase_returns hq hk hl, ?_⟩
  intro q' he
  obtain ⟨i, -, him, hik, -, hp, -, -, -, hnl⟩ := erase_of_linked hq hk hl he
  obtain ⟨hnf, hnb, -⟩ := not_linked_parts hnl
  refine ⟨by rw [linked_append, hnf, hnb]; rfl, ?_, ?_, ?_⟩
  · intro x hx hxk
    have hu : untagged x ∈ untagged i :: contents (live q') :=
      hp.subset (mem_contents.2 ⟨x, List.mem_append.2 (Or.inl hx), rfl⟩)
    rcases List.mem_cons.1 hu with hu | hu
    · have hp' : x.ptr = i.ptr := congrArg (fun u => u.ptr) hu
      exact absurd (hp'.trans hik) hxk
    · exact mem_contents.1 hu
  · have := held_erase hq (ptr_of_key_inv hk) hl he
    simpa [held] using this
  · intro hf hu hb
    obtain ⟨j, -, -, -, hej⟩ := @erase_front_eq _ NDEBUG q k hq hk hf
    have hg : grow_if_drained NDEBUG (unlink_front q k) = grow_front NDEBUG (unlink_front q k) := by
      simp [grow_if_drained, unlink_front, hu, hb]
    rw [hej, hg] at he
    obtain ⟨q1, h1, h2⟩ := (bind_ok_iff _ _ _).1 he
    have h3 : unmake_event q1 j = q' := (pure_ok_iff _ _).1 h2
    refine ⟨⟨q1, j, h1, h3.symm⟩, ?_⟩
    have := grow_front_keeps_front (by simp [unlink_front, hu]) (by simpa [unlink_front] using hb) h1
    rw [← h3]
    simpa [unmake_event] using this

/-- C14 at `shrunk_queue` and the key `3` of a front record. -/
theorem erase_removes_the_record_witness :
    run false (construct 0 0 100) shrink_ops = .ok shrunk_queue ∧
      linked (shrunk_queue.front_ ++ shrunk_queue.back_) 3 = true ∧
      ((false = true ∨ linked shrunk_queue.back_ 3 = true ∨
          unlink shrunk_queue.front_ 3 ≠ [] ∨ shrunk_queue.back_ = []) →
        ∃ q', erase false shrunk_queue 3 = .ok q') ∧
      ∀ q', erase false shrunk_queue 3 = .ok q' →
        linked (q'.front_ ++ q'.back_) 3 = false ∧
        (∀ x ∈ shrunk_queue.front_ ++ shrunk_queue.back_, x.ptr ≠ 3 →
          ∃ y ∈ q'.front_ ++ q'.back_ ++ q'.inf_, untagged y = untagged x) ∧
        q'.front_.length + q'.back_.length + q'.inf_.length + 1 =
          shrunk_queue.front_.length + shrunk_queue.back_.length + shrunk_queue.inf_.length ∧
        (linked shrunk_queue.front_ 3 = true → unlink shrunk_queue.front_ 3 = [] →
          shrunk_queue.back_ ≠ [] →
          (∃ q1 i, grow_front false (unlink_front shrunk_queue 3) = .ok q1 ∧
            q' = unmake_event q1 i) ∧
          (q'.front_ ≠ [] ∨ q'.back_ = [])) :=
  ⟨by decide!, by decide!,
    erase_removes_the_record false 0 0 100 shrink_ops shrunk_queue 3 (by decide!) (by decide!)⟩

/-- C15: for every queue state `erase(end_key())` returns at once and leaves
the queue as it is: `front_`, `back_`, `inf_`, `ub_`, `step_`, `end_time_` and
`end_split_` are unchanged. -/
theorem erase_end_key_is_noop (NDEBUG : Bool) (q : Queue E) :
    erase NDEBUG q (end_key q) = .ok q := by
  simp [erase, pure, Except.pure]

/-- C16: in every state reached from a fresh queue by public operations, for
every key `k` whose record `oi` is in `front_` or `back_` and every payload
`ne`, `set(k, ne)` returns a key `k'` (the next address) of a new record `ni`
that holds `ne`, with `priority(k') == priority(k)` and the tag of `oi`;
`front_` and `back_` are the old lists with `ni` in the place of `oi`, so the
sequences of times of `front_` and of `back_`, the sizes, `ub_` and `step_`
are unchanged, and no record of address `k` is left in `front_` or `back_`. -/
theorem set_replaces_in_place (NDEBUG : Bool) (infinity_or_max start_time end_time : ℚ)
    (ops : List (Op E)) (q : Queue E) (k : Key) (ne : E)
    (h : run NDEBUG (construct infinity_or_max start_time end_time) ops = .ok q)
    (hl : linked (q.front_ ++ q.back_) k = true) :
    ∃ q' oi ni, deref q k = some oi ∧ oi ∈ q.front_ ++ q.back_ ∧
      set NDEBUG q k ne = .ok (q', q.next_ptr_) ∧
      deref q' q.next_ptr_ = some ni ∧ ni.event_ = some ne ∧
      priority q' q.next_ptr_ = priority q k ∧ ni.in_list = oi.in_list ∧
      q'.front_ = q.front_.map (fun x => if x.ptr = k then ni else x) ∧
      q'.back_ = q.back_.map (fun x => if x.ptr = k then ni else x) ∧
      q'.front_.map (fun x => x.time) = q.front_.map (fun x => x.time) ∧
      q'.back_.map (fun x => x.time) = q.back_.map (fun x => x.time) ∧
      q'.front_.length = q.front_.length ∧ q'.back_.length = q.back_.length ∧
      q'.ub_ = q.ub_ ∧ q'.step_ = q.step_ ∧
      linked (q'.front_ ++ q'.back_) k = false := by
  have hk := key_inv_run ops (key_inv_construct _ _ _) h
  have hq := inv_run ops (inv_construct _ _ _) h
  have hl' : linked (live q) k = true := by
    simp only [live, linked_append, hl, Bool.true_or]
  obtain ⟨q', oi, ni, hd, hi, hik, hset, hnp, hnt, hntag, hne, hd', hf, hb, -, -, hub, hstep,
    -, -, -, -, hnl⟩ := @set_result _ NDEBUG q k ne hq hk hl'
  have hfb : oi ∈ q.front_ ++ q.back_ := (deref_of_linked hl hd).1
  have huniq : ∀ x ∈ live q, x.ptr = k → x.time = ni.time := by
    intro x hx hxk
    rw [eq_of_ptr_eq hk.nodup hx hi (hxk.trans hik.symm), hnt]
  obtain ⟨hnf, hnb, -⟩ := not_linked_parts hnl
  refine ⟨q', oi, ni, hd, hfb, hset, hd', hne, ?_, hntag, hf, hb, ?_, ?_, ?_, ?_, hub, hstep, ?_⟩
  · simp only [priority, hd, hd', hnt]
  · rw [hf]
    exact map_replace_time
      (fun x hx => huniq x (List.mem_append.2 (Or.inl (List.mem_append.2 (Or.inl hx)))))
  · rw [hb]
    exact map_replace_time
      (fun x hx => huniq x (List.mem_append.2 (Or.inl (List.mem_append.2 (Or.inr hx)))))
  · rw [hf, List.length_map]
  · rw [hb, List.length_map]
  · rw [linked_append, hnf, hnb]
    rfl

/-- C16 at `shrunk_queue` and the key `5` of a front record. -/
theorem set_replaces_in_place_witness :
    run false (construct 0 0 100) shrink_ops = .ok shrunk_queue ∧
      linked (shrunk_queue.front_ ++ shrunk_queue.back_) 5 = true ∧
      ∃ q' oi ni, deref shrunk_queue 5 = some oi ∧
        oi ∈ shrunk_queue.front_ ++ shrunk_queue.back_ ∧
        set false shrunk_queue 5 () = .ok (q', shrunk_queue.next_ptr_) ∧
        deref q' shrunk_queue.next_ptr_ = some ni ∧ ni.event_ = some () ∧
        priority q' shrunk_queue.next_ptr_ = priority shrunk_queue 5 ∧
        ni.in_list = oi.in_list ∧
        q'.front_ = shrunk_queue.front_.map (fun x => if x.ptr = 5 then ni else x) ∧
        q'.back_ = shrunk_queue.back_.map (fun x => if x.ptr = 5 then ni else x) ∧
        q'.front_.map (fun x => x.time) = shrunk_queue.front_.map (fun x => x.time) ∧
        q'.back_.map (fun x => x.time) = shrunk_queue.back_.map (fun x => x.time) ∧
        q'.front_.length = shrunk_queue.front_.length ∧
        q'.back_.length = shrunk_queue.back_.length ∧
        q'.ub_ = shrunk_queue.ub_ ∧ q'.step_ = shrunk_queue.step_ ∧
        linked (q'.front_ ++ q'.back_) 5 = false :=
  ⟨by decide!, by decide!,
    set_replaces_in_place false 0 0 100 shrink_ops shrunk_queue 5 () (by decide!) (by decide!)⟩

/-- C17: with the checks compiled in, `set(end_key(), ne)` fails
`CGAL_precondition(item != end_key())` (line 406), for every payload and every
queue state; the call ends there, before the queue is touched. -/
theorem set_end_key_fails_precondition (q : Queue E) (ne : E) :
    set false q (end_key q) ne = .error (.precondition 406) := by
  simp [set, CGAL_precondition, check, bind, Except.bind]

/-- C18 as stated fails: in a queue constructed with `start_time = 0` and
`end_time = 100`, `insert(500, e)` retires the record of address `1` to
`inf_` with the tag `INF`.  With the checks compiled in, `erase` of the key
`1` then returns and leaves the queue as it is, and `set` of the key `1`
returns the key `2` of a new record of time `500` and tag `INF` that has
replaced the record in `inf_`. -/
theorem retired_key_is_accepted :
    run false (construct 0 0 100) [.insert 500 ()] = .ok retired_queue ∧
      retired_queue.inf_.map (fun x => (x.ptr, x.time, x.in_list)) = [(1, 500, some .INF)] ∧
      erase false retired_queue 1 = .ok retired_queue ∧
      (set false retired_queue 1 ()).map
          (fun r => (r.2, r.1.inf_.map (fun x => (x.ptr, x.time, x.in_list))))
        = .ok (2, [(2, 500, some .INF)]) := by
  decide!

/-- C18, amended: in every state reached from a fresh queue by public
operations, for a key `k` whose record `oi` is retired (recorded in `inf_`
with the tag `INF`), `erase(k)` returns and leaves the queue as it is, and
`set(k, ne)` returns the key of a new record `ni` with the time of `oi` and the
tag `INF`, which takes the place of `oi` in `inf_`; `front_`, `back_`, `ub_`
and `step_` are unchanged. -/
theorem retired_key_erase_and_set (NDEBUG : Bool) (infinity_or_max start_time end_time : ℚ)
    (ops : List (Op E)) (q : Queue E) (k : Key) (ne : E)
    (h : run NDEBUG (construct infinity_or_max start_time end_time) ops = .ok q)
    (hl : linked q.inf_ k = true) :
    erase NDEBUG q k = .ok q ∧
      ∃ q' oi ni, deref q k = some oi ∧ oi.in_list = some .INF ∧
        set NDEBUG q k ne = .ok (q', q.next_ptr_) ∧
        deref q' q.next_ptr_ = some ni ∧ ni.in_list = some .INF ∧ ni.time = oi.time ∧
        ni.event_ = some ne ∧ q'.front_ = q.front_ ∧ q'.back_ = q.back_ ∧
        q'.inf_ = q.inf_.map (fun x => if x.ptr = k then ni else x) ∧
        q'.ub_ = q.ub_ ∧ q'.step_ = q.step_ := by
  have hk := key_inv_run ops (key_inv_construct _ _ _) h
  have hq := inv_run ops (inv_construct _ _ _) h
  have hl' : linked (live q) k = true := by
    simp only [live, linked_append, hl, Bool.or_true]
  obtain ⟨hnf, hnb⟩ := (key_inv_disjoint hk).2.2.2.2.2 k hl
  obtain ⟨q', oi, ni, hd, hi, hik, hset, hnp, hnt, hntag, hne, hd', hf, hb, hinf, -, hub, hstep,
    -, -, -, -, hnl⟩ := @set_result _ NDEBUG q k ne hq hk hl'
  obtain ⟨oi', hfind, hi', -⟩ := find_linked hl
  have hoi : oi = oi' := by
    rw [deref_inf hnf hnb hl, hfind] at hd
    exact (Option.some.inj hd).symm
  have htag : oi.in_list = some .INF := by
    rw [hoi]
    exact hq.inf_tag oi' hi'
  have hne' : k ≠ end_key q := by
    apply ne_end_key_of_linked hk
    simp only [records, linked_append, hl', Bool.true_or]
  refine ⟨?_, q', oi, ni, hd, htag, hset, hd', hntag.trans htag, hnt, hne, ?_, ?_, hinf, hub, hstep⟩
  · simp [erase, hne', hd, htag, pure, Except.pure]
  · rw [hf, map_replace_of_not_linked _ hnf]
  · rw [hb, map_replace_of_not_linked _ hnb]

/-- C18, amended, at `retired_queue` and the key `1`. -/
theorem retired_key_erase_and_set_witness :
    run false (construct 0 0 100) [.insert 500 ()] = .ok retired_queue ∧
      linked retired_queue.inf_ 1 = true ∧
      erase false retired_queue 1 = .ok retired_queue ∧
      ∃ q' oi ni, deref retired_queue 1 = some oi ∧ oi.in_list = some .INF ∧
        set false retired_queue 1 () = .ok (q', retired_queue.next_ptr_) ∧
        deref q' retired_queue.next_ptr_ = some ni ∧ ni.in_list = some .INF ∧
        ni.time = oi.time ∧ ni.event_ = some () ∧ q'.front_ = retired_queue.front_ ∧
        q'.back_ = retired_queue.back_ ∧
        q'.inf_ = retired_queue.inf_.map (fun x => if x.ptr = 1 then ni else x) ∧
        q'.ub_ = retired_queue.ub_ ∧ q'.step_ = retired_queue.step_ :=
  ⟨by decide!, by decide!,
    retired_key_erase_and_set false 0 0 100 [.insert 500 ()] retired_queue 1 ()
      (by decide!) (by decide!)⟩

/-- C19: with the checks compiled in, when `front_` is empty `front_priority()`
fails `CGAL_precondition(!front_.empty())` (line 449) and `process_front()`
fails while it evaluates `CGAL_precondition(!empty())`: at line 471 when
`back_` is empty too, and at the precondition of `empty()` (line 462) when it
is not.  No time is returned and no callback is run; the call ends at the
failed check, before the queue is touched. -/
theorem empty_front_is_rejected (q : Queue E) (hf : q.front_ = []) :
    front_priority false q = .error (.precondition 449) ∧
      (q.back_ = [] → process_front false q = .error (.precondition 471)) ∧
      (q.back_ ≠ [] → process_front false q = .error (.precondition 462)) :=
  ⟨front_priority_nil q hf, process_front_nil q hf⟩

/-- C19 at a fresh queue. -/
theorem empty_front_is_rejected_witness :
    (construct (E := Unit) 0 0 100).front_ = [] ∧
      front_priority false (construct (E := Unit) 0 0 100) = .error (.precondition 449) ∧
      ((construct (E := Unit) 0 0 100).back_ = [] →
        process_front false (construct (E := Unit) 0 0 100) = .error (.precondition 471)) ∧
      ((construct (E := Unit) 0 0 100).back_ ≠ [] →
        process_front false (construct (E := Unit) 0 0 100) = .error (.precondition 462)) :=
  ⟨rfl, empty_front_is_rejected (construct 0 0 100) rfl⟩

/-- C20: in every state reached from a fresh queue by public operations in
which `front_` is non-empty, `front_priority()` returns a time `t` that is
less than or equal to the time of every record in `front_`; a call
`process_front()` that returns has processed the first record of `front_`,
whose time is `t`.  That call returns under `NDEBUG`, and with the checks
compiled in whenever it does not reach `grow_front()`. -/
theorem front_priority_is_minimum (NDEBUG : Bool) (infinity_or_max start_time end_time : ℚ)
    (ops : List (Op E)) (q : Queue E)
    (h : run NDEBUG (construct infinity_or_max start_time end_time) ops = .ok q)
    (hf : q.front_ ≠ []) :
    ∃ t, front_priority NDEBUG q = .ok t ∧ (∀ x ∈ q.front_, t ≤ x.time) ∧
      (∀ r, process_front NDEBUG q = .ok r →
        ∃ i, r.2 = some i ∧ i.time = t ∧ q.front_.head? = some i) ∧
      ((NDEBUG = true ∨ q.front_.tail ≠ [] ∨ q.back_ = []) →
        ∃ r, process_front NDEBUG q = .ok r) := by
  have hq := inv_run ops (inv_construct _ _ _) h
  obtain ⟨i, rest, hfr⟩ := List.exists_cons_of_ne_nil hf
  refine ⟨i.time, front_priority_cons hfr, ?_, ?_, ?_⟩
  · intro x hx
    have hs := hq.sorted
    simp only [front_sorted, hfr, List.sorted_cons] at hs
    rw [hfr] at hx
    rcases List.mem_cons.1 hx with rfl | hx
    · exact le_refl _
    · exact hs.1 x hx
  · intro r hr
    exact ⟨i, process_front_head hfr hr, rfl, by rw [hfr]; rfl⟩
  · intro hc
    have hc' : NDEBUG = true ∨ rest ≠ [] ∨ q.back_ = [] := by
      simpa [hfr] using hc
    obtain ⟨q', hq'⟩ := process_front_returns hfr hc'
    exact ⟨_, hq'⟩

/-- C20 at `shrunk_queue`. -/
theorem front_priority_is_minimum_witness :
    run false (construct 0 0 100) shrink_ops = .ok shrunk_queue ∧
      shrunk_queue.front_ ≠ [] ∧
      ∃ t, front_priority false shrunk_queue = .ok t ∧
        (∀ x ∈ shrunk_queue.front_, t ≤ x.time) ∧
        (∀ r, process_front false shrunk_queue = .ok r →
          ∃ i, r.2 = some i ∧ i.time = t ∧ shrunk_queue.front_.head? = some i) ∧
        ((false = true ∨ shrunk_queue.front_.tail ≠ [] ∨ shrunk_queue.back_ = []) →
          ∃ r, process_front false shrunk_queue = .ok r) :=
  ⟨by decide!, by decide!,
    front_priority_is_minimum false 0 0 100 shrink_ops shrunk_queue (by decide!) (by decide!)⟩

/-! ## Claims C21 to C30 -/

/-- C21: in every state reached from a fresh queue by public operations in
which `front_` is empty, for every `t` with `t > ub_` and `t >= end_time()`,
`insert(t, e)` returns a key (the next address) that refers to a record tagged
`INF` with `priority` `t`; the record is appended to `inf_` and linked into
neither `front_` nor `back_`; `front_`, `back_`, `ub_` and `step_` are
unchanged, and `empty()` returns `true`. -/
theorem insert_past_horizon_retires (NDEBUG : Bool) (infinity_or_max start_time end_time : ℚ)
    (ops : List (Op E)) (q : Queue E) (t : ℚ) (e : E)
    (h : run NDEBUG (construct infinity_or_max start_time end_time) ops = .ok q)
    (hf : q.front_ = []) (hub : q.ub_ < t) (hend : Two_list_pointer_event_queue.end_time q ≤ t) :
    ∃ q' ni, insert NDEBUG q t e = .ok (q', q.next_ptr_) ∧
      deref q' q.next_ptr_ = some ni ∧ ni.in_list = some .INF ∧ ni.time = t ∧
      priority q' q.next_ptr_ = .ok t ∧
      linked (q'.front_ ++ q'.back_) q.next_ptr_ = false ∧
      q'.front_ = q.front_ ∧ q'.back_ = q.back_ ∧ q'.inf_ = q.inf_ ++ [ni] ∧
      q'.ub_ = q.ub_ ∧ q'.step_ = q.step_ ∧ empty NDEBUG q' = .ok true := by
  have hk := key_inv_run ops (key_inv_construct _ _ _) h
  have h336 : NDEBUG = true ∨ q.back_ = [] := by
    cases NDEBUG with
    | true => exact Or.inl rfl
    | false =>
      right
      by_contra hb
      exact i4_run_checked ops (by simp [construct, set_end_priority]) h hb hf
  have hins : insert NDEBUG q t e
      = .ok (record_inf (alloc q) (new_item q t e .INF), q.next_ptr_) :=
    insert_cases.2 (.retire (not_le.2 hub) hf h336 (not_lt.2 hend) rfl)
  have hlt : ∀ x ∈ records q, x.ptr < q.next_ptr_ := fun x hx => (hk.bounds x hx).2
  have hnf : linked q.front_ q.next_ptr_ = false :=
    not_linked_of_lt (fun x hx => hlt x
      (List.mem_append.2 (Or.inl (List.mem_append.2 (Or.inl (List.mem_append.2 (Or.inl hx)))))))
  have hnb : linked q.back_ q.next_ptr_ = false :=
    not_linked_of_lt (fun x hx => hlt x
      (List.mem_append.2 (Or.inl (List.mem_append.2 (Or.inl (List.mem_append.2 (Or.inr hx)))))))
  have hni : linked q.inf_ q.next_ptr_ = false :=
    not_linked_of_lt (fun x hx => hlt x
      (List.mem_append.2 (Or.inl (List.mem_append.2 (Or.inr hx)))))
  have hd : deref (record_inf (alloc q) (new_item q t e .INF)) q.next_ptr_
      = some (new_item q t e .INF) := by
    have hli : linked (record_inf (alloc q) (new_item q t e .INF)).inf_ q.next_ptr_ = true := by
      simp [record_inf, linked_append, linked]
    rw [deref_inf (q := record_inf (alloc q) (new_item q t e .INF)) hnf hnb hli]
    simp only [record_inf, alloc_inf]
    rw [find_of_not_linked hni]
    simp [List.find?]
  refine ⟨_, new_item q t e .INF, hins, hd, rfl, rfl, ?_, ?_, rfl, rfl, rfl, rfl, rfl, ?_⟩
  · simp only [priority, hd]
    rfl
  · show linked (q.front_ ++ q.back_) q.next_ptr_ = false
    rw [linked_append, hnf, hnb]
    rfl
  · cases NDEBUG with
    | true => simp [empty, CGAL_precondition, check, record_inf, hf, bind, Except.bind, pure,
        Except.pure]
    | false =>
      rcases h336 with h1 | h1
      · cases h1
      · simp [empty, CGAL_precondition, check, record_inf, hf, h1, bind, Except.bind, pure,
          Except.pure]

/-- C21 at a fresh queue with `start_time = 0` and `end_time = 100`:
`insert(500, e)` retires the record and leaves `empty()` true. -/
theorem insert_past_horizon_retires_witness :
    run false (construct (E := Unit) 0 0 100) [] = .ok (construct 0 0 100) ∧
      (construct (E := Unit) 0 0 100).front_ = [] ∧
      (construct (E := Unit) 0 0 100).ub_ < 500 ∧
      Two_list_pointer_event_queue.end_time (construct (E := Unit) 0 0 100) ≤ 500 ∧
      ∃ q' ni, insert false (construct 0 0 100) 500 ()
          = .ok (q', (construct (E := Unit) 0 0 100).next_ptr_) ∧
        deref q' (construct (E := Unit) 0 0 100).next_ptr_ = some ni ∧
        ni.in_list = some .INF ∧ ni.time = 500 ∧
        priority q' (construct (E := Unit) 0 0 100).next_ptr_ = .ok 500 ∧
        linked (q'.front_ ++ q'.back_) (construct (E := Unit) 0 0 100).next_ptr_ = false ∧
        q'.front_ = (construct (E := Unit) 0 0 100).front_ ∧
        q'.back_ = (construct (E := Unit) 0 0 100).back_ ∧
        q'.inf_ = (construct (E := Unit) 0 0 100).inf_ ++ [ni] ∧
        q'.ub_ = (construct (E := Unit) 0 0 100).ub_ ∧
        q'.step_ = (construct (E := Unit) 0 0 100).step_ ∧ empty false q' = .ok true :=
  ⟨rfl, rfl, by decide!, by decide!,
    insert_past_horizon_retires false 0 0 100 [] (construct 0 0 100) 500 () rfl rfl
      (by decide!) (by decide!)⟩

/-- C22: for every queue state `clear()` leaves `front_` and `back_` empty, so
that `empty()` returns `true`, and leaves `ub_`, `step_`, `end_time_`,
`end_split_` and `inf_` as they are; no record is processed. -/
theorem clear_empties_both_lists (NDEBUG : Bool) (q : Queue E) :
    (clear q).front_ = [] ∧ (clear q).back_ = [] ∧ empty NDEBUG (clear q) = .ok true ∧
      (clear q).ub_ = q.ub_ ∧ (clear q).step_ = q.step_ ∧
      (clear q).end_time_ = q.end_time_ ∧ (clear q).end_split_ = q.end_split_ ∧
      (clear q).inf_ = q.inf_ := by
  refine ⟨rfl, rfl, ?_, rfl, rfl, rfl, rfl, rfl⟩
  simp [empty, clear, CGAL_precondition, check, bind, Except.bind, pure, Except.pure]

/-- C23 (evaluated on the code): for every `start_time` and `end_time` the
constructed queue has `front_` and `back_` empty, `empty()` returns `true`,
`ub_` is the lower interval bound of `start_time`, `step_` is `1`, `end_time_`
is `end_time` and `end_split_` is the upper interval bound of `end_time`; but
`end_priority()` returns a reference to the temporary into which `end_time()`
copied `end_time`, and reading the priority through that reference is
undefined, in both builds. -/
theorem construct_gives_empty_queue (NDEBUG : Bool) (infinity_or_max start_time end_time : ℚ) :
    (construct (E := E) infinity_or_max start_time end_time).front_ = [] ∧
      (construct (E := E) infinity_or_max start_time end_time).back_ = [] ∧
      empty NDEBUG (construct (E := E) infinity_or_max start_time end_time) = .ok true ∧
      (construct (E := E) infinity_or_max start_time end_time).ub_ = (to_interval start_time).1 ∧
      (construct (E := E) infinity_or_max start_time end_time).step_ = 1 ∧
      (construct (E := E) infinity_or_max start_time end_time).end_time_ = end_time ∧
      end_priority (construct (E := E) infinity_or_max start_time end_time)
        = .temporary end_time ∧
      Priority_ref.read (end_priority (construct (E := E) infinity_or_max start_time end_time))
        = .error .undefined_behaviour ∧
      (construct (E := E) infinity_or_max start_time end_time).end_split_
        = (to_interval end_time).2 := by
  refine ⟨rfl, rfl, ?_, rfl, rfl, rfl, rfl, rfl, rfl⟩
  simp [empty, construct, set_end_priority, CGAL_precondition, check, bind, Except.bind, pure,
    Except.pure]

/-- C24 (evaluated on the code): on a freshly constructed queue, whose
`front_` is empty, `front_priority()` fails
`CGAL_precondition(!front_.empty())` (line 449) when the checks are compiled
in; under `NDEBUG` it returns the time of the end node of `front_`, the value
`infinity_or_max<Priority>()`. -/
theorem front_priority_on_empty_queue (infinity_or_max start_time end_time : ℚ) :
    front_priority false (construct (E := E) infinity_or_max start_time end_time)
        = .error (.precondition 449) ∧
      front_priority true (construct (E := E) infinity_or_max start_time end_time)
        = .ok infinity_or_max := by
  constructor
  · simp [front_priority, construct, set_end_priority, CGAL_precondition, check, bind,
      Except.bind]
  · simp [front_priority, construct, set_end_priority, CGAL_precondition, check, bind,
      Except.bind, pure, Except.pure, time_at, Two_list_event_queue_item.time]


/-- C26: in every state reached by public operations from a queue constructed
with `start_time <= end_time`, `end_time()` is still `end_time` and every
record retired to `inf_` has a time at or after it; the third loop of
`audit()`, with the assertion `t >= end_time()` of line 567, passes. -/
theorem retired_records_are_late (NDEBUG : Bool) (infinity_or_max start_time end_time : ℚ)
    (hse : start_time ≤ end_time) (ops : List (Op E)) (q : Queue E)
    (h : run NDEBUG (construct infinity_or_max start_time end_time) ops = .ok q) :
    Two_list_pointer_event_queue.end_time q = end_time ∧
      (∀ x ∈ q.inf_, end_time ≤ x.time) ∧
      for_each q.inf_ (fun it => do
        CGAL_assertion NDEBUG 567 (decide (it.time ≥ Two_list_pointer_event_queue.end_time q))
        CGAL_assertion NDEBUG 568 (it.in_list == some .INF)) = .ok () := by
  have hq := inv_run ops (inv_construct _ _ _) h
  have he : q.end_time_ = end_time := (ends_run ops h).1
  have hl : ∀ x ∈ q.inf_, q.end_time_ ≤ x.time :=
    late_run ops (inv_construct _ _ _) (horizon_construct _ _ _ hse) (key_inv_construct _ _ _)
      (by simp [construct, set_end_priority]) h
  refine ⟨he, fun x hx => he ▸ hl x hx, for_each_ok ?_⟩
  intro x hx
  have h1 : decide (x.time ≥ Two_list_pointer_event_queue.end_time q) = true :=
    decide_eq_true (hl x hx)
  have h2 : (x.in_list == some In_list.INF) = true := by
    rw [hq.inf_tag x hx]
    rfl
  simp [CGAL_assertion, check, h1, h2, bind, Except.bind]

/-- C26 at the run `horizon_ops`, which retires the records at 200, 500 and 300. -/
theorem retired_records_are_late_witness :
    (0 : ℚ) ≤ 100 ∧
      run false (construct 0 0 100) horizon_ops = .ok horizon_queue ∧
      horizon_queue.inf_.map (fun x => x.time) = [200, 500, 300] ∧
      Two_list_pointer_event_queue.end_time horizon_queue = 100 ∧
      (∀ x ∈ horizon_queue.inf_, (100 : ℚ) ≤ x.time) ∧
      for_each horizon_queue.inf_ (fun it => do
        CGAL_assertion false 567
          (decide (it.time ≥ Two_list_pointer_event_queue.end_time horizon_queue))
        CGAL_assertion false 568 (it.in_list == some .INF)) = .ok () :=
  ⟨by norm_num, by decide!, by decide!,
    retired_records_are_late false 0 0 100 (by norm_num) horizon_ops horizon_queue
      (by decide!)⟩

/-- C27: in every state reached by public operations from a queue constructed
with `start_time <= end_time`, no record of `front_` has a time greater than
`end_time`; so the time that `front_priority()` returns for a non-empty
`front_` and the time of the record that `process_front()` processes are at
most `end_time`: a record inserted with `t > end_time` is neither. -/
theorem front_records_within_horizon (NDEBUG : Bool) (infinity_or_max start_time end_time : ℚ)
    (hse : start_time ≤ end_time) (ops : List (Op E)) (q : Queue E)
    (h : run NDEBUG (construct infinity_or_max start_time end_time) ops = .ok q) :
    (∀ x ∈ q.front_, x.time ≤ end_time) ∧
      (∀ t, q.front_ ≠ [] → front_priority NDEBUG q = .ok t → t ≤ end_time) ∧
      (∀ q' i, process_front NDEBUG q = .ok (q', some i) → i.time ≤ end_time) := by
  have hq := inv_run ops (inv_construct _ _ _) h
  have hh := horizon_run ops (inv_construct _ _ _) (horizon_construct _ _ _ hse) h
  have he : q.end_time_ = end_time := (ends_run ops h).1
  have hfront : ∀ x ∈ q.front_, x.time ≤ end_time := by
    intro x hx
    rw [← he, hh.end_eq]
    exact le_trans (hq.front_le x hx) hh.ub_le
  refine ⟨hfront, ?_, ?_⟩
  · intro t hf ht
    obtain ⟨i, rest, hfr⟩ := List.exists_cons_of_ne_nil hf
    rw [front_priority_cons hfr] at ht
    rw [← Except.ok.inj ht]
    exact hfront i (by rw [hfr]; exact List.mem_cons_self _ _)
  · intro q' i hp
    cases process_front_cases hp with
    | run j rest hf q1 hg hr =>
      simp only [Prod.mk.injEq, Option.some.injEq] at hr
      rw [hr.2]
      exact hfront j (by rw [hf]; exact List.mem_cons_self _ _)
    | idle hn hf hr => cases hr

/-- C27 at the run `sample_ops`. -/
theorem front_records_within_horizon_witness :
    (0 : ℚ) ≤ 100 ∧ run false (construct 0 0 100) sample_ops = .ok sample_queue ∧
      (∀ x ∈ sample_queue.front_, x.time ≤ 100) ∧
      (∀ t, sample_queue.front_ ≠ [] → front_priority false sample_queue = .ok t → t ≤ 100) ∧
      (∀ q' i, process_front false sample_queue = .ok (q', some i) → i.time ≤ 100) :=
  ⟨by norm_num, by decide!,
    front_records_within_horizon false 0 0 100 (by norm_num) sample_ops sample_queue
      (by decide!)⟩

/-- C28: in every state reached by public operations from a queue constructed
with `start_time <= end_time`, `ub_ <= end_split_`, where `end_split_` is the
upper interval bound of `end_time`; and whenever `insert(t, e)` calls
`shrink_front()`, the test `split > end_split()` of line 763 is false: the
horizon branch of `shrink_front()` is not entered. -/
theorem window_bound_within_horizon (NDEBUG : Bool) (infinity_or_max start_time end_time : ℚ)
    (hse : start_time ≤ end_time) (ops : List (Op E)) (q : Queue E)
    (h : run NDEBUG (construct infinity_or_max start_time end_time) ops = .ok q) :
    q.ub_ ≤ q.end_split_ ∧ q.end_split_ = (to_interval end_time).2 ∧
      ∀ (t : ℚ) (e : E), t ≤ q.ub_ →
        (link_front (alloc q) (new_item q t e .FRONT)).front_.length >
          2 * max_front_size (link_front (alloc q) (new_item q t e .FRONT)) →
        ¬ (to_interval (time_at (link_front (alloc q) (new_item q t e .FRONT))
            (link_front (alloc q) (new_item q t e .FRONT)).front_
            (max_front_size (link_front (alloc q) (new_item q t e .FRONT))))).2 >
          end_split (link_front (alloc q) (new_item q t e .FRONT)) := by
  have hq := inv_run ops (inv_construct _ _ _) h
  have hh := horizon_run ops (inv_construct _ _ _) (horizon_construct _ _ _ hse) h
  refine ⟨hh.ub_le, (ends_run ops h).2, ?_⟩
  intro t e ht hsize
  obtain ⟨x, rest, hx⟩ := drop_max_front_size hsize
  have hq1 := inv_link_front hq t e ht
  have hxm : x ∈ (link_front (alloc q) (new_item q t e .FRONT)).front_ :=
    List.mem_of_mem_drop (hx ▸ List.mem_cons_self _ _)
  have hxle := hq1.front_le x hxm
  rw [time_at_of_drop _ hx]
  exact not_lt.2 (le_trans hxle hh.ub_le)

/-- C28 at `filled_queue` and `insert(20, e)`, which calls `shrink_front()`. -/
theorem window_bound_within_horizon_witness :
    (0 : ℚ) ≤ 100 ∧ run false (construct 0 0 100) (shrink_ops.take 20) = .ok filled_queue ∧
      filled_queue.ub_ ≤ filled_queue.end_split_ ∧
      filled_queue.end_split_ = (to_interval 100).2 ∧
      ∀ (t : ℚ) (e : Unit), t ≤ filled_queue.ub_ →
        (link_front (alloc filled_queue) (new_item filled_queue t e .FRONT)).front_.length >
          2 * max_front_size (link_front (alloc filled_queue) (new_item filled_queue t e .FRONT)) →
        ¬ (to_interval (time_at (link_front (alloc filled_queue) (new_item filled_queue t e .FRONT))
            (link_front (alloc filled_queue) (new_item filled_queue t e .FRONT)).front_
            (max_front_size
              (link_front (alloc filled_queue) (new_item filled_queue t e .FRONT))))).2 >
          end_split (link_front (alloc filled_queue) (new_item filled_queue t e .FRONT)) :=
  ⟨by norm_num, by decide!,
    window_bound_within_horizon false 0 0 100 (by norm_num) (shrink_ops.take 20) filled_queue
      (by decide!)⟩

/-- C29: for every state in which every record of `front_` has a time at most
`ub_`, `front_` holds more than `2 * m` records with `m = max_front_size()`,
and the time `s` of the record at index `m` of `front_` is at most
`end_split_`, `shrink_front()` returns, keeps exactly the first `m` records in
`front_`, puts the records from index `m` on, tagged `BACK`, in front of
`back_`, sets `ub_` to `s` and `step_` to the old `ub_` minus `s`, and leaves
`inf_` as it is; `front_` and `back_` together hold the same records as
before, in the same order. -/
theorem shrink_front_gives_back (NDEBUG : Bool) (q : Queue E)
    (hle : ∀ y ∈ q.front_, y.time ≤ q.ub_)
    (hlen : q.front_.length > 2 * max_front_size q)
    (hs : time_at q q.front_ (max_front_size q) ≤ q.end_split_) :
    ∃ q', shrink_front NDEBUG q = .ok q' ∧
      q'.front_ = q.front_.take (max_front_size q) ∧
      q'.front_.length = max_front_size q ∧
      q'.back_ = set_front (q.front_.drop (max_front_size q)) .BACK ++ q.back_ ∧
      q'.ub_ = time_at q q.front_ (max_front_size q) ∧
      q'.step_ = q.ub_ - time_at q q.front_ (max_front_size q) ∧
      q'.inf_ = q.inf_ ∧
      contents (q'.front_ ++ q'.back_) = contents (q.front_ ++ q.back_) := by
  obtain ⟨x, rest, hx⟩ := drop_max_front_size hlen
  have hxm : x ∈ q.front_ := List.mem_of_mem_drop (hx ▸ List.mem_cons_self _ _)
  rw [time_at_of_drop q hx] at hs ⊢
  have hcase : Shrink_case NDEBUG q x (give_back q (max_front_size q) x.time) :=
    .give_back (not_lt.2 hs) (Or.inr (sub_nonneg.2 (hle x hxm))) rfl
  refine ⟨_, (shrink_front_cases hx).2 hcase, rfl, ?_, rfl, rfl, rfl, rfl, ?_⟩
  · exact List.length_take_of_le (le_of_lt (lt_length_of_drop hx))
  · simp only [give_back, contents_append, contents_set_front]
    rw [← List.append_assoc, ← contents_append, List.take_append_drop]

/-- C29 at `unshrunk_queue`: twenty-one front records, `m = 10`. -/
theorem shrink_front_gives_back_witness :
    (∀ y ∈ unshrunk_queue.front_, y.time ≤ unshrunk_queue.ub_) ∧
      unshrunk_queue.front_.length > 2 * max_front_size unshrunk_queue ∧
      time_at unshrunk_queue unshrunk_queue.front_ (max_front_size unshrunk_queue)
        ≤ unshrunk_queue.end_split_ ∧
      ∃ q', shrink_front false unshrunk_queue = .ok q' ∧
        q'.front_ = unshrunk_queue.front_.take (max_front_size unshrunk_queue) ∧
        q'.front_.length = max_front_size unshrunk_queue ∧
        q'.back_ = set_front (unshrunk_queue.front_.drop (max_front_size unshrunk_queue)) .BACK
          ++ unshrunk_queue.back_ ∧
        q'.ub_ = time_at unshrunk_queue unshrunk_queue.front_ (max_front_size unshrunk_queue) ∧
        q'.step_ = unshrunk_queue.ub_
          - time_at unshrunk_queue unshrunk_queue.front_ (max_front_size unshrunk_queue) ∧
        q'.inf_ = unshrunk_queue.inf_ ∧
        contents (q'.front_ ++ q'.back_)
          = contents (unshrunk_queue.front_ ++ unshrunk_queue.back_) :=
  ⟨by decide!, by decide!, by decide!,
    shrink_front_gives_back false unshrunk_queue (by decide!) (by decide!) (by decide!)⟩

/-- C30: in every state reached by public operations from a queue constructed
with `start_time <= end_time`, whenever `insert(t, e)` calls `shrink_front()`
the call returns: the postcondition `step_ >= 0` of line 807 holds, the new
`ub_` is at most the old one, and `insert` returns the queue that
`shrink_front()` leaves. -/
theorem shrink_postcondition_holds (NDEBUG : Bool) (infinity_or_max start_time end_time : ℚ)
    (hse : start_time ≤ end_time) (ops : List (Op E)) (q : Queue E) (t : ℚ) (e : E)
    (h : run NDEBUG (construct infinity_or_max start_time end_time) ops = .ok q)
    (ht : t ≤ q.ub_)
    (hsize : (link_front (alloc q) (new_item q t e .FRONT)).front_.length >
      2 * max_front_size (link_front (alloc q) (new_item q t e .FRONT))) :
    ∃ q', shrink_front NDEBUG (link_front (alloc q) (new_item q t e .FRONT)) = .ok q' ∧
      0 ≤ q'.step_ ∧ q'.ub_ ≤ q.ub_ ∧ q'.step_ = q.ub_ - q'.ub_ ∧
      insert NDEBUG q t e = .ok (q', q.next_ptr_) := by
  have hq := inv_run ops (inv_construct _ _ _) h
  have hh := horizon_run ops (inv_construct _ _ _) (horizon_construct _ _ _ hse) h
  obtain ⟨x, rest, hx⟩ := drop_max_front_size hsize
  have hq1 := inv_link_front hq t e ht
  have hxm : x ∈ (link_front (alloc q) (new_item q t e .FRONT)).front_ :=
    List.mem_of_mem_drop (hx ▸ List.mem_cons_self _ _)
  have hxle : x.time ≤ q.ub_ := hq1.front_le x hxm
  have hsplit : ¬ x.time > (link_front (alloc q) (new_item q t e .FRONT)).end_split_ :=
    not_lt.2 (le_trans hxle hh.ub_le)
  have hcase : Shrink_case NDEBUG (link_front (alloc q) (new_item q t e .FRONT)) x
      (give_back (link_front (alloc q) (new_item q t e .FRONT))
        (max_front_size (link_front (alloc q) (new_item q t e .FRONT))) x.time) :=
    .give_back hsplit (Or.inr (sub_nonneg.2 hxle)) rfl
  have hs := (shrink_front_cases hx).2 hcase
  refine ⟨_, hs, ?_, hxle, rfl, insert_cases.2 (.front_shrink ht hsize _ hs rfl)⟩
  show 0 ≤ q.ub_ - x.time
  exact sub_nonneg.2 hxle

/-- C30 at `filled_queue` and `insert(20, e)`. -/
theorem shrink_postcondition_holds_witness :
    (0 : ℚ) ≤ 100 ∧ run false (construct 0 0 100) (shrink_ops.take 20) = .ok filled_queue ∧
      (20 : ℚ) ≤ filled_queue.ub_ ∧
      (link_front (alloc filled_queue) (new_item filled_queue 20 () .FRONT)).front_.length >
        2 * max_front_size (link_front (alloc filled_queue) (new_item filled_queue 20 () .FRONT)) ∧
      ∃ q', shrink_front false (link_front (alloc filled_queue)
          (new_item filled_queue 20 () .FRONT)) = .ok q' ∧
        0 ≤ q'.step_ ∧ q'.ub_ ≤ filled_queue.ub_ ∧ q'.step_ = filled_queue.ub_ - q'.ub_ ∧
        insert false filled_queue 20 () = .ok (q', filled_queue.next_ptr_) :=
  ⟨by norm_num, by decide!, by decide!, by decide!,
    shrink_postcondition_holds false 0 0 100 (by norm_num) (shrink_ops.take 20) filled_queue
      20 () (by decide!) (by decide!) (by decide!)⟩


/-! ## Claims C31 to C37 -/

/-- C31 (evaluated on the code): queue constructed with `start_time = 0` and
`end_time = 100`.  After twenty-one `insert(5, e)` the call of
`shrink_front()` has left `step_ = 0`, in both builds; nine `erase` calls
later `front_` holds one record and `step_` is still `0`.  The tenth `erase`
empties `front_` and calls `grow_front()`: with the checks compiled in it
fails `CGAL_assertion(step_ != 0)` (line 666); under `NDEBUG` it runs with
`step_ = 0` and returns. -/
theorem grow_front_entered_with_zero_step :
    (∀ NDEBUG : Bool,
      (run NDEBUG (construct 0 0 100) level_ops).map (fun q => (q.ub_, q.step_)) = .ok (5, 0) ∧
      (run NDEBUG (construct 0 0 100) (level_ops ++ erase_ops 9)).map
          (fun q => (q.front_.length, q.back_.length, q.step_)) = .ok (1, 11, 0)) ∧
    run false (construct 0 0 100) (level_ops ++ erase_ops 10) = .error (.assertion 666) ∧
    (run true (construct 0 0 100) (level_ops ++ erase_ops 10)).map
        (fun q => (q.front_.length, q.back_.length, q.step_)) = .ok (11, 0, 0) := by
  decide!

/-- C32 (evaluated on the code): queue constructed with `start_time = 200` and
`end_time = 100`; after `insert(1), ..., insert(10)` and ten `insert(150)`,
the eleventh `insert(150)` links its record and calls `shrink_front()` on a
sorted `front_` of 21 records whose record at position `max_front_size() = 10`
has time `150 > end_split_ = 100`.  In both builds `shrink_front()` retires
the whole `front_`: the records of times `1, ..., 10`, all before `end_time`,
are in `inf_` and `front_` is empty. -/
theorem shrink_front_retires_early_records :
    unretired_queue.front_.map (fun x => x.time)
      = [1, 2, 3, 4, 5, 6, 7, 8, 9, 10, 150, 150, 150, 150, 150, 150, 150, 150, 150, 150, 150] ∧
    max_front_size unretired_queue = 10 ∧
    time_at unretired_queue unretired_queue.front_ 10 = 150 ∧
    unretired_queue.end_split_ = 100 ∧ unretired_queue.end_time_ = 100 ∧
    ∀ NDEBUG : Bool,
      (shrink_front NDEBUG unretired_queue).map
          (fun q => (q.front_.map (fun x => x.time), q.inf_.map (fun x => x.time)))
        = .ok ([], [1, 2, 3, 4, 5, 6, 7, 8, 9, 10,
            150, 150, 150, 150, 150, 150, 150, 150, 150, 150, 150]) ∧
      (run NDEBUG (construct 0 200 100) past_horizon_ops).map
          (fun q => (q.front_.length, q.back_.length, q.inf_.length)) = .ok (0, 0, 21) := by
  decide!

/-- C33 (evaluated on the code): queue constructed with `start_time = 0` and
`end_time = 2`, after `insert(0)`, eleven `insert(1)` and `insert(5)`.  The
`grow_front()` called by `process_front()` (and equally by `erase` of the
first key) returns with `ub_ = end_split_ = 2`, the eleven records of time `1`
in `front_` and the record of time `5` still in `back_`, not in `inf_`, in
both builds.  With `insert(3/2)` in place of `insert(5)` the call returns
under `NDEBUG` with the record of time `3/2` in `back_`, and fails the
assertion `t > ub_` of `audit()` (line 561) with the checks compiled in. -/
theorem back_record_left_at_horizon :
    (overshoot_queue 5).front_.length = 0 ∧
    (overshoot_queue 5).back_.map (fun x => x.time) = [1, 1, 1, 1, 1, 1, 1, 1, 1, 1, 1, 5] ∧
    (∀ NDEBUG : Bool,
      (grow_front NDEBUG (overshoot_queue 5)).map
          (fun q => (q.ub_, q.end_split_, q.back_.map (fun x => x.time))) = .ok (2, 2, [5]) ∧
      (grow_front NDEBUG (overshoot_queue 5)).map
          (fun q => (q.front_.length, q.inf_.length)) = .ok (11, 0) ∧
      (run NDEBUG (construct 0 0 2) (overshoot_ops 5 ++ [.process_front])).map
          (fun q => (q.ub_, q.end_split_, q.back_.map (fun x => x.time))) = .ok (2, 2, [5]) ∧
      (run NDEBUG (construct 0 0 2) (overshoot_ops 5 ++ [.erase 1])).map
          (fun q => (q.ub_, q.end_split_, q.back_.map (fun x => x.time))) = .ok (2, 2, [5])) ∧
    (grow_front true (overshoot_queue (3 / 2))).map
        (fun q => (q.ub_, q.end_split_, q.back_.map (fun x => x.time))) = .ok (2, 2, [3 / 2]) ∧
    grow_front false (overshoot_queue (3 / 2)) = .error (.assertion 561) := by
  decide!

/-- C34: for every state with `front_` empty, whatever `back_`, `step_` and
the times in `back_`, `grow_front()` terminates: the recursion of
`grow_front(cand, recursive_count)` started at `recursive_count = 0` is never
deeper than 13 calls, so `recursive_count` is at most 12, and the result is
the same for every larger depth; under `NDEBUG` the call returns.  In a call
with `recursive_count > 10`: an overshoot returns with the oversized `front_`;
an undershoot with a record before `end_split_` sets `ub_` to the least time
of `cand`, and the `select` of the next call then moves a record to `front_`;
an undershoot without such a record retires all of `cand`. -/
theorem grow_front_terminates (NDEBUG : Bool) (q : Queue E) (hf : q.front_ = []) :
    grow_front NDEBUG q ≠ .error .out_of_fuel ∧
    (∃ q', grow_front true q = .ok q') ∧
    grow_front_cand NDEBUG 13 { q with back_ := [] } q.back_ 0 ≠ .error .out_of_fuel ∧
    (∀ more : Nat, grow_front_cand NDEBUG (13 + more) { q with back_ := [] } q.back_ 0
      = grow_front_cand NDEBUG 13 { q with back_ := [] } q.back_ 0) ∧
    (∀ (q₁ : Queue E) (cand : List (Item E)) (rc fuel : Nat), q₁.front_ = [] →
      (NDEBUG = true ∨ (cand ≠ [] ∧ q₁.step_ ≠ 0)) → 10 < rc →
      (grow_select q₁ cand).1.ub_ ≠ end_split (grow_select q₁ cand).1 →
      ((grow_select q₁ cand).1.front_ ≠ [] →
        (grow_select q₁ cand).2.2
          > max_front_size (splice_back (grow_select q₁ cand).1 (grow_select q₁ cand).2.1) →
        grow_front_cand NDEBUG (fuel + 1) q₁ cand rc
          = .ok (splice_back (grow_select q₁ cand).1 (grow_select q₁ cand).2.1, [])) ∧
      ((grow_select q₁ cand).1.front_ = [] →
        min_time (grow_select q₁ cand).2.1 (end_split (grow_select q₁ cand).1)
          < end_split (grow_select q₁ cand).1 →
        (jump_to (grow_select q₁ cand).1
          (min_time (grow_select q₁ cand).2.1 (end_split (grow_select q₁ cand).1))).ub_
          = min_time cand (end_split q₁) ∧
        (grow_select (jump_to (grow_select q₁ cand).1
          (min_time (grow_select q₁ cand).2.1 (end_split (grow_select q₁ cand).1)))
          (grow_select q₁ cand).2.1).1.front_ ≠ []) ∧
      ((grow_select q₁ cand).1.front_ = [] →
        ¬ min_time (grow_select q₁ cand).2.1 (end_split (grow_select q₁ cand).1)
          < end_split (grow_select q₁ cand).1 →
        grow_front_cand NDEBUG (fuel + 1) q₁ cand rc
          = .ok (make_inf (grow_select q₁ cand).1 (grow_select q₁ cand).2.1))) := by
  have hf' : ({ q with back_ := [] } : Queue E).front_ = [] := hf
  have h13 : grow_front_cand NDEBUG 13 { q with back_ := [] } q.back_ 0 ≠ .error .out_of_fuel :=
    grow_front_cand_fuel 13 hf' (by decide) (by decide)
  refine ⟨grow_front_has_fuel hf, grow_front_ndebug_ok hf, h13, grow_front_cand_fuel_le h13, ?_⟩
  intro q₁ cand rc fuel hq₁ hentry hrc hub
  have hpre : (NDEBUG = true ∨ q₁.front_ = []) ∧ (NDEBUG = true ∨ cand ≠ []) ∧
      (NDEBUG = true ∨ q₁.step_ ≠ 0) := by
    rcases hentry with h | ⟨h1, h2⟩
    · exact ⟨Or.inl h, Or.inl h, Or.inl h⟩
    · exact ⟨Or.inr hq₁, Or.inr h1, Or.inr h2⟩
  refine ⟨?_, ?_, ?_⟩
  · intro hfr hnum
    exact grow_front_cand_cases.2 ⟨hpre, .give_up hub hfr hnum hrc rfl⟩
  · intro hfr hmp
    have hc : (grow_select q₁ cand).2.1 = cand := grow_select_cand_eq q₁ cand hq₁ hfr
    refine ⟨?_, jump_selects hfr hmp⟩
    rw [hc]
    rfl
  · intro hfr hmp
    exact grow_front_cand_cases.2 ⟨hpre, .drop_all hub hfr hrc hmp rfl⟩

/-- C34 at `far_queue`: the record of time 5000 is reached by the jump made at
`recursive_count = 11`; the depth 13 is enough and the depth 12 is not. -/
theorem grow_front_terminates_witness :
    far_queue.front_ = [] ∧ far_queue.back_ ≠ [] ∧
    grow_front_cand false 12 { far_queue with back_ := [] } far_queue.back_ 0
      = .error .out_of_fuel ∧
    (grow_front false far_queue).map (fun q => (q.ub_, q.front_.map (fun x => x.time)))
      = .ok (5000 + 1 / 1000, [5000]) ∧
    (grow_front false far_queue ≠ .error .out_of_fuel ∧
    (∃ q', grow_front true far_queue = .ok q') ∧
    grow_front_cand false 13 { far_queue with back_ := [] } far_queue.back_ 0
      ≠ .error .out_of_fuel ∧
    (∀ more : Nat, grow_front_cand false (13 + more) { far_queue with back_ := [] }
        far_queue.back_ 0
      = grow_front_cand false 13 { far_queue with back_ := [] } far_queue.back_ 0) ∧
    (∀ (q₁ : Queue Unit) (cand : List (Item Unit)) (rc fuel : Nat), q₁.front_ = [] →
      (false = true ∨ (cand ≠ [] ∧ q₁.step_ ≠ 0)) → 10 < rc →
      (grow_select q₁ cand).1.ub_ ≠ end_split (grow_select q₁ cand).1 →
      ((grow_select q₁ cand).1.front_ ≠ [] →
        (grow_select q₁ cand).2.2
          > max_front_size (splice_back (grow_select q₁ cand).1 (grow_select q₁ cand).2.1) →
        grow_front_cand false (fuel + 1) q₁ cand rc
          = .ok (splice_back (grow_select q₁ cand).1 (grow_select q₁ cand).2.1, [])) ∧
      ((grow_select q₁ cand).1.front_ = [] →
        min_time (grow_select q₁ cand).2.1 (end_split (grow_select q₁ cand).1)
          < end_split (grow_select q₁ cand).1 →
        (jump_to (grow_select q₁ cand).1
          (min_time (grow_select q₁ cand).2.1 (end_split (grow_select q₁ cand).1))).ub_
          = min_time cand (end_split q₁) ∧
        (grow_select (jump_to (grow_select q₁ cand).1
          (min_time (grow_select q₁ cand).2.1 (end_split (grow_select q₁ cand).1)))
          (grow_select q₁ cand).2.1).1.front_ ≠ []) ∧
      ((grow_select q₁ cand).1.front_ = [] →
        ¬ min_time (grow_select q₁ cand).2.1 (end_split (grow_select q₁ cand).1)
          < end_split (grow_select q₁ cand).1 →
        grow_front_cand false (fuel + 1) q₁ cand rc
          = .ok (make_inf (grow_select q₁ cand).1 (grow_select q₁ cand).2.1)))) :=
  ⟨by decide!, by decide!, by decide!, by decide!,
    grow_front_terminates false far_queue (by decide!)⟩

/-- C35: for every state with `front_` empty and `back_` non-empty, every
return of `grow_front(cand)` leaves `cand` empty and satisfies the assertion
`sz == front_.size() + back_.size() + inf_.size()` of line 749; when
`grow_front()` returns, the records in `front_`, in `back_` and those newly
retired to `inf_` are together the records that were in `back_`, each once,
and `front_` is non-empty or `back_` is empty.  Under `NDEBUG` the call
returns. -/
theorem grow_front_conserves_records (NDEBUG : Bool) (q : Queue E) (hf : q.front_ = [])
    (hb : q.back_ ≠ []) :
    (∀ r, grow_front_cand NDEBUG 16 { q with back_ := [] } q.back_ 0 = .ok r →
      r.2 = [] ∧
      q.front_.length + q.back_.length + q.inf_.length
        = (tag_and_sort r.1).front_.length + (tag_and_sort r.1).back_.length
          + (tag_and_sort r.1).inf_.length) ∧
    (∀ q', grow_front NDEBUG q = .ok q' →
      (∃ ret, q'.inf_ = q.inf_ ++ set_front ret .INF ∧
        (contents (q'.front_ ++ q'.back_ ++ ret)).Perm (contents q.back_)) ∧
      q'.front_.length + q'.back_.length + q'.inf_.length
        = q.front_.length + q.back_.length + q.inf_.length ∧
      (q'.front_ ≠ [] ∨ q'.back_ = [])) ∧
    (∃ q', grow_front true q = .ok q') := by
  have hf' : ({ q with back_ := [] } : Queue E).front_ = [] := hf
  refine ⟨?_, ?_, grow_front_ndebug_ok hf⟩
  · intro r hr
    have g := grow_front_cand_grown 16 hf' hr
    refine ⟨g.cand_nil, ?_⟩
    obtain ⟨m, ret, hm, hi, hp, -, -⟩ := g.parts
    have hl := hp.length_eq
    simp only [List.length_append] at hl
    have hfl : (tag_and_sort r.1).front_.length = r.1.front_.length := by
      simp [tag_and_sort, (sort_perm _).length_eq]
    have hbl : (tag_and_sort r.1).back_ = r.1.back_ := rfl
    have hil : (tag_and_sort r.1).inf_ = r.1.inf_ := rfl
    rw [hfl, hbl, hil, hm, hi]
    simp only [List.length_append, length_set_front, List.length_nil, hf]
    omega
  · intro q' hq'
    have g := grow_front_grew hf hq'
    refine ⟨?_, ?_, grow_front_keeps_front hf hb hq'⟩
    · obtain ⟨f, ret, hfp, hi, hp, -, -⟩ := g.parts
      refine ⟨ret, hi, ?_⟩
      have h1 : (contents q'.front_).Perm (contents f) := by
        have := hfp.map untagged
        rwa [show (set_front f .FRONT).map untagged = contents f from
          contents_set_front f .FRONT] at this
      have h2 : (contents (f ++ (q'.back_ ++ ret))).Perm (contents q.back_) := hp.map untagged
      rw [List.append_assoc, contents_append]
      rw [contents_append] at h2
      exact (h1.append_right _).trans h2
    · have := grew_length g
      rw [hf]
      simpa using this

/-- C35 at `far_queue`. -/
theorem grow_front_conserves_records_witness :
    far_queue.front_ = [] ∧ far_queue.back_ ≠ [] ∧
    (grow_front false far_queue).map
      (fun q => (q.front_.map (fun x => x.time), q.back_.length, q.inf_.length))
      = .ok ([5000], 0, 0) ∧
    ((∀ r, grow_front_cand false 16 { far_queue with back_ := [] } far_queue.back_ 0 = .ok r →
      r.2 = [] ∧
      far_queue.front_.length + far_queue.back_.length + far_queue.inf_.length
        = (tag_and_sort r.1).front_.length + (tag_and_sort r.1).back_.length
          + (tag_and_sort r.1).inf_.length) ∧
    (∀ q', grow_front false far_queue = .ok q' →
      (∃ ret, q'.inf_ = far_queue.inf_ ++ set_front ret .INF ∧
        (contents (q'.front_ ++ q'.back_ ++ ret)).Perm (contents far_queue.back_)) ∧
      q'.front_.length + q'.back_.length + q'.inf_.length
        = far_queue.front_.length + far_queue.back_.length + far_queue.inf_.length ∧
      (q'.front_ ≠ [] ∨ q'.back_ = [])) ∧
    (∃ q', grow_front true far_queue = .ok q')) :=
  ⟨by decide!, by decide!, by decide!,
    grow_front_conserves_records false far_queue (by decide!) (by decide!)⟩

/-- C36: in every state reached from a fresh queue by public operations whose
`front_` is `i :: rest`, the record `i` is a minimum of `front_`, and every
`process_front()` that returns has run the callback of `i` (with the time of
`i`) on the queue `q₁` that `front_.pop_front()` followed by
`if (front_.empty() && !back_.empty()) grow_front();` leaves: `i` is linked
into neither `front_` nor `back_` of `q₁`, `front_` of `q₁` is sorted, every
record of it is tagged `FRONT`, and `back_` of `q₁` is non-empty only if
`front_` is.  The call returns under `NDEBUG`, and with the checks compiled in
whenever it does not reach `grow_front()`. -/
theorem callback_sees_consistent_queue (NDEBUG : Bool) (infinity_or_max start_time end_time : ℚ)
    (ops : List (Op E)) (q : Queue E) (i : Item E) (rest : List (Item E))
    (h : run NDEBUG (construct infinity_or_max start_time end_time) ops = .ok q)
    (hf : q.front_ = i :: rest) :
    (∀ x ∈ q.front_, i.time ≤ x.time) ∧
    (∀ r, process_front NDEBUG q = .ok r →
      ∃ q₁, grow_if_drained NDEBUG (pop_front q) = .ok q₁ ∧ r = (unmake_event q₁ i, some i) ∧
        linked (q₁.front_ ++ q₁.back_) i.ptr = false ∧
        q₁.front_.Sorted (fun a b => a.time ≤ b.time) ∧
        (∀ x ∈ q₁.front_, x.in_list = some .FRONT) ∧
        (q₁.back_ ≠ [] → q₁.front_ ≠ [])) ∧
    ((NDEBUG = true ∨ rest ≠ [] ∨ q.back_ = []) → ∃ r, process_front NDEBUG q = .ok r) := by
  have hq := inv_run ops (inv_construct _ _ _) h
  have hk := key_inv_run ops (key_inv_construct _ _ _) h
  refine ⟨?_, ?_, ?_⟩
  · intro x hx
    have hs := hq.sorted
    simp only [front_sorted, hf, List.sorted_cons] at hs
    rw [hf] at hx
    rcases List.mem_cons.1 hx with rfl | hx
    · exact le_refl _
    · exact hs.1 x hx
  · intro r hr
    rw [process_front_cons hf] at hr
    obtain ⟨q₁, h1, h2⟩ := (bind_ok_iff _ _ _).1 hr
    have hd := grow_if_drained_cases h1
    have hq₁ := inv_drained (inv_pop_front hq) hd
    refine ⟨q₁, h1, ((pure_ok_iff _ _).1 h2).symm, ?_, hq₁.sorted, hq₁.front_tag, i4_drained hd⟩
    rw [not_linked_iff]
    intro hmem
    have hp := ptr_perm_of_contents (drained_live hd).1
    have hsub : i.ptr ∈ (live q₁).map (fun x => x.ptr) := by
      simp only [live, List.map_append, List.mem_append] at hmem ⊢
      exact Or.inl hmem
    have hmem' : i.ptr ∈ (live (pop_front q)).map (fun x => x.ptr) := hp.subset hsub
    have hnd := hk.nodup
    simp only [live, hf, List.cons_append, List.map_cons, List.nodup_cons] at hnd
    apply hnd.1
    simpa [live, pop_front, hf] using hmem'
  · intro hc
    obtain ⟨q', hq'⟩ := process_front_returns hf hc
    exact ⟨_, hq'⟩

/-- C36 at `shrunk_queue`, whose first record is the one of time `1`. -/
theorem callback_sees_consistent_queue_witness :
    run false (construct 0 0 100) shrink_ops = .ok shrunk_queue ∧
    shrunk_queue.front_.head?.map (fun x => x.time) = some 1 ∧
    ∃ i rest, shrunk_queue.front_ = i :: rest ∧
    (∀ x ∈ shrunk_queue.front_, i.time ≤ x.time) ∧
    (∀ r, process_front false shrunk_queue = .ok r →
      ∃ q₁, grow_if_drained false (pop_front shrunk_queue) = .ok q₁ ∧
        r = (unmake_event q₁ i, some i) ∧
        linked (q₁.front_ ++ q₁.back_) i.ptr = false ∧
        q₁.front_.Sorted (fun a b => a.time ≤ b.time) ∧
        (∀ x ∈ q₁.front_, x.in_list = some .FRONT) ∧
        (q₁.back_ ≠ [] → q₁.front_ ≠ [])) ∧
    ((false = true ∨ rest ≠ [] ∨ shrunk_queue.back_ = []) →
      ∃ r, process_front false shrunk_queue = .ok r) :=
  ⟨by decide!, by decide!,
    match hf : shrunk_queue.front_ with
    | [] => absurd hf (by decide!)
    | i :: rest =>
      ⟨i, rest, rfl, hf ▸
        callback_sees_consistent_queue false 0 0 100 shrink_ops shrunk_queue i rest
          (by decide!) hf⟩⟩

/-- C37 (evaluated on the code): queue constructed with `start_time = 200` and
`end_time = 100`; after `insert(1), ..., insert(10)` and ten `insert(150)`,
`ub_` is `200`, and the call `insert(150, e)`, with `150 <= ub_`, returns the
key `21` of a record that is tagged `INF` and is linked into neither `front_`
nor `back_`: `shrink_front()` took its branch `split > end_split()`.  This
holds with and without `NDEBUG`. -/
theorem insert_within_window_retires :
    run false (construct 0 200 100) (past_horizon_ops.take 20) = .ok past_horizon_queue ∧
    run true (construct 0 200 100) (past_horizon_ops.take 20) = .ok past_horizon_queue ∧
    past_horizon_queue.ub_ = 200 ∧
    (insert false past_horizon_queue 150 ()).map
        (fun r => (r.2, linked (r.1.front_ ++ r.1.back_) r.2,
          (deref r.1 r.2).map (fun x => x.in_list)))
      = .ok (21, false, some (some .INF)) ∧
    (insert true past_horizon_queue 150 ()).map
        (fun r => (r.2, linked (r.1.front_ ++ r.1.back_) r.2,
          (deref r.1 r.2).map (fun x => x.in_list)))
      = .ok (21, false, some (some .INF)) := by
  decide!

/-- C37, in exact arithmetic (`to_interval t` is the point interval `(t, t)`)
and for a queue constructed with `start_time <= end_time`: in every state
reached by public operations and for every `t <= ub_`, `insert(t, e)` returns
the next address as key; its record, of time `t`, is in `front_` with the tag
`FRONT` or in `back_` with the tag `BACK`; `front_.size()` is at most
`2 * max_front_size()` in the resulting state; and when `shrink_front()` is not
called the new record stands in `front_` after every record of time `<= t` and
before every record of time `> t`. -/
theorem insert_within_window (NDEBUG : Bool) (infinity_or_max start_time end_time : ℚ)
    (hse : start_time ≤ end_time) (ops : List (Op E)) (q : Queue E) (t : ℚ) (e : E)
    (h : run NDEBUG (construct infinity_or_max start_time end_time) ops = .ok q)
    (ht : t ≤ q.ub_) :
    ∃ q', insert NDEBUG q t e = .ok (q', q.next_ptr_) ∧
      (∃ ni : Item E, ni.ptr = q.next_ptr_ ∧ ni.time = t ∧
        ((ni ∈ q'.front_ ∧ ni.in_list = some .FRONT) ∨
          (ni ∈ q'.back_ ∧ ni.in_list = some .BACK))) ∧
      q'.front_.length ≤ 2 * max_front_size q' ∧
      (¬ (link_front (alloc q) (new_item q t e .FRONT)).front_.length >
          2 * max_front_size (link_front (alloc q) (new_item q t e .FRONT)) →
        ∃ l₁ l₂, q.front_ = l₁ ++ l₂ ∧ q'.front_ = l₁ ++ new_item q t e .FRONT :: l₂ ∧
          (∀ x ∈ l₁, x.time ≤ t) ∧ (∀ x ∈ l₂, t < x.time)) := by
  have hq := inv_run ops (inv_construct _ _ _) h
  have hh := horizon_run ops (inv_construct _ _ _) (horizon_construct _ _ _ hse) h
  have hmem : new_item q t e .FRONT ∈ (link_front (alloc q) (new_item q t e .FRONT)).front_ :=
    mem_insert_at.2 (Or.inl rfl)
  by_cases hsize : (link_front (alloc q) (new_item q t e .FRONT)).front_.length >
      2 * max_front_size (link_front (alloc q) (new_item q t e .FRONT))
  · obtain ⟨x, rest, hx, hins⟩ := @insert_shrinks E NDEBUG q hq hh t e ht hsize
    refine ⟨_, hins, ?_, ?_, fun hn => absurd hsize hn⟩
    · rw [← List.take_append_drop
        (max_front_size (link_front (alloc q) (new_item q t e .FRONT)))
        (link_front (alloc q) (new_item q t e .FRONT)).front_] at hmem
      rcases List.mem_append.1 hmem with hm | hm
      · exact ⟨new_item q t e .FRONT, rfl, rfl, Or.inl ⟨hm, rfl⟩⟩
      · refine ⟨new_item q t e .BACK, rfl, rfl, Or.inr ⟨?_, rfl⟩⟩
        show new_item q t e .BACK ∈ set_front _ .BACK ++ _
        exact List.mem_append_left _ (mem_set_front.2 ⟨_, hm, rfl⟩)
    · rw [max_front_size_give_back]
      show (List.take _ _).length ≤ _
      rw [List.length_take]
      omega
  · refine ⟨_, insert_cases.2 (.front ht hsize rfl), ?_, not_lt.1 hsize, fun _ => ?_⟩
    · exact ⟨new_item q t e .FRONT, rfl, rfl, Or.inl ⟨hmem, rfl⟩⟩
    · obtain ⟨l₁, l₂, h1, h2, h3, h4⟩ := link_front_position hq.sorted (new_item q t e .FRONT)
      exact ⟨l₁, l₂, h1, h2, h3, h4⟩

/-- C37 at `filled_queue` and `insert(20, e)`, which calls `shrink_front()`. -/
theorem insert_within_window_witness :
    (0 : ℚ) ≤ 100 ∧ run false (construct 0 0 100) (shrink_ops.take 20) = .ok filled_queue ∧
    (20 : ℚ) ≤ filled_queue.ub_ ∧
    ∃ q', insert false filled_queue 20 () = .ok (q', filled_queue.next_ptr_) ∧
      (∃ ni : Item Unit, ni.ptr = filled_queue.next_ptr_ ∧ ni.time = 20 ∧
        ((ni ∈ q'.front_ ∧ ni.in_list = some .FRONT) ∨
          (ni ∈ q'.back_ ∧ ni.in_list = some .BACK))) ∧
      q'.front_.length ≤ 2 * max_front_size q' ∧
      (¬ (link_front (alloc filled_queue) (new_item filled_queue 20 () .FRONT)).front_.length >
          2 * max_front_size (link_front (alloc filled_queue)
            (new_item filled_queue 20 () .FRONT)) →
        ∃ l₁ l₂, filled_queue.front_ = l₁ ++ l₂ ∧
          q'.front_ = l₁ ++ new_item filled_queue 20 () .FRONT :: l₂ ∧
          (∀ x ∈ l₁, x.time ≤ 20) ∧ (∀ x ∈ l₂, 20 < x.time)) :=
  ⟨by norm_num, by decide!, by decide!,
    insert_within_window false 0 0 100 (by norm_num) (shrink_ops.take 20) filled_queue 20 ()
      (by decide!) (by decide!)⟩

end Two_list_pointer_event_queue

end CGAL.KDS

namespace CGAL

variable {P : Type}

/-! ## `copy_n_unique` -/

theorem equivalent_refl {less : P → P → Bool} (h : Strict_weak_ordering less) (a : P) :
    equivalent less a a = true := by
  simp [equivalent, h.irrefl]

theorem equivalent_symm {less : P → P → Bool} {a b : P}
    (h : equivalent less a b = true) : equivalent less b a = true := by
  simp only [equivalent, Bool.and_eq_true] at h ⊢
  exact ⟨h.2, h.1⟩

theorem first_occurrences_succ (less : P → P → Bool) (first : Nat → P) (i : Nat) :
    first_occurrences less first (i + 1) =
      if (List.range i).all (fun j => !equivalent less (first j) (first i)) then
        first_occurrences less first i ++ [first i]
      else first_occurrences less first i := by
  unfold first_occurrences
  rw [List.range_succ, List.filter_append, List.map_append]
  by_cases hc : (List.range i).all (fun j => !equivalent less (first j) (first i)) = true
  · simp [hc]
  · simp only [hc]
    simp [List.filter_cons, hc]

theorem mem_first_occurrences {less : P → P → Bool} {first : Nat → P} {n : Nat} {y : P}
    (hy : y ∈ first_occurrences less first n) : ∃ j, j < n ∧ first j = y := by
  unfold first_occurrences at hy
  rw [List.mem_map] at hy
  obtain ⟨j, hj, e⟩ := hy
  exact ⟨j, List.mem_range.1 (List.mem_filter.1 hj).1, e⟩

/-- Every one of the first `n` points has an equivalent point among the first
occurrences. -/
theorem first_occurrences_cover {less : P → P → Bool} (h : Strict_weak_ordering less)
    (first : Nat → P) : ∀ (n j : Nat), j < n →
      ∃ y ∈ first_occurrences less first n, equivalent less y (first j) = true := by
  intro n
  induction n with
  | zero => intro j hj; exact absurd hj (Nat.not_lt_zero _)
  | succ i ih =>
    intro j hj
    rw [first_occurrences_succ]
    rcases Nat.lt_succ_iff_lt_or_eq.1 hj with hlt | heq
    · obtain ⟨y, hy, e⟩ := ih j hlt
      refine ⟨y, ?_, e⟩
      split
      · exact List.mem_append_left _ hy
      · exact hy
    · subst heq
      by_cases hc : (List.range j).all (fun k => !equivalent less (first k) (first j)) = true
      · rw [if_pos hc]
        exact ⟨first j, List.mem_append_right _ (List.mem_singleton.2 rfl), equivalent_refl h _⟩
      · rw [if_neg hc]
        have hex : ∃ k, k < j ∧ equivalent less (first k) (first j) = true := by
          by_contra hno
          apply hc
          rw [List.all_eq_true]
          intro k hk
          have hk' := List.mem_range.1 hk
          cases hb : equivalent less (first k) (first j) with
          | false => rfl
          | true => exact absurd ⟨k, hk', hb⟩ hno
        obtain ⟨k, hk, ek⟩ := hex
        obtain ⟨y, hy, e⟩ := ih k hk
        exact ⟨y, hy, h.equivalent_trans _ _ _ e ek⟩

/-- The set finds an equivalent point exactly when an earlier input is
equivalent to the point read. -/
theorem any_first_occurrences {less : P → P → Bool} (h : Strict_weak_ordering less)
    (first : Nat → P) (i : Nat) :
    (first_occurrences less first i).any (fun y => equivalent less y (first i)) =
      !(List.range i).all (fun j => !equivalent less (first j) (first i)) := by
  cases hb : (List.range i).all (fun j => !equivalent less (first j) (first i)) with
  | true =>
    rw [List.all_eq_true] at hb
    simp only [Bool.not_true]
    rw [List.any_eq_false]
    intro y hy
    obtain ⟨j, hj, e⟩ := mem_first_occurrences hy
    have := hb j (List.mem_range.2 hj)
    rw [e] at this
    simpa using this
  | false =>
    simp only [Bool.not_false]
    rw [List.any_eq_true]
    have hex : ∃ k, k < i ∧ equivalent less (first k) (first i) = true := by
      by_contra hno
      have : (List.range i).all (fun j => !equivalent less (first j) (first i)) = true := by
        rw [List.all_eq_true]
        intro k hk
        have hk' := List.mem_range.1 hk
        cases hc : equivalent less (first k) (first i) with
        | false => rfl
        | true => exact absurd ⟨k, hk', hc⟩ hno
      rw [this] at hb
      exact Bool.noConfusion hb
    obtain ⟨k, hk, ek⟩ := hex
    obtain ⟨y, hy, e⟩ := first_occurrences_cover h first i k hk
    exact ⟨y, hy, h.equivalent_trans _ _ _ e ek⟩

/-- The loop of `copy_n_unique`, from a state in which the set and the output
hold the first occurrences among the points read. -/
theorem copy_n_unique_from_eq {less : P → P → Bool} (h : Strict_weak_ordering less)
    (first : Nat → P) : ∀ (k i : Nat), i + k ≤ INT_MAX →
      copy_n_unique_from less first k i (first_occurrences less first i)
          (first_occurrences less first i) =
        some (first_occurrences less first (i + k), i + k) := by
  intro k
  induction k with
  | zero => intro i _; rfl
  | succ k ih =>
    intro i hi
    have hi1 : ¬ (i + 1 > INT_MAX) := by omega
    have hi2 : i + 1 + k ≤ INT_MAX := by omega
    have e := ih (i + 1) hi2
    rw [first_occurrences_succ] at e
    have hany := any_first_occurrences h first i
    unfold copy_n_unique_from
    simp only [set_insert, hany, hi1, if_false]
    cases hb : (List.range i).all (fun j => !equivalent less (first j) (first i)) with
    | true =>
      rw [hb] at e
      simp only [if_true] at e
      simp only [Bool.not_true, if_true]
      have : i + (k + 1) = i + 1 + k := by omega
      rw [this]
      simpa using e
    | false =>
      rw [hb] at e
      simp only [Bool.not_false, if_true]
      have : i + (k + 1) = i + 1 + k := by omega
      rw [this]
      simpa using e

/-- No two of the first occurrences are equivalent. -/
theorem first_occurrences_pairwise {less : P → P → Bool} (h : Strict_weak_ordering less)
    (first : Nat → P) : ∀ n : Nat,
      (first_occurrences less first n).Pairwise (fun a b => equivalent less a b = false) := by
  intro n
  induction n with
  | zero => exact List.Pairwise.nil
  | succ i ih =>
    rw [first_occurrences_succ]
    split
    · rename_i hc
      rw [List.pairwise_append]
      refine ⟨ih, List.pairwise_singleton _ _, ?_⟩
      intro y hy x hx
      rw [List.mem_singleton.1 hx]
      have := any_first_occurrences h first i
      rw [hc] at this
      simp only [Bool.not_true] at this
      rw [List.any_eq_false] at this
      simpa using this y hy
    · exact ih

theorem first_occurrences_length (less : P → P → Bool) (first : Nat → P) (n : Nat) :
    (first_occurrences less first n).length ≤ n := by
  unfold first_occurrences
  rw [List.length_map]
  exact le_trans (List.length_filter_le _ _) (le_of_eq (List.length_range n))

/-- The loop of `duplicate_points` on a range without equivalent points. -/
theorem duplicate_points_from_false {less : P → P → Bool} :
    ∀ (l s : List P) (i : Nat), i + l.length ≤ INT_MAX →
      (s ++ l).Pairwise (fun a b => equivalent less a b = false) →
      duplicate_points_from less l s i = some false := by
  intro l
  induction l with
  | nil => intro s i _ _; rfl
  | cons x rest ih =>
    intro s i hi hp
    have hs : s.any (fun y => equivalent less y x) = false := by
      rw [List.any_eq_false]
      intro y hy
      have := (List.pairwise_append.1 hp).2.2 y hy x (List.mem_cons_self _ _)
      simp [this]
    have hlen : i + 1 + rest.length ≤ INT_MAX := by
      simp only [List.length_cons] at hi
      omega
    have hi1 : ¬ (i + 1 > INT_MAX) := by omega
    unfold duplicate_points_from
    simp only [set_insert, hs, hi1, if_false]
    simp only [Bool.false_eq_true, if_false, Bool.not_true]
    apply ih (s ++ [x]) (i + 1) hlen
    simpa [List.append_assoc] using hp

theorem strict_weak_ordering_less_xy : Strict_weak_ordering less_xy := by
  have key : ∀ a b : ℚ × ℚ, equivalent less_xy a b = true ↔ a = b := by
    intro a b
    obtain ⟨a1, a2⟩ := a
    obtain ⟨b1, b2⟩ := b
    simp only [equivalent, less_xy, Bool.and_eq_true, Bool.not_eq_true', Bool.or_eq_false_iff,
      decide_eq_false_iff_not, Bool.and_eq_false_iff, decide_eq_true_eq, Prod.mk.injEq, not_lt]
    constructor
    · rintro ⟨⟨h1, h2⟩, h3, h4⟩
      have e1 : a1 = b1 := le_antisymm h3 h1
      refine ⟨e1, ?_⟩
      rcases h2 with h2 | h2
      · exact absurd e1 h2
      · rcases h4 with h4 | h4
        · exact absurd e1.symm h4
        · exact le_antisymm h4 h2
    · rintro ⟨rfl, rfl⟩
      exact ⟨⟨le_refl _, Or.inr (le_refl _)⟩, le_refl _, Or.inr (le_refl _)⟩
  refine ⟨?_, ?_, ?_⟩
  · intro a
    simp [less_xy]
  · intro a b c
    obtain ⟨a1, a2⟩ := a
    obtain ⟨b1, b2⟩ := b
    obtain ⟨c1, c2⟩ := c
    simp only [less_xy, Bool.or_eq_true, decide_eq_true_eq, Bool.and_eq_true]
    rintro (h1 | ⟨h1, h2⟩) (h3 | ⟨h3, h4⟩)
    · exact Or.inl (lt_trans h1 h3)
    · exact Or.inl (h3 ▸ h1)
    · exact Or.inl (h1 ▸ h3)
    · exact Or.inr ⟨h1.trans h3, lt_trans h2 h4⟩
  · intro a b c hab hbc
    rw [key] at hab hbc ⊢
    exact hab.trans hbc

/-! ## Claim C25 -/

/-- C25: for an ordering that is a strict weak ordering, every input
sequence `first` and every `n` in the range of `int`, `copy_n_unique` returns:
it takes exactly `n` points from `first`, and it writes the points among the
first `n` that are equivalent to no earlier point, in the order of the input.
So no two points of the output are equivalent, every one of the first `n`
points has its equivalent in the output, the output has at most `n` points, and
`duplicate_points` on the output is `false`. -/
theorem copy_n_unique_removes_duplicates (less : P → P → Bool) (first : Nat → P) (n : Nat)
    (hless : Strict_weak_ordering less) (hn : n ≤ INT_MAX) :
    ∃ out, copy_n_unique less first n = some (out, n) ∧
      out = first_occurrences less first n ∧
      out.Sublist ((List.range n).map first) ∧
      out.Pairwise (fun a b => equivalent less a b = false) ∧
      (∀ j, j < n → ∃ y ∈ out, equivalent less y (first j) = true) ∧
      out.length ≤ n ∧
      duplicate_points less out = some false := by
  refine ⟨first_occurrences less first n, ?_, rfl, ?_, first_occurrences_pairwise hless first n,
    first_occurrences_cover hless first n, first_occurrences_length less first n, ?_⟩
  · have e := copy_n_unique_from_eq hless first n 0 (by omega)
    simpa [copy_n_unique, first_occurrences] using e
  · unfold first_occurrences
    exact List.Sublist.map _ (List.filter_sublist _)
  · apply duplicate_points_from_false
    · have := first_occurrences_length less first n
      omega
    · simpa using first_occurrences_pairwise hless first n

/-- C25 on the six sample points: the output is `(0,0), (1,2), (3,1), (2,2)`. -/
theorem copy_n_unique_removes_duplicates_witness :
    Strict_weak_ordering less_xy ∧ 6 ≤ INT_MAX ∧
    copy_n_unique less_xy sample_points 6 = some ([(0, 0), (1, 2), (3, 1), (2, 2)], 6) ∧
    ∃ out, copy_n_unique less_xy sample_points 6 = some (out, 6) ∧
      out = first_occurrences less_xy sample_points 6 ∧
      out.Sublist ((List.range 6).map sample_points) ∧
      out.Pairwise (fun a b => equivalent less_xy a b = false) ∧
      (∀ j, j < 6 → ∃ y ∈ out, equivalent less_xy y (sample_points j) = true) ∧
      out.length ≤ 6 ∧
      duplicate_points less_xy out = some false :=
  ⟨strict_weak_ordering_less_xy, by decide, by decide!,
    copy_n_unique_removes_duplicates less_xy sample_points 6 strict_weak_ordering_less_xy
      (by decide)⟩

end CGAL

namespace CGAL

namespace Manhattan_distance_iso_box_point

/-! ## The three distances as sums over the coordinates -/

theorem foldl_add_eq_sum (f : ℚ → Nat → ℚ) (g : Nat → ℚ) (hfg : ∀ a i, f a i = a + g i)
    (l : List Nat) (a : ℚ) : l.foldl f a = a + (l.map g).sum := by
  induction l generalizing a with
  | nil => simp
  | cons i l ih =>
    rw [List.foldl_cons, ih, hfg, List.map_cons, List.sum_cons]
    ring

theorem sum_eq_zero_iff_of_nonneg (g : Nat → ℚ) (l : List Nat) (h : ∀ i ∈ l, 0 ≤ g i) :
    (l.map g).sum = 0 ↔ ∀ i ∈ l, g i = 0 := by
  induction l with
  | nil => simp
  | cons i l ih =>
    have hi := h i (List.mem_cons_self _ _)
    have hl : ∀ j ∈ l, 0 ≤ g j := fun j hj => h j (List.mem_cons_of_mem _ hj)
    have hs : 0 ≤ (l.map g).sum := List.sum_nonneg (by
      intro x hx
      obtain ⟨j, hj, rfl⟩ := List.mem_map.1 hx
      exact hl j hj)
    rw [List.map_cons, List.sum_cons]
    constructor
    · intro h0
      have h1 : g i = 0 := by linarith
      have h2 : (l.map g).sum = 0 := by linarith
      intro j hj
      rcases List.mem_cons.1 hj with rfl | hj
      · exact h1
      · exact (ih hl).1 h2 j hj
    · intro hall
      rw [hall i (List.mem_cons_self _ _), (ih hl).2 (fun j hj => hall j (List.mem_cons_of_mem _ hj))]
      ring

/-- The term that `transformed_distance` adds for the coordinate `i`. -/
theorem transformed_distance_eq (q : Iso_box_d) (p : Nat → ℚ) :
    transformed_distance q p = ((List.range q.dimension).map (fun i =>
      if p i > q.max_vertex i then p i - q.max_vertex i
      else if p i < q.min_vertex i then q.min_vertex i - p i else 0)).sum := by
  unfold transformed_distance
  rw [foldl_add_eq_sum _ (fun i => if p i > q.max_vertex i then p i - q.max_vertex i
      else if p i < q.min_vertex i then q.min_vertex i - p i else 0)]
  · ring
  · intro a i
    split_ifs <;> ring

theorem min_distance_to_rectangle_eq (q : Iso_box_d) (r : Kd_tree_rectangle) :
    min_distance_to_rectangle q r = ((List.range q.dimension).map (fun i =>
      (if r.min_coord i > q.max_vertex i then r.min_coord i - q.max_vertex i else 0) +
      (if r.max_coord i < q.min_vertex i then q.min_vertex i - r.max_coord i else 0))).sum := by
  unfold min_distance_to_rectangle
  rw [foldl_add_eq_sum _ (fun i =>
      (if r.min_coord i > q.max_vertex i then r.min_coord i - q.max_vertex i else 0) +
      (if r.max_coord i < q.min_vertex i then q.min_vertex i - r.max_coord i else 0))]
  · ring
  · intro a i
    simp only []
    split_ifs <;> ring

theorem max_distance_to_rectangle_eq (q : Iso_box_d) (r : Kd_tree_rectangle) :
    max_distance_to_rectangle q r = ((List.range q.dimension).map (fun i =>
      if r.max_coord i - q.min_vertex i > q.max_vertex i - r.min_coord i then
        r.max_coord i - q.min_vertex i
      else q.max_vertex i - r.min_coord i)).sum := by
  unfold max_distance_to_rectangle
  rw [foldl_add_eq_sum _ (fun i =>
      if r.max_coord i - q.min_vertex i > q.max_vertex i - r.min_coord i then
        r.max_coord i - q.min_vertex i
      else q.max_vertex i - r.min_coord i)]
  · ring
  · intro a i
    split_ifs <;> ring

/-! ## Claim C38 -/

/-- C38: for every iso-box `q` with `min <= max` in every coordinate, every
rectangle `r` and every point `p` with `r.min_coord(i) <= p_i <= r.max_coord(i)`
in every coordinate (exact numbers),
`min_distance_to_rectangle(q, r) <= transformed_distance(q, p)
<= max_distance_to_rectangle(q, r)`, and `transformed_distance(q, p)` is `0`
if and only if `p` lies in `q`. -/
theorem distance_between_rectangle_bounds (q : Iso_box_d) (r : Kd_tree_rectangle)
    (p : Nat → ℚ) (hq : ∀ i, i < q.dimension → q.min_vertex i ≤ q.max_vertex i)
    (hp : ∀ i, i < q.dimension → r.min_coord i ≤ p i ∧ p i ≤ r.max_coord i) :
    min_distance_to_rectangle q r ≤ transformed_distance q p ∧
      transformed_distance q p ≤ max_distance_to_rectangle q r ∧
      (transformed_distance q p = 0 ↔
        ∀ i, i < q.dimension → q.min_vertex i ≤ p i ∧ p i ≤ q.max_vertex i) := by
  rw [transformed_distance_eq, min_distance_to_rectangle_eq, max_distance_to_rectangle_eq]
  refine ⟨?_, ?_, ?_⟩
  · apply List.sum_le_sum
    intro i hi
    have hi' := List.mem_range.1 hi
    have h1 := hq i hi'
    obtain ⟨h2, h3⟩ := hp i hi'
    split_ifs <;> linarith
  · apply List.sum_le_sum
    intro i hi
    have hi' := List.mem_range.1 hi
    have h1 := hq i hi'
    obtain ⟨h2, h3⟩ := hp i hi'
    split_ifs <;> linarith
  · rw [sum_eq_zero_iff_of_nonneg]
    · constructor
      · intro h i hi
        have h0 := h i (List.mem_range.2 hi)
        have h1 := hq i hi
        beta_reduce at h0
        split_ifs at h0 with c1 c2
        · linarith
        · linarith
        · exact ⟨not_lt.1 c2, not_lt.1 c1⟩
      · intro h i hi
        obtain ⟨h1, h2⟩ := h i (List.mem_range.1 hi)
        rw [if_neg (not_lt.2 h2), if_neg (not_lt.2 h1)]
    · intro i _
      beta_reduce
      split_ifs <;> linarith

/-- C38 at the box `[0, 2] x [1, 3]`, the rectangle `[1, 5] x [-2, 0]` and the
point `(4, -1)`: the three distances are `1`, `4` and `10`. -/
theorem distance_between_rectangle_bounds_witness :
    min_distance_to_rectangle sample_box sample_rectangle = 1 ∧
    transformed_distance sample_box (point [4, -1]) = 4 ∧
    max_distance_to_rectangle sample_box sample_rectangle = 10 ∧
    (min_distance_to_rectangle sample_box sample_rectangle
        ≤ transformed_distance sample_box (point [4, -1]) ∧
      transformed_distance sample_box (point [4, -1])
        ≤ max_distance_to_rectangle sample_box sample_rectangle ∧
      (transformed_distance sample_box (point [4, -1]) = 0 ↔
        ∀ i, i < sample_box.dimension →
          sample_box.min_vertex i ≤ point [4, -1] i ∧
            point [4, -1] i ≤ sample_box.max_vertex i)) :=
  ⟨by decide!, by decide!, by decide!,
    distance_between_rectangle_bounds sample_box sample_rectangle (point [4, -1])
      (by decide!) (by decide!)⟩

end Manhattan_distance_iso_box_point

end CGAL

namespace CGAL

variable {V : Type}

/-! ## `sorted_matrix_search`: the padded access to a sorted matrix -/

theorem is_sorted_step [LinearOrder V] {m : Matrix V} (h : Padded_matrix.is_sorted m = true)
    {x y : Int} (hx0 : 0 ≤ x) (hx : x < m.number_of_columns) (hy0 : 0 ≤ y)
    (hy : y < m.number_of_rows) :
    (0 < x → m.entry (x - 1) y ≤ m.entry x y) ∧ (0 < y → m.entry x (y - 1) ≤ m.entry x y) := by
  unfold Padded_matrix.is_sorted at h
  rw [List.all_eq_true] at h
  have h1 := h x.toNat (List.mem_range.2 (by omega))
  rw [List.all_eq_true] at h1
  have h2 := h1 y.toNat (List.mem_range.2 (by omega))
  have ex : ((x.toNat : Nat) : Int) = x := Int.toNat_of_nonneg hx0
  have ey : ((y.toNat : Nat) : Int) = y := Int.toNat_of_nonneg hy0
  rw [ex, ey] at h2
  simp only [Bool.and_eq_true, Bool.not_eq_true', Bool.and_eq_false_iff, decide_eq_false_iff_not,
    not_lt, gt_iff_lt] at h2
  constructor
  · intro hpos
    rcases h2.1 with h3 | h3
    · omega
    · exact h3
  · intro hpos
    rcases h2.2 with h3 | h3
    · omega
    · exact h3

theorem entry_mono_x [LinearOrder V] {m : Matrix V} (h : Padded_matrix.is_sorted m = true)
    {y : Int} (hy0 : 0 ≤ y) (hy : y < m.number_of_rows) :
    ∀ (k : Nat) (x : Int), 0 ≤ x → x + k < m.number_of_columns →
      m.entry x y ≤ m.entry (x + k) y := by
  intro k
  induction k with
  | zero => intro x _ _; simp
  | succ k ih =>
    intro x hx0 hx
    have h1 := ih x hx0 (by push_cast at hx; omega)
    have h2 := (is_sorted_step h (x := x + (k + 1 : Nat)) (by omega) hx hy0 hy).1
      (by push_cast; omega)
    have e : x + ((k + 1 : Nat) : Int) - 1 = x + (k : Int) := by push_cast; ring
    rw [e] at h2
    exact le_trans h1 h2

theorem entry_mono_y [LinearOrder V] {m : Matrix V} (h : Padded_matrix.is_sorted m = true)
    {x : Int} (hx0 : 0 ≤ x) (hx : x < m.number_of_columns) :
    ∀ (k : Nat) (y : Int), 0 ≤ y → y + k < m.number_of_rows →
      m.entry x y ≤ m.entry x (y + k) := by
  intro k
  induction k with
  | zero => intro y _ _; simp
  | succ k ih =>
    intro y hy0 hy
    have h1 := ih y hy0 (by push_cast at hy; omega)
    have h2 := (is_sorted_step h (y := y + (k + 1 : Nat)) hx0 hx (by omega) hy).2
      (by push_cast; omega)
    have e : y + ((k + 1 : Nat) : Int) - 1 = y + (k : Int) := by push_cast; ring
    rw [e] at h2
    exact le_trans h1 h2

/-- In a sorted matrix the entries grow with both indices. -/
theorem entry_mono [LinearOrder V] {m : Matrix V} (h : Padded_matrix.is_sorted m = true)
    {x x' y y' : Int} (hx0 : 0 ≤ x) (hxx : x ≤ x') (hx : x' < m.number_of_columns)
    (hy0 : 0 ≤ y) (hyy : y ≤ y') (hy : y' < m.number_of_rows) :
    m.entry x y ≤ m.entry x' y' := by
  have h1 := entry_mono_x h hy0 (by omega : y < m.number_of_rows) (x' - x).toNat x hx0
    (by rw [Int.toNat_of_nonneg (by omega)]; omega)
  have h2 := entry_mono_y h (by omega : 0 ≤ x') hx (y' - y).toNat y hy0
    (by rw [Int.toNat_of_nonneg (by omega)]; omega)
  rw [Int.toNat_of_nonneg (by omega)] at h1 h2
  have e1 : x + (x' - x) = x' := by ring
  have e2 : y + (y' - y) = y' := by ring
  rw [e1] at h1
  rw [e2] at h2
  exact le_trans h1 h2

/-- The padded access reads an entry of the matrix. -/
theorem access_is_entry [LinearOrder V] {m : Matrix V} (hm : Sorted_matrix m) {x y : Int}
    (hx : 0 ≤ x) (hy : 0 ≤ y) :
    ∃ x₀ y₀ : Int, 0 ≤ x₀ ∧ x₀ < m.number_of_columns ∧ 0 ≤ y₀ ∧ y₀ < m.number_of_rows ∧
      m.entry x₀ y₀ = Padded_matrix.access m x y := by
  have hc := hm.columns_pos
  have hr := hm.rows_pos
  refine ⟨if x < m.number_of_columns then x else m.number_of_columns - 1,
    if y < m.number_of_rows then y else m.number_of_rows - 1, ?_, ?_, ?_, ?_, rfl⟩
  · split_ifs <;> omega
  · split_ifs <;> omega
  · split_ifs <;> omega
  · split_ifs <;> omega

/-- Inside the matrix the padded access is the access. -/
theorem access_eq_entry (m : Matrix V) {x y : Int} (hx : x < m.number_of_columns)
    (hy : y < m.number_of_rows) : Padded_matrix.access m x y = m.entry x y := by
  unfold Padded_matrix.access
  rw [if_pos hx, if_pos hy]

/-- The padded matrix is sorted as well. -/
theorem access_mono [LinearOrder V] {m : Matrix V} (hm : Sorted_matrix m) {x x' y y' : Int}
    (hx0 : 0 ≤ x) (hxx : x ≤ x') (hy0 : 0 ≤ y) (hyy : y ≤ y') :
    Padded_matrix.access m x y ≤ Padded_matrix.access m x' y' := by
  have hc := hm.columns_pos
  have hr := hm.rows_pos
  unfold Padded_matrix.access
  apply entry_mono hm.sorted
  · split_ifs <;> omega
  · split_ifs <;> omega
  · split_ifs <;> omega
  · split_ifs <;> omega
  · split_ifs <;> omega
  · split_ifs <;> omega

/-! ## The cells -/

theorem covers_min (c : Matrix_cell V) {d : Int} (hd : 0 < d) : Covers c d c.min :=
  ⟨0, 0, le_refl _, hd, le_refl _, hd, by simp [Matrix_cell.min]⟩

theorem covers_max (c : Matrix_cell V) {d : Int} (hd : 0 < d) : Covers c d (c.max d) :=
  ⟨d - 1, d - 1, by omega, by omega, by omega, by omega, by
    simp only [Matrix_cell.max]
    congr 1 <;> ring⟩

theorem covers_one {c : Matrix_cell V} {u : V} (h : Covers c 1 u) : u = c.min := by
  obtain ⟨i, j, hi0, hi, hj0, hj, rfl⟩ := h
  have ei : i = 0 := by omega
  have ej : j = 0 := by omega
  subst ei
  subst ej
  simp [Matrix_cell.min]

theorem max_one (c : Matrix_cell V) : c.max 1 = c.min := by
  simp [Matrix_cell.max, Matrix_cell.min]

/-- Every value of a cell lies between its `min()` and its `max(d)`. -/
theorem covers_bounds [LinearOrder V] {ms : List (Matrix V)}
    (hms : ∀ m ∈ ms, Sorted_matrix m) {c : Matrix_cell V} (hc : Cell_of ms c) {d : Int} {u : V}
    (h : Covers c d u) : c.min ≤ u ∧ u ≤ c.max d := by
  obtain ⟨i, j, hi0, hi, hj0, hj, rfl⟩ := h
  have hm := hms _ hc.1
  constructor
  · exact access_mono hm hc.2.1 (by omega) hc.2.2 (by omega)
  · exact access_mono hm (by have := hc.2.1; omega) (by omega) (by have := hc.2.2; omega)
      (by omega)

theorem covers_is_entry [LinearOrder V] {ms : List (Matrix V)}
    (hms : ∀ m ∈ ms, Sorted_matrix m) {c : Matrix_cell V} (hc : Cell_of ms c) {d : Int} {u : V}
    (h : Covers c d u) : Is_entry ms u := by
  obtain ⟨i, j, hi0, hi, hj0, hj, rfl⟩ := h
  obtain ⟨x₀, y₀, h1, h2, h3, h4, h5⟩ := access_is_entry (hms _ hc.1)
    (x := c.x + i) (y := c.y + j) (by have := hc.2.1; omega) (by have := hc.2.2; omega)
  exact ⟨c.base_matrix, hc.1, x₀, y₀, h1, h2, h3, h4, h5⟩

theorem mem_divide_cells {cells : List (Matrix_cell V)} {d : Int} {c' : Matrix_cell V} :
    c' ∈ divide_cells cells d ↔ c' ∈ cells ∨ ∃ c ∈ cells,
      c' = { base_matrix := c.base_matrix, x := c.x, y := c.y + d } ∨
      c' = { base_matrix := c.base_matrix, x := c.x + d, y := c.y } ∨
      c' = { base_matrix := c.base_matrix, x := c.x + d, y := c.y + d } := by
  simp [divide_cells, List.mem_flatMap]

theorem length_divide_cells (cells : List (Matrix_cell V)) (d : Int) :
    (divide_cells cells d).length = 4 * cells.length := by
  have h : ∀ l : List (Matrix_cell V), (l.flatMap (fun j =>
      [({ base_matrix := j.base_matrix, x := j.x, y := j.y + d } : Matrix_cell V),
       { base_matrix := j.base_matrix, x := j.x + d, y := j.y },
       { base_matrix := j.base_matrix, x := j.x + d, y := j.y + d }])).length = 3 * l.length := by
    intro l
    induction l with
    | nil => rfl
    | cons a l ih =>
      rw [List.flatMap_cons, List.length_append, ih]
      simp only [List.length_cons, List.length_nil]
      omega
  unfold divide_cells
  rw [List.length_append, h, List.length_reverse]
  omega

/-- Dividing the cells keeps the invariant of the loop, for the halved dimension. -/
theorem active_divide [LinearOrder V] {ms : List (Matrix V)} {t : Sorted_matrix_search_traits V}
    {cells : List (Matrix_cell V)} {d : Int} (hd : 0 < d) (h : Active ms t cells (2 * d)) :
    Active ms t (divide_cells cells d) d where
  cell_of := by
    intro c' hc'
    rcases mem_divide_cells.1 hc' with h1 | ⟨c, hc, rfl | rfl | rfl⟩
    · exact h.cell_of c' h1
    · have := h.cell_of c hc
      exact ⟨this.1, this.2.1, by have := this.2.2; show 0 ≤ c.y + d; omega⟩
    · have := h.cell_of c hc
      exact ⟨this.1, by have := this.2.1; show 0 ≤ c.x + d; omega, this.2.2⟩
    · have := h.cell_of c hc
      exact ⟨this.1, by have := this.2.1; show 0 ≤ c.x + d; omega,
        by have := this.2.2; show 0 ≤ c.y + d; omega⟩
  below := by
    intro w hw hf
    obtain ⟨c, hc, u, ⟨i, j, hi0, hi, hj0, hj, hu⟩, hfu, hle⟩ := h.below w hw hf
    by_cases ci : i < d
    · by_cases cj : j < d
      · exact ⟨c, mem_divide_cells.2 (Or.inl hc), u, ⟨i, j, hi0, ci, hj0, cj, hu⟩, hfu, hle⟩
      · refine ⟨{ base_matrix := c.base_matrix, x := c.x, y := c.y + d },
          mem_divide_cells.2 (Or.inr ⟨c, hc, Or.inl rfl⟩), u,
          ⟨i, j - d, hi0, ci, by omega, by omega, ?_⟩, hfu, hle⟩
        rw [← hu]
        show Padded_matrix.access c.base_matrix (c.x + i) (c.y + d + (j - d)) = _
        congr 1
        ring
    · by_cases cj : j < d
      · refine ⟨{ base_matrix := c.base_matrix, x := c.x + d, y := c.y },
          mem_divide_cells.2 (Or.inr ⟨c, hc, Or.inr (Or.inl rfl)⟩), u,
          ⟨i - d, j, by omega, by omega, hj0, cj, ?_⟩, hfu, hle⟩
        rw [← hu]
        show Padded_matrix.access c.base_matrix (c.x + d + (i - d)) (c.y + j) = _
        congr 1
        ring
      · refine ⟨{ base_matrix := c.base_matrix, x := c.x + d, y := c.y + d },
          mem_divide_cells.2 (Or.inr ⟨c, hc, Or.inr (Or.inr rfl)⟩), u,
          ⟨i - d, j - d, by omega, by omega, by omega, by omega, ?_⟩, hfu, hle⟩
        rw [← hu]
        show Padded_matrix.access c.base_matrix (c.x + d + (i - d)) (c.y + d + (j - d)) = _
        congr 1 <;> ring

/-! ## The list operations -/

/-- The call `iter_swap(begin() + i, begin())` puts the cell of position `i`
first and permutes the vector. -/
theorem iter_swap_begin_eq {C : Type} {l : List C} {i : Nat} (h : i < l.length) :
    ∃ rest, iter_swap_begin l i = l.get ⟨i, h⟩ :: rest ∧ (l.get ⟨i, h⟩ :: rest).Perm l := by
  cases l with
  | nil => exact absurd h (Nat.not_lt_zero _)
  | cons a l =>
    cases i with
    | zero =>
      refine ⟨l, ?_, List.Perm.refl _⟩
      simp [iter_swap_begin]
    | succ k =>
      have hk : k < l.length := by simpa using h
      refine ⟨l.set k a, ?_, ?_⟩
      · simp [iter_swap_begin, List.getElem?_eq_getElem hk]
      · show (l.get ⟨k, hk⟩ :: l.set k a).Perm (a :: l)
        have e1 : l.set k a = l.take k ++ a :: l.drop (k + 1) := by
          rw [List.set_eq_take_append_cons_drop, if_pos hk]
        have e2 : l = l.take k ++ l.get ⟨k, hk⟩ :: l.drop (k + 1) := by
          conv_lhs => rw [← List.take_append_drop k l]
          rw [List.drop_eq_getElem_cons hk]
          rfl
        rw [e1]
        conv_rhs => rw [e2]
        have p1 : (l.get ⟨k, hk⟩ :: (l.take k ++ a :: l.drop (k + 1))).Perm
            (l.get ⟨k, hk⟩ :: a :: (l.take k ++ l.drop (k + 1))) :=
          List.Perm.cons _ List.perm_middle
        have p2 : (a :: (l.take k ++ l.get ⟨k, hk⟩ :: l.drop (k + 1))).Perm
            (a :: l.get ⟨k, hk⟩ :: (l.take k ++ l.drop (k + 1))) :=
          List.Perm.cons _ List.perm_middle
        exact p1.trans ((List.Perm.swap _ _ _).trans p2.symm)

theorem length_remove_if_after_first {C : Type} (c : C) (rest : List C) (pred : C → Bool) :
    (remove_if_after_first (c :: rest) pred).length = 1 + rest.countP (fun x => !pred x) := by
  simp [remove_if_after_first, List.countP_eq_length_filter, Nat.add_comm]

theorem mem_remove_if_after_first {C : Type} {c : C} {rest : List C} {pred : C → Bool} {x : C} :
    x ∈ remove_if_after_first (c :: rest) pred ↔ x = c ∨ (x ∈ rest ∧ pred x = false) := by
  simp [remove_if_after_first, List.mem_filter]

/-- At least `n + 1` elements satisfy a predicate that holds at the positions `0, ..., n`. -/
theorem countP_of_prefix {C : Type} (p : C → Bool) :
    ∀ (l : List C) (n : Nat), n < l.length →
      (∀ i a, i ≤ n → l.get? i = some a → p a = true) → n + 1 ≤ l.countP p := by
  intro l
  induction l with
  | nil => intro n hn _; exact absurd hn (Nat.not_lt_zero _)
  | cons a l ih =>
    intro n hn h
    have ha : p a = true := h 0 a (Nat.zero_le _) rfl
    rw [List.countP_cons_of_pos _ _ ha]
    cases n with
    | zero => omega
    | succ k =>
      have := ih k (by simpa using hn) (fun i b hi hb => h (i + 1) b (by omega) hb)
      omega

/-- At least `length - n` elements satisfy a predicate that holds from position `n` on. -/
theorem countP_of_suffix {C : Type} (p : C → Bool) :
    ∀ (l : List C) (n : Nat),
      (∀ j b, n ≤ j → l.get? j = some b → p b = true) → l.length - n ≤ l.countP p := by
  intro l
  induction l with
  | nil => intro n _; simp
  | cons a l ih =>
    intro n h
    cases n with
    | zero =>
      have ha : p a = true := h 0 a (Nat.zero_le _) rfl
      have := ih 0 (fun j b _ hb => h (j + 1) b (Nat.zero_le _) hb)
      rw [List.countP_cons_of_pos _ _ ha]
      simp only [List.length_cons]
      omega
    | succ k =>
      have := ih k (fun j b hj hb => h (j + 1) b (by omega) hb)
      have hle : l.countP p ≤ (a :: l).countP p := by
        rw [List.countP_cons]
        omega
      simp only [List.length_cons]
      omega

/-- Two predicates that exclude each other. -/
theorem countP_disjoint {C : Type} (p q : C → Bool) (l : List C)
    (h : ∀ a ∈ l, p a = true → q a = true → False) : l.countP p + l.countP q ≤ l.length := by
  induction l with
  | nil => simp
  | cons a l ih =>
    have ih' := ih (fun b hb => h b (List.mem_cons_of_mem _ hb))
    have ha := h a (List.mem_cons_self _ _)
    rw [List.countP_cons, List.countP_cons, List.length_cons]
    cases hp : p a <;> cases hq : q a <;> simp_all <;> omega

/-- Three predicates that exclude each other. -/
theorem countP_disjoint_three {C : Type} (p q r : C → Bool) (l : List C)
    (hpq : ∀ a ∈ l, p a = true → q a = true → False)
    (hpr : ∀ a ∈ l, p a = true → r a = true → False)
    (hqr : ∀ a ∈ l, q a = true → r a = true → False) :
    l.countP p + l.countP q + l.countP r ≤ l.length := by
  induction l with
  | nil => simp
  | cons a l ih =>
    have ih' := ih (fun b hb => hpq b (List.mem_cons_of_mem _ hb))
      (fun b hb => hpr b (List.mem_cons_of_mem _ hb))
      (fun b hb => hqr b (List.mem_cons_of_mem _ hb))
    have h1 := hpq a (List.mem_cons_self _ _)
    have h2 := hpr a (List.mem_cons_self _ _)
    have h3 := hqr a (List.mem_cons_self _ _)
    rw [List.countP_cons, List.countP_cons, List.countP_cons, List.length_cons]
    cases hp : p a <;> cases hq : q a <;> cases hr : r a <;> simp_all <;> omega

theorem countP_mono {C : Type} (p q : C → Bool) (l : List C)
    (h : ∀ a ∈ l, p a = true → q a = true) : l.countP p ≤ l.countP q :=
  List.countP_mono_left h

/-! ## Removing cells -/

/-- Keeping the first cell and removing others keeps the invariant of the loop,
when the first cell contains a feasible value `M` and the removed cells
contain no feasible value below `M`. -/
theorem active_remove_if_after_first [LinearOrder V] {ms : List (Matrix V)}
    {t : Sorted_matrix_search_traits V} {cells rest : List (Matrix_cell V)} {d : Int}
    {c₀ : Matrix_cell V} {M : V} {pred : Matrix_cell V → Bool} (h : Active ms t cells d)
    (hperm : (c₀ :: rest).Perm cells) (hM : Covers c₀ d M) (hfM : t.is_feasible M = true)
    (hpred : ∀ c ∈ rest, pred c = true → ∀ u, Covers c d u → t.is_feasible u = true → M ≤ u) :
    Active ms t (remove_if_after_first (c₀ :: rest) pred) d where
  cell_of := by
    intro c hc
    rcases mem_remove_if_after_first.1 hc with rfl | ⟨hc, -⟩
    · exact h.cell_of _ (hperm.subset (List.mem_cons_self _ _))
    · exact h.cell_of _ (hperm.subset (List.mem_cons_of_mem _ hc))
  below := by
    intro w hw hf
    obtain ⟨c, hc, u, hu, hfu, hle⟩ := h.below w hw hf
    rcases List.mem_cons.1 (hperm.symm.subset hc) with rfl | hcr
    · exact ⟨c, mem_remove_if_after_first.2 (Or.inl rfl), u, hu, hfu, hle⟩
    · cases hp : pred c with
      | false => exact ⟨c, mem_remove_if_after_first.2 (Or.inr ⟨hcr, hp⟩), u, hu, hfu, hle⟩
      | true =>
        exact ⟨c₀, mem_remove_if_after_first.2 (Or.inl rfl), M, hM, hfM,
          le_trans (hpred c hcr hp u hu hfu) hle⟩

/-- Removing cells that contain no feasible value keeps the invariant of the loop. -/
theorem active_remove_if [LinearOrder V] {ms : List (Matrix V)}
    {t : Sorted_matrix_search_traits V} {cells cells₂ : List (Matrix_cell V)} {d : Int}
    {pred : Matrix_cell V → Bool} (h : Active ms t cells d) (hperm : cells₂.Perm cells)
    (hpred : ∀ c ∈ cells₂, pred c = true → ∀ u, Covers c d u → t.is_feasible u = true → False) :
    Active ms t (remove_if cells₂ pred) d where
  cell_of := by
    intro c hc
    exact h.cell_of _ (hperm.subset (List.mem_filter.1 hc).1)
  below := by
    intro w hw hf
    obtain ⟨c, hc, u, hu, hfu, hle⟩ := h.below w hw hf
    have hc₂ := hperm.symm.subset hc
    cases hp : pred c with
    | false =>
      exact ⟨c, List.mem_filter.2 ⟨hc₂, by simp [hp]⟩, u, hu, hfu, hle⟩
    | true => exact absurd (hpred c hc₂ hp u hu hfu) id

/-- The comparison of the cells by their minima, and the one by their maxima,
are strict weak orderings. -/
theorem strict_weak_ordering_key [LinearOrder V] {C : Type}
    {t : Sorted_matrix_search_traits V} (ht : Monotone_traits t) (key : C → V) :
    Strict_weak_ordering (fun a b : C => t.compare_strictly (key a) (key b)) := by
  have hk : ∀ a b : C, equivalent (fun a b : C => t.compare_strictly (key a) (key b)) a b = true
      ↔ key a = key b := by
    intro a b
    simp only [equivalent, ht.strictly, Bool.and_eq_true, Bool.not_eq_true',
      decide_eq_false_iff_not, not_lt]
    constructor
    · rintro ⟨h1, h2⟩; exact le_antisymm h2 h1
    · intro h; rw [h]; exact ⟨le_refl _, le_refl _⟩
  refine ⟨?_, ?_, ?_⟩
  · intro a
    simp [ht.strictly]
  · intro a b c
    simp only [ht.strictly, decide_eq_true_eq]
    exact lt_trans
  · intro a b c hab hbc
    rw [hk] at hab hbc ⊢
    exact hab.trans hbc

/-- The ranks after `nth_element`: the cell `c₀` at position `n` has at least
`n + 1` cells that are not greater and at least `length - n` cells that are
not smaller. -/
theorem nth_element_rank [LinearOrder V] {C : Type}
    {nth_element : (C → C → Bool) → Nat → List C → List C} (hnth : Nth_element nth_element)
    {t : Sorted_matrix_search_traits V} (ht : Monotone_traits t) (key : C → V) (n : Nat)
    (l : List C) {c₀ : C}
    (hc : (nth_element (fun a b => t.compare_strictly (key a) (key b)) n l).get? n = some c₀) :
    n + 1 ≤ l.countP (fun c => decide (key c ≤ key c₀)) ∧
      l.length - n ≤ l.countP (fun c => decide (key c₀ ≤ key c)) := by
  have hp := hnth.perm (fun a b => t.compare_strictly (key a) (key b)) n l
  have ho := hnth.ordered _ (strict_weak_ordering_key ht key) n l
  have hlen : n < (nth_element (fun a b => t.compare_strictly (key a) (key b)) n l).length := by
    rcases Nat.lt_or_ge n
      (nth_element (fun a b => t.compare_strictly (key a) (key b)) n l).length with h | h
    · exact h
    · rw [List.get?_eq_none.2 h] at hc
      cases hc
  constructor
  · rw [← hp.countP_eq]
    apply countP_of_prefix _ _ _ hlen
    intro i a hi ha
    have := ho i n a c₀ hi (le_refl _) ha hc
    simpa [ht.strictly] using this
  · rw [← hp.countP_eq, ← hp.length_eq]
    apply countP_of_suffix
    intro j b hj hb
    have := ho n j c₀ b (le_refl _) hj hc hb
    simpa [ht.strictly] using this

theorem length_iter_swap_begin {C : Type} (l : List C) (i : Nat) :
    (iter_swap_begin l i).length = l.length := by
  unfold iter_swap_begin
  split
  · simp
  · rfl

theorem length_remove_if_after_first_le {C : Type} (l : List C) (pred : C → Bool) :
    (remove_if_after_first l pred).length ≤ l.length := by
  cases l with
  | nil => simp [remove_if_after_first]
  | cons c rest =>
    simp only [remove_if_after_first, List.length_cons]
    exact Nat.succ_le_succ (List.length_filter_le _ _)

/-- No round of the loop adds a cell. -/
theorem length_remove_by_medians [LinearOrder V] (t : Sorted_matrix_search_traits V)
    (cells : List (Matrix_cell V)) (d : Int) (L U : V) (iL iU : Nat) :
    (remove_by_medians t cells d L U iL iU).length ≤ cells.length := by
  unfold remove_by_medians
  split_ifs
  · exact le_trans (length_remove_if_after_first_le _ _) (le_of_eq (length_iter_swap_begin _ _))
  · exact le_trans (length_remove_if_after_first_le _ _) (le_of_eq (length_iter_swap_begin _ _))
  · exact le_trans (length_remove_if_after_first_le _ _) (le_of_eq (length_iter_swap_begin _ _))
  · exact le_trans (length_remove_if_after_first_le _ _) (le_of_eq (length_iter_swap_begin _ _))
  · exact List.length_filter_le _ _

theorem iter_swap_begin_of_get? {C : Type} {l : List C} {i : Nat} {c : C}
    (h : l.get? i = some c) : ∃ rest, iter_swap_begin l i = c :: rest ∧ (c :: rest).Perm l := by
  obtain ⟨hi, rfl⟩ := List.get?_eq_some.1 h
  exact iter_swap_begin_eq hi

/-- The removal of cells keeps the invariant of the loop. -/
theorem remove_by_medians_active [LinearOrder V] {ms : List (Matrix V)}
    (hms : ∀ m ∈ ms, Sorted_matrix m) {t : Sorted_matrix_search_traits V}
    (ht : Monotone_traits t) {cells cells₂ : List (Matrix_cell V)} {d : Int} (hd : 0 < d)
    (h : Active ms t cells d) (hperm : cells₂.Perm cells) {iL iU : Nat}
    {cL cU : Matrix_cell V} (hcL : cells₂.get? iL = some cL) (hcU : cells₂.get? iU = some cU) :
    Active ms t (remove_by_medians t cells₂ d cL.min (cU.max d) iL iU) d := by
  have hcell : ∀ c ∈ cells₂, Cell_of ms c := fun c hc => h.cell_of c (hperm.subset hc)
  obtain ⟨restL, hsL, hpL⟩ := iter_swap_begin_of_get? hcL
  obtain ⟨restU, hsU, hpU⟩ := iter_swap_begin_of_get? hcU
  have hinL : ∀ c ∈ restL, Cell_of ms c :=
    fun c hc => hcell c (hpL.subset (List.mem_cons_of_mem _ hc))
  have hinU : ∀ c ∈ restU, Cell_of ms c :=
    fun c hc => hcell c (hpU.subset (List.mem_cons_of_mem _ hc))
  unfold remove_by_medians
  by_cases hfL : t.is_feasible cL.min = true
  · by_cases hfU : t.is_feasible (cU.max d) = true
    · rw [if_pos hfL, if_pos hfU]
      by_cases hlt : cL.min < cU.max d
      · simp only [hlt, if_true]
        rw [hsL]
        refine active_remove_if_after_first h (hpL.trans hperm) (covers_min cL hd) hfL ?_
        intro c hc hp u hu _
        rw [ht.non_strictly, decide_eq_true_eq] at hp
        exact le_trans hp (covers_bounds hms (hinL c hc) hu).1
      · simp only [hlt, if_false]
        rw [hsU]
        refine active_remove_if_after_first h (hpU.trans hperm) (covers_max cU hd) hfU ?_
        intro c hc hp u hu _
        rw [ht.non_strictly, decide_eq_true_eq] at hp
        exact le_trans hp (covers_bounds hms (hinU c hc) hu).1
    · rw [if_pos hfL, if_neg hfU, hsL]
      refine active_remove_if_after_first h (hpL.trans hperm) (covers_min cL hd) hfL ?_
      intro c hc hp u hu hfu
      rw [Bool.or_eq_true, ht.non_strictly, ht.non_strictly, decide_eq_true_eq,
        decide_eq_true_eq] at hp
      rcases hp with hp | hp
      · exact le_trans hp (covers_bounds hms (hinL c hc) hu).1
      · exact absurd (ht.monotone _ _ (le_trans (covers_bounds hms (hinL c hc) hu).2 hp) hfu) hfU
  · by_cases hfU : t.is_feasible (cU.max d) = true
    · rw [if_neg hfL, if_pos hfU, hsU]
      refine active_remove_if_after_first h (hpU.trans hperm) (covers_max cU hd) hfU ?_
      intro c hc hp u hu hfu
      rw [Bool.or_eq_true, ht.non_strictly, ht.non_strictly, decide_eq_true_eq,
        decide_eq_true_eq] at hp
      rcases hp with hp | hp
      · exact le_trans hp (covers_bounds hms (hinU c hc) hu).1
      · exact absurd (ht.monotone _ _ (le_trans (covers_bounds hms (hinU c hc) hu).2 hp) hfu) hfL
    · rw [if_neg hfL, if_neg hfU]
      refine active_remove_if h hperm ?_
      intro c hc hp u hu hfu
      rw [ht.non_strictly, decide_eq_true_eq] at hp
      have hmax := ht.monotone _ _ (le_trans (covers_bounds hms (hcell c hc) hu).2 hp) hfu
      rcases max_choice cL.min (cU.max d) with e | e
      · rw [e] at hmax; exact hfL hmax
      · rw [e] at hmax; exact hfU hmax

theorem length_remove_if_after_first_perm {C : Type} {c : C} {rest l : List C}
    (hperm : (c :: rest).Perm l) (pred : C → Bool) :
    (remove_if_after_first (c :: rest) pred).length ≤ 1 + l.countP (fun x => !pred x) := by
  rw [length_remove_if_after_first, ← hperm.countP_eq, List.countP_cons]
  omega

/-- With cells of dimension `1`, a round of the loop on two or more cells
removes at least one of them. -/
theorem remove_by_medians_fewer [LinearOrder V] {t : Sorted_matrix_search_traits V}
    (ht : Monotone_traits t) {cells cells₂ : List (Matrix_cell V)} (hperm : cells₂.Perm cells)
    {iL iU : Nat} {cL cU : Matrix_cell V} (hcL : cells₂.get? iL = some cL)
    (hcU : cells₂.get? iU = some cU) (hn : 2 ≤ cells.length)
    (r₁ : cells.length / 2 + 1 ≤ cells.countP (fun c => decide (c.min ≤ cL.min)))
    (r₂ : cells.length - cells.length / 2 ≤ cells.countP (fun c => decide (cL.min ≤ c.min)))
    (r₃ : (cells.length - 1) / 2 + 1 ≤ cells.countP (fun c => decide (c.min ≤ cU.min)))
    (r₄ : cells.length - (cells.length - 1) / 2
      ≤ cells.countP (fun c => decide (cU.min ≤ c.min))) :
    (remove_by_medians t cells₂ 1 cL.min (cU.max 1) iL iU).length < cells.length := by
  obtain ⟨restL, hsL, hpL⟩ := iter_swap_begin_of_get? hcL
  obtain ⟨restU, hsU, hpU⟩ := iter_swap_begin_of_get? hcU
  have dU : cells.countP (fun c => decide (c.min < cU.min))
      + cells.countP (fun c => decide (cU.min ≤ c.min)) ≤ cells.length :=
    countP_disjoint _ _ _ (by
      intro a _ h1 h2
      rw [decide_eq_true_eq] at h1 h2
      exact absurd h1 (not_lt.2 h2))
  have dL : cells.countP (fun c => decide (cL.min < c.min))
      + cells.countP (fun c => decide (c.min ≤ cL.min)) ≤ cells.length :=
    countP_disjoint _ _ _ (by
      intro a _ h1 h2
      rw [decide_eq_true_eq] at h1 h2
      exact absurd h1 (not_lt.2 h2))
  unfold remove_by_medians
  simp only [max_one, ht.non_strictly]
  by_cases hfL : t.is_feasible cL.min = true
  · by_cases hfU : t.is_feasible cU.min = true
    · rw [if_pos hfL, if_pos hfU]
      by_cases hlt : cL.min < cU.min
      · simp only [hlt, if_true]
        rw [hsL]
        have h1 := length_remove_if_after_first_perm (hpL.trans hperm)
          (fun c => decide (cL.min ≤ c.min))
        have h2 : cells.countP (fun x => !decide (cL.min ≤ x.min))
            ≤ cells.countP (fun c => decide (c.min < cU.min)) :=
          countP_mono _ _ _ (by
            intro a _ ha
            simp only [Bool.not_eq_true', decide_eq_false_iff_not, not_le] at ha
            exact decide_eq_true (lt_trans ha hlt))
        omega
      · simp only [hlt, if_false]
        rw [hsU]
        have h1 := length_remove_if_after_first_perm (hpU.trans hperm)
          (fun c => decide (cU.min ≤ c.min))
        have h2 : cells.countP (fun x => !decide (cU.min ≤ x.min))
            ≤ cells.countP (fun c => decide (c.min < cU.min)) :=
          countP_mono _ _ _ (by
            intro a _ ha
            simp only [Bool.not_eq_true', decide_eq_false_iff_not, not_le] at ha
            exact decide_eq_true ha)
        omega
    · rw [if_pos hfL, if_neg hfU, hsL]
      have h1 := length_remove_if_after_first_perm (hpL.trans hperm)
        (fun c => decide (cL.min ≤ c.min) || decide (c.min ≤ cU.min))
      by_cases hlt : cU.min < cL.min
      · have h3 := countP_disjoint_three (fun c : Matrix_cell V => decide (c.min ≤ cU.min))
          (fun x => !(decide (cL.min ≤ x.min) || decide (x.min ≤ cU.min)))
          (fun c => decide (cL.min ≤ c.min)) cells
          (by intro a _ h1 h2; simp_all)
          (by
            intro a _ h1 h2
            rw [decide_eq_true_eq] at h1 h2
            exact absurd (lt_of_lt_of_le hlt (le_trans h2 h1)) (lt_irrefl _))
          (by intro a _ h1 h2; simp_all)
        omega
      · have h3 : cells.countP (fun x => !(decide (cL.min ≤ x.min) || decide (x.min ≤ cU.min)))
            = 0 := by
          rw [List.countP_eq_zero]
          intro a _ ha
          simp only [Bool.not_eq_true', Bool.or_eq_false_iff, decide_eq_false_iff_not, not_le]
            at ha
          exact hlt (lt_trans ha.2 ha.1)
        omega
  · by_cases hfU : t.is_feasible cU.min = true
    · rw [if_neg hfL, if_pos hfU, hsU]
      have h1 := length_remove_if_after_first_perm (hpU.trans hperm)
        (fun c => decide (cU.min ≤ c.min) || decide (c.min ≤ cL.min))
      by_cases hlt : cL.min < cU.min
      · have h3 := countP_disjoint_three (fun c : Matrix_cell V => decide (c.min ≤ cL.min))
          (fun x => !(decide (cU.min ≤ x.min) || decide (x.min ≤ cL.min)))
          (fun c => decide (cU.min ≤ c.min)) cells
          (by intro a _ h1 h2; simp_all)
          (by
            intro a _ h1 h2
            rw [decide_eq_true_eq] at h1 h2
            exact absurd (lt_of_lt_of_le hlt (le_trans h2 h1)) (lt_irrefl _))
          (by intro a _ h1 h2; simp_all)
        omega
      · have h3 : cells.countP (fun x => !(decide (cU.min ≤ x.min) || decide (x.min ≤ cL.min)))
            = 0 := by
          rw [List.countP_eq_zero]
          intro a _ ha
          simp only [Bool.not_eq_true', Bool.or_eq_false_iff, decide_eq_false_iff_not, not_le]
            at ha
          exact hlt (lt_trans ha.2 ha.1)
        omega
    · rw [if_neg hfL, if_neg hfU]
      have h1 : (remove_if cells₂ (fun c => decide (c.min ≤ max cL.min cU.min))).length
          = cells.countP (fun x => !decide (x.min ≤ max cL.min cU.min)) := by
        rw [remove_if, ← List.countP_eq_length_filter, hperm.countP_eq]
      have h2 : cells.countP (fun x => !decide (x.min ≤ max cL.min cU.min))
          ≤ cells.countP (fun c => decide (cL.min < c.min)) :=
        countP_mono _ _ _ (by
          intro a _ ha
          simp only [Bool.not_eq_true', decide_eq_false_iff_not, not_le] at ha
          exact decide_eq_true (lt_of_le_of_lt (le_max_left _ _) ha))
      omega

theorem cell_at_of_get? {C : Type} {l : List C} {i : Nat} {c : C} (h : l.get? i = some c) :
    cell_at l i = .ok c := by
  unfold cell_at
  rw [h]
  rfl

theorem get?_of_lt {C : Type} {l : List C} {i : Nat} (h : i < l.length) :
    ∃ c, l.get? i = some c ∧ c ∈ l :=
  ⟨l.get ⟨i, h⟩, List.get?_eq_get h, List.get_mem _ _ _⟩

/-- The cell that `find_if` finds. -/
theorem findIdx_get? {C : Type} (p : C → Bool) {l : List C} {c : C} (hc : c ∈ l)
    (hp : p c = true) : ∃ c', l.get? (l.findIdx p) = some c' ∧ p c' = true ∧
      l.findIdx p ≠ l.length := by
  have hlt : l.findIdx p < l.length := List.findIdx_lt_length_of_exists ⟨c, hc, hp⟩
  exact ⟨l.get ⟨l.findIdx p, hlt⟩, List.get?_eq_get hlt, List.findIdx_getElem,
    Nat.ne_of_lt hlt⟩

/-- A round of the loop, after the division of the cells: it returns, keeps
the invariant, adds no cell, and with cells of dimension `1` removes one. -/
theorem remove_cells_active [LinearOrder V] {ms : List (Matrix V)}
    (hms : ∀ m ∈ ms, Sorted_matrix m) {t : Sorted_matrix_search_traits V}
    (ht : Monotone_traits t) (NDEBUG : Bool)
    {nth_element : (Matrix_cell V → Matrix_cell V → Bool) → Nat → List (Matrix_cell V) →
      List (Matrix_cell V)} (hnth : Nth_element nth_element)
    {cells : List (Matrix_cell V)} {d : Int} (hd : 0 < d) (h : Active ms t cells d)
    (hne : cells ≠ []) :
    ∃ cells', remove_cells NDEBUG nth_element t cells d = .ok cells' ∧ Active ms t cells' d ∧
      cells'.length ≤ cells.length ∧
      (d = 1 → 2 ≤ cells.length → cells'.length < cells.length) := by
  have hn : 0 < cells.length := List.length_pos.2 hne
  have eu : cells.length >>> 1 = cells.length / 2 := by
    rw [Nat.shiftRight_eq_div_pow]
  have el : (cells.length - 1) >>> 1 = (cells.length - 1) / 2 := by
    rw [Nat.shiftRight_eq_div_pow]
  -- the first `nth_element`
  have hp₁ := hnth.perm (fun a b => t.compare_strictly a.min b.min) (cells.length >>> 1) cells
  have hrank₁ := fun (c₀ : Matrix_cell V)
      (hc : (nth_element (fun a b => t.compare_strictly a.min b.min)
        (cells.length >>> 1) cells).get? (cells.length >>> 1) = some c₀) =>
    nth_element_rank hnth ht (fun c : Matrix_cell V => c.min) (cells.length >>> 1) cells hc
  generalize hcells₁ : nth_element (fun a b => t.compare_strictly a.min b.min)
    (cells.length >>> 1) cells = cells₁ at hp₁ hrank₁
  obtain ⟨c₁, hc₁, hm₁⟩ := get?_of_lt (l := cells₁) (i := cells.length >>> 1)
    (by rw [hp₁.length_eq, eu]; omega)
  -- the second `nth_element`
  have hp₂ := hnth.perm (fun a b => t.compare_strictly (a.max d) (b.max d))
    ((cells.length - 1) >>> 1) cells₁
  have hrank₂ := fun (c₀ : Matrix_cell V)
      (hc : (nth_element (fun a b => t.compare_strictly (a.max d) (b.max d))
        ((cells.length - 1) >>> 1) cells₁).get? ((cells.length - 1) >>> 1) = some c₀) =>
    nth_element_rank hnth ht (fun c : Matrix_cell V => c.max d) ((cells.length - 1) >>> 1)
      cells₁ hc
  generalize hcells₂ : nth_element (fun a b => t.compare_strictly (a.max d) (b.max d))
    ((cells.length - 1) >>> 1) cells₁ = cells₂ at hp₂ hrank₂
  obtain ⟨cU, hcU, -⟩ := get?_of_lt (l := cells₂) (i := (cells.length - 1) >>> 1)
    (by rw [hp₂.length_eq, hp₁.length_eq, el]; omega)
  obtain ⟨c₃, hc₃, -⟩ := get?_of_lt (l := cells₂) (i := cells.length >>> 1)
    (by rw [hp₂.length_eq, hp₁.length_eq, eu]; omega)
  -- the position of the lower median cell
  have hidx : ∃ (iL : Nat) (cL : Matrix_cell V),
      (if c₃.min ≠ c₁.min then cells₂.findIdx (fun c => decide (c₁.min = c.min))
        else cells.length >>> 1) = iL ∧
      cells₂.get? iL = some cL ∧ cL.min = c₁.min ∧ iL ≠ cells₂.length := by
    by_cases hne₃ : c₃.min ≠ c₁.min
    · obtain ⟨c', h1, h2, h3⟩ := findIdx_get? (fun c : Matrix_cell V => decide (c₁.min = c.min))
        (hp₂.symm.subset hm₁) (by simp)
      exact ⟨_, c', if_pos hne₃, h1, (of_decide_eq_true h2).symm, h3⟩
    · refine ⟨_, c₃, if_neg hne₃, hc₃, not_not.1 hne₃, ?_⟩
      have := (List.get?_eq_some.1 hc₃).1
      omega
  obtain ⟨iL, cL, hiL, hcL, hmL, hiLne⟩ := hidx
  have hres : remove_cells NDEBUG nth_element t cells d
      = .ok (remove_by_medians t cells₂ d cL.min (cU.max d) iL ((cells.length - 1) >>> 1)) := by
    simp only [remove_cells, CGAL_optimisation_assertion, KDS.check, hn, decide_True,
      Bool.or_true, if_true, List.isEmpty_iff, hne, if_false, hcells₁, hcells₂,
      cell_at_of_get? hc₁, cell_at_of_get? hcU, cell_at_of_get? hc₃, bind, Except.bind, hiL,
      hiLne, ne_eq, not_false_eq_true, hmL, pure, Except.pure]
  refine ⟨_, hres, remove_by_medians_active hms ht hd h (hp₂.trans hp₁) hcL hcU,
    le_trans (length_remove_by_medians _ _ _ _ _ _ _) (le_of_eq (hp₂.trans hp₁).length_eq), ?_⟩
  intro hd1 hn2
  subst hd1
  have hr₁ := hrank₁ c₁ hc₁
  have hr₂ := hrank₂ cU hcU
  simp only [max_one] at hr₂
  rw [hp₁.countP_eq, hp₁.countP_eq, hp₁.length_eq] at hr₂
  rw [← hmL] at hr₁
  rw [eu] at hr₁
  rw [el] at hr₂
  exact remove_by_medians_fewer ht (hp₂.trans hp₁) hcL hcU hn2 hr₁.1 hr₁.2 hr₂.1 hr₂.2

/-! ## The main loop -/

theorem active_ne_nil [LinearOrder V] {ms : List (Matrix V)} {t : Sorted_matrix_search_traits V}
    {cells : List (Matrix_cell V)} {d : Int} (h : Active ms t cells d)
    (hfeas : ∃ w, Is_entry ms w ∧ t.is_feasible w = true) : cells ≠ [] := by
  obtain ⟨w, hw, hf⟩ := hfeas
  obtain ⟨c, hc, -⟩ := h.below w hw hf
  exact List.ne_nil_of_mem hc

/-- The loop ends with one cell of dimension `1`, within `k + n * 4 ^ k + 1`
rounds when it starts with `n` cells of dimension `2 ^ k`. -/
theorem search_loop_returns [LinearOrder V] {ms : List (Matrix V)}
    (hms : ∀ m ∈ ms, Sorted_matrix m) {t : Sorted_matrix_search_traits V}
    (ht : Monotone_traits t) (NDEBUG : Bool)
    {nth_element : (Matrix_cell V → Matrix_cell V → Bool) → Nat → List (Matrix_cell V) →
      List (Matrix_cell V)} (hnth : Nth_element nth_element)
    (hfeas : ∃ w, Is_entry ms w ∧ t.is_feasible w = true) :
    ∀ (rounds k : Nat) (cells : List (Matrix_cell V)), Active ms t cells (2 ^ k) →
      k + cells.length * 4 ^ k + 1 ≤ rounds →
      ∃ c, search_loop NDEBUG nth_element t rounds cells (2 ^ k) = .ok ([c], 1) ∧
        Active ms t [c] 1 := by
  intro rounds
  induction rounds with
  | zero => intro k cells _ hr; omega
  | succ rounds ih =>
    intro k cells h hr
    cases k with
    | zero =>
      have hne := active_ne_nil h hfeas
      simp only [pow_zero] at h hr ⊢
      by_cases hlen : cells.length ≤ 1
      · obtain ⟨c, rfl⟩ : ∃ c, cells = [c] := by
          cases cells with
          | nil => exact absurd rfl hne
          | cons c rest =>
            cases rest with
            | nil => exact ⟨c, rfl⟩
            | cons _ _ => simp at hlen
        refine ⟨c, ?_, h⟩
        simp [search_loop, pure, Except.pure]
      · obtain ⟨cells', hres, hact, -, hlt⟩ :=
          remove_cells_active hms ht NDEBUG hnth (by norm_num : (0 : Int) < 1) h hne
        have hlt' := hlt rfl (by omega)
        obtain ⟨c, hc, hc'⟩ := ih 0 cells' (by simpa using hact) (by simp only [pow_zero]; omega)
        refine ⟨c, ?_, hc'⟩
        simp only [pow_zero] at hc
        simp only [search_loop, gt_iff_lt, lt_self_iff_false, if_false, hlen, hres, bind,
          Except.bind, hc]
    | succ j =>
      have hpos : (0 : Int) < 2 ^ j := pow_pos (by norm_num) j
      have e2 : (2 : Int) ^ (j + 1) = 2 * 2 ^ j := by rw [pow_succ]; ring
      have hgt : (2 : Int) ^ (j + 1) > 1 := by omega
      have hdiv : (2 : Int) ^ (j + 1) / 2 = 2 ^ j := by omega
      have hact₀ : Active ms t (divide_cells cells (2 ^ j)) (2 ^ j) :=
        active_divide hpos (e2 ▸ h)
      obtain ⟨cells', hres, hact, hle, -⟩ :=
        remove_cells_active hms ht NDEBUG hnth hpos hact₀ (active_ne_nil hact₀ hfeas)
      rw [length_divide_cells] at hle
      have h4 : 4 ^ (j + 1) = 4 * 4 ^ j := by rw [pow_succ]; ring
      have hm : cells'.length * 4 ^ j ≤ cells.length * 4 ^ (j + 1) := by
        rw [h4]
        calc cells'.length * 4 ^ j ≤ (4 * cells.length) * 4 ^ j := Nat.mul_le_mul_right _ hle
          _ = cells.length * (4 * 4 ^ j) := by ring
      obtain ⟨c, hc, hc'⟩ := ih j cells' hact (by omega)
      refine ⟨c, ?_, hc'⟩
      simp only [search_loop, hgt, if_true, hdiv, hres, bind, Except.bind, hc]

/-! ## The first cell dimension -/

theorem maxdim_foldl_le (ms : List (Matrix V)) (acc B : Int) (hacc : acc ≤ B)
    (h : ∀ m ∈ ms, m.number_of_columns ≤ B ∧ m.number_of_rows ≤ B) :
    ms.foldl (fun maxdim m => max (max m.number_of_columns m.number_of_rows) maxdim) acc ≤ B := by
  induction ms generalizing acc with
  | nil => exact hacc
  | cons m ms ih =>
    rw [List.foldl_cons]
    have hm := h m (List.mem_cons_self _ _)
    exact ih _ (max_le (max_le hm.1 hm.2) hacc) (fun m' hm' => h m' (List.mem_cons_of_mem _ hm'))

theorem le_maxdim_foldl (ms : List (Matrix V)) (acc : Int) :
    acc ≤ ms.foldl (fun maxdim m => max (max m.number_of_columns m.number_of_rows) maxdim) acc ∧
    ∀ m ∈ ms, m.number_of_columns
        ≤ ms.foldl (fun maxdim m => max (max m.number_of_columns m.number_of_rows) maxdim) acc ∧
      m.number_of_rows
        ≤ ms.foldl (fun maxdim m => max (max m.number_of_columns m.number_of_rows) maxdim) acc := by
  induction ms generalizing acc with
  | nil => exact ⟨le_refl _, fun m hm => by cases hm⟩
  | cons m ms ih =>
    rw [List.foldl_cons]
    obtain ⟨h1, h2⟩ := ih (max (max m.number_of_columns m.number_of_rows) acc)
    refine ⟨le_trans (le_max_right _ _) h1, ?_⟩
    intro m' hm'
    rcases List.mem_cons.1 hm' with rfl | hm'
    · exact ⟨le_trans (le_trans (le_max_left _ _) (le_max_left _ _)) h1,
        le_trans (le_trans (le_max_right _ _) (le_max_left _ _)) h1⟩
    · exact h2 m' hm'

/-- The loop `while (ccd < maxdim) ccd <<= 1` ends at a power of two that is at
least `maxdim`, when `maxdim` is at most `2 ^ 30`. -/
theorem initial_ccd_ok (maxdim : Int) (hmax : maxdim ≤ 2 ^ 30) :
    ∀ (fuel j : Nat), j ≤ 30 → 31 - j ≤ fuel →
      ∃ k, initial_ccd fuel (2 ^ j) maxdim = .ok (2 ^ k) ∧ maxdim ≤ 2 ^ k := by
  intro fuel
  induction fuel with
  | zero => intro j hj hf; omega
  | succ fuel ih =>
    intro j hj hf
    by_cases hlt : (2 : Int) ^ j < maxdim
    · have hj' : j < 30 := by
        rcases Nat.lt_or_ge j 30 with h | h
        · exact h
        · have : j = 30 := by omega
          subst this
          omega
      have hp : (2 : Int) ^ (j + 1) ≤ 2 ^ 30 :=
        pow_le_pow_right₀ (by norm_num) (by omega)
      have e2 : (2 : Int) ^ j * 2 = 2 ^ (j + 1) := by rw [pow_succ]
      have hno : ¬ (2 : Int) ^ j * 2 > (INT_MAX : Int) := by
        rw [e2]
        have : ((2 : Int) ^ 30) ≤ (INT_MAX : Int) := by
          unfold INT_MAX
          norm_num
        omega
      obtain ⟨k, hk, hk'⟩ := ih (j + 1) (by omega) (by omega)
      refine ⟨k, ?_, hk'⟩
      rw [e2] at hno
      simp only [initial_ccd, hlt, if_true, e2, hno, if_false, hk]
    · refine ⟨j, ?_, not_lt.1 hlt⟩
      simp only [initial_ccd, hlt, if_false]
      rfl

/-! ## Sorting is an `nth_element` -/

theorem strict_weak_ordering_asymm {C : Type} {comp : C → C → Bool}
    (h : Strict_weak_ordering comp) (a b : C) : comp b a = false ∨ comp a b = false := by
  cases hba : comp b a with
  | false => exact Or.inl rfl
  | true =>
    cases hab : comp a b with
    | false => exact Or.inr rfl
    | true =>
      have := h.trans a b a hab hba
      rw [h.irrefl] at this
      cases this

theorem strict_weak_ordering_not_lt_trans {C : Type} {comp : C → C → Bool}
    (h : Strict_weak_ordering comp) {a b c : C} (hba : comp b a = false)
    (hcb : comp c b = false) : comp c a = false := by
  cases hca : comp c a with
  | false => rfl
  | true =>
    cases hbc : comp b c with
    | true =>
      have := h.trans b c a hbc hca
      rw [hba] at this
      cases this
    | false =>
      cases hab : comp a b with
      | true =>
        have := h.trans c a b hca hab
        rw [hcb] at this
        cases this
      | false =>
        have e1 : equivalent comp a b = true := by simp [equivalent, hab, hba]
        have e2 : equivalent comp b c = true := by simp [equivalent, hbc, hcb]
        have e3 := h.equivalent_trans a b c e1 e2
        simp [equivalent, hca] at e3

theorem nth_element_sorting {C : Type} :
    Nth_element (sorting_nth_element : (C → C → Bool) → Nat → List C → List C) where
  perm := fun comp _ l => List.perm_insertionSort _ l
  ordered := by
    intro comp hc nth l i j a b hi hj ha hb
    haveI : IsTotal C (fun a b => comp b a = false) := ⟨strict_weak_ordering_asymm hc⟩
    haveI : IsTrans C (fun a b => comp b a = false) :=
      ⟨fun _ _ _ h1 h2 => strict_weak_ordering_not_lt_trans hc h1 h2⟩
    have hs : (l.insertionSort (fun a b => comp b a = false)).Sorted
        (fun a b => comp b a = false) := List.sorted_insertionSort _ l
    obtain ⟨hi', rfl⟩ := List.get?_eq_some.1 ha
    obtain ⟨hj', rfl⟩ := List.get?_eq_some.1 hb
    rcases Nat.lt_or_ge i j with hlt | hge
    · exact List.pairwise_iff_get.1 hs ⟨i, hi'⟩ ⟨j, hj'⟩ hlt
    · have e : i = j := by omega
      subst e
      exact hc.irrefl _

/-! ## Claim C39 -/

/-- C39: for every non-empty range `ms` of matrices with positive dimensions
(at most `2 ^ 30`), each sorted along its rows and columns, every traits
object whose comparisons are those of the order and whose feasibility test is
monotone and accepts an entry of the matrices, and every `nth_element` that
meets its contract: there are a number of rounds and a value `v`, the smallest
feasible entry of the matrices, such that with at least that many rounds
allowed the main loop ends with one active cell and `ccd = 1`, and
`sorted_matrix_search` returns `v`. -/
theorem sorted_matrix_search_finds_least_feasible [LinearOrder V] (NDEBUG : Bool)
    (nth_element : (Matrix_cell V → Matrix_cell V → Bool) → Nat → List (Matrix_cell V) →
      List (Matrix_cell V))
    (ms : List (Matrix V)) (t : Sorted_matrix_search_traits V)
    (hnth : Nth_element nth_element) (hne : ms ≠ []) (hms : ∀ m ∈ ms, Sorted_matrix m)
    (ht : Monotone_traits t) (hfeas : ∃ w, Is_entry ms w ∧ t.is_feasible w = true) :
    ∃ (rounds₀ : Nat) (ccd : Int) (v : V),
      t.is_feasible v = true ∧ Is_entry ms v ∧
      (∀ w, Is_entry ms w → t.is_feasible w = true → v ≤ w) ∧
      initial_ccd 32 1 (maxdim ms) = .ok ccd ∧
      ∀ rounds, rounds₀ ≤ rounds →
        (∃ c, search_loop NDEBUG nth_element t rounds
            (ms.map (fun m => ({ base_matrix := m, x := 0, y := 0 } : Matrix_cell V))) ccd
          = .ok ([c], 1)) ∧
        sorted_matrix_search NDEBUG nth_element rounds ms t = .ok v := by
  -- the first cell dimension
  have hmax_le : maxdim ms ≤ 2 ^ 30 :=
    maxdim_foldl_le ms (-1) (2 ^ 30) (by norm_num)
      (fun m hm => ⟨(hms m hm).columns_le, (hms m hm).rows_le⟩)
  have hge := (le_maxdim_foldl ms (-1)).2
  have hmax_pos : 0 < maxdim ms := by
    obtain ⟨m, hm⟩ := List.exists_mem_of_ne_nil ms hne
    exact lt_of_lt_of_le (hms m hm).columns_pos (hge m hm).1
  obtain ⟨k, hk, hk'⟩ := initial_ccd_ok (maxdim ms) hmax_le 32 0 (by omega) (by omega)
  rw [pow_zero] at hk
  -- the invariant at the start
  have hact : Active ms t
      (ms.map (fun m => ({ base_matrix := m, x := 0, y := 0 } : Matrix_cell V))) (2 ^ k) :=
    { cell_of := by
        intro c hc
        obtain ⟨m, hm, rfl⟩ := List.mem_map.1 hc
        exact ⟨hm, le_refl _, le_refl _⟩
      below := by
        intro w hw hf
        obtain ⟨m, hm, x, y, hx0, hx, hy0, hy, rfl⟩ := hw
        have h1 := (hge m hm).1
        have h2 := (hge m hm).2
        have h3 : m.number_of_columns ≤ 2 ^ k := le_trans h1 hk'
        have h4 : m.number_of_rows ≤ 2 ^ k := le_trans h2 hk'
        refine ⟨_, List.mem_map.2 ⟨m, hm, rfl⟩, m.entry x y,
          ⟨x, y, hx0, by omega, hy0, by omega, ?_⟩, hf, le_refl _⟩
        show Padded_matrix.access m (0 + x) (0 + y) = _
        rw [zero_add, zero_add]
        exact access_eq_entry m hx hy }
  have hloop := search_loop_returns hms ht NDEBUG hnth hfeas
  -- the result of one run fixes the value
  have hprop : ∀ c : Matrix_cell V, Active ms t [c] 1 →
      t.is_feasible c.min = true ∧ Is_entry ms c.min ∧
      ∀ w, Is_entry ms w → t.is_feasible w = true → c.min ≤ w := by
    intro c hc
    have hleast : ∀ w, Is_entry ms w → t.is_feasible w = true →
        t.is_feasible c.min = true ∧ c.min ≤ w := by
      intro w hw hf
      obtain ⟨c', hc', u, hu, hfu, hle⟩ := hc.below w hw hf
      rw [List.mem_singleton.1 hc'] at hu
      rw [covers_one hu] at hfu hle
      exact ⟨hfu, hle⟩
    obtain ⟨w₀, hw₀, hf₀⟩ := hfeas
    exact ⟨(hleast w₀ hw₀ hf₀).1,
      covers_is_entry hms (hc.cell_of c (List.mem_singleton.2 rfl))
        (covers_min c (by norm_num : (0 : Int) < 1)),
      fun w hw hf => (hleast w hw hf).2⟩
  have hlen : (ms.map (fun m =>
      ({ base_matrix := m, x := 0, y := 0 } : Matrix_cell V))).length = ms.length :=
    List.length_map _ _
  obtain ⟨c₀, -, hc₀⟩ := hloop (k + ms.length * 4 ^ k + 1) k _ hact (by rw [hlen])
  obtain ⟨hf₀, he₀, hl₀⟩ := hprop c₀ hc₀
  refine ⟨k + ms.length * 4 ^ k + 1, 2 ^ k, c₀.min, hf₀, he₀, hl₀, hk, ?_⟩
  intro rounds hr
  obtain ⟨c, hc, hc'⟩ := hloop rounds k _ hact (by rw [hlen]; exact hr)
  obtain ⟨hf, he, hl⟩ := hprop c hc'
  have hv : c.min = c₀.min := le_antisymm (hl _ he₀ hf₀) (hl₀ _ he hf)
  refine ⟨⟨c, hc⟩, ?_⟩
  have hne' : ms.isEmpty = false := by
    cases ms with
    | nil => exact absurd rfl hne
    | cons _ _ => rfl
  simp only [sorted_matrix_search, CGAL_optimisation_precondition,
    CGAL_optimisation_assertion, KDS.check, hne', Bool.not_false, Bool.or_true, if_true,
    hmax_pos, decide_True, gt_iff_lt, hk, hc, bind, Except.bind, List.length_singleton,
    pure, Except.pure, hv]

theorem sorted_sample_matrices : ∀ m ∈ sample_matrices, Sorted_matrix m := by
  intro m hm
  simp only [sample_matrices, List.mem_cons, List.mem_singleton, List.not_mem_nil, or_false]
    at hm
  rcases hm with rfl | rfl
  · exact ⟨by decide, by decide, by decide, by decide, by decide!⟩
  · exact ⟨by decide, by decide, by decide, by decide, by decide!⟩

theorem monotone_sample_traits (bound : ℚ) : Monotone_traits (sample_traits bound) where
  strictly := fun _ _ => rfl
  non_strictly := fun _ _ => rfl
  monotone := by
    intro a b hab ha
    simp only [sample_traits, decide_eq_true_eq] at ha ⊢
    exact le_trans ha hab

/-- C39 on the two sample matrices with the values of at least `7` feasible:
the entries are 1, 3, 4, 5, 6, 8, 9, ..., and the search returns `8`. -/
theorem sorted_matrix_search_finds_least_feasible_witness :
    sorted_matrix_search false sorting_nth_element 40 sample_matrices (sample_traits 7)
      = .ok 8 ∧
    sample_matrices ≠ [] ∧
    ∃ (rounds₀ : Nat) (ccd : Int) (v : ℚ),
      (sample_traits 7).is_feasible v = true ∧ Is_entry sample_matrices v ∧
      (∀ w, Is_entry sample_matrices w → (sample_traits 7).is_feasible w = true → v ≤ w) ∧
      initial_ccd 32 1 (maxdim sample_matrices) = .ok ccd ∧
      ∀ rounds, rounds₀ ≤ rounds →
        (∃ c, search_loop false sorting_nth_element (sample_traits 7) rounds
            (sample_matrices.map
              (fun m => ({ base_matrix := m, x := 0, y := 0 } : Matrix_cell ℚ))) ccd
          = .ok ([c], 1)) ∧
        sorted_matrix_search false sorting_nth_element rounds sample_matrices (sample_traits 7)
          = .ok v :=
  ⟨by decide!, List.cons_ne_nil _ _,
    sorted_matrix_search_finds_least_feasible false sorting_nth_element sample_matrices
      (sample_traits 7) nth_element_sorting (List.cons_ne_nil _ _) sorted_sample_matrices
      (monotone_sample_traits 7)
      ⟨10, ⟨sum_matrix [0, 2, 5, 9, 10] [1, 3, 4], by simp [sample_matrices], 3, 0,
        by decide, by decide, by decide, by decide, by decide!⟩, by decide!⟩⟩

end CGAL
